import Mathlib

/-!
# J3D binary model importer (BMD / BDL): scene-graph interpreter and import pipeline

Shallow embedding of `LibCube/JSystem/J3D/IO/BMD.cpp`.

* C++ `std::vector` is a `List`; `push_back` appends at the end, `back` is the
  last element, `pop_back` drops the last element.
* Unsigned machine integers are `Nat`, signed ones are `Int`; conversions
  between them are explicit (`toU16`, `toIndex`).
* An out-of-bounds vector access, `back`/`pop_back` on an empty vector, or a
  read past the end of the instruction stream has no defined result in C++;
  the embedding returns `none` there.
-/

namespace libcube.jsystem

/-! ## Data model -/

/-- Modelled from the spec: `Model.hpp` is not among the sources. A display record
`{ materialId, shapePlaceholder }`; the code builds it with
`displays.emplace_back(material.id, "Shapes TODO")`. -/
structure Display where
  material : String
  shape : String
deriving DecidableEq, Repr

/-- Modelled from the spec: `Model.hpp` is not among the sources. The fields are those
the importer assigns (`BMD.cpp` lines 89-99 and 276-292); `parent` is the spec's
`optional JointId`, and ids are the strings taken from the name table
(`joint.id = nameTable[i]`). Floating-point fields hold the raw 32-bit pattern read
from the file; `rotate` holds the integer factor that the code multiplies by pi;
`mayaSSC` is the spec's boolean, so the value assigned to it is converted to `bool`. -/
structure Joint where
  id : String := ""
  flag : Nat := 0
  bbMtxType : Nat := 0
  mayaSSC : Bool := false
  scale : List Nat := []
  rotate : List Int := []
  translate : List Nat := []
  boundingSphereRadius : Nat := 0
  boundingBox : List Nat := []
  parent : Option String := none
  children : List String := []
  displays : List Display := []
deriving DecidableEq, Repr

/-- Modelled from the spec: `Model.hpp` is not among the sources. A material is the
placeholder `{ id : string }`. -/
structure Material where
  id : String := ""
deriving DecidableEq, Repr

/-- Modelled from the spec: `Model.hpp` is not among the sources. One
`(jointId, weight)` pair; `weight` is the raw 32-bit pattern of the `f32`. -/
structure MatrixWeight where
  boneId : Nat
  weight : Nat
deriving DecidableEq, Repr

/-- Modelled from the spec: `Model.hpp` is not among the sources. A draw matrix is an
ordered sequence of weights. -/
structure DrawMatrix where
  mWeights : List MatrixWeight := []
deriving DecidableEq, Repr

/-- Modelled from the spec: `Model.hpp` is not among the sources. The aggregate the
importer fills: `info.mScalingRule`, `mDrawMatrices`, `mJoints`, `mMaterials`. -/
structure J3DModel where
  mScalingRule : Nat := 0
  mDrawMatrices : List DrawMatrix := []
  mJoints : List Joint := []
  mMaterials : List Material := []
deriving DecidableEq, Repr

/-- The structure `BMDImporter::BMDOutputContext` (declared in `BMD.hpp`, which is not among the
sources): the model being written and the two remap tables that `readJoints`
and `readMaterials` fill. -/
structure BMDOutputContext where
  mdl : J3DModel := {}
  jointIdLut : List Nat := []
  materialIdLut : List Nat := []
deriving DecidableEq, Repr

/-! ## Scene-graph bytecode -/

/-- The type `enum class ByteCodeOp : u16`. An enum class with a fixed underlying type can
hold every value of that type, so an op is its `u16` code. -/
abbrev ByteCodeOp := Nat

namespace ByteCodeOp
abbrev Terminate : ByteCodeOp := 0
abbrev Open : ByteCodeOp := 1
abbrev Close : ByteCodeOp := 2
abbrev Joint : ByteCodeOp := 0x10
abbrev Material : ByteCodeOp := 0x11
abbrev Shape : ByteCodeOp := 0x12
abbrev Unitialized : ByteCodeOp := 0xFFFF
end ByteCodeOp

/-- The type `struct ByteCodeCmd { ByteCodeOp op; s16 idx; }`. -/
structure ByteCodeCmd where
  op : ByteCodeOp
  idx : Int
deriving DecidableEq, Repr

/-- Conversion of an `s16` to `u16` (`joint = newId`, `mat = cmd.idx`). -/
def toU16 (i : Int) : Nat := (i % 65536).toNat

/-- Conversion of an `s16` to a vector index (`jointIdLut[newId]`): a negative
value becomes an index beyond every vector. -/
def toIndex (i : Int) : Option Nat := if 0 ≤ i then some i.toNat else none

namespace SceneGraph

/-- The local variables of `SceneGraph::onRead` together with the context it
mutates. -/
structure State where
  mat : Nat
  joint : Nat
  lastType : ByteCodeOp
  hierarchy_stack : List ByteCodeOp
  joint_stack : List Nat
  ctx : BMDOutputContext
deriving DecidableEq, Repr

/-- The state on entry to the loop: `u16 mat, joint = 0;` leaves `mat`
uninitialised, so its starting value `mat0` is arbitrary. -/
def init (ctx : BMDOutputContext) (mat0 : Nat) : State :=
  { mat := mat0, joint := 0, lastType := ByteCodeOp.Unitialized,
    hierarchy_stack := [], joint_stack := [], ctx := ctx }

/-- The effect of `children.emplace_back(x)` on a joint. -/
def addChild (p : Joint) (x : String) : Joint := { p with children := p.children ++ [x] }

/-- The effect of `parent = x` on a joint. -/
def setParent (c : Joint) (x : String) : Joint := { c with parent := some x }

/-- The effect of `displays.emplace_back(material, shape)` on a joint. -/
def addDisplay (j : Joint) (d : Display) : Joint := { j with displays := j.displays ++ [d] }

/-- The access `mJoints[i].<field> = ...`: replace joint `i` by `f` of it. -/
def modifyJoint (js : List Joint) (i : Nat) (f : Joint → Joint) : Option (List Joint) :=
  match js[i]? with
  | none => none
  | some j => some (js.set i (f j))

/-- The branch `case ByteCodeOp::Open` (lines 74-78). -/
def execOpen (s : State) : Option State :=
  let joint_stack :=
    if s.lastType = ByteCodeOp.Joint then s.joint_stack ++ [s.joint] else s.joint_stack
  some { s with joint_stack := joint_stack,
                hierarchy_stack := s.hierarchy_stack ++ [s.lastType] }

/-- The branch `case ByteCodeOp::Close` (lines 79-83). -/
def execClose (s : State) : Option State :=
  match s.hierarchy_stack.getLast? with
  | none => none
  | some t =>
    if t = ByteCodeOp.Joint then
      if s.joint_stack = [] then none
      else some { s with joint_stack := s.joint_stack.dropLast,
                         hierarchy_stack := s.hierarchy_stack.dropLast }
    else some { s with hierarchy_stack := s.hierarchy_stack.dropLast }

/-- The two statements run when `joint_stack` is not empty (lines 89-90):
`mJoints[lut[back]].children.emplace_back(mJoints[lut[newId]].id)` and then
`mJoints[lut[newId]].parent = mJoints[lut[back]].id`. -/
def linkJoint (ctx : BMDOutputContext) (back : Nat) (newId : Int) : Option BMDOutputContext :=
  match ctx.jointIdLut[back]?, (toIndex newId).bind (fun n => ctx.jointIdLut[n]?) with
  | some pi, some ci =>
    match ctx.mdl.mJoints[ci]? with
    | none => none
    | some child =>
      match modifyJoint ctx.mdl.mJoints pi (fun p => addChild p child.id) with
      | none => none
      | some js1 =>
        match js1[pi]? with
        | none => none
        | some par =>
          match modifyJoint js1 ci (fun c => setParent c par.id) with
          | none => none
          | some js2 => some { ctx with mdl := { ctx.mdl with mJoints := js2 } }
  | _, _ => none

/-- The branch `case ByteCodeOp::Joint` (lines 84-94). -/
def execJoint (s : State) (idx : Int) : Option State :=
  match s.joint_stack.getLast? with
  | none => some { s with joint := toU16 idx }
  | some back =>
    match linkJoint s.ctx back idx with
    | none => none
    | some ctx => some { s with ctx := ctx, joint := toU16 idx }

/-- The branch `case ByteCodeOp::Material` (lines 95-97). -/
def execMaterial (s : State) (idx : Int) : Option State :=
  some { s with mat := toU16 idx }

/-- The branch `case ByteCodeOp::Shape` (lines 98-100):
`mJoints[lut[joint]].displays.emplace_back(mMaterials[mat].id, "Shapes TODO")`. -/
def execShape (s : State) : Option State :=
  match s.ctx.jointIdLut[s.joint]?, s.ctx.mdl.mMaterials[s.mat]? with
  | some ji, some m =>
    match modifyJoint s.ctx.mdl.mJoints ji
        (fun j => addDisplay j ⟨m.id, "Shapes TODO"⟩) with
    | none => none
    | some js => some { s with ctx := { s.ctx with mdl := { s.ctx.mdl with mJoints := js } } }
  | _, _ => none

/-- The `switch` of the loop body (lines 70-101). `case Terminate: return;` leaves
everything as it is; an op that is no enumerator matches no case. -/
def execSwitch (s : State) (cmd : ByteCodeCmd) : Option State :=
  if cmd.op = ByteCodeOp.Terminate then some s
  else if cmd.op = ByteCodeOp.Open then execOpen s
  else if cmd.op = ByteCodeOp.Close then execClose s
  else if cmd.op = ByteCodeOp.Joint then execJoint s cmd.idx
  else if cmd.op = ByteCodeOp.Material then execMaterial s cmd.idx
  else if cmd.op = ByteCodeOp.Shape then execShape s
  else some s

/-- One iteration of the loop body (lines 70-104): the `switch`, then
`if (cmd.op != Open && cmd.op != Close) lastType = cmd.op;`. The `return` of
`case Terminate` skips that update. -/
def step (s : State) (cmd : ByteCodeCmd) : Option State :=
  match execSwitch s cmd with
  | none => none
  | some s1 =>
    if cmd.op = ByteCodeOp.Terminate then some s1
    else if cmd.op ≠ ByteCodeOp.Open ∧ cmd.op ≠ ByteCodeOp.Close then
      some { s1 with lastType := cmd.op }
    else some s1

/-- The loop `for (ByteCodeCmd cmd(reader); cmd.op != Terminate; cmd.transfer(reader))`
over the commands the reader delivers; the result is the state when the loop
exits. Running out of commands is a read past the end of the stream. -/
def run (s : State) : List ByteCodeCmd → Option State
  | [] => none
  | cmd :: rest =>
    if cmd.op = ByteCodeOp.Terminate then some s
    else
      match step s cmd with
      | none => none
      | some s1 => run s1 rest

/-- The function `SceneGraph::onRead`: the context after the loop. -/
def onRead (ctx : BMDOutputContext) (mat0 : Nat) (cmds : List ByteCodeCmd) :
    Option BMDOutputContext :=
  (run (init ctx mat0) cmds).map (fun s => s.ctx)

end SceneGraph

end libcube.jsystem

namespace libcube.jsystem

namespace SceneGraph

/-! ## Predicates used to state the properties of the interpreter -/

/-- Every parent link has a matching child entry: a joint whose `parent` is `x`
has its own id among the children of some joint whose id is `x`. -/
def ParentHasChild (js : List Joint) : Prop :=
  ∀ j ∈ js, ∀ x, j.parent = some x → ∃ p ∈ js, p.id = x ∧ j.id ∈ p.children

/-- The joints after the two link statements (lines 89-90) when slot `pi` holds the
parent `p` and slot `ci` holds the child `c`. -/
def linked (js : List Joint) (pi ci : Nat) (p c : Joint) : List Joint :=
  (js.set pi (addChild p c.id)).set ci (setParent (if pi = ci then addChild p c.id else c) p.id)

/-- The property "every joint whose parent is `p` occurs exactly once among the
children of `p`", read on a list of joints. -/
def ParentChildOnce (js : List Joint) : Prop :=
  ∀ j ∈ js, ∀ p ∈ js, j.parent = some p.id → List.count j.id p.children = 1

/-- Number of `Open` commands in a list. -/
def opens (cmds : List ByteCodeCmd) : Nat :=
  cmds.countP (fun c => c.op == ByteCodeOp.Open)

/-- Number of `Close` commands in a list. -/
def closes (cmds : List ByteCodeCmd) : Nat :=
  cmds.countP (fun c => c.op == ByteCodeOp.Close)

/-- The commands before `Terminate` are well formed: none of them is `Terminate`, in
every leading part the `Close` commands do not outnumber the `Open` commands, and
the totals are equal. -/
def WellFormed (pre : List ByteCodeCmd) : Prop :=
  (∀ c ∈ pre, c.op ≠ ByteCodeOp.Terminate) ∧
  (∀ k, k ≤ pre.length → closes (pre.take k) ≤ opens (pre.take k)) ∧
  closes pre = opens pre

/-- Logical joint index `n` can be resolved: the remap table has an entry for it
and that entry is a slot of the joint array. -/
def validJoint (ctx : BMDOutputContext) (n : Nat) : Prop :=
  ∃ ji, ctx.jointIdLut[n]? = some ji ∧ ji < ctx.mdl.mJoints.length

/-- The indices of one command are in range: a `Joint` index is a non-negative `s16`
that can be resolved, a `Material` index selects a material. -/
def CmdOk (ctx : BMDOutputContext) (c : ByteCodeCmd) : Prop :=
  (c.op = ByteCodeOp.Joint → 0 ≤ c.idx ∧ c.idx < 32768 ∧ validJoint ctx c.idx.toNat) ∧
  (c.op = ByteCodeOp.Material → toU16 c.idx < ctx.mdl.mMaterials.length)

/-- All indices a command list can make the interpreter use are in range: the
initial `joint` (0) and `mat` (`mat0`), every `Joint` index and every `Material`
index. -/
def InRange (ctx : BMDOutputContext) (mat0 : Nat) (pre : List ByteCodeCmd) : Prop :=
  validJoint ctx 0 ∧ mat0 < ctx.mdl.mMaterials.length ∧ ∀ c ∈ pre, CmdOk ctx c

/-- The stack invariant of the interpreter: `joint_stack` has one entry per `Joint`
entry of `hierarchy_stack`. -/
def StackInv (s : State) : Prop :=
  s.joint_stack.length = s.hierarchy_stack.count ByteCodeOp.Joint

/-- A state from which every access of the next loop iteration is in range, with
respect to the tables of the context `ctx0` the interpreter was started on. -/
def Ready (ctx0 : BMDOutputContext) (s : State) : Prop :=
  StackInv s ∧ s.ctx.jointIdLut = ctx0.jointIdLut ∧
  s.ctx.mdl.mJoints.length = ctx0.mdl.mJoints.length ∧
  s.ctx.mdl.mMaterials.length = ctx0.mdl.mMaterials.length ∧
  validJoint ctx0 s.joint ∧ s.mat < ctx0.mdl.mMaterials.length ∧
  ∀ t ∈ s.joint_stack, validJoint ctx0 t

/-- Whether the loop executes a `Shape` before it has executed any `Material`, that is,
whether some `Shape` reads the starting value of `mat`. -/
def shapeReadsInitialMat : List ByteCodeCmd → Bool
  | [] => false
  | c :: cs =>
    if c.op = ByteCodeOp.Terminate then false
    else if c.op = ByteCodeOp.Material then false
    else if c.op = ByteCodeOp.Shape then true
    else shapeReadsInitialMat cs

/-! ## Example inputs -/

/-- Two joints `a`, `b` and two materials `m0`, `m1`, identity remap table. -/
def exampleCtx : BMDOutputContext :=
  { mdl := { mJoints := [{ id := "a" }, { id := "b" }],
             mMaterials := [{ id := "m0" }, { id := "m1" }] },
    jointIdLut := [0, 1], materialIdLut := [0, 1] }

/-- The same model with the joint remap table `[1, 0]`. -/
def swappedCtx : BMDOutputContext := { exampleCtx with jointIdLut := [1, 0] }

/-- The stream `Joint 0, Open, Joint 1, Joint 1, Close, Terminate`: joint 1 is linked twice
under joint 0. -/
def relinkStream : List ByteCodeCmd :=
  [⟨ByteCodeOp.Joint, 0⟩, ⟨ByteCodeOp.Open, 0⟩, ⟨ByteCodeOp.Joint, 1⟩,
   ⟨ByteCodeOp.Joint, 1⟩, ⟨ByteCodeOp.Close, 0⟩, ⟨ByteCodeOp.Terminate, 0⟩]

/-- The stream `Joint 0, Open, Joint 1, Close`: a well-formed program body. -/
def treeBody : List ByteCodeCmd :=
  [⟨ByteCodeOp.Joint, 0⟩, ⟨ByteCodeOp.Open, 0⟩, ⟨ByteCodeOp.Joint, 1⟩, ⟨ByteCodeOp.Close, 0⟩]

/-- The stream `Joint 0, Material 0, Shape 0, Terminate`. -/
def shapeStream : List ByteCodeCmd :=
  [⟨ByteCodeOp.Joint, 0⟩, ⟨ByteCodeOp.Material, 0⟩, ⟨ByteCodeOp.Shape, 0⟩,
   ⟨ByteCodeOp.Terminate, 0⟩]

/-- The stream `Shape 0, Terminate`: a shape with no material selected before it. -/
def bareShapeStream : List ByteCodeCmd :=
  [⟨ByteCodeOp.Shape, 0⟩, ⟨ByteCodeOp.Terminate, 0⟩]

end SceneGraph

end libcube.jsystem

namespace libcube.jsystem

/-! ## The binary reader -/

/-- A byte of the input. -/
abbrev Byte := Fin 256

/-- Modelled from the spec: the reader library (oishii) is not among the sources. A
diagnostic recorded through the reader (`warnAt`, `signalInvalidityLast`): a message
and the byte range `[selBegin, selEnd)` it points at. -/
structure Diagnostic where
  msg : String
  selBegin : Nat
  selEnd : Nat
deriving DecidableEq, Repr

/-- Modelled from the spec: the reader library (oishii) is not among the sources.
`oishii::BinaryReader` is an input byte buffer that is never written, the current
position, and the diagnostics recorded so far. -/
structure BinaryReader where
  buf : List Byte
  pos : Nat := 0
  diagnostics : List Diagnostic := []
deriving DecidableEq, Repr

/-- Modelled from the spec: the reader library (oishii) is not among the sources. All
multi-byte fields are big-endian: the value of the `n` bytes at position `p`. A byte
outside the buffer gives no result. -/
def beAt (buf : List Byte) (p : Nat) : Nat → Option Nat
  | 0 => some 0
  | n + 1 =>
    match beAt buf p n, buf[p + n]? with
    | some hi, some b => some (hi * 256 + b.val)
    | _, _ => none

/-- The two's-complement reading of a `bits`-wide unsigned value. -/
def toSigned (bits v : Nat) : Int :=
  if v < 2 ^ (bits - 1) then (v : Int) else (v : Int) - 2 ^ bits

/-- Conversion to `u32` (arithmetic on stream positions is unsigned 32-bit). -/
def toU32 (i : Int) : Nat := (i % 4294967296).toNat

namespace BinaryReader

/-- Modelled from the spec: the reader library (oishii) is not among the sources.
The call `tell()`. -/
def tell (r : BinaryReader) : Nat := r.pos

/-- Modelled from the spec: the reader library (oishii) is not among the sources.
The call `seekSet(p)`. -/
def seekSet (r : BinaryReader) (p : Nat) : BinaryReader := { r with pos := p }

/-- Modelled from the spec: the reader library (oishii) is not among the sources.
The call `seek(n)`, relative to the current position. -/
def seek (r : BinaryReader) (n : Nat) : BinaryReader := { r with pos := r.pos + n }

/-- Modelled from the spec: the reader library (oishii) is not among the sources.
The call `read<T>()` for an unsigned `T` of `n` bytes: decode at the position, advance by `n`. -/
def readU (r : BinaryReader) (n : Nat) : Option (Nat × BinaryReader) :=
  match beAt r.buf r.pos n with
  | some v => some (v, r.seek n)
  | none => none

/-- Modelled from the spec: the reader library (oishii) is not among the sources.
The call `read<T>()` for a signed `T` of `n` bytes. -/
def readS (r : BinaryReader) (n : Nat) : Option (Int × BinaryReader) :=
  match r.readU n with
  | some (v, r1) => some (toSigned (8 * n) v, r1)
  | none => none

/-- Modelled from the spec: the reader library (oishii) is not among the sources.
The call `readX<T, count>()` for an unsigned `T` of `n` bytes: `count` consecutive reads. -/
def readUs (r : BinaryReader) (n : Nat) : Nat → Option (List Nat × BinaryReader)
  | 0 => some ([], r)
  | count + 1 =>
    match r.readU n with
    | none => none
    | some (v, r1) =>
      match readUs r1 n count with
      | none => none
      | some (vs, r2) => some (v :: vs, r2)

/-- Modelled from the spec: the reader library (oishii) is not among the sources.
The call `readX<T, count>()` for a signed `T` of `n` bytes. -/
def readSs (r : BinaryReader) (n : Nat) (count : Nat) : Option (List Int × BinaryReader) :=
  match r.readUs n count with
  | some (vs, r1) => some (vs.map (toSigned (8 * n)), r1)
  | none => none

/-- Modelled from the spec: the reader library (oishii) is not among the sources.
The call `peekAt<T>(trans)` for an unsigned `T` of `n` bytes: decode at the current position
plus `trans`, without moving. -/
def peekAt (r : BinaryReader) (n : Nat) (trans : Int) : Option Nat :=
  if 0 ≤ (r.pos : Int) + trans then beAt r.buf ((r.pos : Int) + trans).toNat n else none

/-- Modelled from the spec: the reader library (oishii) is not among the sources.
The call `warnAt(msg, selBegin, selEnd)`. -/
def warnAt (r : BinaryReader) (msg : String) (selBegin selEnd : Nat) : BinaryReader :=
  { r with diagnostics := r.diagnostics ++ [⟨msg, selBegin, selEnd⟩] }

/-- Modelled from the spec: the reader library (oishii) is not among the sources.
The call `signalInvalidityLast<T, ...>()`: a diagnostic on the `n` bytes just read. -/
def signalInvalidityLast (r : BinaryReader) (n : Nat) (msg : String) : BinaryReader :=
  r.warnAt msg (r.pos - n) r.pos

/-- Modelled from the spec: the reader library (oishii) is not among the sources.
`expectMagic<magic>()` reads a `u32`; a mismatch is the structural error "bad magic",
which aborts the import: the call has no result. -/
def expectMagic (r : BinaryReader) (magic : Nat) : Option BinaryReader :=
  match r.readU 4 with
  | some (v, r1) => if v = magic then some r1 else none
  | none => none

end BinaryReader

/-- Modelled from the spec: the reader library (oishii) is not among the sources.
`oishii::JumpOut g(reader, offset)`: when `g` goes out of scope the reader is moved to
the position it had when `g` was built (`start`) plus `offset`, that is, it skips
`offset` bytes from there. Stream positions are `u32` values (`u32 start` in lines
119-128), so the sum wraps at `2^32`. -/
def jumpOut (r : BinaryReader) (start offset : Nat) : BinaryReader :=
  r.seekSet (toU32 ((start : Int) + (offset : Int)))

/-- A four-character literal such as `'J3D2'`. -/
def fourCC (a b c d : Char) : Nat :=
  ((a.toNat * 256 + b.toNat) * 256 + c.toNat) * 256 + d.toNat

/-- The call `std::vector::resize(n)`: keep the first `n` elements, fill up with `d`. -/
def resize {α : Type} (l : List α) (n : Nat) (d : α) : List α :=
  l.take n ++ List.replicate (n - l.length) d

/-! ## The importer -/

/-- An entry of `mSections`: `{ streamPos, size }`. -/
structure SectionEntry where
  streamPos : Nat
  size : Nat
deriving DecidableEq, Repr

/-- The class `BMDImporter` (declared in `BMD.hpp`, which is not among the sources): the section
table `std::map<u32, SectionEntry> mSections`, as an association list with one entry
per key, and the flag `error`. -/
structure BMDImporter where
  mSections : List (Nat × SectionEntry) := []
  error : Bool := false
deriving DecidableEq, Repr

/-- The call `mSections.find(id)`. -/
def findSection (imp : BMDImporter) (id : Nat) : Option SectionEntry :=
  imp.mSections.lookup id

/-- The assignment `mSections[id] = e`. -/
def setSection (imp : BMDImporter) (id : Nat) (e : SectionEntry) : BMDImporter :=
  { imp with mSections := (id, e) :: imp.mSections.filter (fun kv => kv.1 != id) }

/-- The function `BMDImporter::enterSection` (lines 109-117): whether the section is known, and the
reader, moved to the section header when it is. -/
def enterSection (imp : BMDImporter) (r : BinaryReader) (id : Nat) : Bool × BinaryReader :=
  match findSection imp id with
  | none => (false, r)
  | some sec => (true, r.seekSet (toU32 ((sec.streamPos : Int) - 8)))

/-- The guard `ScopedSection` (lines 119-128): `start = reader.tell(); reader.seek(8);`. -/
def scopedSection (r : BinaryReader) : Nat × BinaryReader := (r.tell, r.seek 8)

/-- The commands that successive `ByteCodeCmd::transfer` calls deliver from a byte
sequence: a `u16` op and an `s16` index each. -/
def decodeCmds : List Byte → List ByteCodeCmd
  | a :: b :: c :: d :: rest =>
    ⟨a.val * 256 + b.val, toSigned 16 (c.val * 256 + d.val)⟩ :: decodeCmds rest
  | _ => []

/-- Modelled from the spec: the reader library (oishii) is not among the sources.
`reader.dispatch<SceneGraph, Indirection<0, s32, Whence::At>>(ctx, atPool)` reads an
`s32` offset, runs `SceneGraph::onRead` at `atPool + offset` and returns to the
position after the offset. `mat0` is the starting value of the uninitialised `mat`. -/
def dispatchSceneGraph (r : BinaryReader) (ctx : BMDOutputContext) (atPool : Nat)
    (mat0 : Nat) : Option (BinaryReader × BMDOutputContext) :=
  match r.readS 4 with
  | none => none
  | some (ptr, r1) =>
    match SceneGraph.onRead ctx mat0
        (decodeCmds (r1.buf.drop (toU32 ((atPool : Int) + ptr)))) with
    | none => none
    | some ctx1 => some (r1, ctx1)

/-- The function `BMDImporter::readInformation` (lines 130-146). -/
def readInformation (imp : BMDImporter) (r : BinaryReader) (ctx : BMDOutputContext)
    (mat0 : Nat) : Option (BinaryReader × BMDOutputContext) :=
  match enterSection imp r (fourCC 'I' 'N' 'F' '1') with
  | (false, r0) => some (r0, ctx)
  | (true, r0) =>
    let g := scopedSection r0
    match g.2.readU 4 with
    | none => none
    | some (flag, r1) =>
      match r1.readU 4 with
      | none => none
      | some (_, r2) =>
        match r2.readU 4 with
        | none => none
        | some (_, r3) =>
          dispatchSceneGraph r3
            { ctx with mdl := { ctx.mdl with mScalingRule := flag &&& 0xf } } g.1 mat0

/-- The inner loop of the envelope decode (lines 173-184): `num` weights, read at the
running index `mtxId`. -/
def readWeights (r : BinaryReader) (ofsMatrixIndex ofsMatrixWeight : Int) (mtxId : Nat) :
    Nat → Option (List MatrixWeight)
  | 0 => some []
  | num + 1 =>
    match r.peekAt 2 (ofsMatrixIndex + mtxId * 2), r.peekAt 4 (ofsMatrixWeight + mtxId * 4) with
    | some index, some influence =>
      match readWeights r ofsMatrixIndex ofsMatrixWeight (mtxId + 1) num with
      | none => none
      | some ws => some (⟨index, influence⟩ :: ws)
    | _, _ => none

/-- The outer loop of the envelope decode (lines 169-185), from envelope `i` and running
index `mtxId`, for `n` more envelopes. -/
def readEnvelopes (r : BinaryReader) (ofsMatrixSize ofsMatrixIndex ofsMatrixWeight : Int)
    (i mtxId : Nat) : Nat → Option (List DrawMatrix)
  | 0 => some []
  | n + 1 =>
    match r.peekAt 1 (ofsMatrixSize + i) with
    | none => none
    | some num =>
      match readWeights r ofsMatrixIndex ofsMatrixWeight mtxId num with
      | none => none
      | some ws =>
        match readEnvelopes r ofsMatrixSize ofsMatrixIndex ofsMatrixWeight
            (i + 1) (mtxId + num) n with
        | none => none
        | some es => some (⟨ws⟩ :: es)

/-- Modelled from the spec: `Model.hpp` is not among the sources. The rigid binding
`DrawMatrix{ std::vector<MatrixWeight>{index} }`: one entry with weight 1.0 (bit
pattern `0x3F800000`). -/
def rigidDrawMatrix (index : Nat) : DrawMatrix := ⟨[⟨index, 0x3F800000⟩]⟩

/-- The loop over the draw matrices (lines 206-215), from slot `i`, for `n` more slots. -/
def readDrawMatrixSlots (r : BinaryReader) (envelopes : List DrawMatrix)
    (ofsPartialWeighting ofsIndex : Int) (i : Nat) : Nat → Option (List DrawMatrix)
  | 0 => some []
  | n + 1 =>
    match r.peekAt 1 (ofsPartialWeighting + i), r.peekAt 2 (ofsIndex + i * 2) with
    | some multipleInfluences, some index =>
      match (if multipleInfluences ≠ 0 then envelopes[index]? else some (rigidDrawMatrix index)) with
      | none => none
      | some mtx =>
        match readDrawMatrixSlots r envelopes ofsPartialWeighting ofsIndex (i + 1) n with
        | none => none
        | some ms => some (mtx :: ms)
    | _, _ => none

/-- The `EVP1` block of `readDrawMatrices` (lines 154-191): the decoded envelopes. -/
def readEVP1 (imp : BMDImporter) (r : BinaryReader) : Option (List DrawMatrix × BinaryReader) :=
  match enterSection imp r (fourCC 'E' 'V' 'P' '1') with
  | (false, r0) => some ([], r0)
  | (true, r0) =>
    let g := scopedSection r0
    match g.2.readU 2 with
    | none => none
    | some (size, r1) =>
      match r1.readU 2 with
      | none => none
      | some (_, r2) =>
        match r2.readSs 4 4 with
        | some ([ofsMatrixSize, ofsMatrixIndex, ofsMatrixWeight, _], r3) =>
          let r4 := r3.seekSet g.1
          match readEnvelopes r4 ofsMatrixSize ofsMatrixIndex ofsMatrixWeight 0 0 size with
          | none => none
          | some envelopes => some (envelopes, r4)
        | _ => none

/-- The function `BMDImporter::readDrawMatrices` (lines 147-217). -/
def readDrawMatrices (imp : BMDImporter) (r : BinaryReader) (ctx : BMDOutputContext) :
    Option (BinaryReader × BMDOutputContext) :=
  match readEVP1 imp r with
  | none => none
  | some (envelopes, r0) =>
    match enterSection imp r0 (fourCC 'D' 'R' 'W' '1') with
    | (false, r1) => some (r1, ctx)
    | (true, r1) =>
      let g := scopedSection r1
      match g.2.readU 2 with
      | none => none
      | some (size, r2) =>
        match r2.readU 2 with
        | none => none
        | some (_, r3) =>
          match r3.readSs 4 2 with
          | some ([ofsPartialWeighting, ofsIndex], r4) =>
            let r5 := r4.seekSet g.1
            match readDrawMatrixSlots r5 envelopes ofsPartialWeighting ofsIndex 0 size with
            | none => none
            | some ms => some (r5, { ctx with mdl := { ctx.mdl with mDrawMatrices := ms } })
          | _ => none

/-- The string loop of `readNameTable` (lines 231-232): the bytes up to the first NUL. -/
def readCString : List Byte → Option (List Byte)
  | [] => none
  | b :: bs =>
    if b.val = 0 then some []
    else
      match readCString bs with
      | none => none
      | some cs => some (b :: cs)

/-- The entry loop of `readNameTable` (lines 225-234): each entry is a `(hash, ofs)`
pair of `u16`; the string is read at `start + ofs` inside a `Jump<Whence::Set>` scope,
which puts the reader back where it was. -/
def readNames (start : Nat) (r : BinaryReader) : Nat → Option (List String × BinaryReader)
  | 0 => some ([], r)
  | n + 1 =>
    match r.readUs 2 2 with
    | some ([_, ofs], r1) =>
      match readCString (r1.buf.drop (toU32 ((start : Int) + ofs))) with
      | none => none
      | some cs =>
        match readNames start r1 n with
        | none => none
        | some (names, r2) =>
          some (String.mk (cs.map (fun b => Char.ofNat b.val)) :: names, r2)
    | _ => none

/-- The function `readNameTable` (lines 219-237). -/
def readNameTable (r : BinaryReader) : Option (List String × BinaryReader) :=
  let start := r.tell
  match r.readU 2 with
  | none => none
  | some (count, r1) =>
    match r1.readU 2 with
    | none => none
    | some (_, r2) => readNames start r2 count

/-- The body of the joint loop after the `seekSet` (lines 278-292): decode one record
into `joint`. -/
def readJointRecord (r : BinaryReader) (joint : Joint) (name : String) :
    Option (Joint × BinaryReader) :=
  match r.readU 2 with
  | none => none
  | some (flag, r1) =>
    match r1.readU 1 with
    | none => none
    | some (mayaSSC, r2) =>
      match r2.readU 1 with
      | none => none
      | some (_, r3) =>
        match r3.readUs 4 3 with
        | none => none
        | some (scale, r4) =>
          match r4.readSs 2 3 with
          | none => none
          | some (rot, r5) =>
            match r5.readU 2 with
            | none => none
            | some (_, r6) =>
              match r6.readUs 4 3 with
              | none => none
              | some (translate, r7) =>
                match r7.readU 4 with
                | none => none
                | some (radius, r8) =>
                  match r8.readUs 4 6 with
                  | none => none
                  | some (box, r9) =>
                    some ({ joint with
                      id := name
                      flag := flag &&& 0xf
                      bbMtxType := flag >>> 4
                      mayaSSC := if mayaSSC = 0xff then false else decide (mayaSSC ≠ 0)
                      scale := scale
                      rotate := rot.map (fun v => Int.tdiv v 0x7ff)
                      translate := translate
                      boundingSphereRadius := radius
                      boundingBox := box }, r9)

/-- The joint loop of `readJoints` (lines 274-293), from logical index `i`, over the
joints `mJoints[i]`, `mJoints[i + 1]`, ... that are still to be decoded. -/
def readJointRecords (r : BinaryReader) (start : Nat) (ofsJointData : Int) (lut : List Nat)
    (nameTable : List String) (i : Nat) :
    List Joint → Option (List Joint × BinaryReader)
  | [] => some ([], r)
  | joint :: todo =>
    match lut[i]?, nameTable[i]? with
    | some slot, some name =>
      match readJointRecord (r.seekSet (toU32 ((start : Int) + ofsJointData + slot * 0x40)))
          joint name with
      | none => none
      | some (j, r1) =>
        match readJointRecords r1 start ofsJointData lut nameTable (i + 1) todo with
        | none => none
        | some (js, r2) => some (j :: js, r2)
    | _, _ => none

/-- The remap-table loop (lines 258-264 and 356-362), from index `i` with the current
value of `sorted`, for `n` more entries: each entry is read as a `u16`, and
`sorted` becomes false when the entry differs from its index. The result is the
entries, the final `sorted` and the reader. -/
def readRemapTable (r : BinaryReader) (i : Nat) (sorted : Bool) :
    Nat → Option (List Nat × Bool × BinaryReader)
  | 0 => some ([], sorted, r)
  | n + 1 =>
    match r.readU 2 with
    | none => none
    | some (v, r1) =>
      match readRemapTable r1 (i + 1) (if v ≠ i then false else sorted) n with
      | none => none
      | some (vs, s, r2) => some (v :: vs, s, r2)

/-- The text `readJoints` passes to `DebugReport`. -/
def jointRemapNotice : String :=
  "Joint IDS will be remapped on save and incompatible with animations.\n"

/-- The text `readMaterials` passes to `DebugReport`. -/
def materialRemapNotice : String :=
  "Material IDS will be remapped on save and incompatible with animations.\n"

/-- The function `BMDImporter::readJoints` (lines 239-295). The third component is the text
printed through `DebugReport`. -/
def readJoints (imp : BMDImporter) (r : BinaryReader) (ctx : BMDOutputContext) :
    Option (BinaryReader × BMDOutputContext × List String) :=
  match enterSection imp r (fourCC 'J' 'N' 'T' '1') with
  | (false, r0) => some (r0, ctx, [])
  | (true, r0) =>
    let g := scopedSection r0
    match g.2.readU 2 with
    | none => none
    | some (size, r1) =>
      match r1.readU 2 with
      | none => none
      | some (_, r2) =>
        match r2.readSs 4 3 with
        | some ([ofsJointData, ofsRemapTable, ofsStringTable], r3) =>
          match readRemapTable (r3.seekSet (toU32 ((g.1 : Int) + ofsRemapTable))) 0 true size with
          | none => none
          | some (lut, sorted, r4) =>
            match readNameTable (r4.seekSet (toU32 (ofsStringTable + (g.1 : Int)))) with
            | none => none
            | some (nameTable, r5) =>
              match readJointRecords r5 g.1 ofsJointData lut nameTable 0
                  (resize ctx.mdl.mJoints size {}) with
              | none => none
              | some (joints, r6) =>
                some (r6, { ctx with mdl := { ctx.mdl with mJoints := joints }, jointIdLut := lut },
                  if sorted then [] else [jointRemapNotice])
        | _ => none

/-- The material loop of `readMaterials` (lines 370-377), from logical index `i`. -/
def readMaterialRecords (r : BinaryReader) (start : Nat) (ofsMatData : Int) (lut : List Nat)
    (nameTable : List String) (i : Nat) :
    List Material → Option (List Material × BinaryReader)
  | [] => some ([], r)
  | mat :: todo =>
    match lut[i]?, nameTable[i]? with
    | some slot, some name =>
      match readMaterialRecords
          (r.seekSet (toU32 ((start : Int) + ofsMatData + slot * 0x14c)))
          start ofsMatData lut nameTable (i + 1) todo with
      | none => none
      | some (ms, r2) => some ({ mat with id := name } :: ms, r2)
    | _, _ => none

/-- The function `BMDImporter::readMaterials` (lines 335-379). The third component is the text
printed through `DebugReport`. -/
def readMaterials (imp : BMDImporter) (r : BinaryReader) (ctx : BMDOutputContext) :
    Option (BinaryReader × BMDOutputContext × List String) :=
  match enterSection imp r (fourCC 'M' 'A' 'T' '3') with
  | (false, r0) => some (r0, ctx, [])
  | (true, r0) =>
    let g := scopedSection r0
    match g.2.readU 2 with
    | none => none
    | some (size, r1) =>
      match r1.readU 2 with
      | none => none
      | some (_, r2) =>
        match r2.readSs 4 3 with
        | some ([ofsMatData, ofsRemapTable, ofsStringTable], r3) =>
          match r3.readSs 4 27 with
          | none => none
          | some (_, r3a) =>
            match readRemapTable (r3a.seekSet (toU32 ((g.1 : Int) + ofsRemapTable))) 0 true
                size with
            | none => none
            | some (lut, sorted, r4) =>
              match readNameTable (r4.seekSet (toU32 (ofsStringTable + (g.1 : Int)))) with
              | none => none
              | some (nameTable, r5) =>
                match readMaterialRecords r5 g.1 ofsMatData lut nameTable 0
                    (resize ctx.mdl.mMaterials size {}) with
                | none => none
                | some (materials, r6) =>
                  some (r6, { ctx with mdl := { ctx.mdl with mMaterials := materials },
                                       materialIdLut := lut },
                    if sorted then [] else [materialRemapNotice])
        | _ => none

/-- The tags `lex` records (lines 393-401). -/
def recognizedTags : List Nat :=
  [fourCC 'I' 'N' 'F' '1', fourCC 'V' 'T' 'X' '1', fourCC 'E' 'V' 'P' '1',
   fourCC 'D' 'R' 'W' '1', fourCC 'J' 'N' 'T' '1', fourCC 'S' 'H' 'P' '1',
   fourCC 'M' 'A' 'T' '3', fourCC 'M' 'D' 'L' '3', fourCC 'T' 'E' 'X' '1']

/-- The loop of `lex` (lines 384-409), for `n` more entries. The argument of `JumpOut`,
`secSize - 8`, is computed as a `u32`. -/
def lexLoop (imp : BMDImporter) (r : BinaryReader) : Nat → Option (BMDImporter × BinaryReader)
  | 0 => some (imp, r)
  | n + 1 =>
    match r.readU 4 with
    | none => none
    | some (secType, r1) =>
      match r1.readU 4 with
      | none => none
      | some (secSize, r2) =>
        let start := r2.tell
        let offset := toU32 ((secSize : Int) - 8)
        if secType ∈ recognizedTags then
          lexLoop (setSection imp secType ⟨r2.tell, secSize⟩) (jumpOut r2 start offset) n
        else
          lexLoop imp
            (jumpOut (r2.warnAt "Unexpected section type." (r2.tell - 8) (r2.tell - 4))
              start offset) n

/-- The function `BMDImporter::lex` (lines 381-410). -/
def lex (imp : BMDImporter) (r : BinaryReader) (sec_count : Nat) :
    Option (BMDImporter × BinaryReader) :=
  lexLoop { imp with mSections := [] } r sec_count

/-- The text of the diagnostic `signalInvalidityLast<u32, MagicInvalidity<'bmd3'>>()`
records. -/
def versionNotice : String := "Expecting magic bmd3"

/-- What `readBMD` leaves behind: the importer, the reader, the output context and
the text printed through `DebugReport`. -/
structure ReadResult where
  imp : BMDImporter
  reader : BinaryReader
  ctx : BMDOutputContext
  debug : List String
deriving DecidableEq, Repr

/-- The body of `readBMD` after the magic check (lines 416-451), on the reader as
`expectMagic` left it. `mat0` is the starting value of the uninitialised `mat` of
`SceneGraph::onRead`. -/
def readBMDAfterMagic (imp : BMDImporter) (r1 : BinaryReader) (ctx : BMDOutputContext)
    (mat0 : Nat) : Option ReadResult :=
  match r1.readU 4 with
  | none => none
  | some (bmdVer, r2) =>
    if bmdVer ≠ fourCC 'b' 'm' 'd' '3' ∧ bmdVer ≠ fourCC 'b' 'd' 'l' '4' then
      some { imp := { imp with error := true },
             reader := r2.signalInvalidityLast 4 versionNotice,
             ctx := ctx, debug := [] }
    else
      match r2.readU 4 with
      | none => none
      | some (_, r3) =>
        match r3.readU 4 with
        | none => none
        | some (sec_count, r4) =>
          match lex imp (r4.seek 16) sec_count with
          | none => none
          | some (imp1, r5) =>
            match readDrawMatrices imp1 r5 ctx with
            | none => none
            | some (r6, ctx1) =>
              match readJoints imp1 r6 ctx1 with
              | none => none
              | some (r7, ctx2, d1) =>
                match readMaterials imp1 r7 ctx2 with
                | none => none
                | some (r8, ctx3, d2) =>
                  match readInformation imp1 r8 ctx3 mat0 with
                  | none => none
                  | some (r9, ctx4) =>
                    some { imp := imp1, reader := r9, ctx := ctx4, debug := d1 ++ d2 }

/-- The function `BMDImporter::readBMD` (lines 411-452): the magic check, then the body
above. -/
def readBMD (imp : BMDImporter) (r : BinaryReader) (ctx : BMDOutputContext) (mat0 : Nat) :
    Option ReadResult :=
  match r.expectMagic (fourCC 'J' '3' 'D' '2') with
  | none => none
  | some r1 => readBMDAfterMagic imp r1 ctx mat0

/-- What `tryRead` leaves behind: the returned `bool`, the importer, the reader, the
model of the file state and the text printed through `DebugReport`. -/
structure TryReadResult where
  ok : Bool
  imp : BMDImporter
  reader : BinaryReader
  mModel : J3DModel
  debug : List String
deriving DecidableEq, Repr

/-- The function `BMDImporter::tryRead` (lines 454-459): `readBMD` on a context around the model of
the file state, then `return !error;`. -/
def tryRead (imp : BMDImporter) (r : BinaryReader) (mModel : J3DModel) (mat0 : Nat) :
    Option TryReadResult :=
  match readBMD imp r { mdl := mModel } mat0 with
  | none => none
  | some res =>
    some { ok := !res.imp.error, imp := res.imp, reader := res.reader,
           mModel := res.ctx.mdl, debug := res.debug }

/-- A 32-byte file: magic `J3D2`, version `bmd3`, size word 32, no sections, 16 reserved
bytes. -/
def emptyBmd : List Byte :=
  [0x4A, 0x33, 0x44, 0x32, 0x62, 0x6D, 0x64, 0x33, 0, 0, 0, 32, 0, 0, 0, 0,
   0, 0, 0, 0, 0, 0, 0, 0, 0, 0, 0, 0, 0, 0, 0, 0]

/-- The same header with the version word `bmd2`. -/
def badVersionBmd : List Byte :=
  [0x4A, 0x33, 0x44, 0x32, 0x62, 0x6D, 0x64, 0x32, 0, 0, 0, 32, 0, 0, 0, 0,
   0, 0, 0, 0, 0, 0, 0, 0, 0, 0, 0, 0, 0, 0, 0, 0]

end libcube.jsystem

namespace libcube.jsystem

/-! ## Notions used to state the properties of the section readers -/

/-- The running total of a count table: the sum of `countTable k` for `k < i`. -/
def prefixSum (countTable : Nat → Nat) : Nat → Nat
  | 0 => 0
  | i + 1 => prefixSum countTable i + countTable i

/-- The weight list the envelope decode is to give envelope `i`: `countTable i` pairs
taken from the flat index and weight tables, starting at the running total of the
counts before `i`. -/
def envelopeWeights (countTable indexTable weightTable : Nat → Nat) (i : Nat) :
    List MatrixWeight :=
  (List.range (countTable i)).map
    (fun j => ⟨indexTable (prefixSum countTable i + j), weightTable (prefixSum countTable i + j)⟩)

end libcube.jsystem

namespace libcube.jsystem

/-! ## Example files -/

/-- A file that differs from `emptyBmd` in the magic only: `J3D1`, version `bmd3`. -/
def badMagicBmd : List Byte :=
  [0x4A, 0x33, 0x44, 0x31, 0x62, 0x6D, 0x64, 0x33, 0, 0, 0, 32, 0, 0, 0, 0,
   0, 0, 0, 0, 0, 0, 0, 0, 0, 0, 0, 0, 0, 0, 0, 0]

/-- An `EVP1` section at 0 followed by a `DRW1` section at 48. Two envelopes with counts
2 and 1 over the flat pair stream (5, 0.25), (7, 0.75), (9, 1.0); two draw-matrix slots:
flag 1 with index 0, and flag 0 with index 3. -/
def skinBuf : List Byte :=
  [0x45, 0x56, 0x50, 0x31, 0, 0, 0, 48, 0, 2, 0xFF, 0xFF,
   0, 0, 0, 28, 0, 0, 0, 30, 0, 0, 0, 36, 0, 0, 0, 0,
   2, 1, 0, 5, 0, 7, 0, 9,
   0x3E, 0x80, 0, 0, 0x3F, 0x40, 0, 0, 0x3F, 0x80, 0, 0,
   0x44, 0x52, 0x57, 0x31, 0, 0, 0, 28, 0, 2, 0xFF, 0xFF,
   0, 0, 0, 20, 0, 0, 0, 22,
   1, 0, 0, 0, 0, 3, 0, 0]

/-- Scenario E: an `EVP1` section at 0 with one envelope of two pairs (5, 0.25),
(7, 0.75), followed by a `DRW1` section at 44 with one slot: flag 1, index 0. -/
def scenarioEBuf : List Byte :=
  [0x45, 0x56, 0x50, 0x31, 0, 0, 0, 44, 0, 1, 0xFF, 0xFF,
   0, 0, 0, 28, 0, 0, 0, 30, 0, 0, 0, 34, 0, 0, 0, 0,
   2, 0, 0, 5, 0, 7,
   0x3E, 0x80, 0, 0, 0x3F, 0x40, 0, 0, 0, 0,
   0x44, 0x52, 0x57, 0x31, 0, 0, 0, 24, 0, 1, 0xFF, 0xFF,
   0, 0, 0, 20, 0, 0, 0, 22,
   1, 0, 0, 0]

/-- The section table `lex` records for `scenarioEBuf`. -/
def scenarioEImp : BMDImporter :=
  { mSections := [(fourCC 'D' 'R' 'W' '1', ⟨52, 24⟩), (fourCC 'E' 'V' 'P' '1', ⟨8, 44⟩)] }

/-- The section table `lex` records for `skinBuf`. -/
def skinImp : BMDImporter :=
  { mSections := [(fourCC 'D' 'R' 'W' '1', ⟨56, 28⟩), (fourCC 'E' 'V' 'P' '1', ⟨8, 48⟩)] }

/-- The count table of `skinBuf`. -/
def skinCounts (i : Nat) : Nat := if i = 0 then 2 else 1

/-- The index table of `skinBuf`. -/
def skinIndices (m : Nat) : Nat := if m = 0 then 5 else if m = 1 then 7 else 9

/-- The weight table of `skinBuf`: the bit patterns of 0.25, 0.75 and 1.0. -/
def skinWeightBits (m : Nat) : Nat :=
  if m = 0 then 0x3E800000 else if m = 1 then 0x3F400000 else 0x3F800000

/-- A context whose model already has one draw matrix. -/
def exampleCtxDraw : BMDOutputContext :=
  { mdl := { mDrawMatrices := [⟨[⟨1, 0x3F800000⟩]⟩] } }

/-- A lone `DRW1` section at 0 with one slot: flag 0, index 3. -/
def rigidBuf : List Byte :=
  [0x44, 0x52, 0x57, 0x31, 0, 0, 0, 24, 0, 1, 0xFF, 0xFF,
   0, 0, 0, 20, 0, 0, 0, 22,
   0, 0, 0, 3]

/-- The section table `lex` records for `rigidBuf`: a `DRW1` entry and no `EVP1` entry. -/
def rigidImp : BMDImporter :=
  { mSections := [(fourCC 'D' 'R' 'W' '1', ⟨8, 24⟩)] }

end libcube.jsystem

namespace libcube.jsystem

/-- A 64-byte joint record with the given low byte of the flag word and the given Maya
byte: scale (1.0, 1.0, 1.0), raw rotation words 1000, 2047 and -2048, everything else
zero. -/
def jointRecord (flagLo maya : Byte) : List Byte :=
  [0x00, flagLo, maya, 0xFF,
   0x3F, 0x80, 0, 0, 0x3F, 0x80, 0, 0, 0x3F, 0x80, 0, 0,
   0x03, 0xE8, 0x07, 0xFF, 0xF8, 0x00, 0xFF, 0xFF,
   0, 0, 0, 0, 0, 0, 0, 0, 0, 0, 0, 0,
   0, 0, 0, 0,
   0, 0, 0, 0, 0, 0, 0, 0, 0, 0, 0, 0, 0, 0, 0, 0, 0, 0, 0, 0, 0, 0, 0, 0]

/-- A `JNT1` section at 0 with the given joint count and the given six bytes of remap
table at 24; the name table at 32 holds the names `a`, `b`, `c`, and three joint
records with the flag words `0x12`, `0x23`, `0x34` start at 56. -/
def jntBuf (count : Byte) (remap : List Byte) (maya : Byte) : List Byte :=
  [0x4A, 0x4E, 0x54, 0x31, 0, 0, 0, 248, 0, count, 0xFF, 0xFF,
   0, 0, 0, 56, 0, 0, 0, 24, 0, 0, 0, 32] ++ remap ++ [0, 0] ++
  [0, 3, 0xFF, 0xFF, 0, 0, 0, 16, 0, 0, 0, 18, 0, 0, 0, 20,
   0x61, 0, 0x62, 0, 0x63, 0, 0, 0] ++
  jointRecord 0x12 maya ++ jointRecord 0x23 maya ++ jointRecord 0x34 maya

/-- A `MAT3` section at 0 with two materials: the header with the three offsets and the
27 further offsets, the remap table `[1, 1]` at 132, and the name table at 136 with the
names `a`, `b`. -/
def matBuf : List Byte :=
  [0x4D, 0x41, 0x54, 0x33, 0, 0, 0, 152, 0, 2, 0xFF, 0xFF,
   0, 0, 0, 152, 0, 0, 0, 132, 0, 0, 0, 136] ++ List.replicate 108 0 ++
  [0, 1, 0, 1,
   0, 2, 0xFF, 0xFF, 0, 0, 0, 12, 0, 0, 0, 14, 0x61, 0, 0x62, 0]

/-- The section table `lex` records for `matBuf`. -/
def matImp : BMDImporter := { mSections := [(fourCC 'M' 'A' 'T' '3', ⟨8, 152⟩)] }

/-- The section table `lex` records for a `jntBuf`. -/
def jntImp : BMDImporter := { mSections := [(fourCC 'J' 'N' 'T' '1', ⟨8, 248⟩)] }

/-- The joint an example record with flag word `16 * type + flag` and Maya byte `0x00` or
`0xFF` decodes to under the name `name`. -/
def decodedJoint (name : String) (flag type : Nat) : Joint :=
  { id := name, flag := flag, bbMtxType := type, mayaSSC := false,
    scale := [0x3F800000, 0x3F800000, 0x3F800000], rotate := [0, 1, -1],
    translate := [0, 0, 0], boundingSphereRadius := 0, boundingBox := [0, 0, 0, 0, 0, 0] }

end libcube.jsystem

namespace libcube.jsystem

/-- A joint section with three joints and the remap table `[0, 2, 1]`. -/
def jntRemapped : List Byte := jntBuf 3 [0, 0, 0, 2, 0, 1] 0

/-- The context `readJoints` produces from `jntRemapped`. -/
def jntRemappedCtx : BMDOutputContext :=
  { mdl := { mJoints := [decodedJoint "a" 2 1, decodedJoint "b" 4 3, decodedJoint "c" 3 2] },
    jointIdLut := [0, 2, 1] }

/-- A joint section with three joints and the identity remap table. -/
def jntSorted : List Byte := jntBuf 3 [0, 0, 0, 1, 0, 2] 0

/-- A joint section with no joints. -/
def jntNone : List Byte := jntBuf 0 [0, 0, 0, 0, 0, 0] 0

/-- A joint section with two joints and the remap table `[1, 1]`. -/
def jntDuplicate : List Byte := jntBuf 2 [0, 1, 0, 1, 0, 0] 0

end libcube.jsystem

namespace libcube.jsystem

/-! ## Notions used to state the properties of the pipeline -/

/-- The five sections the readers of `readBMD` decode are all absent from a table. -/
@[reducible] def NoDecodedSection (imp : BMDImporter) : Prop :=
  findSection imp (fourCC 'E' 'V' 'P' '1') = none ∧
  findSection imp (fourCC 'D' 'R' 'W' '1') = none ∧
  findSection imp (fourCC 'J' 'N' 'T' '1') = none ∧
  findSection imp (fourCC 'M' 'A' 'T' '3') = none ∧
  findSection imp (fourCC 'I' 'N' 'F' '1') = none

/-! ## Example section lists -/

/-- A section list of four entries at 0: `INF1` with size 12, the unrecognized tag `ABCD`
with size 8, `INF1` again with size 16, and `TEX1` with size 8; 44 bytes in all. -/
def lexBuf : List Byte :=
  [0x49, 0x4E, 0x46, 0x31, 0, 0, 0, 12, 1, 2, 3, 4,
   0x41, 0x42, 0x43, 0x44, 0, 0, 0, 8,
   0x49, 0x4E, 0x46, 0x31, 0, 0, 0, 16, 5, 6, 7, 8, 9, 10, 11, 12,
   0x54, 0x45, 0x58, 0x31, 0, 0, 0, 8]

/-- The section list `lexBuf` with the recognized tag `VTX1` in place of `ABCD`. -/
def lexBufKnown : List Byte :=
  [0x49, 0x4E, 0x46, 0x31, 0, 0, 0, 12, 1, 2, 3, 4,
   0x56, 0x54, 0x58, 0x31, 0, 0, 0, 8,
   0x49, 0x4E, 0x46, 0x31, 0, 0, 0, 16, 5, 6, 7, 8, 9, 10, 11, 12,
   0x54, 0x45, 0x58, 0x31, 0, 0, 0, 8]

/-- The tags of the entries of `lexBuf`. -/
def lexTags (k : Nat) : Nat :=
  if k = 0 then fourCC 'I' 'N' 'F' '1' else if k = 1 then fourCC 'A' 'B' 'C' 'D'
  else if k = 2 then fourCC 'I' 'N' 'F' '1' else fourCC 'T' 'E' 'X' '1'

/-- The tags of the entries of `lexBufKnown`. -/
def lexTagsKnown (k : Nat) : Nat :=
  if k = 0 then fourCC 'I' 'N' 'F' '1' else if k = 1 then fourCC 'V' 'T' 'X' '1'
  else if k = 2 then fourCC 'I' 'N' 'F' '1' else fourCC 'T' 'E' 'X' '1'

/-- The declared sizes of the entries of `lexBuf`. -/
def lexSizes (k : Nat) : Nat :=
  if k = 0 then 12 else if k = 1 then 8 else if k = 2 then 16 else 8

/-- The header positions of the entries of `lexBuf`, and the end of the list. -/
def lexPositions (k : Nat) : Nat :=
  if k = 0 then 0 else if k = 1 then 12 else if k = 2 then 20 else if k = 3 then 36 else 44

/-- The section table `lex` records for `lexBuf`. -/
def lexImp : BMDImporter :=
  { mSections := [(fourCC 'T' 'E' 'X' '1', ⟨44, 8⟩), (fourCC 'I' 'N' 'F' '1', ⟨28, 16⟩)] }

end libcube.jsystem

namespace libcube.jsystem

/-- A name table with two entries, the given hash bytes and the given padding byte: the
first entry points at offset 14, where the bytes `a`, `c`, NUL lie, and the second at
offset 12, where the bytes `b`, NUL lie. -/
def nameTableBuf (h0 h1 pad : Byte) : List Byte :=
  [0, 2, pad, pad, h0, h0, 0, 14, h1, h1, 0, 12, 0x62, 0, 0x61, 0x63, 0]

/-- The string offsets of `nameTableBuf`. -/
def nameOffsets (i : Nat) : Nat := if i = 0 then 14 else 12

/-- The string bytes of `nameTableBuf`. -/
def nameBytes (i : Nat) : List Byte := if i = 0 then [0x61, 0x63] else [0x62]

/-- The bytes after the NUL of each string of `nameTableBuf`. -/
def nameRest (i : Nat) : List Byte := if i = 0 then [] else [0x61, 0x63, 0]

end libcube.jsystem

namespace libcube.jsystem

/-! ## Example files with a scene graph -/

/-- An `INF1` section of 44 bytes whose scene graph, 24 bytes after the section header,
is `Joint 0`, `Open`, `Joint 1`, `Close`, `Terminate`. -/
def infSection : List Byte :=
  [0x49, 0x4E, 0x46, 0x31, 0, 0, 0, 44, 0, 0, 0, 0, 0, 0, 0, 0, 0, 0, 0, 0, 0, 0, 0, 24,
   0, 0x10, 0, 0, 0, 1, 0, 0, 0, 0x10, 0, 1, 0, 2, 0, 0, 0, 0, 0, 0]

/-- A file with one section, `infSection`, and no joint section. -/
def infOnlyBmd : List Byte :=
  [0x4A, 0x33, 0x44, 0x32, 0x62, 0x6D, 0x64, 0x33, 0, 0, 0, 76, 0, 0, 0, 1,
   0, 0, 0, 0, 0, 0, 0, 0, 0, 0, 0, 0, 0, 0, 0, 0] ++ infSection

/-- A file with two sections: a joint section with the two joints `a` and `b` and the
identity remap table, and `infSection`. -/
def infJntBmd : List Byte :=
  [0x4A, 0x33, 0x44, 0x32, 0x62, 0x6D, 0x64, 0x33, 0, 0, 1, 0x44, 0, 0, 0, 2,
   0, 0, 0, 0, 0, 0, 0, 0, 0, 0, 0, 0, 0, 0, 0, 0] ++
  jntBuf 2 [0, 0, 0, 1, 0, 0] 0 ++ infSection

/-- A file with one section, a joint section at 32 with one joint `a` and two joint
records with the flag words `0x12` and `0x23`, whose remap-table offset is -22: the
remap table is read at 10, inside the file-size word of the header, of which `lo` is
the last byte. -/
def sizeWordBmd (lo : Byte) : List Byte :=
  [0x4A, 0x33, 0x44, 0x32, 0x62, 0x6D, 0x64, 0x33, 0, 0, 0, lo, 0, 0, 0, 1,
   0, 0, 0, 0, 0, 0, 0, 0, 0, 0, 0, 0, 0, 0, 0, 0] ++
  [0x4A, 0x4E, 0x54, 0x31, 0, 0, 0, 164, 0, 1, 0xFF, 0xFF,
   0, 0, 0, 36, 0xFF, 0xFF, 0xFF, 0xEA, 0, 0, 0, 24,
   0, 1, 0xFF, 0xFF, 0, 0, 0, 8, 0x61, 0, 0, 0] ++
  jointRecord 0x12 0 ++ jointRecord 0x23 0

end libcube.jsystem

namespace libcube.jsystem

/-- The file `emptyBmd` with another file-size word and other reserved bytes. -/
def emptyBmdOther : List Byte :=
  [0x4A, 0x33, 0x44, 0x32, 0x62, 0x6D, 0x64, 0x33, 0xDE, 0xAD, 0xBE, 0xEF, 0, 0, 0, 0,
   1, 2, 3, 4, 5, 6, 7, 8, 9, 10, 11, 12, 13, 14, 15, 16]

end libcube.jsystem

namespace libcube.jsystem

namespace SceneGraph

/-! ## Notions used to state the further properties of the interpreter -/

/-- The loop body of `SceneGraph::onRead` run on each command of a list in turn: the
state the loop is in after these iterations. -/
def steps (s : State) : List ByteCodeCmd → Option State
  | [] => some s
  | cmd :: rest =>
    match step s cmd with
    | none => none
    | some s1 => steps s1 rest

/-- The indices of the `Joint` commands the loop executes: those before the first
`Terminate`, in order. -/
def jointIndices : List ByteCodeCmd → List Int
  | [] => []
  | c :: cs =>
    if c.op = ByteCodeOp.Terminate then []
    else if c.op = ByteCodeOp.Joint then c.idx :: jointIndices cs
    else jointIndices cs

/-- The number of `Shape` commands the loop executes: those before the first
`Terminate`. -/
def shapeCount : List ByteCodeCmd → Nat
  | [] => 0
  | c :: cs =>
    if c.op = ByteCodeOp.Terminate then 0
    else (if c.op = ByteCodeOp.Shape then 1 else 0) + shapeCount cs

/-- The number of `Joint` commands the loop, started in state `s`, executes with a
non-empty `joint_stack`. -/
def linkCount (s : State) : List ByteCodeCmd → Nat
  | [] => 0
  | c :: cs =>
    if c.op = ByteCodeOp.Terminate then 0
    else
      match step s c with
      | none => 0
      | some s1 =>
        (if c.op = ByteCodeOp.Joint ∧ s.joint_stack ≠ [] then 1 else 0) + linkCount s1 cs

/-- The number of display records of all joints. -/
def totalDisplays (js : List Joint) : Nat := (js.map (fun j => j.displays.length)).sum

/-- The number of child entries of all joints. -/
def totalChildren (js : List Joint) : Nat := (js.map (fun j => j.children.length)).sum

/-- Two joints agree in every field that `readJoints` decodes: name, flags, matrix type,
Maya byte, transform and bounding volumes. -/
def SameDecoded (j j' : Joint) : Prop :=
  j'.id = j.id ∧ j'.flag = j.flag ∧ j'.bbMtxType = j.bbMtxType ∧ j'.mayaSSC = j.mayaSSC ∧
  j'.scale = j.scale ∧ j'.rotate = j.rotate ∧ j'.translate = j.translate ∧
  j'.boundingSphereRadius = j.boundingSphereRadius ∧ j'.boundingBox = j.boundingBox

/-- The ids of the joints are pairwise distinct. -/
def IdsDistinct (js : List Joint) : Prop :=
  ∀ (m n : Nat) (jm jn : Joint), js[m]? = some jm → js[n]? = some jn → jm.id = jn.id → m = n

/-- The slot of the joint array that the remap table gives for the joint index `u` of a
`Joint` command, the index being used as the `u16` value assigned to `joint`. -/
def slotOf (lut : List Nat) (u : Int) : Option Nat := lut[toU16 u]?

/-- The remap table is injective on the indices `us`: two of them that resolve to the
same slot are equal. -/
def RemapInjective (lut : List Nat) (us : List Int) : Prop :=
  ∀ a ∈ us, ∀ b ∈ us, ∀ slot, slotOf lut a = some slot → slotOf lut b = some slot → a = b

/-- Every index of a command list is an `s16` value. -/
def IdxS16 (cmds : List ByteCodeCmd) : Prop :=
  ∀ c ∈ cmds, -32768 ≤ c.idx ∧ c.idx < 32768

/-- The first slot that holds a joint with the id `x`. -/
def slotOfId (x : String) : List Joint → Option Nat
  | [] => none
  | j :: js => if j.id = x then some 0 else (slotOfId x js).map (fun k => k + 1)

/-- The slot of the parent of the joint in slot `c`: the slot of the joint whose id the
`parent` field names. -/
def parentSlot (js : List Joint) (c : Nat) : Option Nat :=
  match js[c]? with
  | none => none
  | some j =>
    match j.parent with
    | none => none
    | some x => slotOfId x js

/-- The slot reached from slot `c` by following `n` parent links. -/
def climb (js : List Joint) : Nat → Nat → Option Nat
  | 0, c => some c
  | n + 1, c =>
    match parentSlot js c with
    | none => none
    | some p => climb js n p

/-- The accesses of one loop iteration on command `c` in state `s` are in range with
respect to the tables of the context `ctx0`: a `Close` finds `hierarchy_stack`
non-empty, the index of a `Joint` is a non-negative `s16` below the length of the remap
table whose entry is a slot of the joint array, and a `Shape` finds `joint` resolving to
a slot of the joint array and `mat` selecting a material. -/
def AccessOk (ctx0 : BMDOutputContext) (s : State) (c : ByteCodeCmd) : Prop :=
  (c.op = ByteCodeOp.Close → s.hierarchy_stack ≠ []) ∧
  (c.op = ByteCodeOp.Joint → 0 ≤ c.idx ∧ c.idx < 32768 ∧ validJoint ctx0 c.idx.toNat) ∧
  (c.op = ByteCodeOp.Shape → validJoint ctx0 s.joint ∧ s.mat < ctx0.mdl.mMaterials.length)

/-- Whether logical joint index `n` can be resolved is decided by looking the entry
up. -/
instance validJointDecidable (ctx : BMDOutputContext) (n : Nat) : Decidable (validJoint ctx n) :=
  decidable_of_iff
    ((ctx.jointIdLut[n]?).any (fun ji => decide (ji < ctx.mdl.mJoints.length)) = true)
    (by
      unfold validJoint
      cases h : ctx.jointIdLut[n]? with
      | none => simp
      | some ji => simp)

instance accessOkDecidable (ctx0 : BMDOutputContext) (s : State) (c : ByteCodeCmd) :
    Decidable (AccessOk ctx0 s c) :=
  inferInstanceAs (Decidable (
    (c.op = ByteCodeOp.Close → s.hierarchy_stack ≠ []) ∧
    (c.op = ByteCodeOp.Joint → 0 ≤ c.idx ∧ c.idx < 32768 ∧ validJoint ctx0 c.idx.toNat) ∧
    (c.op = ByteCodeOp.Shape → validJoint ctx0 s.joint ∧ s.mat < ctx0.mdl.mMaterials.length)))

/-- A state in which the accesses that depend on earlier iterations are in range with
respect to the tables of `ctx0`: the stack invariant holds, the tables have the
lengths they had, `joint` can be resolved when the last command was a `Joint`, and so
can every entry of `joint_stack`. -/
def Guarded (ctx0 : BMDOutputContext) (s : State) : Prop :=
  StackInv s ∧ s.ctx.jointIdLut = ctx0.jointIdLut ∧
  s.ctx.mdl.mJoints.length = ctx0.mdl.mJoints.length ∧
  s.ctx.mdl.mMaterials.length = ctx0.mdl.mMaterials.length ∧
  (s.lastType = ByteCodeOp.Joint → validJoint ctx0 s.joint) ∧
  ∀ t ∈ s.joint_stack, validJoint ctx0 t

/-- The commands of `linkShapeStream` before its `Terminate`. -/
def linkShapeBody : List ByteCodeCmd :=
  [⟨ByteCodeOp.Joint, 0⟩, ⟨ByteCodeOp.Open, 0⟩, ⟨ByteCodeOp.Joint, 1⟩,
   ⟨ByteCodeOp.Material, 1⟩, ⟨ByteCodeOp.Shape, 0⟩, ⟨ByteCodeOp.Shape, 5⟩,
   ⟨ByteCodeOp.Close, 0⟩]

/-- Slot `n` of the joint array is the slot of the `b`-th of the joint indices `us`. -/
def Introduced (lut : List Nat) (us : List Int) (n b : Nat) : Prop :=
  ∃ u, us[b]? = some u ∧ slotOf lut u = some n

/-- The state of the parent and child links of the joints `js` after the `Joint`
commands with the indices `us` have been executed over the remap table `lut`: ids are
distinct; a joint with a parent or with children sits in the slot of one of the indices;
a child entry has the matching parent link; no child entry is repeated; a parent link has
the matching child entry; and the parent of a joint sits in the slot of an index that
comes earlier in `us` than the index of the joint. -/
def LinksInv (lut : List Nat) (us : List Int) (js : List Joint) : Prop :=
  IdsDistinct js ∧
  (∀ (k : Nat) (j : Joint), js[k]? = some j → (j.parent ≠ none ∨ j.children ≠ []) →
    ∃ b, Introduced lut us k b) ∧
  (∀ (m n : Nat) (jm jn : Joint), js[m]? = some jm → js[n]? = some jn →
    jn.id ∈ jm.children → jn.parent = some jm.id) ∧
  (∀ (m : Nat) (jm : Joint), js[m]? = some jm → jm.children.Nodup) ∧
  ParentHasChild js ∧
  (∀ (n : Nat) (jn : Joint) (x : String), js[n]? = some jn → jn.parent = some x →
    ∃ (a b m : Nat) (jm : Joint), a < b ∧ Introduced lut us m a ∧ Introduced lut us n b ∧
      js[m]? = some jm ∧ jm.id = x)

/-- Every entry of `joint_stack`, and `joint` when the last command was a `Joint`, is
the `u16` value of one of the joint indices `us`. -/
def StackFrom (us : List Int) (s : State) : Prop :=
  (∀ t ∈ s.joint_stack, ∃ u ∈ us, toU16 u = t) ∧
  (s.lastType = ByteCodeOp.Joint → ∃ u ∈ us, toU16 u = s.joint)

/-! ## Further example inputs -/

/-- The stream `Joint 0, Open, Joint 1, Material 1, Shape 0, Shape 5, Close,
Terminate`. -/
def linkShapeStream : List ByteCodeCmd :=
  [⟨ByteCodeOp.Joint, 0⟩, ⟨ByteCodeOp.Open, 0⟩, ⟨ByteCodeOp.Joint, 1⟩,
   ⟨ByteCodeOp.Material, 1⟩, ⟨ByteCodeOp.Shape, 0⟩, ⟨ByteCodeOp.Shape, 5⟩,
   ⟨ByteCodeOp.Close, 0⟩, ⟨ByteCodeOp.Terminate, 0⟩]

/-- The joints `SceneGraph::onRead` leaves for `exampleCtx` and `linkShapeStream`. -/
def linkShapeJoints : List Joint :=
  [{ id := "a", children := ["b"] },
   { id := "b", parent := some "a",
     displays := [⟨"m1", "Shapes TODO"⟩, ⟨"m1", "Shapes TODO"⟩] }]

end SceneGraph

end libcube.jsystem

namespace libcube.jsystem

/-- A section list with the one entry `INF1` whose declared size is 4. -/
def shortSizeBuf : List Byte := [0x49, 0x4E, 0x46, 0x31, 0, 0, 0, 4]

end libcube.jsystem

namespace libcube.jsystem

/-! ## Notions used to compare the import of two files -/

/-- The reader `r` over the buffer `b`: same position, same diagnostics. -/
def BinaryReader.onBuf (r : BinaryReader) (b : List Byte) : BinaryReader := { r with buf := b }

/-- Whether the section scan of `n` entries started at `pos` stays after the 32 bytes of
the file header: every entry is read at a position from 32 on. -/
def scanAfterHeader (buf : List Byte) : Nat → Nat → Bool
  | _, 0 => true
  | pos, n + 1 =>
    decide (32 ≤ pos) &&
      match beAt buf (pos + 4) 4 with
      | none => true
      | some s => scanAfterHeader buf (toU32 ((pos : Int) + (s : Int))) n

/-- The positions, counted from the section header, of the sub-offsets that the reader of
a section uses to address the file: for `EVP1` the offsets of the count, index and
weight tables; for `DRW1` the two table offsets; for `JNT1` the offsets of the joint
data, the remap table and the name table; for `MAT3` the offsets of the remap table and
the name table; for `INF1` the offset of the scene graph. -/
def subOffsetSlots (tag : Nat) : List Nat :=
  if tag = fourCC 'E' 'V' 'P' '1' then [12, 16, 20]
  else if tag = fourCC 'D' 'R' 'W' '1' then [12, 16]
  else if tag = fourCC 'J' 'N' 'T' '1' then [12, 16, 20]
  else if tag = fourCC 'M' 'A' 'T' '3' then [16, 20]
  else if tag = fourCC 'I' 'N' 'F' '1' then [20]
  else []

/-- Every section of the table lies after the 32 bytes of the file header, not further
than `2^30`, and each sub-offset its reader uses points forward from the section header,
by less than `2^30`: reading the section never leads back into the file header. -/
def SectionsAfterHeader (buf : List Byte) (imp : BMDImporter) : Prop :=
  ∀ x ∈ imp.mSections, 40 ≤ x.2.streamPos ∧ x.2.streamPos ≤ 1073741824 ∧
    ∀ k ∈ subOffsetSlots x.1, ∀ o ∈ beAt buf (x.2.streamPos - 8 + k) 4, o < 1073741824

instance sectionsAfterHeaderDecidable (buf : List Byte) (imp : BMDImporter) :
    Decidable (SectionsAfterHeader buf imp) :=
  inferInstanceAs (Decidable (
    ∀ x ∈ imp.mSections, 40 ≤ x.2.streamPos ∧ x.2.streamPos ≤ 1073741824 ∧
      ∀ k ∈ subOffsetSlots x.1, ∀ o ∈ beAt buf (x.2.streamPos - 8 + k) 4, o < 1073741824))

end libcube.jsystem

namespace libcube.jsystem

/-- The file `infJntBmd` with another file-size word and other reserved bytes. -/
def infJntBmdOther : List Byte :=
  [0x4A, 0x33, 0x44, 0x32, 0x62, 0x6D, 0x64, 0x33, 0xDE, 0xAD, 0xBE, 0xEF, 0, 0, 0, 2,
   1, 2, 3, 4, 5, 6, 7, 8, 9, 10, 11, 12, 13, 14, 15, 16] ++
  jntBuf 2 [0, 0, 0, 1, 0, 0] 0 ++ infSection

end libcube.jsystem

namespace libcube.jsystem

/-- The section table `lex` records for `infJntBmd`: the `JNT1` section at 32 and the
`INF1` section at 280. -/
def infJntImp : BMDImporter :=
  { mSections := [(fourCC 'I' 'N' 'F' '1', ⟨288, 44⟩), (fourCC 'J' 'N' 'T' '1', ⟨40, 248⟩)] }

end libcube.jsystem

/-! ## Scene-graph interpreter: basic facts -/

namespace libcube.jsystem

theorem toU16_of_nonneg {i : Int} (h0 : 0 ≤ i) (h1 : i < 65536) : (toU16 i : Int) = i := by
  unfold toU16
  rw [Int.emod_eq_of_lt h0 h1]
  exact Int.toNat_of_nonneg h0

namespace SceneGraph

theorem modifyJoint_eq_some {js js' : List Joint} {i : Nat} {f : Joint → Joint} :
    modifyJoint js i f = some js' ↔ ∃ j, js[i]? = some j ∧ js' = js.set i (f j) := by
  unfold modifyJoint
  cases h : js[i]? with
  | none => simp
  | some j => simp [eq_comm]

theorem step_Open_eq (s : State) (idx : Int) :
    step s ⟨ByteCodeOp.Open, idx⟩ = some { s with
      joint_stack :=
        if s.lastType = ByteCodeOp.Joint then s.joint_stack ++ [s.joint] else s.joint_stack,
      hierarchy_stack := s.hierarchy_stack ++ [s.lastType] } := by
  simp [step, execSwitch, execOpen]

theorem step_Close_eq (s : State) (idx : Int) :
    step s ⟨ByteCodeOp.Close, idx⟩ = execClose s := by
  simp only [step, execSwitch]
  cases execClose s <;> simp

theorem step_Joint_eq (s : State) (idx : Int) :
    step s ⟨ByteCodeOp.Joint, idx⟩ =
      (execJoint s idx).map (fun s1 => { s1 with lastType := ByteCodeOp.Joint }) := by
  simp only [step, execSwitch]
  cases execJoint s idx <;> simp

theorem step_Material_eq (s : State) (idx : Int) :
    step s ⟨ByteCodeOp.Material, idx⟩ =
      some { s with mat := toU16 idx, lastType := ByteCodeOp.Material } := by
  simp [step, execSwitch, execMaterial]

theorem step_Shape_eq (s : State) (idx : Int) :
    step s ⟨ByteCodeOp.Shape, idx⟩ =
      (execShape s).map (fun s1 => { s1 with lastType := ByteCodeOp.Shape }) := by
  simp only [step, execSwitch]
  cases execShape s <;> simp

/-- An op that is none of the six enumerators only updates `lastType`. -/
theorem step_other_eq (s : State) (cmd : ByteCodeCmd)
    (h0 : cmd.op ≠ ByteCodeOp.Terminate) (h1 : cmd.op ≠ ByteCodeOp.Open)
    (h2 : cmd.op ≠ ByteCodeOp.Close) (h3 : cmd.op ≠ ByteCodeOp.Joint)
    (h4 : cmd.op ≠ ByteCodeOp.Material) (h5 : cmd.op ≠ ByteCodeOp.Shape) :
    step s cmd = some { s with lastType := cmd.op } := by
  simp [step, execSwitch, h0, h1, h2, h3, h4, h5]

/-- Case analysis on the op of a command. -/
theorem cmd_cases {motive : ByteCodeCmd → Prop}
    (hT : ∀ i, motive ⟨ByteCodeOp.Terminate, i⟩)
    (hO : ∀ i, motive ⟨ByteCodeOp.Open, i⟩) (hC : ∀ i, motive ⟨ByteCodeOp.Close, i⟩)
    (hJ : ∀ i, motive ⟨ByteCodeOp.Joint, i⟩) (hM : ∀ i, motive ⟨ByteCodeOp.Material, i⟩)
    (hS : ∀ i, motive ⟨ByteCodeOp.Shape, i⟩)
    (hX : ∀ c : ByteCodeCmd, c.op ≠ ByteCodeOp.Terminate → c.op ≠ ByteCodeOp.Open →
      c.op ≠ ByteCodeOp.Close → c.op ≠ ByteCodeOp.Joint → c.op ≠ ByteCodeOp.Material →
      c.op ≠ ByteCodeOp.Shape → motive c) (cmd : ByteCodeCmd) : motive cmd := by
  obtain ⟨op, idx⟩ := cmd
  by_cases h0 : op = ByteCodeOp.Terminate
  · subst h0; exact hT idx
  by_cases h1 : op = ByteCodeOp.Open
  · subst h1; exact hO idx
  by_cases h2 : op = ByteCodeOp.Close
  · subst h2; exact hC idx
  by_cases h3 : op = ByteCodeOp.Joint
  · subst h3; exact hJ idx
  by_cases h4 : op = ByteCodeOp.Material
  · subst h4; exact hM idx
  by_cases h5 : op = ByteCodeOp.Shape
  · subst h5; exact hS idx
  exact hX ⟨op, idx⟩ h0 h1 h2 h3 h4 h5

theorem run_append_Terminate (s : State) (pre post : List ByteCodeCmd) (i : Int) :
    run s (pre ++ ⟨ByteCodeOp.Terminate, i⟩ :: post) = run s (pre ++ [⟨ByteCodeOp.Terminate, i⟩]) := by
  induction pre generalizing s with
  | nil => simp [run]
  | cons c cs ih =>
    simp only [List.cons_append, run]
    split
    · rfl
    · cases step s c with
      | none => rfl
      | some s1 => exact ih s1


/-- The joints after the two statements of `linkJoint`, when parent slot `pi`
holds `p` and child slot `ci` holds `c`. -/
theorem linkJoint_eq_some {ctx ctx' : BMDOutputContext} {back : Nat} {newId : Int} :
    linkJoint ctx back newId = some ctx' ↔
    ∃ pi n ci p c, ctx.jointIdLut[back]? = some pi ∧ toIndex newId = some n ∧
      ctx.jointIdLut[n]? = some ci ∧ ctx.mdl.mJoints[pi]? = some p ∧
      ctx.mdl.mJoints[ci]? = some c ∧
      ctx' = { ctx with mdl := { ctx.mdl with mJoints := linked ctx.mdl.mJoints pi ci p c } } := by
  unfold linkJoint linked
  constructor
  · intro h
    split at h
    next pi ci hpi hci =>
      rw [Option.bind_eq_some] at hci
      obtain ⟨n, hn, hci⟩ := hci
      split at h
      · exact absurd h (by simp)
      next c hc =>
        split at h
        · exact absurd h (by simp)
        next js1 hjs1 =>
          obtain ⟨p, hp, rfl⟩ := modifyJoint_eq_some.1 hjs1
          have hplt : pi < ctx.mdl.mJoints.length := (List.getElem?_eq_some_iff.1 hp).1
          have hclt : ci < ctx.mdl.mJoints.length := (List.getElem?_eq_some_iff.1 hc).1
          rw [List.getElem?_set_self hplt] at h
          simp only [modifyJoint, List.getElem?_set, hplt, if_true, hc] at h
          refine ⟨pi, n, ci, p, c, hpi, hn, hci, hp, hc, ?_⟩
          by_cases hpc : pi = ci
          · simp only [hpc, if_true] at h ⊢
            simpa [eq_comm, addChild] using h
          · simp only [hpc, if_false] at h ⊢
            simpa [eq_comm, addChild] using h
    · exact absurd h (by simp)
  · rintro ⟨pi, n, ci, p, c, hpi, hn, hci, hp, hc, rfl⟩
    have hplt : pi < ctx.mdl.mJoints.length := (List.getElem?_eq_some_iff.1 hp).1
    simp only [hpi, hn, Option.some_bind, hci, hc, modifyJoint, hp, List.getElem?_set_self hplt,
      List.getElem?_set, hplt, if_true]
    by_cases hpc : pi = ci
    · simp [hpc, addChild]
    · simp [hpc, addChild]


theorem linked_getElem? {js : List Joint} {pi ci : Nat} {p c : Joint}
    (hp : js[pi]? = some p) (hc : js[ci]? = some c) (k : Nat) :
    (linked js pi ci p c)[k]? =
      if k = ci then some (setParent (if pi = ci then addChild p c.id else c) p.id)
      else if k = pi then some (addChild p c.id) else js[k]? := by
  have hplt : pi < js.length := (List.getElem?_eq_some_iff.1 hp).1
  have hclt : ci < js.length := (List.getElem?_eq_some_iff.1 hc).1
  unfold linked
  simp only [List.getElem?_set, List.length_set, hplt, hclt, if_true]
  by_cases h1 : k = ci
  · subst h1; simp
  · have h1' : ¬ ci = k := fun h => h1 h.symm
    by_cases h2 : k = pi
    · subst h2; simp [h1, h1']
    · have h2' : ¬ pi = k := fun h => h2 h.symm
      simp [h1, h2, h1', h2']

/-- Every joint keeps its id and its earlier children through a link; the parent
slot gains the child's id. -/
theorem linked_old {js : List Joint} {pi ci : Nat} {p c : Joint}
    (hp : js[pi]? = some p) (hc : js[ci]? = some c) {m : Nat} {q : Joint}
    (hq : js[m]? = some q) :
    ∃ q1, (linked js pi ci p c)[m]? = some q1 ∧ q1.id = q.id ∧
      (∀ x ∈ q.children, x ∈ q1.children) ∧ (m = pi → c.id ∈ q1.children) := by
  rw [linked_getElem? hp hc]
  by_cases h1 : m = ci
  · subst h1
    have hqc : q = c := by rw [hc] at hq; exact (Option.some.inj hq).symm
    subst hqc
    by_cases h2 : pi = m
    · subst h2
      have hpq : p = q := by rw [hp] at hq; exact Option.some.inj hq
      subst hpq
      refine ⟨setParent (addChild p p.id) p.id, by simp, ?_, ?_, ?_⟩ <;>
        simp [setParent, addChild]
      intro x hx; exact Or.inl hx
    · refine ⟨setParent q p.id, by simp [h2], by simp [setParent], by simp [setParent], ?_⟩
      intro h; exact absurd h.symm h2
  · by_cases h2 : m = pi
    · subst h2
      have hpq : p = q := by rw [hp] at hq; exact Option.some.inj hq
      subst hpq
      refine ⟨addChild p c.id, by simp [h1], ?_, ?_, ?_⟩ <;> simp [addChild]
      intro x hx; exact Or.inl hx
    · exact ⟨q, by simp [h1, h2, hq], rfl, fun _ hx => hx, fun h => absurd h h2⟩

theorem ParentHasChild_linked {js : List Joint} {pi ci : Nat} {p c : Joint}
    (hp : js[pi]? = some p) (hc : js[ci]? = some c) (h : ParentHasChild js) :
    ParentHasChild (linked js pi ci p c) := by
  intro j1 hj1 x hx
  obtain ⟨k, hk⟩ := List.getElem?_of_mem hj1
  rw [linked_getElem? hp hc] at hk
  by_cases h1 : k = ci
  · -- the joint that was just linked
    simp only [h1, if_true, Option.some.injEq] at hk
    subst hk
    have hxp : x = p.id := by simpa [setParent, eq_comm] using hx
    subst hxp
    obtain ⟨q1, hq1, hid, -, hnew⟩ := linked_old hp hc hp
    refine ⟨q1, List.getElem?_mem hq1, hid, ?_⟩
    have : (setParent (if pi = ci then addChild p c.id else c) p.id).id = c.id := by
      by_cases h2 : pi = ci
      · subst h2
        have : p = c := by rw [hp] at hc; exact Option.some.inj hc
        subst this
        simp [setParent, addChild]
      · simp [setParent, h2]
    rw [this]
    exact hnew rfl
  · -- any other joint keeps its parent field
    have hold : ∃ j, js[k]? = some j ∧ j.id = j1.id ∧ j.parent = j1.parent := by
      by_cases h2 : k = pi
      · subst h2
        simp only [h1, if_true, if_false, Option.some.injEq] at hk
        subst hk
        exact ⟨p, hp, by simp [addChild], by simp [addChild]⟩
      · simp only [h1, h2, if_false] at hk
        exact ⟨j1, hk, rfl, rfl⟩
    obtain ⟨j, hj, hjid, hjpar⟩ := hold
    obtain ⟨q, hqmem, hqid, hqch⟩ := h j (List.getElem?_mem hj) x (hjpar ▸ hx)
    obtain ⟨m, hm⟩ := List.getElem?_of_mem hqmem
    obtain ⟨q1, hq1, hid, hsub, -⟩ := linked_old hp hc hm
    exact ⟨q1, List.getElem?_mem hq1, hid.trans hqid, hsub _ (hjid ▸ hqch)⟩

end SceneGraph
end libcube.jsystem

/-! ## Scene-graph interpreter: effect of one step on the context -/

namespace libcube.jsystem
namespace SceneGraph

theorem execShape_eq_some {s s' : State} :
    execShape s = some s' ↔
    ∃ ji m j, s.ctx.jointIdLut[s.joint]? = some ji ∧ s.ctx.mdl.mMaterials[s.mat]? = some m ∧
      s.ctx.mdl.mJoints[ji]? = some j ∧
      s' = { s with ctx := { s.ctx with mdl := { s.ctx.mdl with
        mJoints := s.ctx.mdl.mJoints.set ji (addDisplay j ⟨m.id, "Shapes TODO"⟩) } } } := by
  unfold execShape
  constructor
  · intro h
    split at h
    next ji m hji hm =>
      split at h
      · exact absurd h (by simp)
      next js hjs =>
        obtain ⟨j, hj, rfl⟩ := modifyJoint_eq_some.1 hjs
        exact ⟨ji, m, j, hji, hm, hj, (Option.some.inj h).symm⟩
    · exact absurd h (by simp)
  · rintro ⟨ji, m, j, hji, hm, hj, rfl⟩
    simp [hji, hm, modifyJoint, hj]

theorem execJoint_eq_some {s s' : State} {idx : Int} :
    execJoint s idx = some s' ↔
    (s.joint_stack = [] ∧ s' = { s with joint := toU16 idx }) ∨
    ∃ back ctx', s.joint_stack.getLast? = some back ∧ linkJoint s.ctx back idx = some ctx' ∧
      s' = { s with ctx := ctx', joint := toU16 idx } := by
  unfold execJoint
  cases hb : s.joint_stack.getLast? with
  | none =>
    have : s.joint_stack = [] := List.getLast?_eq_none_iff.1 hb
    simp [this, eq_comm]
  | some back =>
    have : s.joint_stack ≠ [] := by
      intro h; rw [h] at hb; simp at hb
    cases hl : linkJoint s.ctx back idx with
    | none => simp [this, hl]
    | some c => simp [this, hl, eq_comm]

/-- What one loop iteration can do to the context: nothing, one link, or one
display record. The remap tables, the materials and the number of joints never change. -/
theorem step_ctx_cases {s s' : State} {cmd : ByteCodeCmd} (h : step s cmd = some s') :
    s'.ctx = s.ctx ∨
    (∃ pi ci p c, s.ctx.mdl.mJoints[pi]? = some p ∧ s.ctx.mdl.mJoints[ci]? = some c ∧
      s'.ctx = { s.ctx with mdl := { s.ctx.mdl with
        mJoints := linked s.ctx.mdl.mJoints pi ci p c } }) ∨
    (∃ ji j d, s.ctx.mdl.mJoints[ji]? = some j ∧
      s'.ctx = { s.ctx with mdl := { s.ctx.mdl with
        mJoints := s.ctx.mdl.mJoints.set ji (addDisplay j d) } }) := by
  induction cmd using cmd_cases with
  | hT i =>
    simp [step, execSwitch] at h
    subst h; exact Or.inl rfl
  | hO i =>
    rw [step_Open_eq] at h
    cases h; exact Or.inl rfl
  | hC i =>
    rw [step_Close_eq] at h
    unfold execClose at h
    split at h
    · exact absurd h (by simp)
    · split at h
      · split at h
        · exact absurd h (by simp)
        · cases h; exact Or.inl rfl
      · cases h; exact Or.inl rfl
  | hJ i =>
    rw [step_Joint_eq, Option.map_eq_some'] at h
    obtain ⟨s1, h1, rfl⟩ := h
    rcases execJoint_eq_some.1 h1 with ⟨-, rfl⟩ | ⟨back, ctx', -, hl, rfl⟩
    · exact Or.inl rfl
    · obtain ⟨pi, n, ci, p, c, -, -, -, hp, hc, rfl⟩ := linkJoint_eq_some.1 hl
      exact Or.inr (Or.inl ⟨pi, ci, p, c, hp, hc, rfl⟩)
  | hM i =>
    rw [step_Material_eq] at h
    cases h; exact Or.inl rfl
  | hS i =>
    rw [step_Shape_eq, Option.map_eq_some'] at h
    obtain ⟨s1, h1, rfl⟩ := h
    obtain ⟨ji, m, j, -, -, hj, rfl⟩ := execShape_eq_some.1 h1
    exact Or.inr (Or.inr ⟨ji, j, _, hj, rfl⟩)
  | hX c h0 h1 h2 h3 h4 h5 =>
    rw [step_other_eq s c h0 h1 h2 h3 h4 h5] at h
    cases h; exact Or.inl rfl

/-- An invariant of the context that every loop iteration keeps holds when the
loop exits. -/
theorem run_ctx_invariant (P : BMDOutputContext → Prop)
    (hstep : ∀ (s s' : State) (cmd : ByteCodeCmd), step s cmd = some s' → P s.ctx → P s'.ctx)
    (cmds : List ByteCodeCmd) :
    ∀ s s', run s cmds = some s' → P s.ctx → P s'.ctx := by
  induction cmds with
  | nil => intro s s' h; simp [run] at h
  | cons c cs ih =>
    intro s s' h hP
    simp only [run] at h
    split at h
    · cases h; exact hP
    · cases hs : step s c with
      | none => simp [hs] at h
      | some s1 =>
        simp only [hs] at h
        exact ih s1 s' h (hstep s s1 c hs hP)

theorem ParentHasChild_addDisplay {js : List Joint} {ji : Nat} {j : Joint} (d : Display)
    (hj : js[ji]? = some j) (h : ParentHasChild js) :
    ParentHasChild (js.set ji (addDisplay j d)) := by
  have hlt : ji < js.length := (List.getElem?_eq_some_iff.1 hj).1
  have hget : ∀ k, (js.set ji (addDisplay j d))[k]? =
      if k = ji then some (addDisplay j d) else js[k]? := by
    intro k
    rw [List.getElem?_set]
    by_cases hk : k = ji
    · subst hk; simp [hlt]
    · have : ¬ ji = k := fun e => hk e.symm
      simp [hk, this]
  have hold : ∀ (k : Nat) (q : Joint), js[k]? = some q → ∃ q1 : Joint, (js.set ji (addDisplay j d))[k]? = some q1 ∧
      q1.id = q.id ∧ q1.parent = q.parent ∧ q1.children = q.children := by
    intro k q hq
    rw [hget]
    by_cases hk : k = ji
    · subst hk
      have : j = q := by rw [hj] at hq; exact Option.some.inj hq
      subst this
      exact ⟨addDisplay j d, by simp, rfl, rfl, rfl⟩
    · exact ⟨q, by simp [hk, hq], rfl, rfl, rfl⟩
  intro j1 hj1 x hx
  obtain ⟨k, hk⟩ := List.getElem?_of_mem hj1
  have hk0 : ∃ j0, js[k]? = some j0 := by
    have hklt : k < js.length := by
      have := (List.getElem?_eq_some_iff.1 hk).1
      simpa using this
    exact ⟨js[k], List.getElem?_eq_getElem hklt⟩
  obtain ⟨j0, hj0⟩ := hk0
  obtain ⟨j1', hj1', hid, hpar, hch⟩ := hold k j0 hj0
  have : j1' = j1 := by rw [hk] at hj1'; exact (Option.some.inj hj1').symm
  subst this
  obtain ⟨q, hqmem, hqid, hqch⟩ := h j0 (List.getElem?_mem hj0) x (hpar ▸ hx)
  obtain ⟨m, hm⟩ := List.getElem?_of_mem hqmem
  obtain ⟨q1, hq1, hid1, -, hch1⟩ := hold m q hm
  exact ⟨q1, List.getElem?_mem hq1, hid1.trans hqid, by rw [hch1, hid]; exact hqch⟩

theorem step_ParentHasChild {s s' : State} {cmd : ByteCodeCmd} (h : step s cmd = some s')
    (hP : ParentHasChild s.ctx.mdl.mJoints) : ParentHasChild s'.ctx.mdl.mJoints := by
  rcases step_ctx_cases h with h1 | ⟨pi, ci, p, c, hp, hc, h1⟩ | ⟨ji, j, d, hj, h1⟩
  · rw [h1]; exact hP
  · rw [h1]; exact ParentHasChild_linked hp hc hP
  · rw [h1]; exact ParentHasChild_addDisplay d hj hP

end SceneGraph
end libcube.jsystem

/-! ## Scene-graph interpreter: stacks -/

namespace libcube.jsystem
namespace SceneGraph

theorem opens_cons (c : ByteCodeCmd) (cs : List ByteCodeCmd) :
    opens (c :: cs) = opens cs + (if c.op = ByteCodeOp.Open then 1 else 0) := by
  simp [opens, List.countP_cons]

theorem closes_cons (c : ByteCodeCmd) (cs : List ByteCodeCmd) :
    closes (c :: cs) = closes cs + (if c.op = ByteCodeOp.Close then 1 else 0) := by
  simp [closes, List.countP_cons]

theorem execClose_eq_some {s s' : State} :
    execClose s = some s' ↔
    ∃ hs t, s.hierarchy_stack = hs ++ [t] ∧
      ((t = ByteCodeOp.Joint ∧ ∃ js x, s.joint_stack = js ++ [x] ∧
          s' = { s with joint_stack := js, hierarchy_stack := hs }) ∨
       (t ≠ ByteCodeOp.Joint ∧ s' = { s with hierarchy_stack := hs })) := by
  unfold execClose
  constructor
  · intro h
    split at h
    · exact absurd h (by simp)
    next t ht =>
      have hhs : s.hierarchy_stack.dropLast ++ [t] = s.hierarchy_stack :=
        List.dropLast_append_getLast? t ht
      refine ⟨s.hierarchy_stack.dropLast, t, hhs.symm, ?_⟩
      split at h
      next htj =>
        split at h
        · exact absurd h (by simp)
        next hne =>
          refine Or.inl ⟨htj, s.joint_stack.dropLast, s.joint_stack.getLast hne,
            (List.dropLast_append_getLast hne).symm, (Option.some.inj h).symm⟩
      next htj => exact Or.inr ⟨htj, (Option.some.inj h).symm⟩
  · rintro ⟨hs, t, hhs, ⟨htj, js, x, hjs, rfl⟩ | ⟨htj, rfl⟩⟩
    · simp [hhs, hjs, htj]
    · simp [hhs, htj]

/-- What one loop iteration does to the two stacks. -/
theorem step_stack_cases {s s' : State} {cmd : ByteCodeCmd} (h : step s cmd = some s') :
    (cmd.op ≠ ByteCodeOp.Open ∧ cmd.op ≠ ByteCodeOp.Close ∧
      s'.hierarchy_stack = s.hierarchy_stack ∧ s'.joint_stack = s.joint_stack) ∨
    (cmd.op = ByteCodeOp.Open ∧ s'.hierarchy_stack = s.hierarchy_stack ++ [s.lastType] ∧
      s'.joint_stack = (if s.lastType = ByteCodeOp.Joint then s.joint_stack ++ [s.joint]
        else s.joint_stack)) ∨
    (cmd.op = ByteCodeOp.Close ∧ ∃ t, s.hierarchy_stack = s'.hierarchy_stack ++ [t] ∧
      ((t = ByteCodeOp.Joint ∧ ∃ x, s.joint_stack = s'.joint_stack ++ [x]) ∨
       (t ≠ ByteCodeOp.Joint ∧ s'.joint_stack = s.joint_stack))) := by
  induction cmd using cmd_cases with
  | hT i =>
    simp [step, execSwitch] at h
    subst h; exact Or.inl ⟨by simp, by simp, rfl, rfl⟩
  | hO i =>
    rw [step_Open_eq] at h
    cases h; exact Or.inr (Or.inl ⟨rfl, rfl, rfl⟩)
  | hC i =>
    rw [step_Close_eq] at h
    obtain ⟨hs, t, hhs, ⟨htj, js, x, hjs, rfl⟩ | ⟨htj, rfl⟩⟩ := execClose_eq_some.1 h
    · exact Or.inr (Or.inr ⟨rfl, t, hhs, Or.inl ⟨htj, x, hjs⟩⟩)
    · exact Or.inr (Or.inr ⟨rfl, t, hhs, Or.inr ⟨htj, rfl⟩⟩)
  | hJ i =>
    rw [step_Joint_eq, Option.map_eq_some'] at h
    obtain ⟨s1, h1, rfl⟩ := h
    rcases execJoint_eq_some.1 h1 with ⟨-, rfl⟩ | ⟨back, ctx', -, -, rfl⟩ <;>
      exact Or.inl ⟨by simp, by simp, rfl, rfl⟩
  | hM i =>
    rw [step_Material_eq] at h
    cases h; exact Or.inl ⟨by simp, by simp, rfl, rfl⟩
  | hS i =>
    rw [step_Shape_eq, Option.map_eq_some'] at h
    obtain ⟨s1, h1, rfl⟩ := h
    obtain ⟨ji, m, j, -, -, -, rfl⟩ := execShape_eq_some.1 h1
    exact Or.inl ⟨by simp, by simp, rfl, rfl⟩
  | hX c h0 h1 h2 h3 h4 h5 =>
    rw [step_other_eq s c h0 h1 h2 h3 h4 h5] at h
    cases h; exact Or.inl ⟨h1, h2, rfl, rfl⟩

theorem step_StackInv {s s' : State} {cmd : ByteCodeCmd} (h : step s cmd = some s')
    (hI : StackInv s) : StackInv s' := by
  unfold StackInv at hI ⊢
  rcases step_stack_cases h with ⟨-, -, h1, h2⟩ | ⟨-, h1, h2⟩ |
    ⟨-, t, h1, ⟨htj, x, h2⟩ | ⟨htj, h2⟩⟩
  · rw [h1, h2]; exact hI
  · rw [h1, h2, List.count_append]
    by_cases hl : s.lastType = ByteCodeOp.Joint
    · simp [hl, hI]
    · have : List.count ByteCodeOp.Joint [s.lastType] = 0 := by
        rw [List.count_singleton]
        exact if_neg (fun e => hl (by simpa using e))
      simp [hl, hI, this]
  · rw [h1, h2, List.count_append, htj] at hI
    simp at hI
    exact hI
  · rw [h1, List.count_append] at hI
    have : List.count ByteCodeOp.Joint [t] = 0 := by
      rw [List.count_singleton]
      exact if_neg (fun e => htj (by simpa using e))
    rw [this] at hI
    rw [h2]
    simpa using hI

/-- The depth of `hierarchy_stack` after one loop iteration. -/
theorem step_depth {s s' : State} {cmd : ByteCodeCmd} (h : step s cmd = some s') :
    s'.hierarchy_stack.length + (if cmd.op = ByteCodeOp.Close then 1 else 0) =
      s.hierarchy_stack.length + (if cmd.op = ByteCodeOp.Open then 1 else 0) := by
  rcases step_stack_cases h with ⟨h1, h2, h3, -⟩ | ⟨h1, h3, -⟩ | ⟨h1, t, h3, -⟩
  · simp [h1, h2, h3]
  · simp [h1, h3]
  · simp [h1, h3]

/-- Balance of the stacks over a run: the final depth is the initial depth plus the
opens minus the closes, and the stack invariant is kept. -/
theorem run_depth (pre : List ByteCodeCmd) (i : Int) (post : List ByteCodeCmd) :
    ∀ s s', (∀ c ∈ pre, c.op ≠ ByteCodeOp.Terminate) →
      run s (pre ++ ⟨ByteCodeOp.Terminate, i⟩ :: post) = some s' →
      s'.hierarchy_stack.length + closes pre = s.hierarchy_stack.length + opens pre ∧
      (StackInv s → StackInv s') := by
  induction pre with
  | nil =>
    intro s s' _ h
    simp [run] at h
    subst h
    simp [closes, opens]
  | cons c cs ih =>
    intro s s' hT h
    have hc : c.op ≠ ByteCodeOp.Terminate := hT c (List.mem_cons_self _ _)
    simp only [List.cons_append, run, hc, if_false] at h
    cases hs : step s c with
    | none => simp [hs] at h
    | some s1 =>
      simp only [hs] at h
      obtain ⟨hd, hinv⟩ := ih s1 s' (fun c' hc' => hT c' (List.mem_cons_of_mem _ hc')) h
      have hstep := step_depth hs
      refine ⟨?_, fun hI => hinv (step_StackInv hs hI)⟩
      rw [opens_cons, closes_cons]
      omega

end SceneGraph
end libcube.jsystem

/-! ## Scene-graph interpreter: frame and totality -/

namespace libcube.jsystem
namespace SceneGraph

theorem length_linked (js : List Joint) (pi ci : Nat) (p c : Joint) :
    (linked js pi ci p c).length = js.length := by
  simp [linked]

/-- A loop iteration changes nothing but the joints, and not their number. -/
theorem step_frame {s s' : State} {cmd : ByteCodeCmd} (h : step s cmd = some s') :
    s'.ctx.jointIdLut = s.ctx.jointIdLut ∧ s'.ctx.materialIdLut = s.ctx.materialIdLut ∧
    s'.ctx.mdl.mMaterials = s.ctx.mdl.mMaterials ∧
    s'.ctx.mdl.mDrawMatrices = s.ctx.mdl.mDrawMatrices ∧
    s'.ctx.mdl.mScalingRule = s.ctx.mdl.mScalingRule ∧
    s'.ctx.mdl.mJoints.length = s.ctx.mdl.mJoints.length := by
  rcases step_ctx_cases h with h1 | ⟨pi, ci, p, c, -, -, h1⟩ | ⟨ji, j, d, -, h1⟩
  · simp [h1]
  · simp [h1, length_linked]
  · simp [h1]

/-- The registers `joint`, `mat` and `lastType` after a loop iteration. -/
theorem step_regs {s s' : State} {cmd : ByteCodeCmd} (h : step s cmd = some s') :
    s'.joint = (if cmd.op = ByteCodeOp.Joint then toU16 cmd.idx else s.joint) ∧
    s'.mat = (if cmd.op = ByteCodeOp.Material then toU16 cmd.idx else s.mat) ∧
    s'.lastType = (if cmd.op = ByteCodeOp.Terminate ∨ cmd.op = ByteCodeOp.Open ∨
      cmd.op = ByteCodeOp.Close then s.lastType else cmd.op) := by
  induction cmd using cmd_cases with
  | hT i =>
    simp [step, execSwitch] at h
    subst h; simp
  | hO i =>
    rw [step_Open_eq] at h
    cases h; simp
  | hC i =>
    rw [step_Close_eq] at h
    obtain ⟨hs, t, hhs, ⟨htj, js, x, hjs, rfl⟩ | ⟨htj, rfl⟩⟩ := execClose_eq_some.1 h <;> simp
  | hJ i =>
    rw [step_Joint_eq, Option.map_eq_some'] at h
    obtain ⟨s1, h1, rfl⟩ := h
    rcases execJoint_eq_some.1 h1 with ⟨-, rfl⟩ | ⟨back, ctx', -, -, rfl⟩ <;> simp
  | hM i =>
    rw [step_Material_eq] at h
    cases h; simp
  | hS i =>
    rw [step_Shape_eq, Option.map_eq_some'] at h
    obtain ⟨s1, h1, rfl⟩ := h
    obtain ⟨ji, m, j, -, -, -, rfl⟩ := execShape_eq_some.1 h1
    simp
  | hX c h0 h1 h2 h3 h4 h5 =>
    rw [step_other_eq s c h0 h1 h2 h3 h4 h5] at h
    cases h; simp [h0, h1, h2, h3, h4]

theorem toU16_eq_toNat {i : Int} (h0 : 0 ≤ i) (h1 : i < 32768) : toU16 i = i.toNat := by
  have h := toU16_of_nonneg h0 (by omega : i < 65536)
  omega

theorem step_Ready {ctx0 : BMDOutputContext} {s s' : State} {cmd : ByteCodeCmd}
    (h : step s cmd = some s') (hR : Ready ctx0 s) (hok : CmdOk ctx0 cmd) : Ready ctx0 s' := by
  obtain ⟨hinv, hlut, hlen, hmlen, hj, hm, hjs⟩ := hR
  obtain ⟨f1, -, f3, -, -, f6⟩ := step_frame h
  obtain ⟨r1, r2, -⟩ := step_regs h
  refine ⟨step_StackInv h hinv, f1.trans hlut, f6.trans hlen, by rw [f3]; exact hmlen, ?_, ?_, ?_⟩
  · rw [r1]
    by_cases hc : cmd.op = ByteCodeOp.Joint
    · obtain ⟨h0, h1, hv⟩ := hok.1 hc
      rw [if_pos hc, toU16_eq_toNat h0 h1]; exact hv
    · rw [if_neg hc]; exact hj
  · rw [r2]
    by_cases hc : cmd.op = ByteCodeOp.Material
    · rw [if_pos hc]; exact hok.2 hc
    · rw [if_neg hc]; exact hm
  · intro t ht
    rcases step_stack_cases h with ⟨-, -, -, h2⟩ | ⟨-, -, h2⟩ |
      ⟨-, t', -, ⟨-, x, h2⟩ | ⟨-, h2⟩⟩
    · exact hjs t (h2 ▸ ht)
    · rw [h2] at ht
      by_cases hl : s.lastType = ByteCodeOp.Joint
      · rw [if_pos hl] at ht
        rcases List.mem_append.1 ht with ht | ht
        · exact hjs t ht
        · rw [List.mem_singleton.1 ht]; exact hj
      · rw [if_neg hl] at ht; exact hjs t ht
    · exact hjs t (by rw [h2]; exact List.mem_append_left _ ht)
    · exact hjs t (h2 ▸ ht)

theorem step_succeeds {ctx0 : BMDOutputContext} {s : State} {cmd : ByteCodeCmd}
    (hR : Ready ctx0 s) (hok : CmdOk ctx0 cmd)
    (hclose : cmd.op = ByteCodeOp.Close → s.hierarchy_stack ≠ []) :
    ∃ s', step s cmd = some s' := by
  obtain ⟨hinv, hlut, hlen, hmlen, hj, hm, hjs⟩ := hR
  have hget : ∀ n, validJoint ctx0 n →
      ∃ ji q, s.ctx.jointIdLut[n]? = some ji ∧ s.ctx.mdl.mJoints[ji]? = some q := by
    intro n ⟨ji, h1, h2⟩
    have hlt : ji < s.ctx.mdl.mJoints.length := by rw [hlen]; exact h2
    exact ⟨ji, s.ctx.mdl.mJoints[ji], by rw [hlut]; exact h1, List.getElem?_eq_getElem hlt⟩
  induction cmd using cmd_cases with
  | hT i => exact ⟨s, by simp [step, execSwitch]⟩
  | hO i => exact ⟨_, step_Open_eq s i⟩
  | hC i =>
    have hne := hclose rfl
    rw [step_Close_eq]
    have hhs := (List.dropLast_append_getLast hne).symm
    by_cases ht : s.hierarchy_stack.getLast hne = ByteCodeOp.Joint
    · have hjne : s.joint_stack ≠ [] := by
        intro hempty
        unfold StackInv at hinv
        rw [hempty, hhs, List.count_append, ht] at hinv
        simp at hinv
      exact ⟨_, execClose_eq_some.2 ⟨_, _, hhs, Or.inl ⟨ht, _, _,
        (List.dropLast_append_getLast hjne).symm, rfl⟩⟩⟩
    · exact ⟨_, execClose_eq_some.2 ⟨_, _, hhs, Or.inr ⟨ht, rfl⟩⟩⟩
  | hJ i =>
    rw [step_Joint_eq]
    by_cases hempty : s.joint_stack = []
    · exact ⟨_, by rw [execJoint_eq_some.2 (Or.inl ⟨hempty, rfl⟩)]; rfl⟩
    · have hback : s.joint_stack.getLast? = some (s.joint_stack.getLast hempty) :=
        List.getLast?_eq_getLast _ hempty
      obtain ⟨pi, p, hpi, hp⟩ := hget _ (hjs _ (List.getLast_mem hempty))
      obtain ⟨h0, h1, hv⟩ := hok.1 rfl
      obtain ⟨ci, c, hci, hc⟩ := hget _ hv
      have hidx : toIndex i = some i.toNat := by simp [toIndex, h0]
      have hl := linkJoint_eq_some.2 ⟨pi, i.toNat, ci, p, c, hpi, hidx, hci, hp, hc, rfl⟩
      exact ⟨_, by rw [execJoint_eq_some.2 (Or.inr ⟨_, _, hback, hl, rfl⟩)]; rfl⟩
  | hM i => exact ⟨_, step_Material_eq s i⟩
  | hS i =>
    rw [step_Shape_eq]
    obtain ⟨ji, j, hji, hjj⟩ := hget _ hj
    have hmlt : s.mat < s.ctx.mdl.mMaterials.length := by rw [hmlen]; exact hm
    have hmm : s.ctx.mdl.mMaterials[s.mat]? = some s.ctx.mdl.mMaterials[s.mat] :=
      List.getElem?_eq_getElem hmlt
    exact ⟨_, by rw [execShape_eq_some.2 ⟨ji, _, j, hji, hmm, hjj, rfl⟩]; rfl⟩
  | hX c h0 h1 h2 h3 h4 h5 => exact ⟨_, step_other_eq s c h0 h1 h2 h3 h4 h5⟩

/-- A run over commands whose bracket structure never closes more than is open and
whose indices are in range reaches the `Terminate` that follows them. -/
theorem run_succeeds (ctx0 : BMDOutputContext) (pre : List ByteCodeCmd) (i : Int)
    (post : List ByteCodeCmd) :
    ∀ s, Ready ctx0 s → (∀ c ∈ pre, c.op ≠ ByteCodeOp.Terminate) →
      (∀ c ∈ pre, CmdOk ctx0 c) →
      (∀ k, k ≤ pre.length →
        closes (pre.take k) ≤ s.hierarchy_stack.length + opens (pre.take k)) →
      ∃ s', run s (pre ++ ⟨ByteCodeOp.Terminate, i⟩ :: post) = some s' := by
  induction pre with
  | nil => intro s _ _ _ _; exact ⟨s, by simp [run]⟩
  | cons c cs ih =>
    intro s hR hT hok hbal
    have hc : c.op ≠ ByteCodeOp.Terminate := hT c (List.mem_cons_self _ _)
    have hcok := hok c (List.mem_cons_self _ _)
    have hclose : c.op = ByteCodeOp.Close → s.hierarchy_stack ≠ [] := by
      intro hcl hempty
      have := hbal 1 (by simp)
      simp [closes_cons, opens_cons, hcl, hempty, closes, opens] at this
    obtain ⟨s1, hs1⟩ := step_succeeds hR hcok hclose
    have hd := step_depth hs1
    have hbal1 : ∀ k, k ≤ cs.length →
        closes (cs.take k) ≤ s1.hierarchy_stack.length + opens (cs.take k) := by
      intro k hk
      have := hbal (k + 1) (by simp; exact hk)
      simp only [List.take_succ_cons, closes_cons, opens_cons] at this
      have hne : s.hierarchy_stack.length ≠ 0 ∨ c.op ≠ ByteCodeOp.Close := by
        by_cases hcl : c.op = ByteCodeOp.Close
        · exact Or.inl (fun h0 => hclose hcl (List.length_eq_zero.1 h0))
        · exact Or.inr hcl
      split_ifs at this hd <;> omega
    obtain ⟨s', hs'⟩ := ih s1 (step_Ready hs1 hR hcok)
      (fun c' hc' => hT c' (List.mem_cons_of_mem _ hc'))
      (fun c' hc' => hok c' (List.mem_cons_of_mem _ hc')) hbal1
    exact ⟨s', by simp only [List.cons_append, run, hc, if_false, hs1]; exact hs'⟩

end SceneGraph
end libcube.jsystem

/-! ## The import pipeline -/

namespace libcube.jsystem

theorem setSection_error (imp : BMDImporter) (id : Nat) (e : SectionEntry) :
    (setSection imp id e).error = imp.error := rfl

/-- The loop of `lex` writes the section table only. -/
theorem lexLoop_error (n : Nat) :
    ∀ (imp imp' : BMDImporter) (r r' : BinaryReader),
      lexLoop imp r n = some (imp', r') → imp'.error = imp.error := by
  induction n with
  | zero =>
    intro imp imp' r r' h
    simp only [lexLoop, Option.some.injEq, Prod.mk.injEq] at h
    rw [← h.1]
  | succ n ih =>
    intro imp imp' r r' h
    simp only [lexLoop] at h
    split at h
    · exact absurd h (by simp)
    · split at h
      · exact absurd h (by simp)
      · split at h
        · exact (ih _ _ _ _ h).trans (setSection_error _ _ _)
        · exact ih _ _ _ _ h

theorem lex_error {imp imp' : BMDImporter} {r r' : BinaryReader} {n : Nat}
    (h : lex imp r n = some (imp', r')) : imp'.error = imp.error :=
  lexLoop_error n { imp with mSections := [] } imp' r r' h

/-- With a good version word, whatever `readBMD` returns carries the `error` flag it
was given. -/
theorem readBMD_error_of_version {imp : BMDImporter} {r r1 r2 : BinaryReader}
    {ctx : BMDOutputContext} {mat0 v : Nat} {res : ReadResult}
    (hmagic : r.readU 4 = some (fourCC 'J' '3' 'D' '2', r1)) (hver : r1.readU 4 = some (v, r2))
    (hv : v = fourCC 'b' 'm' 'd' '3' ∨ v = fourCC 'b' 'd' 'l' '4')
    (h : readBMD imp r ctx mat0 = some res) : res.imp.error = imp.error := by
  have hnot : ¬ (v ≠ fourCC 'b' 'm' 'd' '3' ∧ v ≠ fourCC 'b' 'd' 'l' '4') := by
    rintro ⟨h1, h2⟩
    rcases hv with hv | hv
    · exact h1 hv
    · exact h2 hv
  simp only [readBMD, readBMDAfterMagic, BinaryReader.expectMagic, hmagic, if_true, hver, hnot,
    if_false] at h
  split at h
  · exact absurd h (by simp)
  · split at h
    · exact absurd h (by simp)
    · split at h
      · exact absurd h (by simp)
      next imp1 r5 hlex =>
        split at h
        · exact absurd h (by simp)
        · split at h
          · exact absurd h (by simp)
          · split at h
            · exact absurd h (by simp)
            · split at h
              · exact absurd h (by simp)
              · have := Option.some.inj h
                rw [← this]
                exact lex_error hlex

/-- C10: the version check of `readBMD`. For an input with magic `J3D2` whose version
word is neither `bmd3` nor `bdl4`, `readBMD` sets the `error` flag and returns at once:
the output context and the section table are as before the call, and `tryRead` returns
`false` with the model unchanged. For a version word `bmd3` or `bdl4`, whatever
`readBMD` returns carries the `error` flag it was given, and `tryRead` returns its
negation. -/
theorem readBMD_version_check (imp : BMDImporter) (r r1 r2 : BinaryReader)
    (ctx : BMDOutputContext) (mModel : J3DModel) (mat0 v : Nat)
    (hmagic : r.readU 4 = some (fourCC 'J' '3' 'D' '2', r1))
    (hver : r1.readU 4 = some (v, r2)) :
    (v ≠ fourCC 'b' 'm' 'd' '3' → v ≠ fourCC 'b' 'd' 'l' '4' →
      readBMD imp r ctx mat0 = some
        { imp := { imp with error := true },
          reader := r2.signalInvalidityLast 4 versionNotice, ctx := ctx, debug := [] } ∧
      tryRead imp r mModel mat0 = some
        { ok := false, imp := { imp with error := true },
          reader := r2.signalInvalidityLast 4 versionNotice, mModel := mModel, debug := [] }) ∧
    (v = fourCC 'b' 'm' 'd' '3' ∨ v = fourCC 'b' 'd' 'l' '4' →
      (∀ res, readBMD imp r ctx mat0 = some res → res.imp.error = imp.error) ∧
      (∀ res, tryRead imp r mModel mat0 = some res → res.ok = !imp.error)) := by
  constructor
  · intro h3 h4
    have hb : readBMD imp r ctx mat0 = some
        { imp := { imp with error := true },
          reader := r2.signalInvalidityLast 4 versionNotice, ctx := ctx, debug := [] } := by
      simp [readBMD, readBMDAfterMagic, BinaryReader.expectMagic, hmagic, hver, h3, h4]
    refine ⟨hb, ?_⟩
    have hb' : readBMD imp r { mdl := mModel } mat0 = some
        { imp := { imp with error := true },
          reader := r2.signalInvalidityLast 4 versionNotice, ctx := { mdl := mModel },
          debug := [] } := by
      simp [readBMD, readBMDAfterMagic, BinaryReader.expectMagic, hmagic, hver, h3, h4]
    simp [tryRead, hb']
  · intro hv
    refine ⟨fun res h => readBMD_error_of_version hmagic hver hv h, ?_⟩
    intro res h
    unfold tryRead at h
    split at h
    · exact absurd h (by simp)
    next res0 hres0 =>
      have := readBMD_error_of_version hmagic hver hv hres0
      rw [← Option.some.inj h]
      simp [this]

/-- C10 on two 32-byte files, one with version word `bmd2` and one with `bmd3`. -/
theorem readBMD_version_check_witness :
    tryRead {} { buf := badVersionBmd } {} 0 = some
      { ok := false, imp := { error := true },
        reader := BinaryReader.signalInvalidityLast { buf := badVersionBmd, pos := 8 } 4
          versionNotice,
        mModel := {}, debug := [] } ∧
    ∃ res, tryRead {} { buf := emptyBmd } {} 0 = some res ∧ res.ok = true ∧
      res.imp.error = false := by
  have h1 := (readBMD_version_check {} { buf := badVersionBmd }
    { buf := badVersionBmd, pos := 4 } { buf := badVersionBmd, pos := 8 } {} {} 0
    (fourCC 'b' 'm' 'd' '2') (by decide) (by decide)).1 (by decide) (by decide)
  have h2 := (readBMD_version_check {} { buf := emptyBmd }
    { buf := emptyBmd, pos := 4 } { buf := emptyBmd, pos := 8 } {} {} 0
    (fourCC 'b' 'm' 'd' '3') (by decide) (by decide)).2 (Or.inl rfl)
  refine ⟨h1.2, ?_⟩
  have hsome : (tryRead {} { buf := emptyBmd } {} 0).isSome = true := by decide
  obtain ⟨res, hres⟩ := Option.isSome_iff_exists.1 hsome
  refine ⟨res, hres, h2.2 res hres, ?_⟩
  have h4 := h2.2 res hres
  unfold tryRead at hres
  split at hres
  · exact absurd hres (by simp)
  next res0 hres0 =>
    rw [← Option.some.inj hres]
    exact h2.1 res0 hres0

end libcube.jsystem

/-! ## Scene-graph interpreter: the uninitialised `mat` -/

namespace libcube.jsystem
namespace SceneGraph

/-- A loop iteration other than `Shape` and `Material` neither reads nor writes `mat`. -/
theorem step_setMat (s : State) (m : Nat) (cmd : ByteCodeCmd)
    (hS : cmd.op ≠ ByteCodeOp.Shape) (hM : cmd.op ≠ ByteCodeOp.Material) :
    step { s with mat := m } cmd = (step s cmd).map (fun s1 => { s1 with mat := m }) := by
  induction cmd using cmd_cases with
  | hT i => simp [step, execSwitch]
  | hO i => simp [step_Open_eq]
  | hC i =>
    simp only [step_Close_eq, execClose]
    cases s.hierarchy_stack.getLast? with
    | none => rfl
    | some t =>
      by_cases ht : t = ByteCodeOp.Joint
      · by_cases hj : s.joint_stack = []
        · simp [ht, hj]
        · simp [ht, hj]
      · simp [ht]
  | hJ i =>
    simp only [step_Joint_eq, execJoint]
    cases s.joint_stack.getLast? with
    | none => rfl
    | some back =>
      cases hl : linkJoint s.ctx back i with
      | none => simp [hl]
      | some c => simp [hl]
  | hM i => exact absurd rfl hM
  | hS i => exact absurd rfl hS
  | hX c h0 h1 h2 h3 h4 h5 =>
    simp [step_other_eq _ c h0 h1 h2 h3 h4 h5]

/-- When no `Shape` is executed before the first `Material`, the context the loop
produces does not depend on the starting value of `mat`. -/
theorem run_mat_irrelevant (cmds : List ByteCodeCmd) :
    ∀ (s : State) (m : Nat), shapeReadsInitialMat cmds = false →
      (run { s with mat := m } cmds).map (fun s1 => s1.ctx) =
        (run s cmds).map (fun s1 => s1.ctx) := by
  induction cmds with
  | nil => intro s m _; rfl
  | cons c cs ih =>
    intro s m h
    simp only [run]
    by_cases hT : c.op = ByteCodeOp.Terminate
    · simp [hT]
    · simp only [hT, if_false]
      by_cases hM : c.op = ByteCodeOp.Material
      · obtain ⟨op, idx⟩ := c
        simp only at hM
        subst hM
        simp only [step_Material_eq]
      · have hS : c.op ≠ ByteCodeOp.Shape := by
          intro hS
          simp [shapeReadsInitialMat, hT, hM, hS] at h
        have h' : shapeReadsInitialMat cs = false := by
          simpa [shapeReadsInitialMat, hT, hM, hS] using h
        rw [step_setMat s m c hS hM]
        cases step s c with
        | none => rfl
        | some s1 => exact ih s1 m h'

/-- The same for `SceneGraph::onRead`: two starting values of `mat` give the same
result when no `Shape` comes before the first `Material`. -/
theorem onRead_mat_irrelevant (ctx : BMDOutputContext) (m1 m2 : Nat) (cmds : List ByteCodeCmd)
    (h : shapeReadsInitialMat cmds = false) : onRead ctx m1 cmds = onRead ctx m2 cmds := by
  unfold onRead
  have h1 := run_mat_irrelevant cmds (init ctx m2) m1 h
  exact h1

end SceneGraph
end libcube.jsystem

/-! ## The binary reader: what a read returns and where it leaves the reader -/

namespace libcube.jsystem

theorem beAt_one (buf : List Byte) (p : Nat) :
    beAt buf p 1 = (buf[p]?).map (fun b => b.val) := by
  simp only [beAt, Nat.add_zero]
  cases buf[p]? <;> simp

/-- A decoded `n`-byte value is below `256 ^ n`. -/
theorem beAt_lt {buf : List Byte} {p : Nat} (n : Nat) :
    ∀ {v : Nat}, beAt buf p n = some v → v < 256 ^ n := by
  induction n with
  | zero => intro v h; simp only [beAt, Option.some.injEq] at h; omega
  | succ n ih =>
    intro v h
    simp only [beAt] at h
    split at h
    next hi b hhi hb =>
      have h1 := ih hhi
      have h2 := b.isLt
      have hv : v = hi * 256 + b.val := (Option.some.inj h).symm
      rw [hv, pow_succ]
      nlinarith
    · exact absurd h (by simp)

namespace BinaryReader

@[simp] theorem seek_buf (r : BinaryReader) (n : Nat) : (r.seek n).buf = r.buf := rfl
@[simp] theorem seek_pos (r : BinaryReader) (n : Nat) : (r.seek n).pos = r.pos + n := rfl
@[simp] theorem seek_diagnostics (r : BinaryReader) (n : Nat) :
    (r.seek n).diagnostics = r.diagnostics := rfl
@[simp] theorem seekSet_buf (r : BinaryReader) (p : Nat) : (r.seekSet p).buf = r.buf := rfl
@[simp] theorem seekSet_pos (r : BinaryReader) (p : Nat) : (r.seekSet p).pos = p := rfl
@[simp] theorem seekSet_diagnostics (r : BinaryReader) (p : Nat) :
    (r.seekSet p).diagnostics = r.diagnostics := rfl

theorem seek_zero (r : BinaryReader) : r.seek 0 = r := rfl

theorem seek_seek (r : BinaryReader) (a b : Nat) : (r.seek a).seek b = r.seek (a + b) := by
  simp [seek, Nat.add_assoc]

theorem seekSet_seek (r : BinaryReader) (p a : Nat) : (r.seekSet p).seek a = r.seekSet (p + a) := rfl

theorem seekSet_seekSet (r : BinaryReader) (p q : Nat) : (r.seekSet p).seekSet q = r.seekSet q := rfl

theorem seek_seekSet (r : BinaryReader) (a q : Nat) : (r.seek a).seekSet q = r.seekSet q := rfl

theorem readU_eq_some {r r1 : BinaryReader} {n v : Nat} :
    r.readU n = some (v, r1) ↔ beAt r.buf r.pos n = some v ∧ r1 = r.seek n := by
  unfold readU
  cases h : beAt r.buf r.pos n with
  | none => simp
  | some u => simp [eq_comm]

theorem readS_eq_some {r r1 : BinaryReader} {n : Nat} {v : Int} :
    r.readS n = some (v, r1) ↔
      ∃ u, beAt r.buf r.pos n = some u ∧ v = toSigned (8 * n) u ∧ r1 = r.seek n := by
  unfold readS readU
  cases h : beAt r.buf r.pos n with
  | none => simp
  | some u => simp [eq_comm]

/-- The values `readX` returns are the `count` consecutive fields at the position, and
the reader ends right after them. -/
theorem readUs_eq_some {n : Nat} (count : Nat) :
    ∀ {r r1 : BinaryReader} {vs : List Nat}, r.readUs n count = some (vs, r1) →
      r1 = r.seek (n * count) ∧ vs.length = count ∧
      ∀ k, k < count → vs[k]? = beAt r.buf (r.pos + n * k) n := by
  induction count with
  | zero =>
    intro r r1 vs h
    simp only [readUs, Option.some.injEq, Prod.mk.injEq] at h
    obtain ⟨rfl, rfl⟩ := h
    exact ⟨rfl, rfl, fun k hk => absurd hk (by omega)⟩
  | succ c ih =>
    intro r r1 vs h
    simp only [readUs] at h
    split at h
    · exact absurd h (by simp)
    next v ra hra =>
      obtain ⟨hv, rfl⟩ := readU_eq_some.1 hra
      split at h
      · exact absurd h (by simp)
      next ws rb hrb =>
        obtain ⟨hrb1, hlen, hget⟩ := ih hrb
        simp only [Option.some.injEq, Prod.mk.injEq] at h
        obtain ⟨rfl, rfl⟩ := h
        refine ⟨?_, by simp [hlen], ?_⟩
        · rw [hrb1, seek_seek, Nat.mul_succ, Nat.add_comm]
        · intro k hk
          cases k with
          | zero => simpa using hv.symm
          | succ k =>
            have := hget k (by omega)
            simp only [List.getElem?_cons_succ, this, seek_buf, seek_pos]
            congr 1
            rw [Nat.mul_succ]; omega

theorem readSs_eq_some {n count : Nat} {r r1 : BinaryReader} {vs : List Int}
    (h : r.readSs n count = some (vs, r1)) :
    r1 = r.seek (n * count) ∧ vs.length = count ∧
    ∀ k, k < count → vs[k]? = (beAt r.buf (r.pos + n * k) n).map (toSigned (8 * n)) := by
  unfold readSs at h
  split at h
  next us ra hra =>
    obtain ⟨h1, h2, h3⟩ := readUs_eq_some count hra
    simp only [Option.some.injEq, Prod.mk.injEq] at h
    obtain ⟨rfl, rfl⟩ := h
    refine ⟨h1, by simp [h2], ?_⟩
    intro k hk
    rw [List.getElem?_map, h3 k hk]
  · exact absurd h (by simp)

theorem peekAt_natCast (r : BinaryReader) (n t : Nat) :
    r.peekAt n (t : Int) = beAt r.buf (r.pos + t) n := by
  unfold peekAt
  have h : (0 : Int) ≤ (r.pos : Int) + (t : Int) := by omega
  rw [if_pos h]
  congr 1

end BinaryReader
end libcube.jsystem

/-! ## Envelopes and draw matrices -/

namespace libcube.jsystem

theorem prefixSum_mono (ct : Nat → Nat) {a b : Nat} (h : a ≤ b) :
    prefixSum ct a ≤ prefixSum ct b := by
  induction b with
  | zero =>
    have : a = 0 := by omega
    rw [this]
  | succ b ih =>
    by_cases hab : a = b + 1
    · rw [hab]
    · have := ih (by omega)
      simp only [prefixSum]
      omega

/-- The inner loop, when the pairs it is to read are in the buffer: it returns the pairs
at the running indices `m`, `m + 1`, ... in order. -/
theorem readWeights_eq (r : BinaryReader) (oI oW : Int) (it wt : Nat → Nat) (num : Nat) :
    ∀ m, (∀ j, j < num → r.peekAt 2 (oI + ((m + j : Nat) : Int) * 2) = some (it (m + j)) ∧
        r.peekAt 4 (oW + ((m + j : Nat) : Int) * 4) = some (wt (m + j))) →
      readWeights r oI oW m num =
        some ((List.range num).map (fun j => ⟨it (m + j), wt (m + j)⟩)) := by
  induction num with
  | zero => intro m _; rfl
  | succ n ih =>
    intro m h
    have h0 := h 0 (by omega)
    simp only [Nat.add_zero] at h0
    have ih' := ih (m + 1) (fun j hj => by
      have := h (j + 1) (by omega)
      rwa [show m + (j + 1) = m + 1 + j by omega] at this)
    simp only [readWeights, h0.1, h0.2, ih', List.range_succ_eq_map, List.map_cons,
      List.map_map, Nat.add_zero]
    congr 2
    apply List.map_congr_left
    intro j _
    simp only [Function.comp, show m + 1 + j = m + (j + 1) by omega]

/-- The outer loop, when the tables it is to read are in the buffer: started at
envelope `i0` with the running index at the total of the counts before `i0`, it
returns for each envelope its slice of the flat pair stream. -/
theorem readEnvelopes_eq (r : BinaryReader) (oS oI oW : Int) (ct it wt : Nat → Nat) (n : Nat) :
    ∀ i0, (∀ i, i < i0 + n → r.peekAt 1 (oS + (i : Int)) = some (ct i)) →
      (∀ m, m < prefixSum ct (i0 + n) → r.peekAt 2 (oI + (m : Int) * 2) = some (it m) ∧
        r.peekAt 4 (oW + (m : Int) * 4) = some (wt m)) →
      readEnvelopes r oS oI oW i0 (prefixSum ct i0) n =
        some ((List.range n).map (fun k => ⟨envelopeWeights ct it wt (i0 + k)⟩)) := by
  induction n with
  | zero => intro i0 _ _; rfl
  | succ n ih =>
    intro i0 hc hw
    have hc0 := hc i0 (by omega)
    have hws := readWeights_eq r oI oW it wt (ct i0) (prefixSum ct i0) (fun j hj => by
      apply hw
      have h1 : prefixSum ct (i0 + 1) ≤ prefixSum ct (i0 + (n + 1)) :=
        prefixSum_mono ct (by omega)
      have h2 : prefixSum ct (i0 + 1) = prefixSum ct i0 + ct i0 := rfl
      omega)
    have ih' := ih (i0 + 1) (fun i hi => hc i (by omega))
      (fun m hm => hw m (by rwa [show i0 + (n + 1) = i0 + 1 + n by omega]))
    simp only [prefixSum] at ih'
    simp only [readEnvelopes, hc0, hws, ih', List.range_succ_eq_map, List.map_cons,
      List.map_map, Nat.add_zero]
    congr 2
    apply List.map_congr_left
    intro k _
    simp only [Function.comp, show i0 + 1 + k = i0 + (k + 1) by omega]

theorem envelopeWeights_length (ct it wt : Nat → Nat) (i : Nat) :
    (envelopeWeights ct it wt i).length = ct i := by
  simp [envelopeWeights]

theorem envelopeWeights_getElem? (ct it wt : Nat → Nat) (i j : Nat) (hj : j < ct i) :
    (envelopeWeights ct it wt i)[j]? =
      some ⟨it (prefixSum ct i + j), wt (prefixSum ct i + j)⟩ := by
  simp [envelopeWeights, List.getElem?_map, List.getElem?_range hj]

theorem sum_map_range_eq_prefixSum (ct : Nat → Nat) (n : Nat) :
    ((List.range n).map ct).sum = prefixSum ct n := by
  induction n with
  | zero => rfl
  | succ n ih => simp [List.range_succ, prefixSum, ih]

end libcube.jsystem

namespace libcube.jsystem

theorem enterSection_of_find {imp : BMDImporter} {id : Nat} {sec : SectionEntry}
    (h : findSection imp id = some sec) (r : BinaryReader) :
    enterSection imp r id = (true, r.seekSet (toU32 ((sec.streamPos : Int) - 8))) := by
  simp [enterSection, h]

theorem enterSection_of_not_find {imp : BMDImporter} {id : Nat}
    (h : findSection imp id = none) (r : BinaryReader) :
    enterSection imp r id = (false, r) := by
  simp [enterSection, h]

/-- The envelope block leaves the reader on the same buffer with the same diagnostics:
it only moves it. -/
theorem readEVP1_reader {imp : BMDImporter} {r r0 : BinaryReader} {es : List DrawMatrix}
    (h : readEVP1 imp r = some (es, r0)) : ∃ p, r0 = r.seekSet p := by
  unfold readEVP1 at h
  cases hf : findSection imp (fourCC 'E' 'V' 'P' '1') with
  | none =>
    rw [enterSection_of_not_find hf] at h
    simp only [Option.some.injEq, Prod.mk.injEq] at h
    exact ⟨r.pos, h.2.symm⟩
  | some sec =>
    rw [enterSection_of_find hf] at h
    simp only [scopedSection] at h
    split at h
    · exact absurd h (by simp)
    next size r1 h1 =>
      obtain ⟨-, rfl⟩ := BinaryReader.readU_eq_some.1 h1
      split at h
      · exact absurd h (by simp)
      next pad r2 h2 =>
        obtain ⟨-, rfl⟩ := BinaryReader.readU_eq_some.1 h2
        split at h
        next a b c d r3 h3 =>
          obtain ⟨rfl, -, -⟩ := BinaryReader.readSs_eq_some h3
          split at h
          · exact absurd h (by simp)
          next envs henv =>
            simp only [Option.some.injEq, Prod.mk.injEq] at h
            exact ⟨_, h.2.symm⟩
        · exact absurd h (by simp)

/-- What the loop over the draw matrices returns, slot by slot. -/
theorem readDrawMatrixSlots_spec (r : BinaryReader) (env : List DrawMatrix) (oP oX : Int)
    (n : Nat) :
    ∀ (i0 : Nat) (ms : List DrawMatrix), readDrawMatrixSlots r env oP oX i0 n = some ms →
      ms.length = n ∧
      ∀ k, k < n → ∃ flag idx, r.peekAt 1 (oP + ((i0 + k : Nat) : Int)) = some flag ∧
        r.peekAt 2 (oX + ((i0 + k : Nat) : Int) * 2) = some idx ∧
        ms[k]? = (if flag ≠ 0 then env[idx]? else some (rigidDrawMatrix idx)) ∧
        (flag ≠ 0 → idx < env.length) := by
  induction n with
  | zero =>
    intro i0 ms h
    simp only [readDrawMatrixSlots, Option.some.injEq] at h
    subst h
    exact ⟨rfl, fun k hk => absurd hk (by omega)⟩
  | succ n ih =>
    intro i0 ms h
    simp only [readDrawMatrixSlots] at h
    split at h
    next flag idx hflag hidx =>
      split at h
      · exact absurd h (by simp)
      next mtx hmtx =>
        split at h
        · exact absurd h (by simp)
        next rest hrest =>
          obtain ⟨hlen, hget⟩ := ih (i0 + 1) rest hrest
          have hms : ms = mtx :: rest := (Option.some.inj h).symm
          subst hms
          refine ⟨by simp [hlen], ?_⟩
          intro k hk
          cases k with
          | zero =>
            refine ⟨flag, idx, by simpa using hflag, by simpa using hidx, ?_, ?_⟩
            · simpa using hmtx.symm
            · intro hne
              rw [if_pos hne] at hmtx
              exact (List.getElem?_eq_some_iff.1 hmtx).1
          | succ k =>
            obtain ⟨f, x, h1, h2, h3, h4⟩ := hget k (by omega)
            rw [show i0 + 1 + k = i0 + (k + 1) by omega] at h1 h2
            exact ⟨f, x, h1, h2, by simpa using h3, h4⟩
    · exact absurd h (by simp)

/-- The shape of a successful `readDrawMatrices` when the section table has a `DRW1`
entry: the reader ends at the section header, and the draw matrices are those the
slot loop returns for the decoded envelopes and the header's count and offsets. -/
theorem readDrawMatrices_DRW1 {imp : BMDImporter} {r r' : BinaryReader}
    {ctx ctx' : BMDOutputContext} {sec : SectionEntry}
    (hsec : findSection imp (fourCC 'D' 'R' 'W' '1') = some sec)
    (h : readDrawMatrices imp r ctx = some (r', ctx')) :
    ∃ envelopes r0 size pw ix ms,
      readEVP1 imp r = some (envelopes, r0) ∧
      r' = r.seekSet (toU32 ((sec.streamPos : Int) - 8)) ∧
      r'.peekAt 2 8 = some size ∧ r'.peekAt 4 12 = some pw ∧ r'.peekAt 4 16 = some ix ∧
      readDrawMatrixSlots r' envelopes (toSigned 32 pw) (toSigned 32 ix) 0 size = some ms ∧
      ctx' = { ctx with mdl := { ctx.mdl with mDrawMatrices := ms } } := by
  unfold readDrawMatrices at h
  split at h
  · exact absurd h (by simp)
  next envelopes r0 hevp =>
    obtain ⟨p0, rfl⟩ := readEVP1_reader hevp
    rw [enterSection_of_find hsec] at h
    simp only [scopedSection] at h
    split at h
    · exact absurd h (by simp)
    next size r2 h2 =>
      obtain ⟨hsize, rfl⟩ := BinaryReader.readU_eq_some.1 h2
      split at h
      · exact absurd h (by simp)
      next pad r3 h3 =>
        obtain ⟨-, rfl⟩ := BinaryReader.readU_eq_some.1 h3
        split at h
        next a b r4 h4 =>
          obtain ⟨rfl, -, hoff⟩ := BinaryReader.readSs_eq_some h4
          have ha := hoff 0 (by omega)
          have hb := hoff 1 (by omega)
          simp only [List.getElem?_cons_zero, List.getElem?_cons_succ, BinaryReader.seek_buf,
            BinaryReader.seek_pos, BinaryReader.seekSet_buf, BinaryReader.seekSet_pos,
            BinaryReader.tell] at ha hb hsize
          cases hpw : beAt r.buf (toU32 ((sec.streamPos : Int) - 8) + 8 + 2 + 2 + 4 * 0) 4 with
          | none => rw [hpw] at ha; simp at ha
          | some pw =>
            cases hix : beAt r.buf (toU32 ((sec.streamPos : Int) - 8) + 8 + 2 + 2 + 4 * 1) 4 with
            | none => rw [hix] at hb; simp at hb
            | some ix =>
              rw [hpw] at ha; rw [hix] at hb
              simp only [Option.map_some', Option.some.injEq] at ha hb
              split at h
              · exact absurd h (by simp)
              next ms hms =>
                simp only [Option.some.injEq, Prod.mk.injEq] at h
                obtain ⟨hr, hctx⟩ := h
                have hr' : r' = r.seekSet (toU32 ((sec.streamPos : Int) - 8)) := by
                  rw [← hr]; rfl
                refine ⟨envelopes, _, size, pw, ix, ms, hevp, hr', ?_, ?_, ?_, ?_, hctx.symm⟩
                · rw [hr', show (8 : Int) = ((8 : Nat) : Int) by rfl,
                    BinaryReader.peekAt_natCast]
                  exact hsize
                · rw [hr', show (12 : Int) = ((12 : Nat) : Int) by rfl,
                    BinaryReader.peekAt_natCast]
                  simpa [Nat.add_assoc] using hpw
                · rw [hr', show (16 : Int) = ((16 : Nat) : Int) by rfl,
                    BinaryReader.peekAt_natCast]
                  simpa [Nat.add_assoc] using hix
                · rw [hr', ← ha, ← hb]
                  exact hms
        · exact absurd h (by simp)

end libcube.jsystem

/-! ## Joints: name table, remap table and records -/

namespace libcube.jsystem

/-- What decoding one joint record reads and where: the flag word at offset 0, the Maya
byte at 2, the scale at 4, the three rotation words at 16, the translation at 24, the
radius at 36 and the bounding box at 40; the reader ends `0x40` bytes further. -/
theorem readJointRecord_eq_some {r r' : BinaryReader} {joint j : Joint} {name : String}
    (h : readJointRecord r joint name = some (j, r')) :
    ∃ (flag maya : Nat) (scale : List Nat) (rot : List Int) (translate : List Nat)
      (radius : Nat) (box : List Nat),
      beAt r.buf r.pos 2 = some flag ∧ beAt r.buf (r.pos + 2) 1 = some maya ∧
      scale.length = 3 ∧ (∀ k, k < 3 → scale[k]? = beAt r.buf (r.pos + 4 + 4 * k) 4) ∧
      rot.length = 3 ∧
      (∀ k, k < 3 → rot[k]? = (beAt r.buf (r.pos + 16 + 2 * k) 2).map (toSigned 16)) ∧
      translate.length = 3 ∧
      (∀ k, k < 3 → translate[k]? = beAt r.buf (r.pos + 24 + 4 * k) 4) ∧
      beAt r.buf (r.pos + 36) 4 = some radius ∧
      box.length = 6 ∧ (∀ k, k < 6 → box[k]? = beAt r.buf (r.pos + 40 + 4 * k) 4) ∧
      r' = r.seek 0x40 ∧
      j = { joint with
        id := name
        flag := flag &&& 0xf
        bbMtxType := flag >>> 4
        mayaSSC := if maya = 0xff then false else decide (maya ≠ 0)
        scale := scale
        rotate := rot.map (fun v => Int.tdiv v 0x7ff)
        translate := translate
        boundingSphereRadius := radius
        boundingBox := box } := by
  rcases h1 : r.readU 2 with _ | ⟨flag, r1⟩
  · simp [readJointRecord, h1] at h
  simp only [readJointRecord, h1] at h
  obtain ⟨hflag, rfl⟩ := BinaryReader.readU_eq_some.1 h1
  rcases h2 : (r.seek 2).readU 1 with _ | ⟨maya, r2⟩
  · simp [h2] at h
  simp only [h2] at h
  obtain ⟨hmaya, rfl⟩ := BinaryReader.readU_eq_some.1 h2
  rcases h3 : ((r.seek 2).seek 1).readU 1 with _ | ⟨pad, r3⟩
  · simp [h3] at h
  simp only [h3] at h
  obtain ⟨-, rfl⟩ := BinaryReader.readU_eq_some.1 h3
  rcases h4 : (((r.seek 2).seek 1).seek 1).readUs 4 3 with _ | ⟨scale, r4⟩
  · simp [h4] at h
  simp only [h4] at h
  obtain ⟨rfl, hsl, hsg⟩ := BinaryReader.readUs_eq_some 3 h4
  rcases h5 : ((((r.seek 2).seek 1).seek 1).seek (4 * 3)).readSs 2 3 with _ | ⟨rot, r5⟩
  · simp [h5] at h
  simp only [h5] at h
  obtain ⟨rfl, hrl, hrg⟩ := BinaryReader.readSs_eq_some h5
  rcases h6 : (((((r.seek 2).seek 1).seek 1).seek (4 * 3)).seek (2 * 3)).readU 2
    with _ | ⟨pad2, r6⟩
  · simp [h6] at h
  simp only [h6] at h
  obtain ⟨-, rfl⟩ := BinaryReader.readU_eq_some.1 h6
  rcases h7 : ((((((r.seek 2).seek 1).seek 1).seek (4 * 3)).seek (2 * 3)).seek 2).readUs 4 3
    with _ | ⟨translate, r7⟩
  · simp [h7] at h
  simp only [h7] at h
  obtain ⟨rfl, htl, htg⟩ := BinaryReader.readUs_eq_some 3 h7
  rcases h8 : (((((((r.seek 2).seek 1).seek 1).seek (4 * 3)).seek (2 * 3)).seek 2).seek
      (4 * 3)).readU 4 with _ | ⟨radius, r8⟩
  · simp [h8] at h
  simp only [h8] at h
  obtain ⟨hrad, rfl⟩ := BinaryReader.readU_eq_some.1 h8
  rcases h9 : ((((((((r.seek 2).seek 1).seek 1).seek (4 * 3)).seek (2 * 3)).seek 2).seek
      (4 * 3)).seek 4).readUs 4 6 with _ | ⟨box, r9⟩
  · simp [h9] at h
  simp only [h9] at h
  obtain ⟨rfl, hbl, hbg⟩ := BinaryReader.readUs_eq_some 6 h9
  simp only [Option.some.injEq, Prod.mk.injEq] at h
  obtain ⟨hj, hr⟩ := h
  simp only [BinaryReader.seek_buf, BinaryReader.seek_pos] at hmaya hsg hrg htg hrad hbg
  refine ⟨flag, maya, scale, rot, translate, radius, box, hflag, hmaya, hsl, ?_, hrl, ?_, htl,
    ?_, ?_, hbl, ?_, ?_, hj.symm⟩
  · intro k hk
    rw [hsg k hk]
  · intro k hk
    rw [hrg k hk]
  · intro k hk
    rw [htg k hk]
  · rw [← hrad]
  · intro k hk
    rw [hbg k hk]
  · rw [← hr]
    simp [BinaryReader.seek, Nat.add_assoc]

end libcube.jsystem

namespace libcube.jsystem

theorem readJointRecord_reader {r r' : BinaryReader} {joint j : Joint} {name : String}
    (h : readJointRecord r joint name = some (j, r')) : r' = r.seek 0x40 ∧ j.id = name := by
  obtain ⟨flag, maya, scale, rot, translate, radius, box, -, -, -, -, -, -, -, -, -, -, -, hr, hj⟩ :=
    readJointRecord_eq_some h
  exact ⟨hr, by rw [hj]⟩

/-- The entry loop of the name table returns one string per entry and leaves the reader
after the last `(hash, offset)` pair. -/
theorem readNames_reader (start : Nat) (n : Nat) :
    ∀ {r r' : BinaryReader} {names : List String}, readNames start r n = some (names, r') →
      r' = r.seek (4 * n) ∧ names.length = n := by
  induction n with
  | zero =>
    intro r r' names h
    simp only [readNames, Option.some.injEq, Prod.mk.injEq] at h
    exact ⟨h.2.symm, by rw [← h.1]; rfl⟩
  | succ n ih =>
    intro r r' names h
    rcases h1 : r.readUs 2 2 with _ | ⟨vs, r1⟩
    · simp [readNames, h1] at h
    obtain ⟨rfl, hlen, -⟩ := BinaryReader.readUs_eq_some 2 h1
    match vs, hlen with
    | [a, b], _ =>
      simp only [readNames, h1] at h
      split at h
      · exact absurd h (by simp)
      next cs hcs =>
        split at h
        · exact absurd h (by simp)
        next ns r2 h3 =>
          simp only [Option.some.injEq, Prod.mk.injEq] at h
          obtain ⟨hr2, hns⟩ := ih h3
          refine ⟨?_, by rw [← h.1]; simp [hns]⟩
          rw [← h.2, hr2, BinaryReader.seek_seek]
          congr 1
          omega

theorem readNameTable_reader {r r' : BinaryReader} {names : List String}
    (h : readNameTable r = some (names, r')) :
    beAt r.buf r.pos 2 = some names.length ∧ r' = r.seek (4 + 4 * names.length) := by
  unfold readNameTable at h
  simp only at h
  rcases h1 : r.readU 2 with _ | ⟨count, r1⟩
  · simp [h1] at h
  try simp only [h1] at h
  obtain ⟨hcount, rfl⟩ := BinaryReader.readU_eq_some.1 h1
  rcases h2 : (r.seek 2).readU 2 with _ | ⟨pad, r2⟩
  · simp [h2] at h
  try simp only [h2] at h
  obtain ⟨-, rfl⟩ := BinaryReader.readU_eq_some.1 h2
  obtain ⟨hr', hlen⟩ := readNames_reader _ _ h
  rw [hlen]
  refine ⟨hcount, ?_⟩
  rw [hr', BinaryReader.seek_seek, BinaryReader.seek_seek]
  congr 1
  omega

/-- The remap-table loop: the entries are the consecutive `u16` values at the position,
the reader ends after them, and the returned flag is true exactly when it was true
before and every entry read equals its index. -/
theorem readRemapTable_spec (n : Nat) :
    ∀ {r r' : BinaryReader} {i : Nat} {sorted sorted' : Bool} {vs : List Nat},
      readRemapTable r i sorted n = some (vs, sorted', r') →
      r' = r.seek (2 * n) ∧ vs.length = n ∧
      (∀ k, k < n → vs[k]? = beAt r.buf (r.pos + 2 * k) 2) ∧
      (sorted' = true ↔ sorted = true ∧ ∀ k, k < n → vs[k]? = some (i + k)) := by
  induction n with
  | zero =>
    intro r r' i sorted sorted' vs h
    simp only [readRemapTable, Option.some.injEq, Prod.mk.injEq] at h
    obtain ⟨rfl, rfl, rfl⟩ := h
    exact ⟨rfl, rfl, fun k hk => absurd hk (by omega),
      ⟨fun hs => ⟨hs, fun k hk => absurd hk (by omega)⟩, fun hs => hs.1⟩⟩
  | succ n ih =>
    intro r r' i sorted sorted' vs h
    rcases h1 : r.readU 2 with _ | ⟨v, r1⟩
    · simp [readRemapTable, h1] at h
    simp only [readRemapTable, h1] at h
    obtain ⟨hv, rfl⟩ := BinaryReader.readU_eq_some.1 h1
    split at h
    · exact absurd h (by simp)
    next ws s r2 h2 =>
    simp only [Option.some.injEq, Prod.mk.injEq] at h
    obtain ⟨rfl, rfl, rfl⟩ := h
    obtain ⟨hr2, hlen, hget, hs⟩ := ih h2
    refine ⟨?_, by simp [hlen], ?_, ?_⟩
    · rw [hr2, BinaryReader.seek_seek]
      congr 1
      omega
    · intro k hk
      cases k with
      | zero => simpa using hv.symm
      | succ k =>
        have := hget k (by omega)
        simp only [List.getElem?_cons_succ, this, BinaryReader.seek_buf, BinaryReader.seek_pos]
        congr 1
        omega
    · rw [hs]
      constructor
      · rintro ⟨h0, hrest⟩
        by_cases hvi : v = i
        · subst hvi
          simp only [ne_eq, not_true_eq_false, if_false] at h0
          refine ⟨h0, ?_⟩
          intro k hk
          cases k with
          | zero => simp
          | succ k =>
            have := hrest k (by omega)
            simp only [List.getElem?_cons_succ, this]
            congr 1
            omega
        · simp [hvi] at h0
      · rintro ⟨h0, hall⟩
        have hv0 := hall 0 (by omega)
        simp only [List.getElem?_cons_zero, Nat.add_zero, Option.some.injEq] at hv0
        subst hv0
        refine ⟨by simpa using h0, ?_⟩
        intro k hk
        have := hall (k + 1) (by omega)
        simp only [List.getElem?_cons_succ] at this
        rw [this]
        congr 1
        omega

/-- The joint loop: it returns one joint per joint handed to it, the `k`-th being the
record decoded at `start + ofsJointData + lut[i0 + k] * 0x40` into that joint, with the
name `nameTable[i0 + k]`. -/
theorem readJointRecords_spec (start : Nat) (ofs : Int) (lut : List Nat)
    (nameTable : List String) (todo : List Joint) :
    ∀ {r r' : BinaryReader} {i0 : Nat} {js : List Joint},
      readJointRecords r start ofs lut nameTable i0 todo = some (js, r') →
      js.length = todo.length ∧ (∃ p, r' = r.seekSet p) ∧
      ∀ k, k < todo.length → ∃ slot name old j rj,
        lut[i0 + k]? = some slot ∧ nameTable[i0 + k]? = some name ∧ todo[k]? = some old ∧
        readJointRecord (r.seekSet (toU32 ((start : Int) + ofs + (slot : Int) * 0x40))) old name =
          some (j, rj) ∧ js[k]? = some j := by
  induction todo with
  | nil =>
    intro r r' i0 js h
    simp only [readJointRecords, Option.some.injEq, Prod.mk.injEq] at h
    obtain ⟨rfl, rfl⟩ := h
    exact ⟨rfl, ⟨r.pos, rfl⟩, fun k hk => absurd hk (by simp)⟩
  | cons joint todo ih =>
    intro r r' i0 js h
    rcases hl : lut[i0]? with _ | slot
    · simp [readJointRecords, hl] at h
    rcases hn : nameTable[i0]? with _ | name
    · simp [readJointRecords, hl, hn] at h
    simp only [readJointRecords, hl, hn] at h
    rcases h1 : readJointRecord
      (r.seekSet (toU32 ((start : Int) + ofs + (slot : Int) * 0x40))) joint name
      with _ | ⟨j, r1⟩
    · simp [h1] at h
    try simp only [h1] at h
    obtain ⟨hr1, -⟩ := readJointRecord_reader h1
    split at h
    · exact absurd h (by simp)
    next rest r2 h2 =>
    simp only [Option.some.injEq, Prod.mk.injEq] at h
    obtain ⟨rfl, rfl⟩ := h
    obtain ⟨hlen, ⟨p, hp⟩, hget⟩ := ih h2
    refine ⟨by simp [hlen], ⟨p, by rw [hp, hr1]; rfl⟩, ?_⟩
    intro k hk
    cases k with
    | zero =>
      exact ⟨slot, name, joint, j, r1, by simpa using hl, by simpa using hn, by simp, h1, by simp⟩
    | succ k =>
      obtain ⟨s, nm, old, j', rj, e1, e2, e3, e4, e5⟩ := hget k (by simpa using hk)
      rw [show i0 + 1 + k = i0 + (k + 1) by omega] at e1 e2
      refine ⟨s, nm, old, j', rj, e1, e2, by simpa using e3, ?_, by simpa using e5⟩
      rw [← e4, hr1]
      rfl

end libcube.jsystem

namespace libcube.jsystem

/-- The shape of a successful `readJoints` when the section table has a `JNT1` entry:
the header at the section start gives the count at offset 8 and the three offsets at 12,
16 and 20; the remap table and the name table are read at their offsets from the section
start, and the joints are what the joint loop returns for them. -/
theorem readJoints_JNT1 {imp : BMDImporter} {r r' : BinaryReader}
    {ctx ctx' : BMDOutputContext} {dbg : List String} {sec : SectionEntry}
    (hsec : findSection imp (fourCC 'J' 'N' 'T' '1') = some sec)
    (h : readJoints imp r ctx = some (r', ctx', dbg)) :
    ∃ (size : Nat) (oData oRemap oString : Int) (lut : List Nat) (sorted : Bool)
      (nameTable : List String) (rA rB : BinaryReader),
      beAt r.buf (toU32 ((sec.streamPos : Int) - 8) + 8) 2 = some size ∧
      (beAt r.buf (toU32 ((sec.streamPos : Int) - 8) + 12) 4).map (toSigned 32) = some oData ∧
      (beAt r.buf (toU32 ((sec.streamPos : Int) - 8) + 16) 4).map (toSigned 32) = some oRemap ∧
      (beAt r.buf (toU32 ((sec.streamPos : Int) - 8) + 20) 4).map (toSigned 32) = some oString ∧
      readRemapTable
        (r.seekSet (toU32 (((toU32 ((sec.streamPos : Int) - 8) : Nat) : Int) + oRemap)))
        0 true size = some (lut, sorted, rA) ∧
      readNameTable
        (r.seekSet (toU32 (oString + ((toU32 ((sec.streamPos : Int) - 8) : Nat) : Int)))) =
        some (nameTable, rB) ∧
      (∀ z, rB.seekSet z = r.seekSet z) ∧
      readJointRecords rB (toU32 ((sec.streamPos : Int) - 8)) oData lut nameTable 0
        (resize ctx.mdl.mJoints size {}) = some (ctx'.mdl.mJoints, r') ∧
      ctx'.jointIdLut = lut ∧ ctx'.materialIdLut = ctx.materialIdLut ∧
      ctx'.mdl.mMaterials = ctx.mdl.mMaterials ∧
      ctx'.mdl.mDrawMatrices = ctx.mdl.mDrawMatrices ∧
      ctx'.mdl.mScalingRule = ctx.mdl.mScalingRule ∧
      dbg = (if sorted then [] else [jointRemapNotice]) := by
  unfold readJoints at h
  rw [enterSection_of_find hsec] at h
  simp only [scopedSection, BinaryReader.tell, BinaryReader.seekSet_pos] at h
  split at h
  · exact absurd h (by simp)
  next size r1 h1 =>
    obtain ⟨hsize, rfl⟩ := BinaryReader.readU_eq_some.1 h1
    split at h
    · exact absurd h (by simp)
    next pad r2 h2 =>
      obtain ⟨-, rfl⟩ := BinaryReader.readU_eq_some.1 h2
      split at h
      next a b c r3 h3 =>
        obtain ⟨rfl, -, hoff⟩ := BinaryReader.readSs_eq_some h3
        have ha := hoff 0 (by omega)
        have hb := hoff 1 (by omega)
        have hc := hoff 2 (by omega)
        simp only [List.getElem?_cons_zero, List.getElem?_cons_succ, BinaryReader.seek_buf,
          BinaryReader.seek_pos, BinaryReader.seekSet_buf, BinaryReader.seekSet_pos] at ha hb hc hsize
        split at h
        · exact absurd h (by simp)
        next lut sorted r4 h4 =>
          obtain ⟨hr4, -, -, -⟩ := readRemapTable_spec size h4
          split at h
          · exact absurd h (by simp)
          next nameTable r5 h5 =>
            obtain ⟨-, hr5⟩ := readNameTable_reader h5
            split at h
            · exact absurd h (by simp)
            next joints r6 h6 =>
              simp only [Option.some.injEq, Prod.mk.injEq] at h
              obtain ⟨rfl, rfl, rfl⟩ := h
              refine ⟨size, a, b, c, lut, sorted, nameTable, r4, r5, hsize, ?_, ?_, ?_, h4, ?_, ?_,
                h6, rfl, rfl, rfl, rfl, rfl, rfl⟩
              · rw [ha]
              · rw [hb]
              · rw [hc]
              · rw [← h5, hr4]; rfl
              · intro z
                rw [hr5, hr4]; rfl
      · exact absurd h (by simp)

end libcube.jsystem

namespace libcube.jsystem

theorem length_resize {α : Type} (l : List α) (n : Nat) (d : α) : (resize l n d).length = n := by
  simp only [resize, List.length_append, List.length_take, List.length_replicate]
  omega

/-- The remap table of a successful `readMaterials` when the section table has a `MAT3`
entry: it is what the remap loop reads at the section start plus the second offset of
the header, for the count at offset 8. -/
theorem readMaterials_lut {imp : BMDImporter} {r r' : BinaryReader}
    {ctx ctx' : BMDOutputContext} {dbg : List String} {sec : SectionEntry}
    (hsec : findSection imp (fourCC 'M' 'A' 'T' '3') = some sec)
    (h : readMaterials imp r ctx = some (r', ctx', dbg)) :
    ∃ (size : Nat) (oRemap : Int) (sorted : Bool) (rA : BinaryReader),
      beAt r.buf (toU32 ((sec.streamPos : Int) - 8) + 8) 2 = some size ∧
      (beAt r.buf (toU32 ((sec.streamPos : Int) - 8) + 16) 4).map (toSigned 32) = some oRemap ∧
      readRemapTable
        (r.seekSet (toU32 (((toU32 ((sec.streamPos : Int) - 8) : Nat) : Int) + oRemap)))
        0 true size = some (ctx'.materialIdLut, sorted, rA) ∧
      dbg = (if sorted then [] else [materialRemapNotice]) := by
  unfold readMaterials at h
  rw [enterSection_of_find hsec] at h
  simp only [scopedSection, BinaryReader.tell, BinaryReader.seekSet_pos] at h
  split at h
  · exact absurd h (by simp)
  next size r1 h1 =>
    obtain ⟨hsize, rfl⟩ := BinaryReader.readU_eq_some.1 h1
    split at h
    · exact absurd h (by simp)
    next pad r2 h2 =>
      obtain ⟨-, rfl⟩ := BinaryReader.readU_eq_some.1 h2
      split at h
      next a b c r3 h3 =>
        obtain ⟨rfl, -, hoff⟩ := BinaryReader.readSs_eq_some h3
        have hb := hoff 1 (by omega)
        simp only [List.getElem?_cons_zero, List.getElem?_cons_succ, BinaryReader.seek_buf,
          BinaryReader.seek_pos, BinaryReader.seekSet_buf, BinaryReader.seekSet_pos] at hb hsize
        split at h
        · exact absurd h (by simp)
        next secs r3a h3a =>
          obtain ⟨rfl, -, -⟩ := BinaryReader.readSs_eq_some h3a
          split at h
          · exact absurd h (by simp)
          next lut sorted r4 h4 =>
            split at h
            · exact absurd h (by simp)
            next nameTable r5 h5 =>
              split at h
              · exact absurd h (by simp)
              next materials r6 h6 =>
                simp only [Option.some.injEq, Prod.mk.injEq] at h
                obtain ⟨rfl, rfl, rfl⟩ := h
                refine ⟨size, b, sorted, r4, hsize, ?_, h4, rfl⟩
                rw [hb]
      · exact absurd h (by simp)

end libcube.jsystem

namespace libcube.jsystem

/-- The rotation components of a decoded record: the raw signed word divided by `0x7ff`
as integers, rounding toward zero. -/
theorem readJointRecord_rotate {r r' : BinaryReader} {joint j : Joint} {name : String}
    (h : readJointRecord r joint name = some (j, r')) (k raw : Nat) (hk : k < 3)
    (hraw : beAt r.buf (r.pos + 16 + 2 * k) 2 = some raw) :
    j.rotate[k]? = some (Int.tdiv (toSigned 16 raw) 0x7ff) := by
  obtain ⟨flag, maya, scale, rot, translate, radius, box, -, -, -, -, -, hrot, -, -, -, -, -, -,
    hj⟩ := readJointRecord_eq_some h
  rw [hj]
  simp only [List.getElem?_map, hrot k hk, hraw, Option.map_some']

end libcube.jsystem

/-! ## Scene-graph interpreter: the properties of `SceneGraph::onRead` -/

namespace libcube.jsystem
namespace SceneGraph

/-- C1, as stated, fails: on `Joint 0, Open, Joint 1, Joint 1, Close, Terminate` (all
indices in range, identity remap table, no links before the run) joint `b` ends with
parent `a`, and `a` lists `b` twice among its children. -/
theorem onRead_parent_child_once_fails :
    ∃ ctx', onRead exampleCtx 0 relinkStream = some ctx' ∧
      ParentChildOnce exampleCtx.mdl.mJoints ∧ ¬ ParentChildOnce ctx'.mdl.mJoints := by
  refine ⟨_, rfl, ?_, ?_⟩
  · intro j hj p hp hpar
    simp [exampleCtx] at hj
    rcases hj with rfl | rfl <;> simp at hpar
  · intro h
    have h1 := h { id := "b", parent := some "a" } (by decide)
      { id := "a", children := ["b", "b"] } (by decide) rfl
    exact absurd h1 (by decide)

/-- C1 (amended): after `SceneGraph::onRead` has run on any instruction stream, starting
from joints in which every parent link has a matching child entry (in particular from
joints without any parent link), every joint whose parent link is set to an id `x` has
its own id among the children of a joint with id `x`. -/
theorem onRead_parent_has_child (ctx ctx' : BMDOutputContext) (mat0 : Nat)
    (cmds : List ByteCodeCmd) (h0 : ParentHasChild ctx.mdl.mJoints)
    (h : onRead ctx mat0 cmds = some ctx') : ParentHasChild ctx'.mdl.mJoints := by
  unfold onRead at h
  rw [Option.map_eq_some'] at h
  obtain ⟨s', hrun, rfl⟩ := h
  exact run_ctx_invariant (fun c => ParentHasChild c.mdl.mJoints)
    (fun _ _ _ hs hP => step_ParentHasChild hs hP) cmds (init ctx mat0) s' hrun h0

/-- C1 (amended), on the stream that links joint 1 twice under joint 0. -/
theorem onRead_parent_has_child_witness :
    ParentHasChild [{ id := "a", children := ["b", "b"] }, { id := "b", parent := some "a" }] :=
  onRead_parent_has_child exampleCtx
    { exampleCtx with mdl := { exampleCtx.mdl with
        mJoints := [{ id := "a", children := ["b", "b"] }, { id := "b", parent := some "a" }] } }
    0 relinkStream
    (by
      intro j hj x hx
      simp [exampleCtx] at hj
      rcases hj with rfl | rfl <;> simp at hx)
    (by decide)

/-- What `Joint` does in general. With an empty `joint_stack` the context (so every
parent and children field) is unchanged. With a non-empty `joint_stack` whose top `t`
resolves to slot `pi = jointIdLut[t]` holding `p`, and `idx` resolving to slot
`ci = jointIdLut[idx]` holding `c`, the step succeeds, the children of slot `pi` become
`p.children ++ [c.id]`, the parent of slot `ci` becomes `p.id`, and no other slot
changes. In both cases `joint` becomes `idx` (as a `u16`; that is `idx` itself for a
non-negative `idx`) and both stacks are unchanged. -/
theorem step_Joint_links (s : State) (idx : Int) :
    (s.joint_stack = [] →
      step s ⟨ByteCodeOp.Joint, idx⟩ =
        some { s with joint := toU16 idx, lastType := ByteCodeOp.Joint }) ∧
    (∀ t pi n ci p c, s.joint_stack.getLast? = some t →
      s.ctx.jointIdLut[t]? = some pi → toIndex idx = some n →
      s.ctx.jointIdLut[n]? = some ci →
      s.ctx.mdl.mJoints[pi]? = some p → s.ctx.mdl.mJoints[ci]? = some c →
      ∃ s', step s ⟨ByteCodeOp.Joint, idx⟩ = some s' ∧
        (s'.ctx.mdl.mJoints[pi]?).map (fun j => j.children) = some (p.children ++ [c.id]) ∧
        (s'.ctx.mdl.mJoints[ci]?).map (fun j => j.parent) = some (some p.id) ∧
        (∀ k, k ≠ pi → k ≠ ci → s'.ctx.mdl.mJoints[k]? = s.ctx.mdl.mJoints[k]?) ∧
        s'.joint = toU16 idx ∧ s'.hierarchy_stack = s.hierarchy_stack ∧
        s'.joint_stack = s.joint_stack) ∧
    (0 ≤ idx → idx < 65536 → (toU16 idx : Int) = idx) := by
  refine ⟨?_, ?_, toU16_of_nonneg⟩
  · intro hempty
    rw [step_Joint_eq, execJoint_eq_some.2 (Or.inl ⟨hempty, rfl⟩)]
    rfl
  · intro t pi n ci p c ht hpi hn hci hp hc
    have hl := linkJoint_eq_some.2 ⟨pi, n, ci, p, c, hpi, hn, hci, hp, hc, rfl⟩
    rw [step_Joint_eq, execJoint_eq_some.2 (Or.inr ⟨t, _, ht, hl, rfl⟩)]
    refine ⟨_, rfl, ?_, ?_, ?_, rfl, rfl, rfl⟩
    · simp only [linked_getElem? hp hc]
      by_cases hpc : pi = ci
      · subst hpc
        simp [setParent, addChild]
      · simp [hpc, addChild]
    · simp [linked_getElem? hp hc, setParent]
    · intro k hk1 hk2
      simp [linked_getElem? hp hc, hk1, hk2]

/-- C2, evaluated where the remap table is `[1, 0]`: executing `Joint(1)` with joint 0
on top of `joint_stack` appends to the children of `mJoints[1]` (the slot
`jointIdLut[0]`) and sets the parent of `mJoints[0]` (the slot `jointIdLut[1]`), so
that the joint `b`, which `readJoints` stored for logical index 1, becomes the parent
of the joint `a`, stored for logical index 0; `joint` becomes 1 and the stacks are
unchanged. The same on the whole stream `Joint 0, Open, Joint 1, Close, Terminate`. -/
theorem step_Joint_links_remapped_slots :
    (step { init swappedCtx 0 with joint_stack := [0] } ⟨ByteCodeOp.Joint, 1⟩).map
      (fun s => s.ctx.mdl.mJoints.map (fun j => (j.id, j.parent, j.children))) =
      some [("a", some "b", []), ("b", none, ["a"])] ∧
    (step { init swappedCtx 0 with joint_stack := [0] } ⟨ByteCodeOp.Joint, 1⟩).map
      (fun s => (s.joint, s.joint_stack, s.hierarchy_stack.length)) = some (1, [0], 0) ∧
    (onRead swappedCtx 0 (treeBody ++ [⟨ByteCodeOp.Terminate, 0⟩])).map
      (fun c => c.mdl.mJoints.map (fun j => (j.id, j.parent, j.children))) =
      some [("a", some "b", []), ("b", none, ["a"])] := by
  decide

/-- C3, evaluated where the remap table is `[1, 0]`: after `Joint 0, Material 0, Shape 0`
the display record is on `mJoints[1]` (the slot `jointIdLut[0]`), and `mJoints[0]`, the
joint `readJoints` stored for logical index 0, has none. -/
theorem onRead_shape_uses_remapped_slot :
    (onRead swappedCtx 0 shapeStream).map (fun c => c.mdl.mJoints.map (fun j => j.displays)) =
      some [[], [⟨"m0", "Shapes TODO"⟩]] := by
  decide

/-- What `Shape` does in general: with `joint` resolving to slot `ji` holding `j`, and
`mat` selecting material `m`, the step succeeds, slot `ji` gains the one record
`(m.id, "Shapes TODO")` at the end of its displays, and no other slot changes. -/
theorem step_Shape_appends (s : State) (idx : Int) (ji : Nat) (m : Material) (j : Joint)
    (hji : s.ctx.jointIdLut[s.joint]? = some ji) (hm : s.ctx.mdl.mMaterials[s.mat]? = some m)
    (hj : s.ctx.mdl.mJoints[ji]? = some j) :
    ∃ s', step s ⟨ByteCodeOp.Shape, idx⟩ = some s' ∧
      s'.ctx.mdl.mJoints[ji]? = some (addDisplay j ⟨m.id, "Shapes TODO"⟩) ∧
      (∀ k, k ≠ ji → s'.ctx.mdl.mJoints[k]? = s.ctx.mdl.mJoints[k]?) := by
  have hlt : ji < s.ctx.mdl.mJoints.length := (List.getElem?_eq_some_iff.1 hj).1
  rw [step_Shape_eq, execShape_eq_some.2 ⟨ji, m, j, hji, hm, hj, rfl⟩]
  refine ⟨_, rfl, ?_, ?_⟩
  · simp [List.getElem?_set, hlt]
  · intro k hk
    have hk' : ¬ ji = k := fun e => hk e.symm
    simp [List.getElem?_set, hk']

/-- C4: executing `Open` always succeeds, pushes `lastType` onto `hierarchy_stack`,
pushes `joint` onto `joint_stack` exactly when `lastType` is `Joint`, and leaves
`lastType`, the context and the two registers as they were. -/
theorem step_Open_pushes (s : State) (idx : Int) :
    ∃ s', step s ⟨ByteCodeOp.Open, idx⟩ = some s' ∧
      s'.hierarchy_stack = s.hierarchy_stack ++ [s.lastType] ∧
      s'.joint_stack = (if s.lastType = ByteCodeOp.Joint then s.joint_stack ++ [s.joint]
        else s.joint_stack) ∧
      s'.lastType = s.lastType ∧ s'.ctx = s.ctx ∧ s'.joint = s.joint ∧ s'.mat = s.mat :=
  ⟨_, step_Open_eq s idx, rfl, rfl, rfl, rfl, rfl, rfl⟩

/-- C5: executing `Close` on a `hierarchy_stack` with top `t` (and, when `t` is `Joint`,
a non-empty `joint_stack`) removes `t` and removes the top of `joint_stack` exactly when
`t` is `Joint`; and `Open` immediately followed by `Close` always succeeds and restores
the state, both stacks included. -/
theorem step_Close_pops (s : State) (i k : Int) :
    (∀ hs t, s.hierarchy_stack = hs ++ [t] → (t = ByteCodeOp.Joint → s.joint_stack ≠ []) →
      step s ⟨ByteCodeOp.Close, k⟩ = some { s with
        hierarchy_stack := hs,
        joint_stack := if t = ByteCodeOp.Joint then s.joint_stack.dropLast
          else s.joint_stack }) ∧
    (∃ s1, step s ⟨ByteCodeOp.Open, i⟩ = some s1 ∧ step s1 ⟨ByteCodeOp.Close, k⟩ = some s) := by
  constructor
  · intro hs t hhs hjs
    rw [step_Close_eq]
    by_cases ht : t = ByteCodeOp.Joint
    · have hne := hjs ht
      rw [execClose_eq_some.2 ⟨hs, t, hhs, Or.inl ⟨ht, _, _,
        (List.dropLast_append_getLast hne).symm, rfl⟩⟩]
      simp [ht]
    · rw [execClose_eq_some.2 ⟨hs, t, hhs, Or.inr ⟨ht, rfl⟩⟩]
      simp [ht]
  · refine ⟨_, step_Open_eq s i, ?_⟩
    rw [step_Close_eq]
    by_cases hl : s.lastType = ByteCodeOp.Joint
    · exact execClose_eq_some.2 ⟨s.hierarchy_stack, s.lastType, rfl,
        Or.inl ⟨hl, s.joint_stack, s.joint, by simp [hl], rfl⟩⟩
    · exact execClose_eq_some.2 ⟨s.hierarchy_stack, s.lastType, rfl,
        Or.inr ⟨hl, by simp [hl]⟩⟩

/-- C5 at a concrete state: `hierarchy_stack = [Material, Joint]`, `joint_stack = [7]`. -/
theorem step_Close_pops_witness :
    step { init exampleCtx 0 with
        hierarchy_stack := [ByteCodeOp.Material, ByteCodeOp.Joint], joint_stack := [7] }
      ⟨ByteCodeOp.Close, 0⟩ =
    some { init exampleCtx 0 with hierarchy_stack := [ByteCodeOp.Material], joint_stack := [] } :=
  (step_Close_pops { init exampleCtx 0 with
      hierarchy_stack := [ByteCodeOp.Material, ByteCodeOp.Joint], joint_stack := [7] } 0 0).1
    [ByteCodeOp.Material] ByteCodeOp.Joint rfl (by simp)

/-- C6: `SceneGraph::onRead` halts at the first `Terminate`: two streams that agree up
to and including a `Terminate` give the same result, which is the result of the stream
cut after that `Terminate`. -/
theorem onRead_stops_at_Terminate (ctx : BMDOutputContext) (mat0 : Nat)
    (pre post1 post2 : List ByteCodeCmd) (i : Int) :
    onRead ctx mat0 (pre ++ ⟨ByteCodeOp.Terminate, i⟩ :: post1) =
      onRead ctx mat0 (pre ++ ⟨ByteCodeOp.Terminate, i⟩ :: post2) ∧
    onRead ctx mat0 (pre ++ ⟨ByteCodeOp.Terminate, i⟩ :: post1) =
      onRead ctx mat0 (pre ++ [⟨ByteCodeOp.Terminate, i⟩]) := by
  unfold onRead
  rw [run_append_Terminate _ pre post1, run_append_Terminate _ pre post2]
  exact ⟨rfl, rfl⟩

/-- C7: for a well-formed stream both stacks are empty when `SceneGraph::onRead` halts;
and when all indices are in range it does halt. -/
theorem onRead_wellFormed_stacks_empty (ctx : BMDOutputContext) (mat0 : Nat)
    (pre post : List ByteCodeCmd) (i : Int) (hwf : WellFormed pre) :
    (∀ s, run (init ctx mat0) (pre ++ ⟨ByteCodeOp.Terminate, i⟩ :: post) = some s →
      s.hierarchy_stack = [] ∧ s.joint_stack = []) ∧
    (InRange ctx mat0 pre →
      ∃ s, run (init ctx mat0) (pre ++ ⟨ByteCodeOp.Terminate, i⟩ :: post) = some s) := by
  obtain ⟨hT, hpre, hbal⟩ := hwf
  constructor
  · intro s hs
    obtain ⟨hd, hinv⟩ := run_depth pre i post (init ctx mat0) s hT hs
    have hlen : s.hierarchy_stack.length = 0 := by
      simp only [init, List.length_nil] at hd
      omega
    have hhs : s.hierarchy_stack = [] := List.length_eq_zero.1 hlen
    have hI : StackInv s := hinv (by simp [StackInv, init])
    unfold StackInv at hI
    rw [hhs] at hI
    exact ⟨hhs, List.length_eq_zero.1 (by simpa using hI)⟩
  · intro ⟨hj, hm, hok⟩
    refine run_succeeds ctx pre i post (init ctx mat0) ?_ hT hok ?_
    · exact ⟨by simp [StackInv, init], rfl, rfl, rfl, hj, hm, by simp [init]⟩
    · intro k hk
      have := hpre k hk
      omega

/-- C7 on `Joint 0, Open, Joint 1, Close, Terminate`: the stream is well formed and in
range, the run halts, and both stacks are empty. -/
theorem onRead_wellFormed_stacks_empty_witness :
    WellFormed treeBody ∧ InRange exampleCtx 0 treeBody ∧
    ∃ s, run (init exampleCtx 0) (treeBody ++ ⟨ByteCodeOp.Terminate, 0⟩ :: []) = some s ∧
      s.hierarchy_stack = [] ∧ s.joint_stack = [] := by
  have hwf : WellFormed treeBody := by
    refine ⟨by decide, ?_, by decide⟩
    intro k hk
    have hk4 : k ≤ 4 := hk
    interval_cases k <;> decide
  have hin : InRange exampleCtx 0 treeBody := by
    refine ⟨⟨0, rfl, by decide⟩, by decide, ?_⟩
    intro c hc
    simp only [treeBody, List.mem_cons, List.mem_singleton, List.not_mem_nil, or_false] at hc
    rcases hc with rfl | rfl | rfl | rfl
    · exact ⟨fun _ => ⟨by decide, by decide, ⟨0, rfl, by decide⟩⟩, fun h => absurd h (by decide)⟩
    · exact ⟨fun h => absurd h (by decide), fun h => absurd h (by decide)⟩
    · exact ⟨fun _ => ⟨by decide, by decide, ⟨1, rfl, by decide⟩⟩, fun h => absurd h (by decide)⟩
    · exact ⟨fun h => absurd h (by decide), fun h => absurd h (by decide)⟩
  have h := onRead_wellFormed_stacks_empty exampleCtx 0 treeBody [] 0 hwf
  obtain ⟨s, hs⟩ := h.2 hin
  exact ⟨hwf, hin, s, hs, h.1 s hs⟩

/-- C8, evaluated on `Shape 0, Terminate`: the material id of the display record is read
through the uninitialised local `mat`, so two runs on the same stream, arrays and remap
table give `m0` for one starting value and `m1` for another. -/
theorem onRead_depends_on_uninitialised_mat :
    (onRead exampleCtx 0 bareShapeStream).map
        (fun c => c.mdl.mJoints.map (fun j => j.displays)) =
      some [[⟨"m0", "Shapes TODO"⟩], []] ∧
    (onRead exampleCtx 1 bareShapeStream).map
        (fun c => c.mdl.mJoints.map (fun j => j.displays)) =
      some [[⟨"m1", "Shapes TODO"⟩], []] := by
  decide

/-- C9: on the stream that consists of `Terminate` alone, `SceneGraph::onRead` returns
the context exactly as it received it. -/
theorem onRead_only_Terminate (ctx : BMDOutputContext) (mat0 : Nat) (i : Int) :
    onRead ctx mat0 [⟨ByteCodeOp.Terminate, i⟩] = some ctx := by
  simp [onRead, run, init]

end SceneGraph
end libcube.jsystem

/-! ## The import pipeline: magic check, envelopes and draw matrices -/

namespace libcube.jsystem

/-- C11, as stated, fails on a 32-byte file with magic `J3D1` and version `bmd3`:
`tryRead` does not return `false`. The magic check aborts the import, so `tryRead` has
no return value; and had the check returned, the rest of `readBMD` would have left
`error` false on this file, since only the version branch sets it. -/
theorem tryRead_bad_magic_not_false :
    (¬ ∃ res, tryRead {} { buf := badMagicBmd } {} 0 = some res ∧ res.ok = false) ∧
    (readBMDAfterMagic {} { buf := badMagicBmd, pos := 4 } {} 0).map
      (fun res => res.imp.error) = some false := by
  constructor
  · rintro ⟨res, h, -⟩
    have hnone : tryRead {} { buf := badMagicBmd } {} 0 = none := by decide
    rw [hnone] at h
    exact absurd h (by simp)
  · decide

/-- C11 (amended): for every input whose first four bytes are not the magic `J3D2`,
whatever follows them, the magic check aborts the import before the version word is
read: `expectMagic`, `readBMD` and `tryRead` have no result, so nothing is lexed and no
joint, material, draw matrix or hierarchy is written to the model. -/
theorem readBMD_bad_magic_aborts (imp : BMDImporter) (r r1 : BinaryReader)
    (ctx : BMDOutputContext) (mModel : J3DModel) (mat0 v : Nat)
    (h : r.readU 4 = some (v, r1)) (hv : v ≠ fourCC 'J' '3' 'D' '2') :
    r.expectMagic (fourCC 'J' '3' 'D' '2') = none ∧ readBMD imp r ctx mat0 = none ∧
    tryRead imp r mModel mat0 = none := by
  have h1 : r.expectMagic (fourCC 'J' '3' 'D' '2') = none := by
    simp [BinaryReader.expectMagic, h, hv]
  have h2 : ∀ c, readBMD imp r c mat0 = none := fun c => by simp [readBMD, h1]
  exact ⟨h1, h2 ctx, by simp [tryRead, h2]⟩

/-- C11 (amended) on the file with magic `J3D1`. -/
theorem readBMD_bad_magic_aborts_witness :
    BinaryReader.expectMagic { buf := badMagicBmd } (fourCC 'J' '3' 'D' '2') = none ∧
    readBMD {} { buf := badMagicBmd } {} 0 = none ∧
    tryRead {} { buf := badMagicBmd } {} 0 = none :=
  readBMD_bad_magic_aborts {} { buf := badMagicBmd } { buf := badMagicBmd, pos := 4 } {} {} 0
    (fourCC 'J' '3' 'D' '1') (by decide) (by decide)

/-- C12: in a successful `readDrawMatrices` with a `DRW1` section, the reader ends at the
section header; the header holds the slot count at offset 8 and the offsets of the flag
table and of the index table at offsets 12 and 16; and every slot `i` whose flag byte is
0 and whose index entry is `k` becomes the one-element draw matrix
`[(jointId = k, weight = 1.0)]` (1.0 is the bit pattern `0x3F800000`). -/
theorem readDrawMatrices_rigid_slot (imp : BMDImporter) (r r' : BinaryReader)
    (ctx ctx' : BMDOutputContext) (sec : SectionEntry)
    (hsec : findSection imp (fourCC 'D' 'R' 'W' '1') = some sec)
    (h : readDrawMatrices imp r ctx = some (r', ctx'))
    (pw ix i k : Nat) (hpw : r'.peekAt 4 12 = some pw) (hix : r'.peekAt 4 16 = some ix)
    (hi : i < ctx'.mdl.mDrawMatrices.length)
    (hflag : r'.peekAt 1 (toSigned 32 pw + (i : Int)) = some 0)
    (hidx : r'.peekAt 2 (toSigned 32 ix + (i : Int) * 2) = some k) :
    r' = r.seekSet (toU32 ((sec.streamPos : Int) - 8)) ∧
    r'.peekAt 2 8 = some ctx'.mdl.mDrawMatrices.length ∧
    ctx'.mdl.mDrawMatrices[i]? = some ⟨[⟨k, 0x3F800000⟩]⟩ := by
  obtain ⟨envelopes, r0, size, pw', ix', ms, -, hr, hsize, hpw', hix', hms, rfl⟩ :=
    readDrawMatrices_DRW1 hsec h
  have e1 : pw' = pw := Option.some.inj (hpw'.symm.trans hpw)
  have e2 : ix' = ix := Option.some.inj (hix'.symm.trans hix)
  subst e1 e2
  obtain ⟨hlen, hget⟩ := readDrawMatrixSlots_spec r' envelopes _ _ size 0 ms hms
  simp only at hi ⊢
  rw [hlen] at hi ⊢
  refine ⟨hr, hsize, ?_⟩
  obtain ⟨flag, idx, h1, h2, h3, -⟩ := hget i hi
  simp only [Nat.zero_add] at h1 h2
  have e3 : flag = 0 := Option.some.inj (h1.symm.trans hflag)
  have e4 : idx = k := Option.some.inj (h2.symm.trans hidx)
  subst e3 e4
  simpa [rigidDrawMatrix] using h3

/-- C12 on `skinBuf`: slot 1 has flag 0 and index 3. -/
theorem readDrawMatrices_rigid_slot_witness :
    ({ buf := skinBuf, pos := 48 } : BinaryReader) =
      BinaryReader.seekSet { buf := skinBuf } (toU32 (((56 : Nat) : Int) - 8)) ∧
    BinaryReader.peekAt { buf := skinBuf, pos := 48 } 2 8 = some 2 ∧
    ([⟨[⟨5, 0x3E800000⟩, ⟨7, 0x3F400000⟩]⟩, ⟨[⟨3, 0x3F800000⟩]⟩] : List DrawMatrix)[1]? =
      some ⟨[⟨3, 0x3F800000⟩]⟩ :=
  readDrawMatrices_rigid_slot skinImp { buf := skinBuf } { buf := skinBuf, pos := 48 } {}
    { mdl := { mDrawMatrices :=
        [⟨[⟨5, 0x3E800000⟩, ⟨7, 0x3F400000⟩]⟩, ⟨[⟨3, 0x3F800000⟩]⟩] } }
    ⟨56, 28⟩ (by decide) (by decide) 20 22 1 3 (by decide) (by decide) (by decide)
    (by decide) (by decide)

/-- C13: in a successful `readDrawMatrices` with a `DRW1` section, every slot `i` whose
flag byte is not 0 and whose index entry is `e` becomes envelope `e` of the list the
`EVP1` block decoded, unchanged; `e` is then below the envelope count. -/
theorem readDrawMatrices_envelope_slot (imp : BMDImporter) (r r' : BinaryReader)
    (ctx ctx' : BMDOutputContext) (sec : SectionEntry)
    (hsec : findSection imp (fourCC 'D' 'R' 'W' '1') = some sec)
    (h : readDrawMatrices imp r ctx = some (r', ctx'))
    (pw ix i flag e : Nat) (hpw : r'.peekAt 4 12 = some pw) (hix : r'.peekAt 4 16 = some ix)
    (hi : i < ctx'.mdl.mDrawMatrices.length)
    (hflag : r'.peekAt 1 (toSigned 32 pw + (i : Int)) = some flag) (hne : flag ≠ 0)
    (hidx : r'.peekAt 2 (toSigned 32 ix + (i : Int) * 2) = some e) :
    ∃ envelopes r0, readEVP1 imp r = some (envelopes, r0) ∧ e < envelopes.length ∧
      ctx'.mdl.mDrawMatrices[i]? = envelopes[e]? := by
  obtain ⟨envelopes, r0, size, pw', ix', ms, hevp, -, -, hpw', hix', hms, rfl⟩ :=
    readDrawMatrices_DRW1 hsec h
  have e1 : pw' = pw := Option.some.inj (hpw'.symm.trans hpw)
  have e2 : ix' = ix := Option.some.inj (hix'.symm.trans hix)
  subst e1 e2
  obtain ⟨hlen, hget⟩ := readDrawMatrixSlots_spec r' envelopes _ _ size 0 ms hms
  simp only at hi ⊢
  rw [hlen] at hi
  obtain ⟨flag', idx, h1, h2, h3, h4⟩ := hget i hi
  simp only [Nat.zero_add] at h1 h2
  have e3 : flag' = flag := Option.some.inj (h1.symm.trans hflag)
  have e4 : idx = e := Option.some.inj (h2.symm.trans hidx)
  subst e3 e4
  exact ⟨envelopes, r0, hevp, h4 hne, by rw [h3, if_pos hne]⟩

/-- C13 on `skinBuf`: slot 0 has flag 1 and index 0, and envelope 0 is
`[(5, 0.25), (7, 0.75)]`; and on `scenarioEBuf`, the file of Scenario E, lexed and then
read: its one slot becomes `[(5, 0.25), (7, 0.75)]`. -/
theorem readDrawMatrices_envelope_slot_witness :
    (∃ envelopes r0, readEVP1 skinImp { buf := skinBuf } = some (envelopes, r0) ∧
      0 < envelopes.length ∧
      ([⟨[⟨5, 0x3E800000⟩, ⟨7, 0x3F400000⟩]⟩, ⟨[⟨3, 0x3F800000⟩]⟩] : List DrawMatrix)[0]? =
        envelopes[0]?) ∧
    (readDrawMatrices skinImp { buf := skinBuf } {}).map
        (fun x => x.2.mdl.mDrawMatrices[0]?) =
      some (some ⟨[⟨5, 0x3E800000⟩, ⟨7, 0x3F400000⟩]⟩) ∧
    (lex {} { buf := scenarioEBuf } 2).map (fun x => x.1) = some scenarioEImp ∧
    (readDrawMatrices scenarioEImp { buf := scenarioEBuf } {}).map
        (fun x => x.2.mdl.mDrawMatrices) =
      some [⟨[⟨5, 0x3E800000⟩, ⟨7, 0x3F400000⟩]⟩] :=
  ⟨readDrawMatrices_envelope_slot skinImp { buf := skinBuf } { buf := skinBuf, pos := 48 } {}
    { mdl := { mDrawMatrices :=
        [⟨[⟨5, 0x3E800000⟩, ⟨7, 0x3F400000⟩]⟩, ⟨[⟨3, 0x3F800000⟩]⟩] } }
    ⟨56, 28⟩ (by decide) (by decide) 20 22 0 1 0 (by decide) (by decide) (by decide)
    (by decide) (by decide) (by decide), by decide, by decide, by decide⟩

/-- C14: the envelope decode partitions one flat pair stream by the count table. When
the count table and the flat index and weight tables are in the buffer, the decode of
`size` envelopes succeeds; envelope `i` gets `countTable i` weights, its `j`-th being
`(indexTable (S i + j), weightTable (S i + j))` with `S i` the sum of the counts before
`i`; and the number of pairs in all envelopes is the sum of all counts. -/
theorem readEnvelopes_partition (r : BinaryReader) (oS oI oW : Int) (size : Nat)
    (countTable indexTable weightTable : Nat → Nat)
    (hc : ∀ i, i < size → r.peekAt 1 (oS + (i : Int)) = some (countTable i))
    (hw : ∀ m, m < prefixSum countTable size →
      r.peekAt 2 (oI + (m : Int) * 2) = some (indexTable m) ∧
      r.peekAt 4 (oW + (m : Int) * 4) = some (weightTable m)) :
    ∃ es, readEnvelopes r oS oI oW 0 0 size = some es ∧ es.length = size ∧
      (∀ i, i < size → ∃ env, es[i]? = some env ∧ env.mWeights.length = countTable i ∧
        ∀ j, j < countTable i → env.mWeights[j]? =
          some ⟨indexTable (prefixSum countTable i + j),
                weightTable (prefixSum countTable i + j)⟩) ∧
      (es.map (fun env => env.mWeights.length)).sum = prefixSum countTable size := by
  have h := readEnvelopes_eq r oS oI oW countTable indexTable weightTable size 0
    (by simpa using hc) (by simpa using hw)
  simp only [prefixSum, Nat.zero_add] at h
  refine ⟨_, h, by simp, ?_, ?_⟩
  · intro i hi
    refine ⟨⟨envelopeWeights countTable indexTable weightTable i⟩, ?_, ?_, ?_⟩
    · simp [List.getElem?_map, List.getElem?_range hi]
    · exact envelopeWeights_length _ _ _ i
    · intro j hj
      exact envelopeWeights_getElem? _ _ _ i j hj
  · rw [List.map_map, ← sum_map_range_eq_prefixSum]
    congr 1
    apply List.map_congr_left
    intro i _
    simp [envelopeWeights_length]

/-- C14 on `skinBuf`: counts 2 and 1 over the three pairs (5, 0.25), (7, 0.75), (9, 1.0). -/
theorem readEnvelopes_partition_witness :
    readEnvelopes { buf := skinBuf } 28 30 36 0 0 2 =
      some [⟨[⟨5, 0x3E800000⟩, ⟨7, 0x3F400000⟩]⟩, ⟨[⟨9, 0x3F800000⟩]⟩] ∧
    ∃ es, readEnvelopes { buf := skinBuf } 28 30 36 0 0 2 = some es ∧ es.length = 2 ∧
      (∀ i, i < 2 → ∃ env, es[i]? = some env ∧ env.mWeights.length = skinCounts i ∧
        ∀ j, j < skinCounts i → env.mWeights[j]? =
          some ⟨skinIndices (prefixSum skinCounts i + j),
                skinWeightBits (prefixSum skinCounts i + j)⟩) ∧
      (es.map (fun env => env.mWeights.length)).sum = prefixSum skinCounts 2 :=
  ⟨by decide,
   readEnvelopes_partition { buf := skinBuf } 28 30 36 2 skinCounts skinIndices skinWeightBits
    (by
      intro i hi
      interval_cases i <;> decide)
    (by
      intro m hm
      have hm3 : m < 3 := hm
      interval_cases m <;> decide)⟩

/-- C15, as stated, fails when only `EVP1` is absent: on `rigidBuf`, whose section table
has a `DRW1` entry and no `EVP1` entry, `readDrawMatrices` replaces the empty draw-matrix
list of the model by the one decoded slot. -/
theorem readDrawMatrices_without_EVP1_writes :
    findSection rigidImp (fourCC 'E' 'V' 'P' '1') = none ∧
    readDrawMatrices rigidImp { buf := rigidBuf } {} =
      some ({ buf := rigidBuf, pos := 0 },
            { mdl := { mDrawMatrices := [⟨[⟨3, 0x3F800000⟩]⟩] } }) := by
  decide

/-- C15 (amended): if the section table has no `DRW1` entry, `readDrawMatrices` does not
touch the context, whether or not there is an `EVP1` entry: it returns the context it
was given whenever the envelope block returns, and with no `EVP1` entry either it is a
no-op on the reader too. -/
theorem readDrawMatrices_without_DRW1 (imp : BMDImporter) (r : BinaryReader)
    (ctx : BMDOutputContext) (hdrw : findSection imp (fourCC 'D' 'R' 'W' '1') = none) :
    readDrawMatrices imp r ctx = (readEVP1 imp r).map (fun x => (x.2, ctx)) ∧
    (findSection imp (fourCC 'E' 'V' 'P' '1') = none →
      readDrawMatrices imp r ctx = some (r, ctx)) := by
  have h1 : readDrawMatrices imp r ctx = (readEVP1 imp r).map (fun x => (x.2, ctx)) := by
    unfold readDrawMatrices
    cases hevp : readEVP1 imp r with
    | none => rfl
    | some x =>
      obtain ⟨es, r0⟩ := x
      simp [enterSection_of_not_find hdrw]
  refine ⟨h1, ?_⟩
  intro hevp
  rw [h1]
  simp [readEVP1, enterSection_of_not_find hevp]

/-- C15 (amended) on the section table of `skinBuf` without its `DRW1` entry, and on the
empty section table. -/
theorem readDrawMatrices_without_DRW1_witness :
    readDrawMatrices { mSections := [(fourCC 'E' 'V' 'P' '1', ⟨8, 48⟩)] } { buf := skinBuf }
        exampleCtxDraw =
      some ({ buf := skinBuf, pos := 0 }, exampleCtxDraw) ∧
    readDrawMatrices {} { buf := skinBuf } exampleCtxDraw =
      some ({ buf := skinBuf }, exampleCtxDraw) := by
  have h1 := readDrawMatrices_without_DRW1 { mSections := [(fourCC 'E' 'V' 'P' '1', ⟨8, 48⟩)] }
    { buf := skinBuf } exampleCtxDraw (by decide)
  have h2 := readDrawMatrices_without_DRW1 {} { buf := skinBuf } exampleCtxDraw (by decide)
  refine ⟨?_, h2.2 (by decide)⟩
  rw [h1.1]
  decide

end libcube.jsystem

/-! ## The import pipeline: joints -/

namespace libcube.jsystem

/-- C16: after a successful `readJoints` on a `JNT1` section whose header holds the
count `size` at offset 8 and the offsets of the joint data, the remap table and the name
table at 12, 16 and 20, the model has exactly `size` joints and the remap table `size`
entries, read as `u16` at the remap offset; and for every logical index `i` below
`size`, joint `i` is the record decoded at section start + joint-data offset +
`remap[i] * 0x40`, `0x40` bytes long, carrying the name `nameTable[i]`. -/
theorem readJoints_decodes (imp : BMDImporter) (r r' : BinaryReader)
    (ctx ctx' : BMDOutputContext) (dbg : List String) (sec : SectionEntry)
    (hsec : findSection imp (fourCC 'J' 'N' 'T' '1') = some sec)
    (h : readJoints imp r ctx = some (r', ctx', dbg)) :
    ∃ (size : Nat) (oData oRemap oString : Int) (nameTable : List String) (rB : BinaryReader),
      beAt r.buf (toU32 ((sec.streamPos : Int) - 8) + 8) 2 = some size ∧
      (beAt r.buf (toU32 ((sec.streamPos : Int) - 8) + 12) 4).map (toSigned 32) = some oData ∧
      (beAt r.buf (toU32 ((sec.streamPos : Int) - 8) + 16) 4).map (toSigned 32) = some oRemap ∧
      (beAt r.buf (toU32 ((sec.streamPos : Int) - 8) + 20) 4).map (toSigned 32) = some oString ∧
      readNameTable
        (r.seekSet (toU32 (oString + ((toU32 ((sec.streamPos : Int) - 8) : Nat) : Int)))) =
        some (nameTable, rB) ∧
      ctx'.mdl.mJoints.length = size ∧ ctx'.jointIdLut.length = size ∧
      (∀ i, i < size → ctx'.jointIdLut[i]? =
        beAt r.buf
          (toU32 (((toU32 ((sec.streamPos : Int) - 8) : Nat) : Int) + oRemap) + 2 * i) 2) ∧
      ∀ i, i < size → ∃ slot name old j rj,
        ctx'.jointIdLut[i]? = some slot ∧ nameTable[i]? = some name ∧
        (resize ctx.mdl.mJoints size {})[i]? = some old ∧
        readJointRecord
          (r.seekSet (toU32 (((toU32 ((sec.streamPos : Int) - 8) : Nat) : Int) + oData +
            (slot : Int) * 0x40))) old name = some (j, rj) ∧
        rj.pos = toU32 (((toU32 ((sec.streamPos : Int) - 8) : Nat) : Int) + oData +
            (slot : Int) * 0x40) + 0x40 ∧
        ctx'.mdl.mJoints[i]? = some j ∧ j.id = name := by
  obtain ⟨size, oData, oRemap, oString, lut, sorted, nameTable, rA, rB, h1, h2, h3, h4, hremap,
    hnames, hrB, hrecs, hlut, -, -, -, -, -⟩ := readJoints_JNT1 hsec h
  obtain ⟨-, hlen, hget, -⟩ := readRemapTable_spec size hremap
  obtain ⟨hjlen, -, hjget⟩ := readJointRecords_spec _ oData lut nameTable _ hrecs
  rw [length_resize] at hjlen hjget
  refine ⟨size, oData, oRemap, oString, nameTable, rB, h1, h2, h3, h4, hnames, hjlen,
    by rw [hlut, hlen], ?_, ?_⟩
  · intro i hi
    rw [hlut, hget i hi]
    rfl
  · intro i hi
    obtain ⟨slot, name, old, j, rj, e1, e2, e3, e4, e5⟩ := hjget i hi
    rw [Nat.zero_add] at e1 e2
    rw [hrB] at e4
    obtain ⟨hrj, hid⟩ := readJointRecord_reader e4
    exact ⟨slot, name, old, j, rj, by rw [hlut]; exact e1, e2, e3, e4, by rw [hrj]; rfl, e5, hid⟩

end libcube.jsystem

namespace libcube.jsystem

set_option maxRecDepth 65536 in
/-- C16 on `jntRemapped`, whose remap table is `[0, 2, 1]`: joint `b` is decoded from
slot 2 and joint `c` from slot 1. -/
theorem readJoints_decodes_witness :
    readJoints jntImp { buf := jntRemapped } {} =
      some ({ buf := jntRemapped, pos := 184 }, jntRemappedCtx, [jointRemapNotice]) ∧
    ∃ (size : Nat) (oData oRemap oString : Int) (nameTable : List String) (rB : BinaryReader),
      beAt jntRemapped (toU32 (((8 : Nat) : Int) - 8) + 8) 2 = some size ∧
      (beAt jntRemapped (toU32 (((8 : Nat) : Int) - 8) + 12) 4).map (toSigned 32) = some oData ∧
      (beAt jntRemapped (toU32 (((8 : Nat) : Int) - 8) + 16) 4).map (toSigned 32) = some oRemap ∧
      (beAt jntRemapped (toU32 (((8 : Nat) : Int) - 8) + 20) 4).map (toSigned 32) =
        some oString ∧
      readNameTable
        (BinaryReader.seekSet { buf := jntRemapped }
          (toU32 (oString + ((toU32 (((8 : Nat) : Int) - 8) : Nat) : Int)))) =
        some (nameTable, rB) ∧
      jntRemappedCtx.mdl.mJoints.length = size ∧ jntRemappedCtx.jointIdLut.length = size ∧
      (∀ i, i < size → jntRemappedCtx.jointIdLut[i]? =
        beAt jntRemapped
          (toU32 (((toU32 (((8 : Nat) : Int) - 8) : Nat) : Int) + oRemap) + 2 * i) 2) ∧
      ∀ i, i < size → ∃ slot name old j rj,
        jntRemappedCtx.jointIdLut[i]? = some slot ∧ nameTable[i]? = some name ∧
        (resize ([] : List Joint) size {})[i]? = some old ∧
        readJointRecord
          (BinaryReader.seekSet { buf := jntRemapped }
            (toU32 (((toU32 (((8 : Nat) : Int) - 8) : Nat) : Int) + oData +
              (slot : Int) * 0x40))) old name = some (j, rj) ∧
        rj.pos = toU32 (((toU32 (((8 : Nat) : Int) - 8) : Nat) : Int) + oData +
            (slot : Int) * 0x40) + 0x40 ∧
        jntRemappedCtx.mdl.mJoints[i]? = some j ∧ j.id = name :=
  have h : readJoints jntImp { buf := jntRemapped } {} =
      some ({ buf := jntRemapped, pos := 184 }, jntRemappedCtx, [jointRemapNotice]) := by
    decide
  ⟨h, readJoints_decodes jntImp { buf := jntRemapped } { buf := jntRemapped, pos := 184 } {}
    jntRemappedCtx [jointRemapNotice] ⟨8, 248⟩ (by decide) h⟩

/-- C17: in a successful `readJoints` on a `JNT1` section, the flag `sorted` the remap
loop ends with is true exactly when every entry of the remap table equals its index;
the advisory is printed once when it is false and not at all when it is true; and the
joints are what the joint loop returns for the remap table, the name table and the
joint-data offset, whatever the flag is. -/
theorem readJoints_sorted_advisory (imp : BMDImporter) (r r' : BinaryReader)
    (ctx ctx' : BMDOutputContext) (dbg : List String) (sec : SectionEntry)
    (hsec : findSection imp (fourCC 'J' 'N' 'T' '1') = some sec)
    (h : readJoints imp r ctx = some (r', ctx', dbg)) :
    ∃ (sorted : Bool) (rA : BinaryReader) (oData oRemap : Int) (nameTable : List String)
      (rB : BinaryReader),
      (beAt r.buf (toU32 ((sec.streamPos : Int) - 8) + 12) 4).map (toSigned 32) = some oData ∧
      (beAt r.buf (toU32 ((sec.streamPos : Int) - 8) + 16) 4).map (toSigned 32) = some oRemap ∧
      readRemapTable
        (r.seekSet (toU32 (((toU32 ((sec.streamPos : Int) - 8) : Nat) : Int) + oRemap)))
        0 true ctx'.jointIdLut.length = some (ctx'.jointIdLut, sorted, rA) ∧
      (sorted = true ↔ ∀ i, i < ctx'.jointIdLut.length → ctx'.jointIdLut[i]? = some i) ∧
      dbg = (if sorted then [] else [jointRemapNotice]) ∧
      (sorted = true → dbg = []) ∧ (sorted = false → dbg = [jointRemapNotice]) ∧
      readJointRecords rB (toU32 ((sec.streamPos : Int) - 8)) oData ctx'.jointIdLut nameTable 0
        (resize ctx.mdl.mJoints ctx'.jointIdLut.length {}) = some (ctx'.mdl.mJoints, r') := by
  obtain ⟨size, oData, oRemap, oString, lut, sorted, nameTable, rA, rB, -, h2, h3, -, hremap,
    -, -, hrecs, hlut, -, -, -, -, hdbg⟩ := readJoints_JNT1 hsec h
  obtain ⟨-, hlen, -, hsorted⟩ := readRemapTable_spec size hremap
  subst hlut
  rw [← hlen] at hremap hrecs
  refine ⟨sorted, rA, oData, oRemap, nameTable, rB, h2, h3, hremap, ?_, hdbg, ?_, ?_, hrecs⟩
  · rw [hsorted, hlen]
    simp
  · intro hs; rw [hdbg, hs]; rfl
  · intro hs; rw [hdbg, hs]; rfl

set_option maxRecDepth 65536 in
/-- C17 on three joint sections: the remap table `[0, 2, 1]` gives exactly one advisory,
the remap table `[0, 1, 2]` gives none, and a section with no joints gives none. -/
theorem readJoints_sorted_advisory_witness :
    (readJoints jntImp { buf := jntRemapped } {}).map (fun x => x.2.2) =
      some [jointRemapNotice] ∧
    (readJoints jntImp { buf := jntSorted } {}).map (fun x => (x.2.1.jointIdLut, x.2.2)) =
      some ([0, 1, 2], []) ∧
    (readJoints jntImp { buf := jntNone } {}).map (fun x => (x.2.1.jointIdLut, x.2.2)) =
      some ([], []) ∧
    ¬ (∀ i, i < jntRemappedCtx.jointIdLut.length → jntRemappedCtx.jointIdLut[i]? = some i) := by
  have h : readJoints jntImp { buf := jntRemapped } {} =
      some ({ buf := jntRemapped, pos := 184 }, jntRemappedCtx, [jointRemapNotice]) := by
    decide
  obtain ⟨sorted, rA, oData, oRemap, nameTable, rB, -, -, -, hs, hdbg, -, -, -⟩ :=
    readJoints_sorted_advisory jntImp { buf := jntRemapped } { buf := jntRemapped, pos := 184 }
      {} jntRemappedCtx [jointRemapNotice] ⟨8, 248⟩ (by decide) h
  refine ⟨by rw [h]; rfl, by decide, by decide, ?_⟩
  intro hall
  have hst : sorted = true := hs.2 hall
  rw [hst] at hdbg
  exact absurd hdbg (by decide)

end libcube.jsystem

namespace libcube.jsystem

set_option maxRecDepth 65536 in
/-- C18, as stated, fails: `readJoints` accepts a joint section with two joints whose
remap table is `[1, 1]`, and `readMaterials` a material section with the same table; the
decoded table has a value twice and is no permutation of `[0, 2)`. -/
theorem remap_table_not_permutation :
    (readJoints jntImp { buf := jntDuplicate } {}).map (fun x => x.2.1.jointIdLut) =
      some [1, 1] ∧
    (readMaterials matImp { buf := matBuf } {}).map (fun x => x.2.1.materialIdLut) =
      some [1, 1] ∧
    ¬ ([1, 1] : List Nat).Nodup ∧ ¬ List.Perm ([1, 1] : List Nat) (List.range 2) := by
  refine ⟨by decide, by decide, by decide, ?_⟩
  intro hperm
  have h0 : (0 : Nat) ∈ ([1, 1] : List Nat) := hperm.mem_iff.2 (by decide)
  exact absurd h0 (by decide)

/-- C18 (amended): for every input accepted by `readJoints` (and `readMaterials`) on a
section with count `size`, the decoded remap table has exactly `size` entries, the
`i`-th being the `u16` stored at the remap-table offset plus `2 * i`; so every value is
below 65536. -/
theorem remap_table_entries (imp : BMDImporter) (r : BinaryReader) (ctx : BMDOutputContext) :
    (∀ (sec : SectionEntry) (r' : BinaryReader) (ctx' : BMDOutputContext) (dbg : List String),
      findSection imp (fourCC 'J' 'N' 'T' '1') = some sec →
      readJoints imp r ctx = some (r', ctx', dbg) →
      ∃ (size : Nat) (oRemap : Int),
        beAt r.buf (toU32 ((sec.streamPos : Int) - 8) + 8) 2 = some size ∧
        (beAt r.buf (toU32 ((sec.streamPos : Int) - 8) + 16) 4).map (toSigned 32) =
          some oRemap ∧
        ctx'.jointIdLut.length = size ∧
        (∀ i, i < size → ctx'.jointIdLut[i]? =
          beAt r.buf
            (toU32 (((toU32 ((sec.streamPos : Int) - 8) : Nat) : Int) + oRemap) + 2 * i) 2) ∧
        ∀ v, v ∈ ctx'.jointIdLut → v < 65536) ∧
    (∀ (sec : SectionEntry) (r' : BinaryReader) (ctx' : BMDOutputContext) (dbg : List String),
      findSection imp (fourCC 'M' 'A' 'T' '3') = some sec →
      readMaterials imp r ctx = some (r', ctx', dbg) →
      ∃ (size : Nat) (oRemap : Int),
        beAt r.buf (toU32 ((sec.streamPos : Int) - 8) + 8) 2 = some size ∧
        (beAt r.buf (toU32 ((sec.streamPos : Int) - 8) + 16) 4).map (toSigned 32) =
          some oRemap ∧
        ctx'.materialIdLut.length = size ∧
        (∀ i, i < size → ctx'.materialIdLut[i]? =
          beAt r.buf
            (toU32 (((toU32 ((sec.streamPos : Int) - 8) : Nat) : Int) + oRemap) + 2 * i) 2) ∧
        ∀ v, v ∈ ctx'.materialIdLut → v < 65536) := by
  have key : ∀ (r0 rA : BinaryReader) (size : Nat) (lut : List Nat) (sorted : Bool),
      readRemapTable r0 0 true size = some (lut, sorted, rA) →
      lut.length = size ∧ (∀ i, i < size → lut[i]? = beAt r0.buf (r0.pos + 2 * i) 2) ∧
      ∀ v, v ∈ lut → v < 65536 := by
    intro r0 rA size lut sorted h
    obtain ⟨-, hlen, hget, -⟩ := readRemapTable_spec size h
    refine ⟨hlen, hget, ?_⟩
    intro v hv
    obtain ⟨i, hi⟩ := List.getElem?_of_mem hv
    have hilt : i < size := by
      have := (List.getElem?_eq_some_iff.1 hi).1
      omega
    rw [hget i hilt] at hi
    exact beAt_lt 2 hi
  constructor
  · intro sec r' ctx' dbg hsec h
    obtain ⟨size, oData, oRemap, oString, lut, sorted, nameTable, rA, rB, h1, -, h3, -, hremap,
      -, -, -, hlut, -, -, -, -, -⟩ := readJoints_JNT1 hsec h
    obtain ⟨k1, k2, k3⟩ := key _ _ _ _ _ hremap
    rw [hlut]
    exact ⟨size, oRemap, h1, h3, k1, k2, k3⟩
  · intro sec r' ctx' dbg hsec h
    obtain ⟨size, oRemap, sorted, rA, h1, h3, hremap, -⟩ := readMaterials_lut hsec h
    obtain ⟨k1, k2, k3⟩ := key _ _ _ _ _ hremap
    exact ⟨size, oRemap, h1, h3, k1, k2, k3⟩

set_option maxRecDepth 65536 in
/-- C18 (amended) on the joint section and the material section whose remap tables are
`[1, 1]`: two entries each, all below 65536. -/
theorem remap_table_entries_witness :
    (∃ (size : Nat), beAt jntDuplicate 8 2 = some size ∧ ([1, 1] : List Nat).length = size ∧
      ∀ v, v ∈ ([1, 1] : List Nat) → v < 65536) ∧
    (∃ (size : Nat), beAt matBuf 8 2 = some size ∧ ([1, 1] : List Nat).length = size ∧
      ∀ v, v ∈ ([1, 1] : List Nat) → v < 65536) := by
  have hj : readJoints jntImp { buf := jntDuplicate } {} =
      some ({ buf := jntDuplicate, pos := 184 },
        { mdl := { mJoints := [decodedJoint "a" 3 2, decodedJoint "b" 3 2] },
          jointIdLut := [1, 1] }, [jointRemapNotice]) := by decide
  have hm : readMaterials matImp { buf := matBuf } {} =
      some ({ buf := matBuf, pos := 484 },
        { mdl := { mMaterials := [{ id := "a" }, { id := "b" }] }, materialIdLut := [1, 1] },
        [materialRemapNotice]) := by decide
  have h := remap_table_entries jntImp { buf := jntDuplicate } {}
  have h' := remap_table_entries matImp { buf := matBuf } {}
  obtain ⟨s1, o1, a1, -, a3, -, a5⟩ := h.1 ⟨8, 248⟩ _ _ _ (by decide) hj
  obtain ⟨s2, o2, b1, -, b3, -, b5⟩ := h'.2 ⟨8, 152⟩ _ _ _ (by decide) hm
  exact ⟨⟨s1, a1, a3, a5⟩, ⟨s2, b1, b3, b5⟩⟩

/-- C19, evaluated on a joint record whose raw rotation words are 1000, 2047 and -2048:
the decoded factors of pi are 0, 1 and -1, the quotients by `0x7ff` rounded toward zero,
since the division is carried out on integers before the product with pi; the first is
not 1000 / 2047. -/
theorem readJointRecord_rotation_truncated :
    (readJointRecord { buf := jointRecord 0x12 0 } {} "a").map (fun x => x.1.rotate) =
      some [0, 1, -1] ∧
    (((Int.tdiv 1000 0x7ff : Int) : ℚ) ≠ (1000 : ℚ) / 2047) := by
  constructor
  · decide
  · have h : (Int.tdiv 1000 0x7ff : Int) = 0 := by decide
    rw [h]
    norm_num

/-- C20, as stated, fails: a joint record with Maya byte `0xFF` and the same record with
Maya byte `0x00` decode to the same joint; the value stored for `0xFF` is `false`, the
one stored for `0x00`. -/
theorem readJointRecord_maya_FF_as_00 :
    (readJointRecord { buf := jointRecord 0x12 0xFF } {} "a").map (fun x => x.1) =
      (readJointRecord { buf := jointRecord 0x12 0x00 } {} "a").map (fun x => x.1) ∧
    (readJointRecord { buf := jointRecord 0x12 0xFF } {} "a").map (fun x => x.1.mayaSSC) =
      some false ∧
    (readJointRecord { buf := jointRecord 0x12 0x00 } {} "a").map (fun x => x.1.mayaSSC) =
      some false := by
  decide

/-- C20 (amended): for the Maya byte `b` of a joint record, `0xFF` decodes to `false`,
the value `0x00` decodes to (there is no separate "unset" value); every other `b`
decodes to the boolean `b != 0`. So the decoded value is true exactly when `b` is
neither `0x00` nor `0xFF`. -/
theorem readJointRecord_mayaSSC (r r' : BinaryReader) (joint j : Joint) (name : String)
    (b : Byte) (h : readJointRecord r joint name = some (j, r'))
    (hb : r.buf[r.pos + 2]? = some b) :
    (b.val = 0xff → j.mayaSSC = false) ∧
    (b.val ≠ 0xff → j.mayaSSC = decide (b.val ≠ 0)) ∧
    (j.mayaSSC = true ↔ b.val ≠ 0 ∧ b.val ≠ 0xff) := by
  obtain ⟨flag, maya, scale, rot, translate, radius, box, -, hmaya, -, -, -, -, -, -, -, -, -, -,
    hj⟩ := readJointRecord_eq_some h
  rw [beAt_one, hb] at hmaya
  simp only [Option.map_some', Option.some.injEq] at hmaya
  subst hmaya
  have hval : j.mayaSSC = (if b.val = 0xff then false else decide (b.val ≠ 0)) := by rw [hj]
  refine ⟨?_, ?_, ?_⟩
  · intro hff
    rw [hval, if_pos hff]
  · intro hff
    rw [hval, if_neg hff]
  · rw [hval]
    by_cases hff : b.val = 0xff
    · simp [hff]
    · simp [hff]

/-- C20 (amended) on the example record with Maya byte 2, which decodes to `true`, and
with Maya byte `0xFF`, which decodes to `false`. -/
theorem readJointRecord_mayaSSC_witness :
    (readJointRecord { buf := jointRecord 0x12 2 } {} "a").map (fun x => x.1.mayaSSC) =
      some true ∧
    (readJointRecord { buf := jointRecord 0x12 0xFF } {} "a").map (fun x => x.1.mayaSSC) =
      some false ∧
    (true = true ↔ (2 : Byte).val ≠ 0 ∧ (2 : Byte).val ≠ 0xff) :=
  ⟨by decide, by decide,
   (readJointRecord_mayaSSC { buf := jointRecord 0x12 2 }
    { buf := jointRecord 0x12 2, pos := 64 } {} { decodedJoint "a" 2 1 with mayaSSC := true }
    "a" 2 (by decide) (by decide)).2.2⟩

end libcube.jsystem

/-! ## Materials, and what the readers leave alone -/

namespace libcube.jsystem

/-- The material loop: it returns one material per material handed to it, the `k`-th
being that material with the name `nameTable[i0 + k]`; the remap entry `lut[i0 + k]` is
only looked up. -/
theorem readMaterialRecords_spec (start : Nat) (ofs : Int) (lut : List Nat)
    (nameTable : List String) (todo : List Material) :
    ∀ {r r' : BinaryReader} {i0 : Nat} {ms : List Material},
      readMaterialRecords r start ofs lut nameTable i0 todo = some (ms, r') →
      ms.length = todo.length ∧ (∃ p, r' = r.seekSet p) ∧
      ∀ k, k < todo.length → ∃ (slot : Nat) (name : String) (old : Material),
        lut[i0 + k]? = some slot ∧ nameTable[i0 + k]? = some name ∧ todo[k]? = some old ∧
        ms[k]? = some { old with id := name } := by
  induction todo with
  | nil =>
    intro r r' i0 ms h
    simp only [readMaterialRecords, Option.some.injEq, Prod.mk.injEq] at h
    obtain ⟨rfl, rfl⟩ := h
    exact ⟨rfl, ⟨r.pos, rfl⟩, fun k hk => absurd hk (by simp)⟩
  | cons mat todo ih =>
    intro r r' i0 ms h
    rcases hl : lut[i0]? with _ | slot
    · simp [readMaterialRecords, hl] at h
    rcases hn : nameTable[i0]? with _ | name
    · simp [readMaterialRecords, hl, hn] at h
    simp only [readMaterialRecords, hl, hn] at h
    split at h
    · exact absurd h (by simp)
    next rest r2 h2 =>
    simp only [Option.some.injEq, Prod.mk.injEq] at h
    obtain ⟨rfl, rfl⟩ := h
    obtain ⟨hlen, ⟨p, hp⟩, hget⟩ := ih h2
    refine ⟨by simp [hlen], ⟨p, by rw [hp]; rfl⟩, ?_⟩
    intro k hk
    cases k with
    | zero =>
      exact ⟨slot, name, mat, by simpa using hl, by simpa using hn, by simp, by simp⟩
    | succ k =>
      obtain ⟨s, nm, old, e1, e2, e3, e4⟩ := hget k (by simpa using hk)
      rw [show i0 + 1 + k = i0 + (k + 1) by omega] at e1 e2
      exact ⟨s, nm, old, e1, e2, by simpa using e3, by simpa using e4⟩

/-- The shape of a successful `readMaterials` when the section table has a `MAT3`
entry: the header at the section start gives the count at offset 8 and the three offsets
at 12, 16 and 20; the remap table and the name table are read at their offsets from the
section start, and the materials are what the material loop returns for them. -/
theorem readMaterials_MAT3 {imp : BMDImporter} {r r' : BinaryReader}
    {ctx ctx' : BMDOutputContext} {dbg : List String} {sec : SectionEntry}
    (hsec : findSection imp (fourCC 'M' 'A' 'T' '3') = some sec)
    (h : readMaterials imp r ctx = some (r', ctx', dbg)) :
    ∃ (size : Nat) (oData oRemap oString : Int) (lut : List Nat) (sorted : Bool)
      (nameTable : List String) (rA rB : BinaryReader),
      beAt r.buf (toU32 ((sec.streamPos : Int) - 8) + 8) 2 = some size ∧
      (beAt r.buf (toU32 ((sec.streamPos : Int) - 8) + 12) 4).map (toSigned 32) = some oData ∧
      (beAt r.buf (toU32 ((sec.streamPos : Int) - 8) + 16) 4).map (toSigned 32) = some oRemap ∧
      (beAt r.buf (toU32 ((sec.streamPos : Int) - 8) + 20) 4).map (toSigned 32) = some oString ∧
      readRemapTable
        (r.seekSet (toU32 (((toU32 ((sec.streamPos : Int) - 8) : Nat) : Int) + oRemap)))
        0 true size = some (lut, sorted, rA) ∧
      readNameTable
        (r.seekSet (toU32 (oString + ((toU32 ((sec.streamPos : Int) - 8) : Nat) : Int)))) =
        some (nameTable, rB) ∧
      readMaterialRecords rB (toU32 ((sec.streamPos : Int) - 8)) oData lut nameTable 0
        (resize ctx.mdl.mMaterials size {}) = some (ctx'.mdl.mMaterials, r') ∧
      ctx'.materialIdLut = lut ∧ ctx'.jointIdLut = ctx.jointIdLut ∧
      ctx'.mdl.mJoints = ctx.mdl.mJoints ∧
      ctx'.mdl.mDrawMatrices = ctx.mdl.mDrawMatrices ∧
      ctx'.mdl.mScalingRule = ctx.mdl.mScalingRule ∧
      dbg = (if sorted then [] else [materialRemapNotice]) := by
  unfold readMaterials at h
  rw [enterSection_of_find hsec] at h
  simp only [scopedSection, BinaryReader.tell, BinaryReader.seekSet_pos] at h
  split at h
  · exact absurd h (by simp)
  next size r1 h1 =>
    obtain ⟨hsize, rfl⟩ := BinaryReader.readU_eq_some.1 h1
    split at h
    · exact absurd h (by simp)
    next pad r2 h2 =>
      obtain ⟨-, rfl⟩ := BinaryReader.readU_eq_some.1 h2
      split at h
      next a b c r3 h3 =>
        obtain ⟨rfl, -, hoff⟩ := BinaryReader.readSs_eq_some h3
        have ha := hoff 0 (by omega)
        have hb := hoff 1 (by omega)
        have hc := hoff 2 (by omega)
        simp only [List.getElem?_cons_zero, List.getElem?_cons_succ, BinaryReader.seek_buf,
          BinaryReader.seek_pos, BinaryReader.seekSet_buf, BinaryReader.seekSet_pos] at ha hb hc hsize
        split at h
        · exact absurd h (by simp)
        next secs r3a h3a =>
          obtain ⟨rfl, -, -⟩ := BinaryReader.readSs_eq_some h3a
          split at h
          · exact absurd h (by simp)
          next lut sorted r4 h4 =>
            obtain ⟨hr4, -, -, -⟩ := readRemapTable_spec size h4
            split at h
            · exact absurd h (by simp)
            next nameTable r5 h5 =>
              split at h
              · exact absurd h (by simp)
              next materials r6 h6 =>
                simp only [Option.some.injEq, Prod.mk.injEq] at h
                obtain ⟨rfl, rfl, rfl⟩ := h
                refine ⟨size, a, b, c, lut, sorted, nameTable, r4, r5, hsize, ?_, ?_, ?_, h4, ?_,
                  h6, rfl, rfl, rfl, rfl, rfl, rfl⟩
                · rw [ha]
                · rw [hb]
                · rw [hc]
                · rw [← h5, hr4]; rfl
      · exact absurd h (by simp)

/-- The low four bits and the remaining bits of a word. -/
theorem flag_word_split (w : Nat) :
    w &&& 0xf = w % 16 ∧ w >>> 4 = w / 16 := by
  constructor
  · exact Nat.and_pow_two_sub_one_eq_mod w 4
  · exact Nat.shiftRight_eq_div_pow w 4

/-- Decoding a record leaves the hierarchy fields of the joint as they were. -/
theorem readJointRecord_hierarchy {r r' : BinaryReader} {joint j : Joint} {name : String}
    (h : readJointRecord r joint name = some (j, r')) :
    j.parent = joint.parent ∧ j.children = joint.children ∧ j.displays = joint.displays := by
  obtain ⟨flag, maya, scale, rot, translate, radius, box, -, -, -, -, -, -, -, -, -, -, -, -, hj⟩ :=
    readJointRecord_eq_some h
  rw [hj]
  exact ⟨rfl, rfl, rfl⟩

theorem getElem?_resize_nil {α : Type} (n i : Nat) (d : α) (hi : i < n) :
    (resize ([] : List α) n d)[i]? = some d := by
  simp [resize, List.getElem?_replicate, hi]

/-- The function `readMaterials` leaves the joints alone. -/
theorem readMaterials_mJoints {imp : BMDImporter} {r r' : BinaryReader}
    {ctx ctx' : BMDOutputContext} {dbg : List String}
    (h : readMaterials imp r ctx = some (r', ctx', dbg)) :
    ctx'.mdl.mJoints = ctx.mdl.mJoints ∧ ctx'.jointIdLut = ctx.jointIdLut := by
  cases hf : findSection imp (fourCC 'M' 'A' 'T' '3') with
  | none =>
    unfold readMaterials at h
    rw [enterSection_of_not_find hf] at h
    simp only [Option.some.injEq, Prod.mk.injEq] at h
    obtain ⟨-, rfl, -⟩ := h
    exact ⟨rfl, rfl⟩
  | some sec =>
    obtain ⟨size, oData, oRemap, oString, lut, sorted, nameTable, rA, rB, -, -, -, -, -, -, -, -,
      h1, h2, -, -, -⟩ := readMaterials_MAT3 hf h
    exact ⟨h2, h1⟩

/-- The function `readDrawMatrices` writes the draw matrices only. -/
theorem readDrawMatrices_frame {imp : BMDImporter} {r r' : BinaryReader}
    {ctx ctx' : BMDOutputContext} (h : readDrawMatrices imp r ctx = some (r', ctx')) :
    ctx'.mdl.mJoints = ctx.mdl.mJoints ∧ ctx'.mdl.mMaterials = ctx.mdl.mMaterials ∧
    ctx'.jointIdLut = ctx.jointIdLut ∧ ctx'.materialIdLut = ctx.materialIdLut := by
  cases hf : findSection imp (fourCC 'D' 'R' 'W' '1') with
  | none =>
    unfold readDrawMatrices at h
    split at h
    · exact absurd h (by simp)
    next envelopes r0 hevp =>
      rw [enterSection_of_not_find hf] at h
      simp only [Option.some.injEq, Prod.mk.injEq] at h
      obtain ⟨-, rfl⟩ := h
      exact ⟨rfl, rfl, rfl, rfl⟩
  | some sec =>
    obtain ⟨envelopes, r0, size, pw, ix, ms, -, -, -, -, -, -, rfl⟩ := readDrawMatrices_DRW1 hf h
    exact ⟨rfl, rfl, rfl, rfl⟩

end libcube.jsystem

namespace libcube.jsystem

/-- Bit `b` of a word is bit `b` of its low four bits when `b < 4`, and bit `b - 4` of
the remaining bits otherwise. -/
theorem flag_word_bits (w b : Nat) :
    Nat.testBit w b = if b < 4 then Nat.testBit (w % 16) b else Nat.testBit (w / 16) (b - 4) := by
  by_cases hb : b < 4
  · rw [if_pos hb, show (16 : Nat) = 2 ^ 4 by rfl, Nat.testBit_mod_two_pow]
    simp [hb]
  · rw [if_neg hb, show (16 : Nat) = 2 ^ 4 by rfl, ← Nat.shiftRight_eq_div_pow,
      Nat.testBit_shiftRight]
    congr 1
    omega

end libcube.jsystem

/-! ## The import pipeline: flag word, hierarchy fields and materials -/

namespace libcube.jsystem

/-- C21: in a successful `readJoints` on a `JNT1` section, for every logical index `i`
below the count, with `w` the 16-bit flag word at the start of the record of joint `i`
(section start + joint-data offset + `remap[i] * 0x40`), the joint gets
`flag = w mod 16`, a value below 16, and `bbMtxType = w div 16`; so
`w = 16 * bbMtxType + flag`, and every bit of `w` is a bit of exactly one of the two
fields: bit `b` of `w` is bit `b` of `flag` for `b < 4` and bit `b - 4` of `bbMtxType`
otherwise. -/
theorem readJoints_flag_word (imp : BMDImporter) (r r' : BinaryReader)
    (ctx ctx' : BMDOutputContext) (dbg : List String) (sec : SectionEntry)
    (hsec : findSection imp (fourCC 'J' 'N' 'T' '1') = some sec)
    (h : readJoints imp r ctx = some (r', ctx', dbg)) :
    ∃ (size : Nat) (oData : Int),
      beAt r.buf (toU32 ((sec.streamPos : Int) - 8) + 8) 2 = some size ∧
      (beAt r.buf (toU32 ((sec.streamPos : Int) - 8) + 12) 4).map (toSigned 32) = some oData ∧
      ∀ i, i < size → ∃ (slot w : Nat) (j : Joint),
        ctx'.jointIdLut[i]? = some slot ∧
        beAt r.buf (toU32 (((toU32 ((sec.streamPos : Int) - 8) : Nat) : Int) + oData +
          (slot : Int) * 0x40)) 2 = some w ∧
        ctx'.mdl.mJoints[i]? = some j ∧ w < 65536 ∧
        j.flag = w % 16 ∧ j.flag < 16 ∧ j.bbMtxType = w / 16 ∧
        w = 16 * j.bbMtxType + j.flag ∧
        ∀ b, Nat.testBit w b =
          if b < 4 then Nat.testBit j.flag b else Nat.testBit j.bbMtxType (b - 4) := by
  obtain ⟨size, oData, oRemap, oString, lut, sorted, nameTable, rA, rB, h1, h2, -, -, -,
    -, hrB, hrecs, hlut, -, -, -, -, -⟩ := readJoints_JNT1 hsec h
  obtain ⟨-, -, hjget⟩ := readJointRecords_spec _ oData lut nameTable _ hrecs
  rw [length_resize] at hjget
  refine ⟨size, oData, h1, h2, ?_⟩
  intro i hi
  obtain ⟨slot, name, old, j, rj, e1, -, -, e4, e5⟩ := hjget i hi
  rw [Nat.zero_add] at e1
  rw [hrB] at e4
  obtain ⟨w, maya, scale, rot, translate, radius, box, hw, -, -, -, -, -, -, -, -, -, -, -, hj⟩ :=
    readJointRecord_eq_some e4
  simp only [BinaryReader.seekSet_buf, BinaryReader.seekSet_pos] at hw
  have hf : j.flag = w % 16 := by rw [hj]; exact (flag_word_split w).1
  have ht : j.bbMtxType = w / 16 := by rw [hj]; exact (flag_word_split w).2
  refine ⟨slot, w, j, by rw [hlut]; exact e1, hw, e5, beAt_lt 2 hw, hf, ?_, ht, ?_, ?_⟩
  · rw [hf]; omega
  · rw [hf, ht]; omega
  · intro b
    rw [hf, ht]
    exact flag_word_bits w b

end libcube.jsystem

namespace libcube.jsystem

set_option maxRecDepth 65536 in
/-- C21 on `jntRemapped`, whose records carry the flag words `0x12`, `0x23` and `0x34`:
with the remap table `[0, 2, 1]` the joints get the pairs (2, 1), (4, 3) and (3, 2). -/
theorem readJoints_flag_word_witness :
    readJoints jntImp { buf := jntRemapped } {} =
      some ({ buf := jntRemapped, pos := 184 }, jntRemappedCtx, [jointRemapNotice]) ∧
    ∃ (size : Nat) (oData : Int),
      beAt jntRemapped (toU32 (((8 : Nat) : Int) - 8) + 8) 2 = some size ∧
      (beAt jntRemapped (toU32 (((8 : Nat) : Int) - 8) + 12) 4).map (toSigned 32) = some oData ∧
      ∀ i, i < size → ∃ (slot w : Nat) (j : Joint),
        jntRemappedCtx.jointIdLut[i]? = some slot ∧
        beAt jntRemapped (toU32 (((toU32 (((8 : Nat) : Int) - 8) : Nat) : Int) + oData +
          (slot : Int) * 0x40)) 2 = some w ∧
        jntRemappedCtx.mdl.mJoints[i]? = some j ∧ w < 65536 ∧
        j.flag = w % 16 ∧ j.flag < 16 ∧ j.bbMtxType = w / 16 ∧
        w = 16 * j.bbMtxType + j.flag ∧
        ∀ b, Nat.testBit w b =
          if b < 4 then Nat.testBit j.flag b else Nat.testBit j.bbMtxType (b - 4) :=
  have h : readJoints jntImp { buf := jntRemapped } {} =
      some ({ buf := jntRemapped, pos := 184 }, jntRemappedCtx, [jointRemapNotice]) := by
    decide
  ⟨h, readJoints_flag_word jntImp { buf := jntRemapped } { buf := jntRemapped, pos := 184 } {}
    jntRemappedCtx [jointRemapNotice] ⟨8, 248⟩ (by decide) h⟩

/-- C22: after a successful `readJoints` on a model without joints, every joint of the
model has no parent, no children and no displays, whatever the section holds; and this
is still so after the `readMaterials` that follows it in `readBMD`, that is, when
`readInformation` hands the joints to `SceneGraph::onRead`. -/
theorem readJoints_no_hierarchy (imp : BMDImporter) (r r' : BinaryReader)
    (ctx ctx' : BMDOutputContext) (dbg : List String)
    (hempty : ctx.mdl.mJoints = [])
    (h : readJoints imp r ctx = some (r', ctx', dbg)) :
    (∀ j, j ∈ ctx'.mdl.mJoints → j.parent = none ∧ j.children = [] ∧ j.displays = []) ∧
    (∀ (rm : BinaryReader) (ctxm : BMDOutputContext) (dm : List String),
      readMaterials imp r' ctx' = some (rm, ctxm, dm) →
      ∀ j, j ∈ ctxm.mdl.mJoints → j.parent = none ∧ j.children = [] ∧ j.displays = []) := by
  have key : ∀ j, j ∈ ctx'.mdl.mJoints →
      j.parent = none ∧ j.children = [] ∧ j.displays = [] := by
    cases hf : findSection imp (fourCC 'J' 'N' 'T' '1') with
    | none =>
      unfold readJoints at h
      rw [enterSection_of_not_find hf] at h
      simp only [Option.some.injEq, Prod.mk.injEq] at h
      obtain ⟨-, rfl, -⟩ := h
      intro j hj
      rw [hempty] at hj
      exact absurd hj (by simp)
    | some sec =>
      obtain ⟨size, oData, oRemap, oString, lut, sorted, nameTable, rA, rB, -, -, -, -, -,
        -, -, hrecs, -, -, -, -, -, -⟩ := readJoints_JNT1 hf h
      obtain ⟨hjlen, -, hjget⟩ := readJointRecords_spec _ oData lut nameTable _ hrecs
      rw [length_resize] at hjlen hjget
      intro j hj
      obtain ⟨i, hi⟩ := List.getElem?_of_mem hj
      have hilt : i < size := by
        have := (List.getElem?_eq_some_iff.1 hi).1
        omega
      obtain ⟨slot, name, old, j', rj, -, -, e3, e4, e5⟩ := hjget i hilt
      rw [hi] at e5
      have hjj : j' = j := (Option.some.inj e5).symm
      subst hjj
      rw [hempty, getElem?_resize_nil size i ({} : Joint) hilt] at e3
      have hold : old = {} := (Option.some.inj e3).symm
      subst hold
      exact readJointRecord_hierarchy e4
  refine ⟨key, ?_⟩
  intro rm ctxm dm hm j hj
  rw [(readMaterials_mJoints hm).1] at hj
  exact key j hj

set_option maxRecDepth 65536 in
/-- C22 on `jntRemapped`, read into the empty model: none of the three joints has a
parent, a child or a display. -/
theorem readJoints_no_hierarchy_witness :
    readJoints jntImp { buf := jntRemapped } {} =
      some ({ buf := jntRemapped, pos := 184 }, jntRemappedCtx, [jointRemapNotice]) ∧
    jntRemappedCtx.mdl.mJoints.length = 3 ∧
    (∀ j, j ∈ jntRemappedCtx.mdl.mJoints →
      j.parent = none ∧ j.children = [] ∧ j.displays = []) :=
  have h : readJoints jntImp { buf := jntRemapped } {} =
      some ({ buf := jntRemapped, pos := 184 }, jntRemappedCtx, [jointRemapNotice]) := by
    decide
  ⟨h, by decide,
    (readJoints_no_hierarchy jntImp { buf := jntRemapped } { buf := jntRemapped, pos := 184 } {}
      jntRemappedCtx [jointRemapNotice] rfl h).1⟩

end libcube.jsystem

namespace libcube.jsystem

/-- C23: after a successful `readMaterials` on a `MAT3` section whose header holds the
count `n` at offset 8, the model has exactly `n` materials and the material remap table
`n` entries; for every logical index `i` below `n`, material `i` carries the name
`nameTable[i]` of the name table read at the name-table offset, which is stated without
reference to the remap table; and the advisory of `readMaterials`, a text other than
the one of `readJoints`, is printed once when some entry of the remap table differs
from its index and not at all otherwise. -/
theorem readMaterials_decodes (imp : BMDImporter) (r r' : BinaryReader)
    (ctx ctx' : BMDOutputContext) (dbg : List String) (sec : SectionEntry)
    (hsec : findSection imp (fourCC 'M' 'A' 'T' '3') = some sec)
    (h : readMaterials imp r ctx = some (r', ctx', dbg)) :
    ∃ (n : Nat) (oString : Int) (nameTable : List String) (rB : BinaryReader),
      beAt r.buf (toU32 ((sec.streamPos : Int) - 8) + 8) 2 = some n ∧
      (beAt r.buf (toU32 ((sec.streamPos : Int) - 8) + 20) 4).map (toSigned 32) = some oString ∧
      readNameTable
        (r.seekSet (toU32 (oString + ((toU32 ((sec.streamPos : Int) - 8) : Nat) : Int)))) =
        some (nameTable, rB) ∧
      ctx'.mdl.mMaterials.length = n ∧ ctx'.materialIdLut.length = n ∧
      (∀ i, i < n → ∃ (name : String) (m : Material),
        nameTable[i]? = some name ∧ ctx'.mdl.mMaterials[i]? = some m ∧ m.id = name) ∧
      ((∀ i, i < n → ctx'.materialIdLut[i]? = some i) → dbg = []) ∧
      (¬ (∀ i, i < n → ctx'.materialIdLut[i]? = some i) → dbg = [materialRemapNotice]) ∧
      materialRemapNotice ≠ jointRemapNotice := by
  obtain ⟨size, oData, oRemap, oString, lut, sorted, nameTable, rA, rB, h1, -, -, h4, hremap,
    hnames, hrecs, hlut, -, -, -, -, hdbg⟩ := readMaterials_MAT3 hsec h
  obtain ⟨-, hlen, -, hsorted⟩ := readRemapTable_spec size hremap
  obtain ⟨hmlen, -, hmget⟩ := readMaterialRecords_spec _ oData lut nameTable _ hrecs
  rw [length_resize] at hmlen hmget
  have hs : sorted = true ↔ ∀ i, i < size → ctx'.materialIdLut[i]? = some i := by
    rw [hsorted, hlut]
    simp
  refine ⟨size, oString, nameTable, rB, h1, h4, hnames, hmlen, by rw [hlut, hlen], ?_, ?_, ?_,
    by decide⟩
  · intro i hi
    obtain ⟨slot, name, old, -, e2, -, e4⟩ := hmget i hi
    rw [Nat.zero_add] at e2
    exact ⟨name, _, e2, e4, rfl⟩
  · intro hall
    rw [hdbg, hs.2 hall]
    rfl
  · intro hnot
    have hf : sorted = false := by
      cases hsd : sorted with
      | false => rfl
      | true => exact absurd (hs.1 hsd) hnot
    rw [hdbg, hf]
    rfl

set_option maxRecDepth 65536 in
/-- C23 on `matBuf`, a section with two materials, the names `a` and `b` and the remap
table `[1, 1]`: two materials named `a` and `b`, and one advisory. -/
theorem readMaterials_decodes_witness :
    readMaterials matImp { buf := matBuf } {} =
      some ({ buf := matBuf, pos := 484 },
        { mdl := { mMaterials := [{ id := "a" }, { id := "b" }] }, materialIdLut := [1, 1] },
        [materialRemapNotice]) ∧
    ∃ (n : Nat) (oString : Int) (nameTable : List String) (rB : BinaryReader),
      beAt matBuf (toU32 (((8 : Nat) : Int) - 8) + 8) 2 = some n ∧
      (beAt matBuf (toU32 (((8 : Nat) : Int) - 8) + 20) 4).map (toSigned 32) = some oString ∧
      readNameTable
        (BinaryReader.seekSet { buf := matBuf }
          (toU32 (oString + ((toU32 (((8 : Nat) : Int) - 8) : Nat) : Int)))) =
        some (nameTable, rB) ∧
      ([{ id := "a" }, { id := "b" }] : List Material).length = n ∧
      ([1, 1] : List Nat).length = n ∧
      (∀ i, i < n → ∃ (name : String) (m : Material),
        nameTable[i]? = some name ∧
        ([{ id := "a" }, { id := "b" }] : List Material)[i]? = some m ∧ m.id = name) ∧
      ((∀ i, i < n → ([1, 1] : List Nat)[i]? = some i) →
        [materialRemapNotice] = ([] : List String)) ∧
      (¬ (∀ i, i < n → ([1, 1] : List Nat)[i]? = some i) →
        [materialRemapNotice] = [materialRemapNotice]) ∧
      materialRemapNotice ≠ jointRemapNotice :=
  have h : readMaterials matImp { buf := matBuf } {} =
      some ({ buf := matBuf, pos := 484 },
        { mdl := { mMaterials := [{ id := "a" }, { id := "b" }] }, materialIdLut := [1, 1] },
        [materialRemapNotice]) := by
    decide
  ⟨h, readMaterials_decodes matImp { buf := matBuf } { buf := matBuf, pos := 484 } {}
    { mdl := { mMaterials := [{ id := "a" }, { id := "b" }] }, materialIdLut := [1, 1] }
    [materialRemapNotice] ⟨8, 152⟩ (by decide) h⟩

end libcube.jsystem

/-! ## The section scan -/

namespace libcube.jsystem

theorem lookup_filter_ne {β : Type} (l : List (Nat × β)) (id t : Nat) (h : t ≠ id) :
    (l.filter (fun kv => kv.1 != id)).lookup t = l.lookup t := by
  induction l with
  | nil => rfl
  | cons kv l ih =>
    obtain ⟨k, v⟩ := kv
    by_cases hk : k = id
    · subst hk
      have h1 : (t == k) = false := by simpa using h
      simp [List.filter, List.lookup, h1, ih]
    · have h2 : (k != id) = true := by simpa using hk
      simp only [List.filter, h2, List.lookup]
      cases htk : (t == k) with
      | true => rfl
      | false => exact ih

/-- The assignment `mSections[id] = e` makes `find(id)` return `e` and leaves every other
key as it was. -/
theorem findSection_setSection (imp : BMDImporter) (id : Nat) (e : SectionEntry) (t : Nat) :
    findSection (setSection imp id e) t = if t = id then some e else findSection imp t := by
  by_cases h : t = id
  · subst h
    simp [findSection, setSection, List.lookup]
  · rw [if_neg h]
    have h1 : (t == id) = false := by simpa using h
    simp only [findSection, setSection, List.lookup, h1]
    exact lookup_filter_ne _ _ _ h

/-- The assignment `mSections[id] = e` keeps the keys of the table distinct. -/
theorem setSection_nodup (imp : BMDImporter) (id : Nat) (e : SectionEntry)
    (h : (imp.mSections.map Prod.fst).Nodup) :
    ((setSection imp id e).mSections.map Prod.fst).Nodup := by
  simp only [setSection, List.map_cons, List.nodup_cons]
  constructor
  · intro hmem
    obtain ⟨kv, hkv, hk⟩ := List.mem_map.1 hmem
    have := (List.mem_filter.1 hkv).2
    simp only [bne_iff_ne, ne_eq] at this
    exact this hk
  · exact (List.filter_sublist _).map Prod.fst |>.nodup h

theorem toU32_sub_eight (s : Nat) (h8 : 8 ≤ s) (hlt : s < 4294967296) :
    toU32 ((s : Int) - 8) = s - 8 := by
  unfold toU32
  omega

theorem toU32_natCast (p : Nat) (hlt : p < 4294967296) : toU32 (p : Int) = p := by
  unfold toU32
  omega

/-- A successful read of `n > 0` bytes at `p` lies inside the buffer. -/
theorem beAt_some_le {buf : List Byte} {p : Nat} :
    ∀ (n : Nat) {v : Nat}, beAt buf p (n + 1) = some v → p + (n + 1) ≤ buf.length := by
  intro n v h
  simp only [beAt] at h
  split at h
  next hi b hhi hb =>
    have := (List.getElem?_eq_some_iff.1 hb).1
    omega
  · exact absurd h (by simp)

/-- The position `JumpOut` moves the reader to from the header end `p + 8` with the
argument `s - 8`, both sums taken as `u32`, is `p + s` as a `u32`. -/
theorem jumpOut_target (p s : Nat) :
    toU32 (((p + 8 : Nat) : Int) + ((toU32 ((s : Int) - 8) : Nat) : Int)) =
      toU32 ((p : Int) + (s : Int)) := by
  unfold toU32
  omega

/-- One iteration of the loop of `lex` on an entry whose header `(t, s)` is at the
reader position. -/
theorem lexLoop_succ {imp : BMDImporter} {r : BinaryReader} {t s : Nat} (n : Nat)
    (ht : beAt r.buf r.pos 4 = some t) (hs : beAt r.buf (r.pos + 4) 4 = some s) :
    lexLoop imp r (n + 1) =
      if t ∈ recognizedTags then
        lexLoop (setSection imp t ⟨r.pos + 8, s⟩)
          { r with pos := toU32 ((r.pos : Int) + (s : Int)) } n
      else
        lexLoop imp
          { r with pos := toU32 ((r.pos : Int) + (s : Int)),
                   diagnostics := r.diagnostics ++
                     [⟨"Unexpected section type.", r.pos, r.pos + 4⟩] } n := by
  have h1 : r.readU 4 = some (t, r.seek 4) := BinaryReader.readU_eq_some.2 ⟨ht, rfl⟩
  have h2 : (r.seek 4).readU 4 = some (s, (r.seek 4).seek 4) :=
    BinaryReader.readU_eq_some.2 ⟨hs, rfl⟩
  have e8 : r.pos + 4 + 4 = r.pos + 8 := by omega
  have e0 : r.pos + 4 + 4 - 8 = r.pos := by omega
  have e4 : r.pos + 4 + 4 - 4 = r.pos + 4 := by omega
  simp only [lexLoop, h1, h2]
  by_cases hrec : t ∈ recognizedTags
  · simp only [if_pos hrec, jumpOut, BinaryReader.tell, BinaryReader.seek, BinaryReader.seekSet,
      e8, jumpOut_target]
  · simp only [if_neg hrec, jumpOut, BinaryReader.tell, BinaryReader.seek, BinaryReader.seekSet,
      BinaryReader.warnAt, e8, e0, e4, jumpOut_target]

/-- The loop of `lex` for `a + b` entries is the loop for `a` entries followed by the
loop for `b` entries. -/
theorem lexLoop_add (a b : Nat) :
    ∀ (imp : BMDImporter) (r : BinaryReader),
      lexLoop imp r (a + b) = (lexLoop imp r a).bind (fun x => lexLoop x.1 x.2 b) := by
  induction a with
  | zero =>
    intro imp r
    simp [lexLoop]
  | succ a ih =>
    intro imp r
    rw [show a + 1 + b = (a + b) + 1 by omega]
    simp only [lexLoop]
    split
    · rfl
    · split
      · rfl
      · split
        · exact ih _ _
        · exact ih _ _

/-- The loop of `lex` over the entries `i`, ..., `i + n - 1` of a section list, entry `k`
having the header `(tag k, size k)` at `pos k`: the reader ends at `pos (i + n)` with one
more diagnostic per entry with an unrecognized tag, and the section table is changed
for the recognized tags that occur, each getting its last entry. -/
theorem lexLoop_tables (tag size pos : Nat → Nat) (n : Nat) :
    ∀ (i : Nat) (imp : BMDImporter) (r : BinaryReader), r.pos = pos i →
      (∀ k, i ≤ k → k < i + n →
        beAt r.buf (pos k) 4 = some (tag k) ∧ beAt r.buf (pos k + 4) 4 = some (size k) ∧
        pos (k + 1) = toU32 ((pos k : Int) + (size k : Int))) →
      ∃ imp', lexLoop imp r n = some (imp',
          { r with pos := pos (i + n),
                   diagnostics := r.diagnostics ++
                     ((List.range' i n).filter (fun k => decide (tag k ∉ recognizedTags))).map
                       (fun k => ⟨"Unexpected section type.", pos k, pos k + 4⟩) }) ∧
        imp'.error = imp.error ∧
        ((imp.mSections.map Prod.fst).Nodup → (imp'.mSections.map Prod.fst).Nodup) ∧
        (∀ t, (∀ k, i ≤ k → k < i + n → tag k = t → t ∉ recognizedTags) →
          findSection imp' t = findSection imp t) ∧
        (∀ k, i ≤ k → k < i + n → tag k ∈ recognizedTags →
          (∀ j, k < j → j < i + n → tag j ≠ tag k) →
          findSection imp' (tag k) = some ⟨pos k + 8, size k⟩) ∧
        (∀ t sec, findSection imp' t = some sec → findSection imp t = some sec ∨
          ∃ k, i ≤ k ∧ k < i + n ∧ tag k = t ∧ t ∈ recognizedTags ∧
            sec = ⟨pos k + 8, size k⟩) := by
  induction n with
  | zero =>
    intro i imp r hp _
    refine ⟨imp, ?_, rfl, fun h => h, fun _ _ => rfl, ?_, fun t sec h => Or.inl h⟩
    · simp only [lexLoop, Nat.add_zero, List.range', List.filter_nil, List.map_nil,
        List.append_nil, ← hp]
    · intro k h1 h2
      omega
  | succ n ih =>
    intro i imp r hp hh
    obtain ⟨ht, hs, hstep⟩ := hh i (Nat.le_refl i) (by omega)
    rw [← hp] at ht hs hstep
    have hh' : ∀ (r1 : BinaryReader), r1.buf = r.buf → ∀ k, i + 1 ≤ k → k < i + 1 + n →
        beAt r1.buf (pos k) 4 = some (tag k) ∧ beAt r1.buf (pos k + 4) 4 = some (size k) ∧
        pos (k + 1) = toU32 ((pos k : Int) + (size k : Int)) := by
      intro r1 hb k h1 h2
      rw [hb]
      exact hh k (by omega) (by omega)
    rw [lexLoop_succ n ht hs]
    by_cases hrec : tag i ∈ recognizedTags
    · rw [if_pos hrec]
      obtain ⟨imp', hrun, herr, hnd, hkeep, hlast, hfrom⟩ :=
        ih (i + 1) (setSection imp (tag i) ⟨r.pos + 8, size i⟩)
          { r with pos := toU32 ((r.pos : Int) + (size i : Int)) } hstep.symm (hh' _ rfl)
      refine ⟨imp', ?_, herr, fun h => hnd (setSection_nodup _ _ _ h), ?_, ?_, ?_⟩
      · rw [hrun]
        have hfilt : decide (tag i ∉ recognizedTags) = false := by simpa using hrec
        simp only [List.range', List.filter_cons, hfilt, Bool.false_eq_true, if_false,
          show i + 1 + n = i + (n + 1) by omega]
      · intro t hall
        have hne : t ≠ tag i := by
          intro he
          exact hall i (Nat.le_refl i) (by omega) he.symm (he ▸ hrec)
        rw [hkeep t (fun k h1 h2 => hall k (by omega) (by omega)), findSection_setSection,
          if_neg hne]
      · intro k h1 h2 hk hj
        by_cases hki : k = i
        · subst hki
          rw [hkeep (tag k) (fun j h3 h4 he => absurd he (hj j (by omega) (by omega))),
            findSection_setSection, if_pos rfl, hp]
        · exact hlast k (by omega) (by omega) hk (fun j h3 h4 => hj j h3 (by omega))
      · intro t sec hfind
        rcases hfrom t sec hfind with h1 | ⟨k, h1, h2, h3, h4, h5⟩
        · rw [findSection_setSection] at h1
          by_cases hti : t = tag i
          · rw [if_pos hti] at h1
            refine Or.inr ⟨i, Nat.le_refl i, by omega, hti.symm, hti ▸ hrec, ?_⟩
            rw [← hp]
            exact (Option.some.inj h1).symm
          · rw [if_neg hti] at h1
            exact Or.inl h1
        · exact Or.inr ⟨k, by omega, by omega, h3, h4, h5⟩
    · rw [if_neg hrec]
      obtain ⟨imp', hrun, herr, hnd, hkeep, hlast, hfrom⟩ :=
        ih (i + 1) imp
          { r with pos := toU32 ((r.pos : Int) + (size i : Int)),
                   diagnostics := r.diagnostics ++
                     [⟨"Unexpected section type.", r.pos, r.pos + 4⟩] } hstep.symm (hh' _ rfl)
      refine ⟨imp', ?_, herr, hnd, ?_, ?_, ?_⟩
      · rw [hrun]
        have hfilt : decide (tag i ∉ recognizedTags) = true := by simpa using hrec
        simp only [List.range', List.filter_cons, hfilt, if_true, List.map_cons,
          show i + 1 + n = i + (n + 1) by omega, List.append_assoc, List.singleton_append, hp]
      · intro t hall
        exact hkeep t (fun k h1 h2 => hall k (by omega) (by omega))
      · intro k h1 h2 hk hj
        have hki : k ≠ i := by
          intro he
          subst he
          exact hrec hk
        exact hlast k (by omega) (by omega) hk (fun j h3 h4 => hj j h3 (by omega))
      · intro t sec hfind
        rcases hfrom t sec hfind with h1 | ⟨k, h1, h2, h3, h4, h5⟩
        · exact Or.inl h1
        · exact Or.inr ⟨k, by omega, by omega, h3, h4, h5⟩

end libcube.jsystem

namespace libcube.jsystem

/-- The function `lex` on a section list of `n` entries, entry `k` having the header
`(tag k, size k)` at `pos k`: the table is built from the empty one. -/
theorem lex_tables (tag size pos : Nat → Nat) (n : Nat) (imp : BMDImporter) (r : BinaryReader)
    (hp : r.pos = pos 0)
    (hh : ∀ k, k < n →
      beAt r.buf (pos k) 4 = some (tag k) ∧ beAt r.buf (pos k + 4) 4 = some (size k) ∧
      pos (k + 1) = toU32 ((pos k : Int) + (size k : Int))) :
    ∃ imp', lex imp r n = some (imp',
        { r with pos := pos n,
                 diagnostics := r.diagnostics ++
                   ((List.range n).filter (fun k => decide (tag k ∉ recognizedTags))).map
                     (fun k => ⟨"Unexpected section type.", pos k, pos k + 4⟩) }) ∧
      imp'.error = imp.error ∧
      (imp'.mSections.map Prod.fst).Nodup ∧
      (∀ t, (∀ k, k < n → tag k = t → t ∉ recognizedTags) → findSection imp' t = none) ∧
      (∀ k, k < n → tag k ∈ recognizedTags → (∀ j, k < j → j < n → tag j ≠ tag k) →
        findSection imp' (tag k) = some ⟨pos k + 8, size k⟩) ∧
      (∀ t sec, findSection imp' t = some sec →
        ∃ k, k < n ∧ tag k = t ∧ t ∈ recognizedTags ∧ sec = ⟨pos k + 8, size k⟩) := by
  obtain ⟨imp', hrun, herr, hnd, hkeep, hlast, hfrom⟩ :=
    lexLoop_tables tag size pos n 0 { imp with mSections := [] } r hp
      (fun k _ h2 => hh k (by omega))
  refine ⟨imp', ?_, herr, hnd (by simp), ?_, ?_, ?_⟩
  · unfold lex
    rw [hrun, Nat.zero_add, List.range_eq_range']
  · intro t hall
    rw [hkeep t (fun k _ h2 => hall k (by omega))]
    rfl
  · intro k hk hrec hj
    exact hlast k (Nat.zero_le k) (by omega) hrec (fun j h3 h4 => hj j h3 (by omega))
  · intro t sec hfind
    rcases hfrom t sec hfind with h1 | ⟨k, -, h2, h3, h4, h5⟩
    · exact absurd h1 (by simp [findSection])
    · exact ⟨k, by omega, h3, h4, h5⟩

/-- Among the indices below `n` that satisfy a property there is a last one. -/
theorem exists_last (P : Nat → Prop) (n : Nat) (h : ∃ k, k < n ∧ P k) :
    ∃ k, k < n ∧ P k ∧ ∀ j, k < j → j < n → ¬ P j := by
  induction n with
  | zero =>
    obtain ⟨k, hk, -⟩ := h
    omega
  | succ n ih =>
    by_cases hn : P n
    · exact ⟨n, by omega, hn, fun j h1 h2 => absurd h1 (by omega)⟩
    · obtain ⟨k, hk, hP⟩ := h
      have hkn : k < n := by
        rcases Nat.lt_or_ge k n with h1 | h1
        · exact h1
        · have : k = n := by omega
          subst this
          exact absurd hP hn
      obtain ⟨m, hm, hPm, hlast⟩ := ih ⟨k, hkn, hP⟩
      refine ⟨m, by omega, hPm, ?_⟩
      intro j h1 h2
      rcases Nat.lt_or_ge j n with h3 | h3
      · exact hlast j h1 h3
      · have : j = n := by omega
        subst this
        exact hn

end libcube.jsystem

/-! ## The import pipeline: the section scan -/

namespace libcube.jsystem

/-- C24: for a section list of `n` entries at the reader position `p0`, entry `k` having
the header `(tag k, size k)` at `p0 + size 0 + ... + size (k - 1)`, every declared size
being at least 8 and the end `p0 + size 0 + ... + size (n - 1)` of the list being a
`u32` stream position, `lex` succeeds and leaves the reader at `p0` plus the sum of all
sizes; and for every `k < n` the scan of the first `k` entries ends at
`p0 + size 0 + ... + size (k - 1)`, the next iteration reads the tag and the size of
entry `k` there, and it leaves the reader `size k - 8` bytes after the 8 bytes of that
header. -/
theorem lex_positions (imp : BMDImporter) (r : BinaryReader) (n : Nat)
    (tagTable sizeTable : Nat → Nat)
    (hhdr : ∀ k, k < n →
      beAt r.buf (r.pos + prefixSum sizeTable k) 4 = some (tagTable k) ∧
      beAt r.buf (r.pos + prefixSum sizeTable k + 4) 4 = some (sizeTable k))
    (hsize : ∀ k, k < n → 8 ≤ sizeTable k)
    (hend : r.pos + prefixSum sizeTable n < 4294967296) :
    (∃ imp' r', lex imp r n = some (imp', r') ∧ r'.buf = r.buf ∧
      r'.pos = r.pos + prefixSum sizeTable n) ∧
    ∀ k, k < n → ∃ imp_k r_k imp_k1 r_k1,
      lex imp r k = some (imp_k, r_k) ∧ r_k.buf = r.buf ∧
      r_k.pos = r.pos + prefixSum sizeTable k ∧
      r_k.readU 4 = some (tagTable k, r_k.seek 4) ∧
      (r_k.seek 4).readU 4 = some (sizeTable k, r_k.seek 8) ∧
      lexLoop imp_k r_k 1 = some (imp_k1, r_k1) ∧
      lex imp r (k + 1) = some (imp_k1, r_k1) ∧
      r_k1.pos = (r_k.pos + 8) + (sizeTable k - 8) := by
  have hh : ∀ k, k < n →
      beAt r.buf (r.pos + prefixSum sizeTable k) 4 = some (tagTable k) ∧
      beAt r.buf (r.pos + prefixSum sizeTable k + 4) 4 = some (sizeTable k) ∧
      r.pos + prefixSum sizeTable (k + 1) =
        toU32 (((r.pos + prefixSum sizeTable k : Nat) : Int) + (sizeTable k : Int)) := by
    intro k hk
    obtain ⟨h1, h2⟩ := hhdr k hk
    refine ⟨h1, h2, ?_⟩
    have hmono := prefixSum_mono sizeTable (show k + 1 ≤ n by omega)
    have : prefixSum sizeTable (k + 1) = prefixSum sizeTable k + sizeTable k := rfl
    unfold toU32
    omega
  have run : ∀ m, m ≤ n → ∃ imp_m r_m, lex imp r m = some (imp_m, r_m) ∧ r_m.buf = r.buf ∧
      r_m.pos = r.pos + prefixSum sizeTable m := by
    intro m hm
    obtain ⟨imp_m, hrun, -⟩ :=
      lex_tables tagTable sizeTable (fun k => r.pos + prefixSum sizeTable k) m imp r
        (by simp [prefixSum]) (fun k hk => hh k (by omega))
    exact ⟨imp_m, _, hrun, rfl, rfl⟩
  refine ⟨run n (Nat.le_refl n), ?_⟩
  intro k hk
  obtain ⟨imp_k, r_k, hk1, hk2, hk3⟩ := run k (by omega)
  obtain ⟨imp_k1, r_k1, hs1, -, hs3⟩ := run (k + 1) (by omega)
  obtain ⟨ht, hsz⟩ := hhdr k hk
  have hstep : lexLoop imp_k r_k 1 = some (imp_k1, r_k1) := by
    have := lexLoop_add k 1 { imp with mSections := [] } r
    unfold lex at hk1 hs1
    rw [hs1, hk1] at this
    exact this.symm
  refine ⟨imp_k, r_k, imp_k1, r_k1, hk1, hk2, hk3, ?_, ?_, hstep, hs1, ?_⟩
  · exact BinaryReader.readU_eq_some.2 ⟨by rw [hk2, hk3]; exact ht, rfl⟩
  · refine BinaryReader.readU_eq_some.2 ⟨?_, ?_⟩
    · simp only [BinaryReader.seek_buf, BinaryReader.seek_pos]
      rw [hk2, hk3]
      exact hsz
    · rw [BinaryReader.seek_seek]
  · rw [hs3, hk3]
    have h8 := hsize k hk
    have : prefixSum sizeTable (k + 1) = prefixSum sizeTable k + sizeTable k := rfl
    omega

/-- C24 on `lexBuf`, a list of four entries with the sizes 12, 8, 16 and 8: the headers
are read at 0, 12, 20 and 36, and the reader ends at 44. -/
theorem lex_positions_witness :
    (∃ imp' r', lex {} { buf := lexBuf } 4 = some (imp', r') ∧ r'.buf = lexBuf ∧
      r'.pos = 0 + prefixSum lexSizes 4) ∧
    prefixSum lexSizes 4 = 44 ∧
    (lex {} { buf := lexBuf } 4).map (fun x => x.2.pos) = some 44 ∧
    (lex {} { buf := lexBuf } 2).map (fun x => x.2.pos) = some 20 :=
  ⟨(lex_positions {} { buf := lexBuf } 4 lexTags lexSizes
      (by
        intro k hk
        have hk4 : k < 4 := hk
        interval_cases k <;> decide)
      (by
        intro k hk
        have hk4 : k < 4 := hk
        interval_cases k <;> decide)
      (by decide)).1,
    by decide, by decide, by decide⟩

end libcube.jsystem

namespace libcube.jsystem

/-- C25: take a section list of `n` entries, entry `k` having the header
`(tag k, size k)` at `pos k` (the next header lying at `pos k + size k`, taken as a
`u32`), in which the tag of entry `u` is not one of the nine recognized tags. The iteration of `lex` that handles entry `u` leaves the section table
as it was and adds exactly one diagnostic, whose range is the four bytes from the
position of the tag to the position of the size field. The import is not failed: `lex`
returns, with the `error` flag as before and no section under that tag, and the scan
goes on to the end of the list. Every later entry with a recognized tag that is the
last one with its tag is recorded with offset `pos k + 8` and its size, and so it is in
the scan of a second list that differs only in the tag of entry `u`, a recognized one for
instance. -/
theorem lex_unknown_tag (imp : BMDImporter) (r rk : BinaryReader) (n u : Nat)
    (tagTable tagTableK sizeTable posTable : Nat → Nat)
    (hpos : r.pos = posTable 0) (hposK : rk.pos = posTable 0)
    (hhdr : ∀ k, k < n →
      beAt r.buf (posTable k) 4 = some (tagTable k) ∧
      beAt r.buf (posTable k + 4) 4 = some (sizeTable k) ∧
      posTable (k + 1) = toU32 ((posTable k : Int) + (sizeTable k : Int)))
    (hhdrK : ∀ k, k < n →
      beAt rk.buf (posTable k) 4 = some (tagTableK k) ∧
      beAt rk.buf (posTable k + 4) 4 = some (sizeTable k))
    (hsame : ∀ k, k ≠ u → tagTableK k = tagTable k)
    (hu : u < n) (hunk : tagTable u ∉ recognizedTags) :
    (∃ imp_u r_u, lex imp r u = some (imp_u, r_u) ∧ r_u.pos = posTable u ∧
      lexLoop imp_u r_u 1 = some (imp_u,
        { r_u with pos := posTable (u + 1),
                   diagnostics := r_u.diagnostics ++
                     [⟨"Unexpected section type.", posTable u, posTable u + 4⟩] })) ∧
    ∃ imp' r' impK rK',
      lex imp r n = some (imp', r') ∧ lex imp rk n = some (impK, rK') ∧
      imp'.error = imp.error ∧ findSection imp' (tagTable u) = none ∧
      r'.diagnostics = r.diagnostics ++
        ((List.range n).filter (fun k => decide (tagTable k ∉ recognizedTags))).map
          (fun k => ⟨"Unexpected section type.", posTable k, posTable k + 4⟩) ∧
      r'.pos = posTable n ∧ rK'.pos = posTable n ∧
      ∀ k, u < k → k < n → tagTable k ∈ recognizedTags →
        (∀ j, k < j → j < n → tagTable j ≠ tagTable k) →
        findSection imp' (tagTable k) = some ⟨posTable k + 8, sizeTable k⟩ ∧
        findSection impK (tagTable k) = some ⟨posTable k + 8, sizeTable k⟩ := by
  constructor
  · obtain ⟨imp_u, hrun, -⟩ :=
      lex_tables tagTable sizeTable posTable u imp r hpos (fun k hk => hhdr k (by omega))
    obtain ⟨ht, hs, hstep⟩ := hhdr u hu
    refine ⟨imp_u, _, hrun, rfl, ?_⟩
    rw [lexLoop_succ 0 (t := tagTable u) (s := sizeTable u) ht hs, if_neg hunk]
    simp only [lexLoop, hstep]
  · obtain ⟨imp', hrun, herr, -, hnone, hlast, -⟩ :=
      lex_tables tagTable sizeTable posTable n imp r hpos hhdr
    obtain ⟨impK, hrunK, -, -, -, hlastK, -⟩ :=
      lex_tables tagTableK sizeTable posTable n imp rk hposK
        (fun k hk => ⟨(hhdrK k hk).1, (hhdrK k hk).2, (hhdr k hk).2.2⟩)
    refine ⟨imp', _, impK, _, hrun, hrunK, herr, ?_, rfl, rfl, rfl, ?_⟩
    · exact hnone _ (fun k _ he => he ▸ hunk)
    · intro k huk hk hrec hj
      refine ⟨hlast k hk hrec hj, ?_⟩
      have hkk : tagTableK k = tagTable k := hsame k (by omega)
      rw [← hkk]
      refine hlastK k hk (hkk ▸ hrec) ?_
      intro j h1 h2
      rw [hsame j (by omega), hkk]
      exact hj j h1 h2

/-- C25 on `lexBuf`, whose second entry has the tag `ABCD`, and on `lexBufKnown`, which
has `VTX1` there: the one diagnostic is on the bytes 12 to 16, and the later entries
`INF1` and `TEX1` are recorded at 28 and 44 in both scans. -/
theorem lex_unknown_tag_witness :
    (lex {} { buf := lexBuf } 4).map (fun x => (x.1, x.2.pos, x.2.diagnostics)) =
      some (lexImp, 44, [⟨"Unexpected section type.", 12, 16⟩]) ∧
    (lex {} { buf := lexBufKnown } 4).map (fun x => (x.1.mSections.length, x.2.diagnostics)) =
      some (3, []) ∧
    ∃ imp' r' impK rK',
      lex {} { buf := lexBuf } 4 = some (imp', r') ∧
      lex {} { buf := lexBufKnown } 4 = some (impK, rK') ∧
      imp'.error = false ∧ findSection imp' (lexTags 1) = none ∧
      r'.diagnostics = [] ++
        ((List.range 4).filter (fun k => decide (lexTags k ∉ recognizedTags))).map
          (fun k => ⟨"Unexpected section type.", lexPositions k, lexPositions k + 4⟩) ∧
      r'.pos = lexPositions 4 ∧ rK'.pos = lexPositions 4 ∧
      ∀ k, 1 < k → k < 4 → lexTags k ∈ recognizedTags →
        (∀ j, k < j → j < 4 → lexTags j ≠ lexTags k) →
        findSection imp' (lexTags k) = some ⟨lexPositions k + 8, lexSizes k⟩ ∧
        findSection impK (lexTags k) = some ⟨lexPositions k + 8, lexSizes k⟩ :=
  ⟨by decide, by decide,
    (lex_unknown_tag {} { buf := lexBuf } { buf := lexBufKnown } 4 1 lexTags lexTagsKnown
      lexSizes lexPositions (by decide) (by decide)
      (by
        intro k hk
        have hk4 : k < 4 := hk
        interval_cases k <;> decide)
      (by
        intro k hk
        have hk4 : k < 4 := hk
        interval_cases k <;> decide)
      (by
        intro k hk
        unfold lexTagsKnown lexTags
        split_ifs <;> rfl)
      (by decide) (by decide)).2⟩

/-- C26: `lex` on a section list of `n` entries, entry `k` having the header
`(tag k, size k)` at `pos k` (the next header lying at `pos k + size k`, taken as a
`u32`), in a buffer addressable by `u32` positions. The table it
returns does not depend on the table it was called with (it is cleared first); it has at
most one section per tag; every section in it comes from an entry of this list with a
recognized tag; and for every recognized tag that occurs in the list, the recorded
section is that of the last entry `k` with the tag, with offset `pos k + 8` and size
`size k`, and `enterSection` with that tag moves a reader to `pos k`. -/
theorem lex_last_wins (imp : BMDImporter) (r : BinaryReader) (n : Nat)
    (tagTable sizeTable posTable : Nat → Nat)
    (hpos : r.pos = posTable 0) (hbuf : r.buf.length < 4294967296)
    (hhdr : ∀ k, k < n →
      beAt r.buf (posTable k) 4 = some (tagTable k) ∧
      beAt r.buf (posTable k + 4) 4 = some (sizeTable k) ∧
      posTable (k + 1) = toU32 ((posTable k : Int) + (sizeTable k : Int))) :
    ∃ imp' r', lex imp r n = some (imp', r') ∧
      (∀ old, lex { imp with mSections := old } r n = some (imp', r')) ∧
      (imp'.mSections.map Prod.fst).Nodup ∧
      (∀ t sec, findSection imp' t = some sec →
        t ∈ recognizedTags ∧ ∃ k, k < n ∧ tagTable k = t ∧ sec = ⟨posTable k + 8, sizeTable k⟩) ∧
      (∀ k, k < n → tagTable k ∈ recognizedTags →
        (∀ j, k < j → j < n → tagTable j ≠ tagTable k) →
        findSection imp' (tagTable k) = some ⟨posTable k + 8, sizeTable k⟩ ∧
        ∀ rr : BinaryReader,
          enterSection imp' rr (tagTable k) = (true, rr.seekSet (posTable k))) ∧
      (∀ t, t ∈ recognizedTags → (∃ k, k < n ∧ tagTable k = t) →
        ∃ k, k < n ∧ tagTable k = t ∧ (∀ j, k < j → j < n → tagTable j ≠ t) ∧
          findSection imp' t = some ⟨posTable k + 8, sizeTable k⟩) := by
  obtain ⟨imp', hrun, -, hnd, -, hlast, hfrom⟩ :=
    lex_tables tagTable sizeTable posTable n imp r hpos hhdr
  refine ⟨imp', _, hrun, ?_, hnd, ?_, ?_, ?_⟩
  · intro old
    rw [← hrun]
    rfl
  · intro t sec hfind
    obtain ⟨k, h1, h2, h3, h4⟩ := hfrom t sec hfind
    exact ⟨h3, k, h1, h2, h4⟩
  · intro k hk hrec hj
    have hf := hlast k hk hrec hj
    refine ⟨hf, ?_⟩
    intro rr
    rw [enterSection_of_find hf]
    have hle := beAt_some_le 3 (hhdr k hk).2.1
    have hlt : posTable k < 4294967296 := by omega
    have : toU32 ((((⟨posTable k + 8, sizeTable k⟩ : SectionEntry).streamPos : Nat) : Int) - 8) =
        posTable k := by
      show toU32 (((posTable k + 8 : Nat) : Int) - 8) = posTable k
      unfold toU32
      omega
    rw [this]
  · intro t hrec hocc
    obtain ⟨k, hk, hkt, hl⟩ := exists_last (fun k => tagTable k = t) n hocc
    refine ⟨k, hk, hkt, hl, ?_⟩
    have := hlast k hk (hkt ▸ hrec) (fun j h1 h2 => by rw [hkt]; exact hl j h1 h2)
    rw [hkt] at this
    exact this

/-- C26 on `lexBuf`, where `INF1` occurs at 0 and at 20: the table has the second
entry, recorded at 28 with size 16, and `enterSection` moves the reader to 20. -/
theorem lex_last_wins_witness :
    (lex { mSections := [(fourCC 'J' 'N' 'T' '1', ⟨8, 248⟩)] } { buf := lexBuf } 4).map
      (fun x => x.1) = some lexImp ∧
    findSection lexImp (fourCC 'I' 'N' 'F' '1') = some ⟨28, 16⟩ ∧
    enterSection lexImp { buf := lexBuf, pos := 44 } (fourCC 'I' 'N' 'F' '1') =
      (true, { buf := lexBuf, pos := 20 }) ∧
    ∃ imp' r', lex {} { buf := lexBuf } 4 = some (imp', r') ∧
      (∀ old, lex { ({} : BMDImporter) with mSections := old } { buf := lexBuf } 4 =
        some (imp', r')) ∧
      (imp'.mSections.map Prod.fst).Nodup ∧
      (∀ t sec, findSection imp' t = some sec →
        t ∈ recognizedTags ∧
          ∃ k, k < 4 ∧ lexTags k = t ∧ sec = ⟨lexPositions k + 8, lexSizes k⟩) ∧
      (∀ k, k < 4 → lexTags k ∈ recognizedTags →
        (∀ j, k < j → j < 4 → lexTags j ≠ lexTags k) →
        findSection imp' (lexTags k) = some ⟨lexPositions k + 8, lexSizes k⟩ ∧
        ∀ rr : BinaryReader,
          enterSection imp' rr (lexTags k) = (true, rr.seekSet (lexPositions k))) ∧
      (∀ t, t ∈ recognizedTags → (∃ k, k < 4 ∧ lexTags k = t) →
        ∃ k, k < 4 ∧ lexTags k = t ∧ (∀ j, k < j → j < 4 → lexTags j ≠ t) ∧
          findSection imp' t = some ⟨lexPositions k + 8, lexSizes k⟩) :=
  ⟨by decide, by decide, by decide,
    lex_last_wins {} { buf := lexBuf } 4 lexTags lexSizes lexPositions (by decide) (by decide)
      (by
        intro k hk
        have hk4 : k < 4 := hk
        interval_cases k <;> decide)⟩

end libcube.jsystem

/-! ## The name table -/

namespace libcube.jsystem

/-- The string loop stops at the first NUL byte and returns the bytes before it. -/
theorem readCString_append (cs rest : List Byte) (h : ∀ b, b ∈ cs → b ≠ 0) :
    readCString (cs ++ (0 : Byte) :: rest) = some cs := by
  induction cs with
  | nil => simp [readCString]
  | cons c cs ih =>
    have hc : c ≠ 0 := h c (by simp)
    have hcv : c.val ≠ 0 := fun hv => hc (Fin.ext hv)
    have := ih (fun b hb => h b (by simp [hb]))
    simp [readCString, hcv, this]

theorem readUs_two_two {r : BinaryReader} {a b : Nat} (ha : beAt r.buf r.pos 2 = some a)
    (hb : beAt r.buf (r.pos + 2) 2 = some b) :
    r.readUs 2 2 = some ([a, b], r.seek 4) := by
  have h1 : r.readU 2 = some (a, r.seek 2) := BinaryReader.readU_eq_some.2 ⟨ha, rfl⟩
  have h2 : (r.seek 2).readU 2 = some (b, (r.seek 2).seek 2) :=
    BinaryReader.readU_eq_some.2 ⟨hb, rfl⟩
  simp only [BinaryReader.readUs, h1, h2, BinaryReader.seek_seek]

/-- The entry loop of the name table over the entries `i`, ..., `i + n - 1`, entry `k`
being the pair `(hash k, ofs k)` at `e + 4 * k` and the bytes at `start + ofs k` being
the string `cs k` followed by a NUL byte. -/
theorem readNames_tables (start e : Nat) (hash ofs : Nat → Nat) (cs : Nat → List Byte)
    (n : Nat) :
    ∀ (i : Nat) (r : BinaryReader), r.pos = e + 4 * i →
      (∀ k, i ≤ k → k < i + n →
        beAt r.buf (e + 4 * k) 2 = some (hash k) ∧ beAt r.buf (e + 4 * k + 2) 2 = some (ofs k) ∧
        readCString (r.buf.drop (toU32 ((start : Int) + (ofs k : Int)))) = some (cs k)) →
      readNames start r n =
        some ((List.range' i n).map
          (fun k => String.mk ((cs k).map (fun b => Char.ofNat b.val))), r.seek (4 * n)) := by
  induction n with
  | zero =>
    intro i r _ _
    simp [readNames, BinaryReader.seek]
  | succ n ih =>
    intro i r hp hh
    obtain ⟨h1, h2, h3⟩ := hh i (Nat.le_refl i) (by omega)
    rw [← hp] at h1 h2
    have hrec := ih (i + 1) (r.seek 4) (by simp only [BinaryReader.seek_pos]; omega)
      (fun k hk1 hk2 => hh k (by omega) (by omega))
    simp only [readNames, readUs_two_two h1 h2, BinaryReader.seek_buf, h3, hrec,
      BinaryReader.seek_seek, List.range', List.map_cons]
    congr 3
    omega

end libcube.jsystem

/-! ## The import pipeline: absent sections -/

namespace libcube.jsystem

theorem readJoints_absent {imp : BMDImporter} (r : BinaryReader) (ctx : BMDOutputContext)
    (h : findSection imp (fourCC 'J' 'N' 'T' '1') = none) :
    readJoints imp r ctx = some (r, ctx, []) := by
  unfold readJoints
  rw [enterSection_of_not_find h]

theorem readMaterials_absent {imp : BMDImporter} (r : BinaryReader) (ctx : BMDOutputContext)
    (h : findSection imp (fourCC 'M' 'A' 'T' '3') = none) :
    readMaterials imp r ctx = some (r, ctx, []) := by
  unfold readMaterials
  rw [enterSection_of_not_find h]

theorem readInformation_absent {imp : BMDImporter} (r : BinaryReader) (ctx : BMDOutputContext)
    (mat0 : Nat) (h : findSection imp (fourCC 'I' 'N' 'F' '1') = none) :
    readInformation imp r ctx mat0 = some (r, ctx) := by
  unfold readInformation
  rw [enterSection_of_not_find h]

theorem readDrawMatrices_absent {imp : BMDImporter} (r : BinaryReader) (ctx : BMDOutputContext)
    (hevp : findSection imp (fourCC 'E' 'V' 'P' '1') = none)
    (hdrw : findSection imp (fourCC 'D' 'R' 'W' '1') = none) :
    readDrawMatrices imp r ctx = some (r, ctx) := by
  unfold readDrawMatrices readEVP1
  rw [enterSection_of_not_find hevp]
  simp only
  rw [enterSection_of_not_find hdrw]

end libcube.jsystem

namespace libcube.jsystem

/-- With a good header and a section table without any of the five decoded sections,
the body of `readBMD` after the magic check returns the context it was given. -/
theorem readBMDAfterMagic_skip {imp imp1 : BMDImporter} {r1 r2 r3 r4 r5 : BinaryReader}
    {v fs n : Nat} (ctx : BMDOutputContext) (mat0 : Nat)
    (hver : r1.readU 4 = some (v, r2))
    (hv : v = fourCC 'b' 'm' 'd' '3' ∨ v = fourCC 'b' 'd' 'l' '4')
    (hsz : r2.readU 4 = some (fs, r3)) (hcnt : r3.readU 4 = some (n, r4))
    (hlex : lex imp (r4.seek 16) n = some (imp1, r5)) (habs : NoDecodedSection imp1) :
    readBMDAfterMagic imp r1 ctx mat0 =
      some { imp := imp1, reader := r5, ctx := ctx, debug := [] } := by
  have hnot : ¬ (v ≠ fourCC 'b' 'm' 'd' '3' ∧ v ≠ fourCC 'b' 'd' 'l' '4') := by
    rintro ⟨h1, h2⟩
    rcases hv with hv | hv
    · exact h1 hv
    · exact h2 hv
  obtain ⟨hevp, hdrw, hjnt, hmat, hinf⟩ := habs
  simp only [readBMDAfterMagic, hver, hnot, if_false, hsz, hcnt, hlex,
    readDrawMatrices_absent _ _ hevp hdrw, readJoints_absent _ _ hjnt,
    readMaterials_absent _ _ hmat, readInformation_absent _ _ _ hinf, List.append_nil]

/-- The same for `tryRead`: it returns the negation of the `error` flag, with the model
it was given. -/
theorem tryRead_skip {imp imp1 : BMDImporter} {r r1 r2 r3 r4 r5 : BinaryReader}
    {v fs n : Nat} (mModel : J3DModel) (mat0 : Nat)
    (hmagic : r.readU 4 = some (fourCC 'J' '3' 'D' '2', r1))
    (hver : r1.readU 4 = some (v, r2))
    (hv : v = fourCC 'b' 'm' 'd' '3' ∨ v = fourCC 'b' 'd' 'l' '4')
    (hsz : r2.readU 4 = some (fs, r3)) (hcnt : r3.readU 4 = some (n, r4))
    (hlex : lex imp (r4.seek 16) n = some (imp1, r5)) (habs : NoDecodedSection imp1) :
    tryRead imp r mModel mat0 =
      some { ok := !imp.error, imp := imp1, reader := r5, mModel := mModel, debug := [] } := by
  have herr := lex_error hlex
  simp only [tryRead, readBMD, BinaryReader.expectMagic, hmagic, if_true,
    readBMDAfterMagic_skip _ mat0 hver hv hsz hcnt hlex habs, herr]

/-- What a `tryRead` that returns has gone through: the magic, then either a bad version
word and the early return, or a good one, the two header words and the section scan. -/
theorem tryRead_inv {imp : BMDImporter} {r : BinaryReader} {mModel : J3DModel} {mat0 : Nat}
    {res : TryReadResult} (h : tryRead imp r mModel mat0 = some res) :
    ∃ v, r.readU 4 = some (fourCC 'J' '3' 'D' '2', r.seek 4) ∧
      (r.seek 4).readU 4 = some (v, r.seek 8) ∧
      ((v ≠ fourCC 'b' 'm' 'd' '3' ∧ v ≠ fourCC 'b' 'd' 'l' '4' ∧
        res = { ok := false, imp := { imp with error := true },
                reader := (r.seek 8).signalInvalidityLast 4 versionNotice,
                mModel := mModel, debug := [] }) ∨
       ((v = fourCC 'b' 'm' 'd' '3' ∨ v = fourCC 'b' 'd' 'l' '4') ∧
        ∃ fs n r5, (r.seek 8).readU 4 = some (fs, r.seek 12) ∧
          (r.seek 12).readU 4 = some (n, r.seek 16) ∧
          lex imp (r.seek 32) n = some (res.imp, r5))) := by
  unfold tryRead at h
  split at h
  · exact absurd h (by simp)
  next res0 hres0 =>
    have hres : res = ⟨!res0.imp.error, res0.imp, res0.reader, res0.ctx.mdl, res0.debug⟩ :=
      (Option.some.inj h).symm
    unfold readBMD BinaryReader.expectMagic at hres0
    split at hres0
    · exact absurd hres0 (by simp)
    next r1 hexp =>
      split at hexp
      next m ra hra =>
        obtain ⟨hm, rfl⟩ := BinaryReader.readU_eq_some.1 hra
        split at hexp
        next hmeq =>
          subst hmeq
          have hr1 : r1 = r.seek 4 := (Option.some.inj hexp).symm
          subst hr1
          unfold readBMDAfterMagic at hres0
          split at hres0
          · exact absurd hres0 (by simp)
          next v r2 hver =>
            obtain ⟨hv, rfl⟩ := BinaryReader.readU_eq_some.1 hver
            refine ⟨v, hra, ?_, ?_⟩
            · rw [hver, BinaryReader.seek_seek]
            · split at hres0
              next hbad =>
                left
                refine ⟨hbad.1, hbad.2, ?_⟩
                rw [hres, ← Option.some.inj hres0]
                simp [BinaryReader.seek_seek]
              next hgood =>
                right
                constructor
                · by_cases h1 : v = fourCC 'b' 'm' 'd' '3'
                  · exact Or.inl h1
                  · by_cases h2 : v = fourCC 'b' 'd' 'l' '4'
                    · exact Or.inr h2
                    · exact absurd ⟨h1, h2⟩ hgood
                · split at hres0
                  · exact absurd hres0 (by simp)
                  next fs r3 hsz =>
                    obtain ⟨-, rfl⟩ := BinaryReader.readU_eq_some.1 hsz
                    split at hres0
                    · exact absurd hres0 (by simp)
                    next n r4 hcnt =>
                      obtain ⟨-, rfl⟩ := BinaryReader.readU_eq_some.1 hcnt
                      split at hres0
                      · exact absurd hres0 (by simp)
                      next imp1 r5 hlex =>
                        split at hres0
                        · exact absurd hres0 (by simp)
                        · split at hres0
                          · exact absurd hres0 (by simp)
                          · split at hres0
                            · exact absurd hres0 (by simp)
                            · split at hres0
                              · exact absurd hres0 (by simp)
                              · refine ⟨fs, n, r5, ?_, ?_, ?_⟩
                                · simp only [BinaryReader.seek_seek] at hsz
                                  exact hsz
                                · simp only [BinaryReader.seek_seek] at hcnt
                                  exact hcnt
                                · simp only [BinaryReader.seek_seek] at hlex
                                  rw [hres, ← Option.some.inj hres0]
                                  exact hlex
        · exact absurd hexp (by simp)
      · exact absurd hexp (by simp)

/-- Reading `n` bytes at `p` gives the same value in two buffers that agree there. -/
theorem beAt_congr {b1 b2 : List Byte} {p : Nat} (n : Nat)
    (h : ∀ q, p ≤ q → q < p + n → b1[q]? = b2[q]?) : beAt b1 p n = beAt b2 p n := by
  induction n with
  | zero => rfl
  | succ n ih =>
    simp only [beAt]
    rw [ih (fun q h1 h2 => h q h1 (by omega)), h (p + n) (by omega) (by omega)]

/-- A read succeeds exactly when it lies inside the buffer. -/
theorem beAt_isSome (buf : List Byte) (p n : Nat) (h : p + n ≤ buf.length) :
    ∃ v, beAt buf p n = some v := by
  induction n with
  | zero => exact ⟨0, rfl⟩
  | succ n ih =>
    obtain ⟨hi, hhi⟩ := ih (by omega)
    have hlt : p + n < buf.length := by omega
    refine ⟨hi * 256 + (buf[p + n]).val, ?_⟩
    simp only [beAt, hhi, List.getElem?_eq_getElem hlt]

end libcube.jsystem

namespace libcube.jsystem

theorem getElem?_of_take_eq {b1 b2 : List Byte} {n q : Nat} (h : b1.take n = b2.take n)
    (hq : q < n) : b1[q]? = b2[q]? := by
  have := congrArg (fun l => l[q]?) h
  simpa [List.getElem?_take, hq] using this

theorem getElem?_of_drop_eq {b1 b2 : List Byte} {n q : Nat} (h : b1.drop n = b2.drop n)
    (hq : n ≤ q) : b1[q]? = b2[q]? := by
  have := congrArg (fun l => l[q - n]?) h
  simp only [List.getElem?_drop] at this
  rwa [Nat.add_sub_cancel' hq] at this

end libcube.jsystem

namespace libcube.jsystem

/-- With a bad version word `tryRead` sets the flag, records the diagnostic and returns
false at once. -/
theorem tryRead_bad_version {imp : BMDImporter} {r r1 r2 : BinaryReader} {v : Nat}
    (mModel : J3DModel) (mat0 : Nat)
    (hmagic : r.readU 4 = some (fourCC 'J' '3' 'D' '2', r1))
    (hver : r1.readU 4 = some (v, r2))
    (h3 : v ≠ fourCC 'b' 'm' 'd' '3') (h4 : v ≠ fourCC 'b' 'd' 'l' '4') :
    tryRead imp r mModel mat0 = some
      { ok := false, imp := { imp with error := true },
        reader := r2.signalInvalidityLast 4 versionNotice, mModel := mModel, debug := [] } := by
  have hb : readBMD imp r { mdl := mModel } mat0 = some
      { imp := { imp with error := true },
        reader := r2.signalInvalidityLast 4 versionNotice, ctx := { mdl := mModel },
        debug := [] } := by
    simp [readBMD, readBMDAfterMagic, BinaryReader.expectMagic, hmagic, hver, h3, h4]
  simp [tryRead, hb]

end libcube.jsystem

/-! ## The import of two files that agree after the header -/

namespace libcube.jsystem

namespace BinaryReader

@[simp] theorem onBuf_buf (r : BinaryReader) (b : List Byte) : (r.onBuf b).buf = b := rfl
@[simp] theorem onBuf_pos (r : BinaryReader) (b : List Byte) : (r.onBuf b).pos = r.pos := rfl
@[simp] theorem onBuf_diagnostics (r : BinaryReader) (b : List Byte) :
    (r.onBuf b).diagnostics = r.diagnostics := rfl

theorem onBuf_seek (r : BinaryReader) (b : List Byte) (n : Nat) :
    (r.onBuf b).seek n = (r.seek n).onBuf b := rfl

theorem onBuf_seekSet (r : BinaryReader) (b : List Byte) (p : Nat) :
    (r.onBuf b).seekSet p = (r.seekSet p).onBuf b := rfl

end BinaryReader

/-- Reading at a position from 32 on gives the same value in two buffers that agree from
32 on. -/
theorem beAt_after {b1 b2 : List Byte} (hb : b1.drop 32 = b2.drop 32) {p : Nat}
    (hp : 32 ≤ p) (n : Nat) : beAt b2 p n = beAt b1 p n :=
  (beAt_congr n (fun q h1 _ => getElem?_of_drop_eq hb (by omega))).symm

theorem drop_after {b1 b2 : List Byte} (hb : b1.drop 32 = b2.drop 32) {p : Nat}
    (hp : 32 ≤ p) : b2.drop p = b1.drop p := by
  have h1 : b1.drop p = (b1.drop 32).drop (p - 32) := by
    rw [List.drop_drop]
    congr 1
    omega
  have h2 : b2.drop p = (b2.drop 32).drop (p - 32) := by
    rw [List.drop_drop]
    congr 1
    omega
  rw [h1, h2, hb]

namespace BinaryReader

theorem readU_onBuf {r : BinaryReader} {b2 : List Byte} (hb : r.buf.drop 32 = b2.drop 32)
    (hp : 32 ≤ r.pos) (n : Nat) :
    (r.onBuf b2).readU n = (r.readU n).map (fun x => (x.1, x.2.onBuf b2)) := by
  unfold readU
  simp only [onBuf_buf, onBuf_pos]
  rw [beAt_after hb hp]
  cases beAt r.buf r.pos n <;> rfl

theorem readS_onBuf {r : BinaryReader} {b2 : List Byte} (hb : r.buf.drop 32 = b2.drop 32)
    (hp : 32 ≤ r.pos) (n : Nat) :
    (r.onBuf b2).readS n = (r.readS n).map (fun x => (x.1, x.2.onBuf b2)) := by
  unfold readS
  rw [readU_onBuf hb hp]
  cases r.readU n <;> rfl

theorem readUs_onBuf {b2 : List Byte} (n count : Nat) :
    ∀ {r : BinaryReader}, r.buf.drop 32 = b2.drop 32 → 32 ≤ r.pos →
      (r.onBuf b2).readUs n count = (r.readUs n count).map (fun x => (x.1, x.2.onBuf b2)) := by
  induction count with
  | zero => intro r _ _; rfl
  | succ c ih =>
    intro r hb hp
    simp only [readUs]
    rw [readU_onBuf hb hp]
    cases h1 : r.readU n with
    | none => rfl
    | some x =>
      obtain ⟨v, r1⟩ := x
      obtain ⟨-, rfl⟩ := readU_eq_some.1 h1
      simp only [Option.map_some']
      rw [ih (r := r.seek n) hb (by simp only [seek_pos]; omega)]
      cases (r.seek n).readUs n c <;> rfl

theorem readSs_onBuf {r : BinaryReader} {b2 : List Byte} (hb : r.buf.drop 32 = b2.drop 32)
    (hp : 32 ≤ r.pos) (n count : Nat) :
    (r.onBuf b2).readSs n count = (r.readSs n count).map (fun x => (x.1, x.2.onBuf b2)) := by
  unfold readSs
  rw [readUs_onBuf n count hb hp]
  cases r.readUs n count <;> rfl

theorem peekAt_onBuf {r : BinaryReader} {b2 : List Byte} (hb : r.buf.drop 32 = b2.drop 32)
    (n : Nat) {trans : Int} (hp : 32 ≤ (r.pos : Int) + trans) :
    (r.onBuf b2).peekAt n trans = r.peekAt n trans := by
  unfold peekAt
  simp only [onBuf_buf, onBuf_pos]
  have h0 : (0 : Int) ≤ (r.pos : Int) + trans := by omega
  rw [if_pos h0, if_pos h0]
  exact beAt_after hb (by omega) n

end BinaryReader

end libcube.jsystem

namespace libcube.jsystem

theorem readRemapTable_onBuf {b2 : List Byte} (n : Nat) :
    ∀ {r : BinaryReader} (i : Nat) (sorted : Bool), r.buf.drop 32 = b2.drop 32 → 32 ≤ r.pos →
      readRemapTable (r.onBuf b2) i sorted n =
        (readRemapTable r i sorted n).map (fun x => (x.1, x.2.1, x.2.2.onBuf b2)) := by
  induction n with
  | zero => intro r i sorted _ _; rfl
  | succ n ih =>
    intro r i sorted hb hp
    simp only [readRemapTable]
    rw [BinaryReader.readU_onBuf hb hp]
    cases h1 : r.readU 2 with
    | none => rfl
    | some x =>
      obtain ⟨v, r1⟩ := x
      obtain ⟨-, rfl⟩ := BinaryReader.readU_eq_some.1 h1
      simp only [Option.map_some']
      rw [ih (r := r.seek 2) _ _ hb (by simp only [BinaryReader.seek_pos]; omega)]
      cases readRemapTable (r.seek 2) (i + 1) (if v ≠ i then false else sorted) n <;> rfl

theorem readNames_onBuf {b2 : List Byte} (start : Nat) (hs : 32 ≤ start)
    (hs2 : start + 65536 ≤ 4294967296) (n : Nat) :
    ∀ {r : BinaryReader}, r.buf.drop 32 = b2.drop 32 → 32 ≤ r.pos →
      readNames start (r.onBuf b2) n =
        (readNames start r n).map (fun x => (x.1, x.2.onBuf b2)) := by
  induction n with
  | zero => intro r _ _; rfl
  | succ n ih =>
    intro r hb hp
    simp only [readNames]
    rw [BinaryReader.readUs_onBuf 2 2 hb hp]
    cases h1 : r.readUs 2 2 with
    | none => rfl
    | some x =>
      obtain ⟨vs, r1⟩ := x
      obtain ⟨rfl, hlen, hget⟩ := BinaryReader.readUs_eq_some 2 h1
      match vs, hlen, hget with
      | [a, ofs], _, hget =>
        have hofs : ofs < 65536 := by
          have h := hget 1 (by omega)
          simp only [List.getElem?_cons_succ, List.getElem?_cons_zero] at h
          have := beAt_lt 2 h.symm
          norm_num at this
          exact this
        have hu : toU32 ((start : Int) + (ofs : Int)) = start + ofs := by
          unfold toU32
          omega
        simp only [Option.map_some', BinaryReader.onBuf_buf, BinaryReader.seek_buf, hu]
        rw [drop_after hb (show 32 ≤ start + ofs by omega)]
        cases readCString (r.buf.drop (start + ofs)) with
        | none => rfl
        | some cs =>
          simp only []
          rw [ih (r := r.seek (2 * 2)) hb (by simp only [BinaryReader.seek_pos]; omega)]
          cases readNames start (r.seek (2 * 2)) n <;> rfl

theorem readNameTable_onBuf {r : BinaryReader} {b2 : List Byte}
    (hb : r.buf.drop 32 = b2.drop 32) (hp : 32 ≤ r.pos) (hp2 : r.pos + 65536 ≤ 4294967296) :
    readNameTable (r.onBuf b2) = (readNameTable r).map (fun x => (x.1, x.2.onBuf b2)) := by
  unfold readNameTable
  simp only [BinaryReader.tell, BinaryReader.onBuf_pos]
  rw [BinaryReader.readU_onBuf hb hp]
  cases h1 : r.readU 2 with
  | none => rfl
  | some x =>
    obtain ⟨count, r1⟩ := x
    obtain ⟨-, rfl⟩ := BinaryReader.readU_eq_some.1 h1
    simp only [Option.map_some']
    rw [BinaryReader.readU_onBuf (r := r.seek 2) hb (by simp only [BinaryReader.seek_pos]; omega)]
    cases h2 : (r.seek 2).readU 2 with
    | none => rfl
    | some y =>
      obtain ⟨pad, r2⟩ := y
      obtain ⟨-, rfl⟩ := BinaryReader.readU_eq_some.1 h2
      simp only [Option.map_some']
      exact readNames_onBuf r.pos hp hp2 count (r := (r.seek 2).seek 2) hb
        (by simp only [BinaryReader.seek_pos]; omega)

theorem readWeights_onBuf {r : BinaryReader} {b2 : List Byte}
    (hb : r.buf.drop 32 = b2.drop 32) (hp : 32 ≤ r.pos) {oX oW : Int} (hX : 0 ≤ oX)
    (hW : 0 ≤ oW) (num : Nat) :
    ∀ (mtxId : Nat), readWeights (r.onBuf b2) oX oW mtxId num = readWeights r oX oW mtxId num := by
  induction num with
  | zero => intro mtxId; rfl
  | succ num ih =>
    intro mtxId
    simp only [readWeights]
    rw [BinaryReader.peekAt_onBuf hb 2 (by omega), BinaryReader.peekAt_onBuf hb 4 (by omega),
      ih]

theorem readEnvelopes_onBuf {r : BinaryReader} {b2 : List Byte}
    (hb : r.buf.drop 32 = b2.drop 32) (hp : 32 ≤ r.pos) {oS oX oW : Int} (hS : 0 ≤ oS)
    (hX : 0 ≤ oX) (hW : 0 ≤ oW) (n : Nat) :
    ∀ (i mtxId : Nat),
      readEnvelopes (r.onBuf b2) oS oX oW i mtxId n = readEnvelopes r oS oX oW i mtxId n := by
  induction n with
  | zero => intro i mtxId; rfl
  | succ n ih =>
    intro i mtxId
    simp only [readEnvelopes]
    rw [BinaryReader.peekAt_onBuf hb 1 (by omega)]
    cases r.peekAt 1 (oS + (i : Int)) with
    | none => rfl
    | some num =>
      simp only []
      rw [readWeights_onBuf hb hp hX hW, ih]

theorem readDrawMatrixSlots_onBuf {r : BinaryReader} {b2 : List Byte}
    (hb : r.buf.drop 32 = b2.drop 32) (hp : 32 ≤ r.pos) (envelopes : List DrawMatrix)
    {oP oX : Int} (hP : 0 ≤ oP) (hX : 0 ≤ oX) (n : Nat) :
    ∀ (i : Nat),
      readDrawMatrixSlots (r.onBuf b2) envelopes oP oX i n =
        readDrawMatrixSlots r envelopes oP oX i n := by
  induction n with
  | zero => intro i; rfl
  | succ n ih =>
    intro i
    simp only [readDrawMatrixSlots]
    rw [BinaryReader.peekAt_onBuf hb 1 (by omega), BinaryReader.peekAt_onBuf hb 2 (by omega),
      ih]

theorem readJointRecord_onBuf {r : BinaryReader} {b2 : List Byte}
    (hb : r.buf.drop 32 = b2.drop 32) (hp : 32 ≤ r.pos) (joint : Joint) (name : String) :
    readJointRecord (r.onBuf b2) joint name =
      (readJointRecord r joint name).map (fun x => (x.1, x.2.onBuf b2)) := by
  unfold readJointRecord
  rw [BinaryReader.readU_onBuf hb hp]
  cases h1 : r.readU 2 with
  | none => rfl
  | some x1 =>
  obtain ⟨flag, r1⟩ := x1
  obtain ⟨-, rfl⟩ := BinaryReader.readU_eq_some.1 h1
  simp only [Option.map_some']
  rw [BinaryReader.readU_onBuf (r := r.seek 2) hb (by simp only [BinaryReader.seek_pos]; omega)]
  cases h2 : (r.seek 2).readU 1 with
  | none => rfl
  | some x2 =>
  obtain ⟨maya, r2⟩ := x2
  obtain ⟨-, rfl⟩ := BinaryReader.readU_eq_some.1 h2
  simp only [Option.map_some']
  rw [BinaryReader.readU_onBuf (r := (r.seek 2).seek 1) hb
    (by simp only [BinaryReader.seek_pos]; omega)]
  cases h3 : ((r.seek 2).seek 1).readU 1 with
  | none => rfl
  | some x3 =>
  obtain ⟨pad, r3⟩ := x3
  obtain ⟨-, rfl⟩ := BinaryReader.readU_eq_some.1 h3
  simp only [Option.map_some']
  rw [BinaryReader.readUs_onBuf 4 3 (r := ((r.seek 2).seek 1).seek 1) hb
    (by simp only [BinaryReader.seek_pos]; omega)]
  cases h4 : (((r.seek 2).seek 1).seek 1).readUs 4 3 with
  | none => rfl
  | some x4 =>
  obtain ⟨scale, r4⟩ := x4
  obtain ⟨rfl, -, -⟩ := BinaryReader.readUs_eq_some 3 h4
  simp only [Option.map_some']
  rw [BinaryReader.readSs_onBuf (r := (((r.seek 2).seek 1).seek 1).seek (4 * 3)) hb
    (by simp only [BinaryReader.seek_pos]; omega)]
  cases h5 : ((((r.seek 2).seek 1).seek 1).seek (4 * 3)).readSs 2 3 with
  | none => rfl
  | some x5 =>
  obtain ⟨rot, r5⟩ := x5
  obtain ⟨rfl, -, -⟩ := BinaryReader.readSs_eq_some h5
  simp only [Option.map_some']
  rw [BinaryReader.readU_onBuf
    (r := ((((r.seek 2).seek 1).seek 1).seek (4 * 3)).seek (2 * 3)) hb
    (by simp only [BinaryReader.seek_pos]; omega)]
  cases h6 : (((((r.seek 2).seek 1).seek 1).seek (4 * 3)).seek (2 * 3)).readU 2 with
  | none => rfl
  | some x6 =>
  obtain ⟨pad2, r6⟩ := x6
  obtain ⟨-, rfl⟩ := BinaryReader.readU_eq_some.1 h6
  simp only [Option.map_some']
  rw [BinaryReader.readUs_onBuf 4 3
    (r := (((((r.seek 2).seek 1).seek 1).seek (4 * 3)).seek (2 * 3)).seek 2) hb
    (by simp only [BinaryReader.seek_pos]; omega)]
  cases h7 : ((((((r.seek 2).seek 1).seek 1).seek (4 * 3)).seek (2 * 3)).seek 2).readUs 4 3 with
  | none => rfl
  | some x7 =>
  obtain ⟨translate, r7⟩ := x7
  obtain ⟨rfl, -, -⟩ := BinaryReader.readUs_eq_some 3 h7
  simp only [Option.map_some']
  rw [BinaryReader.readU_onBuf
    (r := ((((((r.seek 2).seek 1).seek 1).seek (4 * 3)).seek (2 * 3)).seek 2).seek (4 * 3)) hb
    (by simp only [BinaryReader.seek_pos]; omega)]
  cases h8 : (((((((r.seek 2).seek 1).seek 1).seek (4 * 3)).seek (2 * 3)).seek 2).seek
      (4 * 3)).readU 4 with
  | none => rfl
  | some x8 =>
  obtain ⟨radius, r8⟩ := x8
  obtain ⟨-, rfl⟩ := BinaryReader.readU_eq_some.1 h8
  simp only [Option.map_some']
  rw [BinaryReader.readUs_onBuf 4 6
    (r := (((((((r.seek 2).seek 1).seek 1).seek (4 * 3)).seek (2 * 3)).seek 2).seek
      (4 * 3)).seek 4) hb (by simp only [BinaryReader.seek_pos]; omega)]
  cases h9 : ((((((((r.seek 2).seek 1).seek 1).seek (4 * 3)).seek (2 * 3)).seek 2).seek
      (4 * 3)).seek 4).readUs 4 6 with
  | none => rfl
  | some x9 =>
  obtain ⟨box, r9⟩ := x9
  rfl

theorem readJointRecords_onBuf {b2 : List Byte} (start : Nat) (ofs : Int) (lut : List Nat)
    (nameTable : List String)
    (hpos : ∀ slot ∈ lut, 32 ≤ toU32 ((start : Int) + ofs + (slot : Int) * 0x40))
    (todo : List Joint) :
    ∀ {r : BinaryReader} (i : Nat), r.buf.drop 32 = b2.drop 32 →
      readJointRecords (r.onBuf b2) start ofs lut nameTable i todo =
        (readJointRecords r start ofs lut nameTable i todo).map
          (fun x => (x.1, x.2.onBuf b2)) := by
  induction todo with
  | nil => intro r i _; rfl
  | cons joint todo ih =>
    intro r i hb
    simp only [readJointRecords]
    cases hl : lut[i]? with
    | none => rfl
    | some slot =>
      cases hn : nameTable[i]? with
      | none => rfl
      | some name =>
        simp only [BinaryReader.onBuf_seekSet]
        rw [readJointRecord_onBuf
          (r := r.seekSet (toU32 ((start : Int) + ofs + (slot : Int) * 0x40))) hb
          (hpos slot (List.getElem?_mem hl))]
        cases h1 : readJointRecord
            (r.seekSet (toU32 ((start : Int) + ofs + (slot : Int) * 0x40))) joint name with
        | none => rfl
        | some x =>
          obtain ⟨j, r1⟩ := x
          obtain ⟨rfl, -⟩ := readJointRecord_reader h1
          simp only [Option.map_some']
          rw [ih (r := (r.seekSet (toU32 ((start : Int) + ofs + (slot : Int) * 0x40))).seek 0x40)
            (i + 1) hb]
          cases readJointRecords
            ((r.seekSet (toU32 ((start : Int) + ofs + (slot : Int) * 0x40))).seek 0x40)
            start ofs lut nameTable (i + 1) todo <;> rfl

theorem readMaterialRecords_onBuf {b2 : List Byte} (start : Nat) (ofs : Int) (lut : List Nat)
    (nameTable : List String) (todo : List Material) :
    ∀ {r : BinaryReader} (i : Nat),
      readMaterialRecords (r.onBuf b2) start ofs lut nameTable i todo =
        (readMaterialRecords r start ofs lut nameTable i todo).map
          (fun x => (x.1, x.2.onBuf b2)) := by
  induction todo with
  | nil => intro r i; rfl
  | cons mat todo ih =>
    intro r i
    simp only [readMaterialRecords]
    cases hl : lut[i]? with
    | none => rfl
    | some slot =>
      cases hn : nameTable[i]? with
      | none => rfl
      | some name =>
        simp only [BinaryReader.onBuf_seekSet]
        rw [ih (r := r.seekSet (toU32 ((start : Int) + ofs + (slot : Int) * 0x14c))) (i + 1)]
        cases readMaterialRecords
          (r.seekSet (toU32 ((start : Int) + ofs + (slot : Int) * 0x14c)))
          start ofs lut nameTable (i + 1) todo <;> rfl

end libcube.jsystem

namespace libcube.jsystem

theorem findSection_mem {imp : BMDImporter} {t : Nat} {sec : SectionEntry}
    (h : findSection imp t = some sec) : (t, sec) ∈ imp.mSections := by
  unfold findSection at h
  generalize imp.mSections = l at h
  induction l with
  | nil => simp [List.lookup] at h
  | cons kv l ih =>
    obtain ⟨k, v⟩ := kv
    simp only [List.lookup] at h
    cases hk : (t == k) with
    | true =>
      rw [hk] at h
      have e1 : t = k := by simpa using hk
      have e2 : v = sec := Option.some.inj h
      rw [e1, e2]
      exact List.mem_cons_self _ _
    | false =>
      rw [hk] at h
      exact List.mem_cons_of_mem _ (ih h)

/-- The header position of a section that lies after the file header. -/
theorem header_pos {sp : Nat} (h40 : 40 ≤ sp) (hle : sp ≤ 1073741824) :
    toU32 ((sp : Int) - 8) = sp - 8 := by
  unfold toU32
  omega

/-- A sub-offset below `2^30` is read as itself. -/
theorem toSigned_small {o : Nat} (h : o < 1073741824) : toSigned 32 o = (o : Int) := by
  unfold toSigned
  rw [if_pos (by norm_num; omega)]

/-- A forward sub-offset: its signed reading is the value itself, below `2^30`. -/
theorem subOffset_forward {buf : List Byte} {p : Nat} {v : Int}
    (hoff : ∀ o ∈ beAt buf p 4, o < 1073741824)
    (hv : some v = (beAt buf p 4).map (toSigned 32)) : 0 ≤ v ∧ v < 1073741824 := by
  cases hbe : beAt buf p 4 with
  | none => rw [hbe] at hv; exact absurd hv (by simp)
  | some o =>
    rw [hbe] at hv
    have ho := hoff o hbe
    have e : v = toSigned 32 o := Option.some.inj hv
    rw [e, toSigned_small ho]
    omega

theorem readJoints_onBuf {imp : BMDImporter} {r : BinaryReader} {b2 : List Byte}
    (ctx : BMDOutputContext) (hb : r.buf.drop 32 = b2.drop 32)
    (hF : SectionsAfterHeader r.buf imp) :
    readJoints imp (r.onBuf b2) ctx =
      (readJoints imp r ctx).map (fun x => (x.1.onBuf b2, x.2)) := by
  cases hsec : findSection imp (fourCC 'J' 'N' 'T' '1') with
  | none =>
    rw [readJoints_absent _ _ hsec, readJoints_absent _ _ hsec]
    rfl
  | some sec =>
    obtain ⟨h40, hle, hoff⟩ := hF _ (findSection_mem hsec)
    dsimp only at h40 hle hoff
    have hH := header_pos h40 hle
    unfold readJoints
    rw [enterSection_of_find hsec, enterSection_of_find hsec]
    simp only [scopedSection, BinaryReader.tell, BinaryReader.onBuf_seekSet,
      BinaryReader.onBuf_seek, BinaryReader.onBuf_pos, BinaryReader.seekSet_pos, hH]
    rw [BinaryReader.readU_onBuf (r := (r.seekSet (sec.streamPos - 8)).seek 8) hb
      (by simp only [BinaryReader.seek_pos, BinaryReader.seekSet_pos]; omega)]
    cases h1 : ((r.seekSet (sec.streamPos - 8)).seek 8).readU 2 with
    | none => rfl
    | some x1 =>
    obtain ⟨size, r1⟩ := x1
    obtain ⟨-, rfl⟩ := BinaryReader.readU_eq_some.1 h1
    simp only [Option.map_some', BinaryReader.onBuf_seekSet, BinaryReader.onBuf_seek]
    rw [BinaryReader.readU_onBuf (r := ((r.seekSet (sec.streamPos - 8)).seek 8).seek 2) hb
      (by simp only [BinaryReader.seek_pos, BinaryReader.seekSet_pos]; omega)]
    cases h2 : (((r.seekSet (sec.streamPos - 8)).seek 8).seek 2).readU 2 with
    | none => rfl
    | some x2 =>
    obtain ⟨pad, r2⟩ := x2
    obtain ⟨-, rfl⟩ := BinaryReader.readU_eq_some.1 h2
    simp only [Option.map_some', BinaryReader.onBuf_seekSet, BinaryReader.onBuf_seek]
    rw [BinaryReader.readSs_onBuf
      (r := (((r.seekSet (sec.streamPos - 8)).seek 8).seek 2).seek 2) hb
      (by simp only [BinaryReader.seek_pos, BinaryReader.seekSet_pos]; omega)]
    cases h3 : ((((r.seekSet (sec.streamPos - 8)).seek 8).seek 2).seek 2).readSs 4 3 with
    | none => rfl
    | some x3 =>
    obtain ⟨vs, r3⟩ := x3
    obtain ⟨rfl, hlen, hget⟩ := BinaryReader.readSs_eq_some h3
    match vs, hlen, hget with
    | [oData, oRemap, oString], _, hget =>
    have ha := hget 0 (by omega)
    have hb1 := hget 1 (by omega)
    have hc := hget 2 (by omega)
    simp only [List.getElem?_cons_zero, List.getElem?_cons_succ, BinaryReader.seek_buf,
      BinaryReader.seek_pos, BinaryReader.seekSet_buf, BinaryReader.seekSet_pos] at ha hb1 hc
    have hslots : subOffsetSlots (fourCC 'J' 'N' 'T' '1') = [12, 16, 20] := by decide
    rw [hslots] at hoff
    obtain ⟨a0, a1⟩ := subOffset_forward (hoff 12 (by simp))
      (by rw [ha])
    obtain ⟨b0, b1'⟩ := subOffset_forward (hoff 16 (by simp))
      (by rw [hb1])
    obtain ⟨c0, c1⟩ := subOffset_forward (hoff 20 (by simp))
      (by rw [hc])
    simp only [Option.map_some', BinaryReader.onBuf_seekSet, BinaryReader.onBuf_seek,
      BinaryReader.seek_seekSet, BinaryReader.seekSet_seekSet]
    have hpR : 32 ≤ toU32 (((sec.streamPos - 8 : Nat) : Int) + oRemap) := by
      unfold toU32
      omega
    rw [readRemapTable_onBuf size
      (r := r.seekSet (toU32 (((sec.streamPos - 8 : Nat) : Int) + oRemap))) 0 true hb hpR]
    cases h4 : readRemapTable
        (r.seekSet (toU32 (((sec.streamPos - 8 : Nat) : Int) + oRemap))) 0 true size with
    | none => rfl
    | some x4 =>
    obtain ⟨lut, sorted, r4⟩ := x4
    obtain ⟨rfl, hll, hlg, -⟩ := readRemapTable_spec size h4
    simp only [Option.map_some', BinaryReader.onBuf_seekSet, BinaryReader.onBuf_seek,
      BinaryReader.seek_seekSet, BinaryReader.seekSet_seekSet]
    have hpS : 32 ≤ toU32 (oString + ((sec.streamPos - 8 : Nat) : Int)) ∧
        toU32 (oString + ((sec.streamPos - 8 : Nat) : Int)) + 65536 ≤ 4294967296 := by
      unfold toU32
      omega
    rw [readNameTable_onBuf
      (r := r.seekSet (toU32 (oString + ((sec.streamPos - 8 : Nat) : Int)))) hb hpS.1 hpS.2]
    cases h5 : readNameTable
        (r.seekSet (toU32 (oString + ((sec.streamPos - 8 : Nat) : Int)))) with
    | none => rfl
    | some x5 =>
    obtain ⟨nameTable, r5⟩ := x5
    obtain ⟨-, rfl⟩ := readNameTable_reader h5
    simp only [Option.map_some', BinaryReader.onBuf_seekSet, BinaryReader.onBuf_seek]
    have hslot : ∀ slot ∈ lut,
        32 ≤ toU32 (((sec.streamPos - 8 : Nat) : Int) + oData + (slot : Int) * 0x40) := by
      intro slot hmem
      obtain ⟨k, hk⟩ := List.getElem?_of_mem hmem
      have hklt : k < size := by
        rw [← hll]
        exact (List.getElem?_eq_some_iff.1 hk).1
      have hbe := hlg k hklt
      rw [hk] at hbe
      have := beAt_lt 2 hbe.symm
      norm_num at this
      unfold toU32
      omega
    rw [readJointRecords_onBuf (sec.streamPos - 8) oData lut nameTable hslot _
      (r := (r.seekSet (toU32 (oString + ((sec.streamPos - 8 : Nat) : Int)))).seek
        (4 + 4 * nameTable.length)) 0 hb]
    cases readJointRecords
      ((r.seekSet (toU32 (oString + ((sec.streamPos - 8 : Nat) : Int)))).seek
        (4 + 4 * nameTable.length)) (sec.streamPos - 8) oData lut nameTable 0
      (resize ctx.mdl.mJoints size {}) <;> rfl

theorem readMaterials_onBuf {imp : BMDImporter} {r : BinaryReader} {b2 : List Byte}
    (ctx : BMDOutputContext) (hb : r.buf.drop 32 = b2.drop 32)
    (hF : SectionsAfterHeader r.buf imp) :
    readMaterials imp (r.onBuf b2) ctx =
      (readMaterials imp r ctx).map (fun x => (x.1.onBuf b2, x.2)) := by
  cases hsec : findSection imp (fourCC 'M' 'A' 'T' '3') with
  | none =>
    rw [readMaterials_absent _ _ hsec, readMaterials_absent _ _ hsec]
    rfl
  | some sec =>
    obtain ⟨h40, hle, hoff⟩ := hF _ (findSection_mem hsec)
    dsimp only at h40 hle hoff
    have hH := header_pos h40 hle
    unfold readMaterials
    rw [enterSection_of_find hsec, enterSection_of_find hsec]
    simp only [scopedSection, BinaryReader.tell, BinaryReader.onBuf_seekSet,
      BinaryReader.onBuf_seek, BinaryReader.onBuf_pos, BinaryReader.seekSet_pos, hH]
    rw [BinaryReader.readU_onBuf (r := (r.seekSet (sec.streamPos - 8)).seek 8) hb
      (by simp only [BinaryReader.seek_pos, BinaryReader.seekSet_pos]; omega)]
    cases h1 : ((r.seekSet (sec.streamPos - 8)).seek 8).readU 2 with
    | none => rfl
    | some x1 =>
    obtain ⟨size, r1⟩ := x1
    obtain ⟨-, rfl⟩ := BinaryReader.readU_eq_some.1 h1
    simp only [Option.map_some', BinaryReader.onBuf_seekSet, BinaryReader.onBuf_seek]
    rw [BinaryReader.readU_onBuf (r := ((r.seekSet (sec.streamPos - 8)).seek 8).seek 2) hb
      (by simp only [BinaryReader.seek_pos, BinaryReader.seekSet_pos]; omega)]
    cases h2 : (((r.seekSet (sec.streamPos - 8)).seek 8).seek 2).readU 2 with
    | none => rfl
    | some x2 =>
    obtain ⟨pad, r2⟩ := x2
    obtain ⟨-, rfl⟩ := BinaryReader.readU_eq_some.1 h2
    simp only [Option.map_some', BinaryReader.onBuf_seekSet, BinaryReader.onBuf_seek]
    rw [BinaryReader.readSs_onBuf
      (r := (((r.seekSet (sec.streamPos - 8)).seek 8).seek 2).seek 2) hb
      (by simp only [BinaryReader.seek_pos, BinaryReader.seekSet_pos]; omega)]
    cases h3 : ((((r.seekSet (sec.streamPos - 8)).seek 8).seek 2).seek 2).readSs 4 3 with
    | none => rfl
    | some x3 =>
    obtain ⟨vs, r3⟩ := x3
    obtain ⟨rfl, hlen, hget⟩ := BinaryReader.readSs_eq_some h3
    match vs, hlen, hget with
    | [oData, oRemap, oString], _, hget =>
    have hb1 := hget 1 (by omega)
    have hc := hget 2 (by omega)
    simp only [List.getElem?_cons_zero, List.getElem?_cons_succ, BinaryReader.seek_buf,
      BinaryReader.seek_pos, BinaryReader.seekSet_buf, BinaryReader.seekSet_pos] at hb1 hc
    have hslots : subOffsetSlots (fourCC 'M' 'A' 'T' '3') = [16, 20] := by decide
    rw [hslots] at hoff
    obtain ⟨b0, b1'⟩ := subOffset_forward (hoff 16 (by simp)) (by rw [hb1])
    obtain ⟨c0, c1⟩ := subOffset_forward (hoff 20 (by simp)) (by rw [hc])
    simp only [Option.map_some', BinaryReader.onBuf_seekSet, BinaryReader.onBuf_seek]
    rw [BinaryReader.readSs_onBuf
      (r := ((((r.seekSet (sec.streamPos - 8)).seek 8).seek 2).seek 2).seek (4 * 3)) hb
      (by simp only [BinaryReader.seek_pos, BinaryReader.seekSet_pos]; omega)]
    cases h3a : (((((r.seekSet (sec.streamPos - 8)).seek 8).seek 2).seek 2).seek
        (4 * 3)).readSs 4 27 with
    | none => rfl
    | some x3a =>
    obtain ⟨more, r3a⟩ := x3a
    obtain ⟨rfl, -, -⟩ := BinaryReader.readSs_eq_some h3a
    simp only [Option.map_some', BinaryReader.onBuf_seekSet, BinaryReader.onBuf_seek,
      BinaryReader.seek_seekSet, BinaryReader.seekSet_seekSet]
    have hpR : 32 ≤ toU32 (((sec.streamPos - 8 : Nat) : Int) + oRemap) := by
      unfold toU32
      omega
    rw [readRemapTable_onBuf size
      (r := r.seekSet (toU32 (((sec.streamPos - 8 : Nat) : Int) + oRemap))) 0 true hb hpR]
    cases h4 : readRemapTable
        (r.seekSet (toU32 (((sec.streamPos - 8 : Nat) : Int) + oRemap))) 0 true size with
    | none => rfl
    | some x4 =>
    obtain ⟨lut, sorted, r4⟩ := x4
    obtain ⟨rfl, -, -, -⟩ := readRemapTable_spec size h4
    simp only [Option.map_some', BinaryReader.onBuf_seekSet, BinaryReader.onBuf_seek,
      BinaryReader.seek_seekSet, BinaryReader.seekSet_seekSet]
    have hpS : 32 ≤ toU32 (oString + ((sec.streamPos - 8 : Nat) : Int)) ∧
        toU32 (oString + ((sec.streamPos - 8 : Nat) : Int)) + 65536 ≤ 4294967296 := by
      unfold toU32
      omega
    rw [readNameTable_onBuf
      (r := r.seekSet (toU32 (oString + ((sec.streamPos - 8 : Nat) : Int)))) hb hpS.1 hpS.2]
    cases h5 : readNameTable
        (r.seekSet (toU32 (oString + ((sec.streamPos - 8 : Nat) : Int)))) with
    | none => rfl
    | some x5 =>
    obtain ⟨nameTable, r5⟩ := x5
    simp only [Option.map_some', BinaryReader.onBuf_seekSet, BinaryReader.onBuf_seek]
    rw [readMaterialRecords_onBuf (sec.streamPos - 8) oData lut nameTable _ (r := r5) 0]
    cases readMaterialRecords r5 (sec.streamPos - 8) oData lut nameTable 0
      (resize ctx.mdl.mMaterials size {}) <;> rfl

theorem readEVP1_onBuf {imp : BMDImporter} {r : BinaryReader} {b2 : List Byte}
    (hb : r.buf.drop 32 = b2.drop 32) (hF : SectionsAfterHeader r.buf imp) :
    readEVP1 imp (r.onBuf b2) = (readEVP1 imp r).map (fun x => (x.1, x.2.onBuf b2)) := by
  cases hsec : findSection imp (fourCC 'E' 'V' 'P' '1') with
  | none =>
    unfold readEVP1
    rw [enterSection_of_not_find hsec, enterSection_of_not_find hsec]
    rfl
  | some sec =>
    obtain ⟨h40, hle, hoff⟩ := hF _ (findSection_mem hsec)
    dsimp only at h40 hle hoff
    have hH := header_pos h40 hle
    unfold readEVP1
    rw [enterSection_of_find hsec, enterSection_of_find hsec]
    simp only [scopedSection, BinaryReader.tell, BinaryReader.onBuf_seekSet,
      BinaryReader.onBuf_seek, BinaryReader.onBuf_pos, BinaryReader.seekSet_pos, hH]
    rw [BinaryReader.readU_onBuf (r := (r.seekSet (sec.streamPos - 8)).seek 8) hb
      (by simp only [BinaryReader.seek_pos, BinaryReader.seekSet_pos]; omega)]
    cases h1 : ((r.seekSet (sec.streamPos - 8)).seek 8).readU 2 with
    | none => rfl
    | some x1 =>
    obtain ⟨size, r1⟩ := x1
    obtain ⟨-, rfl⟩ := BinaryReader.readU_eq_some.1 h1
    simp only [Option.map_some', BinaryReader.onBuf_seekSet, BinaryReader.onBuf_seek]
    rw [BinaryReader.readU_onBuf (r := ((r.seekSet (sec.streamPos - 8)).seek 8).seek 2) hb
      (by simp only [BinaryReader.seek_pos, BinaryReader.seekSet_pos]; omega)]
    cases h2 : (((r.seekSet (sec.streamPos - 8)).seek 8).seek 2).readU 2 with
    | none => rfl
    | some x2 =>
    obtain ⟨pad, r2⟩ := x2
    obtain ⟨-, rfl⟩ := BinaryReader.readU_eq_some.1 h2
    simp only [Option.map_some', BinaryReader.onBuf_seekSet, BinaryReader.onBuf_seek]
    rw [BinaryReader.readSs_onBuf
      (r := (((r.seekSet (sec.streamPos - 8)).seek 8).seek 2).seek 2) hb
      (by simp only [BinaryReader.seek_pos, BinaryReader.seekSet_pos]; omega)]
    cases h3 : ((((r.seekSet (sec.streamPos - 8)).seek 8).seek 2).seek 2).readSs 4 4 with
    | none => rfl
    | some x3 =>
    obtain ⟨vs, r3⟩ := x3
    obtain ⟨rfl, hlen, hget⟩ := BinaryReader.readSs_eq_some h3
    match vs, hlen, hget with
    | [oS, oX, oW, oI], _, hget =>
    have ha := hget 0 (by omega)
    have hb1 := hget 1 (by omega)
    have hc := hget 2 (by omega)
    simp only [List.getElem?_cons_zero, List.getElem?_cons_succ, BinaryReader.seek_buf,
      BinaryReader.seek_pos, BinaryReader.seekSet_buf, BinaryReader.seekSet_pos] at ha hb1 hc
    have hslots : subOffsetSlots (fourCC 'E' 'V' 'P' '1') = [12, 16, 20] := by decide
    rw [hslots] at hoff
    obtain ⟨a0, -⟩ := subOffset_forward (hoff 12 (by simp)) (by rw [ha])
    obtain ⟨b0, -⟩ := subOffset_forward (hoff 16 (by simp)) (by rw [hb1])
    obtain ⟨c0, -⟩ := subOffset_forward (hoff 20 (by simp)) (by rw [hc])
    simp only [Option.map_some', BinaryReader.onBuf_seekSet, BinaryReader.onBuf_seek,
      BinaryReader.seek_seekSet, BinaryReader.seekSet_seekSet]
    rw [readEnvelopes_onBuf (r := r.seekSet (sec.streamPos - 8)) hb
      (by simp only [BinaryReader.seekSet_pos]; omega) a0 b0 c0]
    cases readEnvelopes (r.seekSet (sec.streamPos - 8)) oS oX oW 0 0 size <;> rfl

theorem readDrawMatrices_onBuf {imp : BMDImporter} {r : BinaryReader} {b2 : List Byte}
    (ctx : BMDOutputContext) (hb : r.buf.drop 32 = b2.drop 32)
    (hF : SectionsAfterHeader r.buf imp) :
    readDrawMatrices imp (r.onBuf b2) ctx =
      (readDrawMatrices imp r ctx).map (fun x => (x.1.onBuf b2, x.2)) := by
  unfold readDrawMatrices
  rw [readEVP1_onBuf hb hF]
  cases h0 : readEVP1 imp r with
  | none => rfl
  | some x0 =>
  obtain ⟨envelopes, r0⟩ := x0
  obtain ⟨p0, rfl⟩ := readEVP1_reader h0
  simp only [Option.map_some']
  cases hsec : findSection imp (fourCC 'D' 'R' 'W' '1') with
  | none =>
    rw [enterSection_of_not_find hsec, enterSection_of_not_find hsec]
    rfl
  | some sec =>
    obtain ⟨h40, hle, hoff⟩ := hF _ (findSection_mem hsec)
    dsimp only at h40 hle hoff
    have hH := header_pos h40 hle
    rw [enterSection_of_find hsec, enterSection_of_find hsec]
    simp only [scopedSection, BinaryReader.tell, BinaryReader.onBuf_seekSet,
      BinaryReader.onBuf_seek, BinaryReader.onBuf_pos, BinaryReader.seekSet_pos, hH,
      BinaryReader.seekSet_seekSet]
    rw [BinaryReader.readU_onBuf (r := (r.seekSet (sec.streamPos - 8)).seek 8) hb
      (by simp only [BinaryReader.seek_pos, BinaryReader.seekSet_pos]; omega)]
    cases h1 : ((r.seekSet (sec.streamPos - 8)).seek 8).readU 2 with
    | none => rfl
    | some x1 =>
    obtain ⟨size, r1⟩ := x1
    obtain ⟨-, rfl⟩ := BinaryReader.readU_eq_some.1 h1
    simp only [Option.map_some', BinaryReader.onBuf_seekSet, BinaryReader.onBuf_seek]
    rw [BinaryReader.readU_onBuf (r := ((r.seekSet (sec.streamPos - 8)).seek 8).seek 2) hb
      (by simp only [BinaryReader.seek_pos, BinaryReader.seekSet_pos]; omega)]
    cases h2 : (((r.seekSet (sec.streamPos - 8)).seek 8).seek 2).readU 2 with
    | none => rfl
    | some x2 =>
    obtain ⟨pad, r2⟩ := x2
    obtain ⟨-, rfl⟩ := BinaryReader.readU_eq_some.1 h2
    simp only [Option.map_some', BinaryReader.onBuf_seekSet, BinaryReader.onBuf_seek]
    rw [BinaryReader.readSs_onBuf
      (r := (((r.seekSet (sec.streamPos - 8)).seek 8).seek 2).seek 2) hb
      (by simp only [BinaryReader.seek_pos, BinaryReader.seekSet_pos]; omega)]
    cases h3 : ((((r.seekSet (sec.streamPos - 8)).seek 8).seek 2).seek 2).readSs 4 2 with
    | none => rfl
    | some x3 =>
    obtain ⟨vs, r3⟩ := x3
    obtain ⟨rfl, hlen, hget⟩ := BinaryReader.readSs_eq_some h3
    match vs, hlen, hget with
    | [oP, oX], _, hget =>
    have ha := hget 0 (by omega)
    have hb1 := hget 1 (by omega)
    simp only [List.getElem?_cons_zero, List.getElem?_cons_succ, BinaryReader.seek_buf,
      BinaryReader.seek_pos, BinaryReader.seekSet_buf, BinaryReader.seekSet_pos] at ha hb1
    have hslots : subOffsetSlots (fourCC 'D' 'R' 'W' '1') = [12, 16] := by decide
    rw [hslots] at hoff
    obtain ⟨a0, -⟩ := subOffset_forward (hoff 12 (by simp)) (by rw [ha])
    obtain ⟨b0, -⟩ := subOffset_forward (hoff 16 (by simp)) (by rw [hb1])
    simp only [Option.map_some', BinaryReader.onBuf_seekSet, BinaryReader.onBuf_seek,
      BinaryReader.seek_seekSet, BinaryReader.seekSet_seekSet]
    rw [readDrawMatrixSlots_onBuf (r := r.seekSet (sec.streamPos - 8)) hb
      (by simp only [BinaryReader.seekSet_pos]; omega) envelopes a0 b0]
    cases readDrawMatrixSlots (r.seekSet (sec.streamPos - 8)) envelopes oP oX 0 size <;> rfl

theorem readInformation_onBuf {imp : BMDImporter} {r : BinaryReader} {b2 : List Byte}
    (ctx : BMDOutputContext) (mat0 : Nat) (hb : r.buf.drop 32 = b2.drop 32)
    (hF : SectionsAfterHeader r.buf imp) :
    readInformation imp (r.onBuf b2) ctx mat0 =
      (readInformation imp r ctx mat0).map (fun x => (x.1.onBuf b2, x.2)) := by
  cases hsec : findSection imp (fourCC 'I' 'N' 'F' '1') with
  | none =>
    rw [readInformation_absent _ _ _ hsec, readInformation_absent _ _ _ hsec]
    rfl
  | some sec =>
    obtain ⟨h40, hle, hoff⟩ := hF _ (findSection_mem hsec)
    dsimp only at h40 hle hoff
    have hH := header_pos h40 hle
    unfold readInformation
    rw [enterSection_of_find hsec, enterSection_of_find hsec]
    simp only [scopedSection, BinaryReader.tell, BinaryReader.onBuf_seekSet,
      BinaryReader.onBuf_seek, BinaryReader.onBuf_pos, BinaryReader.seekSet_pos, hH]
    rw [BinaryReader.readU_onBuf (r := (r.seekSet (sec.streamPos - 8)).seek 8) hb
      (by simp only [BinaryReader.seek_pos, BinaryReader.seekSet_pos]; omega)]
    cases h1 : ((r.seekSet (sec.streamPos - 8)).seek 8).readU 4 with
    | none => rfl
    | some x1 =>
    obtain ⟨flag, r1⟩ := x1
    obtain ⟨-, rfl⟩ := BinaryReader.readU_eq_some.1 h1
    simp only [Option.map_some', BinaryReader.onBuf_seekSet, BinaryReader.onBuf_seek]
    rw [BinaryReader.readU_onBuf (r := ((r.seekSet (sec.streamPos - 8)).seek 8).seek 4) hb
      (by simp only [BinaryReader.seek_pos, BinaryReader.seekSet_pos]; omega)]
    cases h2 : (((r.seekSet (sec.streamPos - 8)).seek 8).seek 4).readU 4 with
    | none => rfl
    | some x2 =>
    obtain ⟨nPacket, r2⟩ := x2
    obtain ⟨-, rfl⟩ := BinaryReader.readU_eq_some.1 h2
    simp only [Option.map_some', BinaryReader.onBuf_seekSet, BinaryReader.onBuf_seek]
    rw [BinaryReader.readU_onBuf
      (r := (((r.seekSet (sec.streamPos - 8)).seek 8).seek 4).seek 4) hb
      (by simp only [BinaryReader.seek_pos, BinaryReader.seekSet_pos]; omega)]
    cases h3 : ((((r.seekSet (sec.streamPos - 8)).seek 8).seek 4).seek 4).readU 4 with
    | none => rfl
    | some x3 =>
    obtain ⟨nVertex, r3⟩ := x3
    obtain ⟨-, rfl⟩ := BinaryReader.readU_eq_some.1 h3
    simp only [Option.map_some', BinaryReader.onBuf_seekSet, BinaryReader.onBuf_seek]
    unfold dispatchSceneGraph
    rw [BinaryReader.readS_onBuf
      (r := ((((r.seekSet (sec.streamPos - 8)).seek 8).seek 4).seek 4).seek 4) hb
      (by simp only [BinaryReader.seek_pos, BinaryReader.seekSet_pos]; omega)]
    cases h4 : (((((r.seekSet (sec.streamPos - 8)).seek 8).seek 4).seek 4).seek 4).readS 4 with
    | none => rfl
    | some x4 =>
    obtain ⟨ptr, r4⟩ := x4
    obtain ⟨u, hu, hptr, rfl⟩ := BinaryReader.readS_eq_some.1 h4
    simp only [BinaryReader.seek_buf, BinaryReader.seek_pos, BinaryReader.seekSet_buf,
      BinaryReader.seekSet_pos] at hu
    have hslots : subOffsetSlots (fourCC 'I' 'N' 'F' '1') = [20] := by decide
    rw [hslots] at hoff
    obtain ⟨a0, a1⟩ := subOffset_forward (v := ptr) (hoff 20 (by simp))
      (by
        have e : sec.streamPos - 8 + 20 = sec.streamPos - 8 + 8 + 4 + 4 + 4 := by omega
        rw [e, hu, hptr]
        rfl)
    have hpos : toU32 (((sec.streamPos - 8 : Nat) : Int) + ptr) =
        sec.streamPos - 8 + ptr.toNat := by
      unfold toU32
      omega
    simp only [Option.map_some', BinaryReader.onBuf_buf, BinaryReader.seek_buf,
      BinaryReader.seekSet_buf, hpos]
    rw [drop_after hb (show 32 ≤ sec.streamPos - 8 + ptr.toNat by omega)]
    cases SceneGraph.onRead
      { ctx with mdl := { ctx.mdl with mScalingRule := flag &&& 0xf } } mat0
      (decodeCmds (r.buf.drop (sec.streamPos - 8 + ptr.toNat))) <;> rfl

/-- The loop of `lex` on two buffers that agree from 32 on, when the scan stays after the
file header: it gives the same table, the same final position and the same
diagnostics. -/
theorem lexLoop_onBuf {b2 : List Byte} (n : Nat) :
    ∀ (imp : BMDImporter) {r : BinaryReader}, r.buf.drop 32 = b2.drop 32 →
      scanAfterHeader r.buf r.pos n = true →
      lexLoop imp (r.onBuf b2) n = (lexLoop imp r n).map (fun x => (x.1, x.2.onBuf b2)) := by
  induction n with
  | zero => intro imp r _ _; rfl
  | succ n ih =>
    intro imp r hb hscan
    simp only [scanAfterHeader, Bool.and_eq_true, decide_eq_true_eq] at hscan
    obtain ⟨hp, hnext⟩ := hscan
    have e1 : beAt b2 r.pos 4 = beAt r.buf r.pos 4 := beAt_after hb hp 4
    have e2 : beAt b2 (r.pos + 4) 4 = beAt r.buf (r.pos + 4) 4 := beAt_after hb (by omega) 4
    cases h1 : beAt r.buf r.pos 4 with
    | none =>
      rw [h1] at e1
      simp [lexLoop, BinaryReader.readU, h1, e1]
    | some t =>
      rw [h1] at e1
      cases h2 : beAt r.buf (r.pos + 4) 4 with
      | none =>
        rw [h2] at e2
        simp [lexLoop, BinaryReader.readU, BinaryReader.seek, h1, e1, h2, e2]
      | some s =>
        rw [h2] at e2 hnext
        rw [lexLoop_succ (r := r.onBuf b2) n e1 e2, lexLoop_succ (r := r) n h1 h2]
        split
        · exact ih _ (r := { r with pos := toU32 ((r.pos : Int) + (s : Int)) }) hb hnext
        · exact ih _ (r := ⟨r.buf, toU32 ((r.pos : Int) + (s : Int)),
            r.diagnostics ++ [⟨"Unexpected section type.", r.pos, r.pos + 4⟩]⟩) hb hnext

end libcube.jsystem

/-! ## The body of `readBMD` as a chain of the four readers -/

namespace libcube.jsystem

/-- With a good header, `tryRead` is the four readers run in order on the lexed table,
each on the reader and the context the one before it left, and the negation of the
`error` flag. -/
theorem tryRead_chain {imp imp1 : BMDImporter} {r r1 r2 r3 r4 r5 : BinaryReader}
    {v fs n : Nat} (mModel : J3DModel) (mat0 : Nat)
    (hmagic : r.readU 4 = some (fourCC 'J' '3' 'D' '2', r1))
    (hver : r1.readU 4 = some (v, r2))
    (hv : v = fourCC 'b' 'm' 'd' '3' ∨ v = fourCC 'b' 'd' 'l' '4')
    (hsz : r2.readU 4 = some (fs, r3)) (hcnt : r3.readU 4 = some (n, r4))
    (hlex : lex imp (r4.seek 16) n = some (imp1, r5)) :
    tryRead imp r mModel mat0 =
      (readDrawMatrices imp1 r5 { mdl := mModel }).bind (fun x1 =>
        (readJoints imp1 x1.1 x1.2).bind (fun x2 =>
          (readMaterials imp1 x2.1 x2.2.1).bind (fun x3 =>
            (readInformation imp1 x3.1 x3.2.1 mat0).map (fun x4 =>
              { ok := !imp.error, imp := imp1, reader := x4.1, mModel := x4.2.mdl,
                debug := x2.2.2 ++ x3.2.2 })))) := by
  have hnot : ¬ (v ≠ fourCC 'b' 'm' 'd' '3' ∧ v ≠ fourCC 'b' 'd' 'l' '4') := by
    rintro ⟨h1, h2⟩
    rcases hv with hv | hv
    · exact h1 hv
    · exact h2 hv
  have herr := lex_error hlex
  simp only [tryRead, readBMD, BinaryReader.expectMagic, hmagic, if_true, readBMDAfterMagic,
    hver, hnot, if_false, hsz, hcnt, hlex]
  cases readDrawMatrices imp1 r5 { mdl := mModel } with
  | none => rfl
  | some x1 =>
  obtain ⟨r6, ctx1⟩ := x1
  simp only [Option.some_bind]
  cases readJoints imp1 r6 ctx1 with
  | none => rfl
  | some x2 =>
  obtain ⟨r7, ctx2, d1⟩ := x2
  simp only [Option.some_bind]
  cases readMaterials imp1 r7 ctx2 with
  | none => rfl
  | some x3 =>
  obtain ⟨r8, ctx3, d2⟩ := x3
  simp only [Option.some_bind]
  cases readInformation imp1 r8 ctx3 mat0 with
  | none => rfl
  | some x4 =>
  obtain ⟨r9, ctx4⟩ := x4
  simp only [Option.map_some', herr]

/-- A function on readers that commutes with replacing the buffer by the reader's own
leaves the buffer as it was. -/
theorem buf_of_onBuf {α : Type} {f : BinaryReader → Option (BinaryReader × α)}
    {r r' : BinaryReader} {a : α}
    (h : f (r.onBuf r.buf) = (f r).map (fun x => (x.1.onBuf r.buf, x.2)))
    (hr : f r = some (r', a)) : r'.buf = r.buf := by
  have e : r.onBuf r.buf = r := rfl
  rw [e, hr] at h
  have h2 := congrArg Prod.fst (Option.some.inj h)
  exact (congrArg BinaryReader.buf h2).trans rfl

/-- The four readers in order, on two buffers that agree from 32 on, when every section
of the table lies after the file header and its sub-offsets point forward: they give the
same result, up to the buffer of the reader. -/
theorem readers_onBuf {imp1 : BMDImporter} {r5 : BinaryReader} {b2 : List Byte}
    (ctx : BMDOutputContext) (mat0 : Nat) (ok : Bool)
    (hb : r5.buf.drop 32 = b2.drop 32) (hF : SectionsAfterHeader r5.buf imp1) :
    ((readDrawMatrices imp1 (r5.onBuf b2) ctx).bind (fun x1 =>
        (readJoints imp1 x1.1 x1.2).bind (fun x2 =>
          (readMaterials imp1 x2.1 x2.2.1).bind (fun x3 =>
            (readInformation imp1 x3.1 x3.2.1 mat0).map (fun x4 =>
              ({ ok := ok, imp := imp1, reader := x4.1, mModel := x4.2.mdl,
                 debug := x2.2.2 ++ x3.2.2 } : TryReadResult)))))) =
      ((readDrawMatrices imp1 r5 ctx).bind (fun x1 =>
        (readJoints imp1 x1.1 x1.2).bind (fun x2 =>
          (readMaterials imp1 x2.1 x2.2.1).bind (fun x3 =>
            (readInformation imp1 x3.1 x3.2.1 mat0).map (fun x4 =>
              ({ ok := ok, imp := imp1, reader := x4.1, mModel := x4.2.mdl,
                 debug := x2.2.2 ++ x3.2.2 } : TryReadResult)))))).map
        (fun res => { res with reader := res.reader.onBuf b2 }) := by
  rw [readDrawMatrices_onBuf ctx hb hF]
  cases h6 : readDrawMatrices imp1 r5 ctx with
  | none => rfl
  | some x1 =>
  obtain ⟨r6, ctx1⟩ := x1
  have e6 : r6.buf = r5.buf :=
    buf_of_onBuf (f := fun r => readDrawMatrices imp1 r ctx)
      (readDrawMatrices_onBuf ctx rfl hF) h6
  have hb6 : r6.buf.drop 32 = b2.drop 32 := by rw [e6]; exact hb
  have hF6 : SectionsAfterHeader r6.buf imp1 := by rw [e6]; exact hF
  simp only [Option.map_some', Option.some_bind]
  rw [readJoints_onBuf ctx1 hb6 hF6]
  cases h7 : readJoints imp1 r6 ctx1 with
  | none => rfl
  | some x2 =>
  obtain ⟨r7, ctx2, d1⟩ := x2
  have e7 : r7.buf = r6.buf :=
    buf_of_onBuf (f := fun r => readJoints imp1 r ctx1)
      (readJoints_onBuf ctx1 rfl hF6) h7
  have hb7 : r7.buf.drop 32 = b2.drop 32 := by rw [e7]; exact hb6
  have hF7 : SectionsAfterHeader r7.buf imp1 := by rw [e7]; exact hF6
  simp only [Option.map_some', Option.some_bind]
  rw [readMaterials_onBuf ctx2 hb7 hF7]
  cases h8 : readMaterials imp1 r7 ctx2 with
  | none => rfl
  | some x3 =>
  obtain ⟨r8, ctx3, d2⟩ := x3
  have e8 : r8.buf = r7.buf :=
    buf_of_onBuf (f := fun r => readMaterials imp1 r ctx2)
      (readMaterials_onBuf ctx2 rfl hF7) h8
  have hb8 : r8.buf.drop 32 = b2.drop 32 := by rw [e8]; exact hb7
  have hF8 : SectionsAfterHeader r8.buf imp1 := by rw [e8]; exact hF7
  simp only [Option.map_some', Option.some_bind]
  rw [readInformation_onBuf ctx3 mat0 hb8 hF8]
  cases readInformation imp1 r8 ctx3 mat0 with
  | none => rfl
  | some x4 => rfl

/-- The scan of `lex` leaves the buffer as it was. -/
theorem lex_buf {imp imp1 : BMDImporter} {r r5 : BinaryReader} {n : Nat}
    (hscan : scanAfterHeader r.buf r.pos n = true)
    (h : lex imp r n = some (imp1, r5)) : r5.buf = r.buf := by
  unfold lex at h
  have hc := @lexLoop_onBuf r.buf n { imp with mSections := [] } r rfl hscan
  have e : r.onBuf r.buf = r := rfl
  rw [e, h] at hc
  have h2 := congrArg Prod.snd (Option.some.inj hc)
  exact (congrArg BinaryReader.buf h2).trans rfl

end libcube.jsystem

/-! ## The import pipeline: name table, absent sections, sub-offsets and the header -/

namespace libcube.jsystem

/-- C27: `readNameTable` on a reader at a block that starts at `s`, in a buffer
addressable by `u32` positions, with the count `n` at `s`, any padding word at `s + 2`,
the pair `(hash i, ofs i)` of entry `i` at `s + 4 + 4 * i`, and at `s + ofs i` the bytes
`strings i`, none of them NUL, followed by a NUL byte: it returns exactly `n` strings,
string `i` being the bytes `strings i`, and leaves the reader after the last pair. The
hash values and the padding word are arbitrary and the result does not mention them. -/
theorem readNameTable_strings (r : BinaryReader) (n pad : Nat)
    (hashTable ofsTable : Nat → Nat) (strings rest : Nat → List Byte)
    (hbuf : r.buf.length < 4294967296)
    (hcount : beAt r.buf r.pos 2 = some n) (hpad : beAt r.buf (r.pos + 2) 2 = some pad)
    (hent : ∀ i, i < n →
      beAt r.buf (r.pos + 4 + 4 * i) 2 = some (hashTable i) ∧
      beAt r.buf (r.pos + 4 + 4 * i + 2) 2 = some (ofsTable i))
    (hstr : ∀ i, i < n →
      r.buf.drop (r.pos + ofsTable i) = strings i ++ (0 : Byte) :: rest i ∧
      ∀ b, b ∈ strings i → b ≠ 0) :
    ∃ names, readNameTable r = some (names, r.seek (4 + 4 * n)) ∧ names.length = n ∧
      ∀ i, i < n →
        names[i]? = some (String.mk ((strings i).map (fun b => Char.ofNat b.val))) := by
  have h1 : r.readU 2 = some (n, r.seek 2) := BinaryReader.readU_eq_some.2 ⟨hcount, rfl⟩
  have h2 : (r.seek 2).readU 2 = some (pad, (r.seek 2).seek 2) :=
    BinaryReader.readU_eq_some.2 ⟨hpad, rfl⟩
  have hnames := readNames_tables r.pos (r.pos + 4) hashTable ofsTable strings n 0
    ((r.seek 2).seek 2) (by show r.pos + 2 + 2 = r.pos + 4 + 4 * 0; omega)
    (by
      intro k _ hk
      obtain ⟨e1, e2⟩ := hent k (by omega)
      obtain ⟨s1, s2⟩ := hstr k (by omega)
      refine ⟨e1, e2, ?_⟩
      have hlen : r.pos + ofsTable k < r.buf.length := by
        have := congrArg List.length s1
        simp only [List.length_drop, List.length_append, List.length_cons] at this
        omega
      have hu : toU32 ((r.pos : Int) + (ofsTable k : Int)) = r.pos + ofsTable k := by
        unfold toU32
        omega
      simp only [BinaryReader.seek_buf]
      rw [hu, s1]
      exact readCString_append _ _ s2)
  refine ⟨(List.range' 0 n).map
      (fun k => String.mk ((strings k).map (fun b => Char.ofNat b.val))), ?_, by simp, ?_⟩
  · unfold readNameTable
    rw [BinaryReader.seek_seek, BinaryReader.seek_seek,
      show 2 + 2 + 4 * n = 4 + 4 * n by omega] at hnames
    simp only [BinaryReader.tell, h1, h2, BinaryReader.seek_seek, hnames]
  · intro i hi
    simp [List.getElem?_map, List.getElem?_range', hi]

set_option maxRecDepth 65536 in
/-- C27 on `nameTableBuf`, whose first entry points at the later string: the names are
`ac` and `b`, whatever the hash bytes and the padding bytes are. -/
theorem readNameTable_strings_witness :
    (readNameTable { buf := nameTableBuf 0 0 0 }).map (fun x => (x.1, x.2.pos)) =
      some (["ac", "b"], 12) ∧
    (readNameTable { buf := nameTableBuf 0x12 0x34 0xFF }).map (fun x => (x.1, x.2.pos)) =
      some (["ac", "b"], 12) ∧
    ∃ names, readNameTable { buf := nameTableBuf 0x12 0x34 0xFF } =
        some (names, BinaryReader.seek { buf := nameTableBuf 0x12 0x34 0xFF } (4 + 4 * 2)) ∧
      names.length = 2 ∧
      ∀ i, i < 2 →
        names[i]? = some (String.mk ((nameBytes i).map (fun b => Char.ofNat b.val))) :=
  ⟨by decide, by decide,
    readNameTable_strings { buf := nameTableBuf 0x12 0x34 0xFF } 2 0xFFFF
      (fun i => if i = 0 then 0x1212 else 0x3434) nameOffsets nameBytes nameRest
      (by decide) (by decide) (by decide)
      (by
        intro i hi
        have hi2 : i < 2 := hi
        interval_cases i <;> decide)
      (by
        intro i hi
        have hi2 : i < 2 := hi
        interval_cases i <;> decide)⟩

end libcube.jsystem

namespace libcube.jsystem

set_option maxRecDepth 65536 in
/-- C28, as stated, fails on `infOnlyBmd`, a file whose only section is an `INF1`
section with the scene graph `Joint 0`, `Open`, `Joint 1`, `Close`, `Terminate`: the
joint, material and draw-matrix sections are absent from the lexed table and their
readers skip, but `readBMD` does not succeed and `tryRead` returns nothing, since the
scene graph indexes the empty remap table. On `infJntBmd`, the same file with a joint
section, `tryRead` returns true. -/
theorem tryRead_without_joints_no_result :
    (lex {} { buf := infOnlyBmd, pos := 32 } 1).map
      (fun x => (findSection x.1 (fourCC 'J' 'N' 'T' '1'),
        findSection x.1 (fourCC 'M' 'A' 'T' '3'), findSection x.1 (fourCC 'D' 'R' 'W' '1'),
        findSection x.1 (fourCC 'I' 'N' 'F' '1'))) =
      some (none, none, none, some ⟨40, 44⟩) ∧
    (∀ mat0, tryRead {} { buf := infOnlyBmd } {} mat0 = none) ∧
    (tryRead {} { buf := infJntBmd } {} 0).map (fun x => x.ok) = some true := by
  refine ⟨by decide, fun mat0 => ?_, by decide⟩
  rfl

/-- C28 (amended): a reader whose section is absent from the table returns the reader
and the context it was given, with no advisory: `readJoints` without `JNT1`,
`readMaterials` without `MAT3`, `readInformation` without `INF1`, and
`readDrawMatrices` without `EVP1` and `DRW1`; without `DRW1` alone, `readDrawMatrices`
returns the context it was given whenever it returns. None of them writes the `error`
flag. On a file with a good header, whatever sections are present or absent, `tryRead`
is the four readers run in order on the lexed table, so that it returns exactly when
they all return, which the reader of an absent section always does; and whenever it
returns, it returns the negation of the `error` flag the importer had, true when the
flag was clear. With none of the five sections the model is unchanged. -/
theorem readers_skip_absent_sections (imp : BMDImporter) (r : BinaryReader)
    (ctx : BMDOutputContext) (mat0 : Nat) :
    (findSection imp (fourCC 'J' 'N' 'T' '1') = none →
      readJoints imp r ctx = some (r, ctx, [])) ∧
    (findSection imp (fourCC 'M' 'A' 'T' '3') = none →
      readMaterials imp r ctx = some (r, ctx, [])) ∧
    (findSection imp (fourCC 'I' 'N' 'F' '1') = none →
      readInformation imp r ctx mat0 = some (r, ctx)) ∧
    (findSection imp (fourCC 'E' 'V' 'P' '1') = none →
      findSection imp (fourCC 'D' 'R' 'W' '1') = none →
      readDrawMatrices imp r ctx = some (r, ctx)) ∧
    (findSection imp (fourCC 'D' 'R' 'W' '1') = none →
      ∀ r' ctx', readDrawMatrices imp r ctx = some (r', ctx') → ctx' = ctx) ∧
    (∀ (imp0 : BMDImporter) (r1 r2 r3 r4 r5 : BinaryReader) (v fs n : Nat) (mModel : J3DModel),
      r.readU 4 = some (fourCC 'J' '3' 'D' '2', r1) → r1.readU 4 = some (v, r2) →
      (v = fourCC 'b' 'm' 'd' '3' ∨ v = fourCC 'b' 'd' 'l' '4') →
      r2.readU 4 = some (fs, r3) → r3.readU 4 = some (n, r4) →
      lex imp0 (r4.seek 16) n = some (imp, r5) →
      tryRead imp0 r mModel mat0 =
        (readDrawMatrices imp r5 { mdl := mModel }).bind (fun x1 =>
          (readJoints imp x1.1 x1.2).bind (fun x2 =>
            (readMaterials imp x2.1 x2.2.1).bind (fun x3 =>
              (readInformation imp x3.1 x3.2.1 mat0).map (fun x4 =>
                { ok := !imp0.error, imp := imp, reader := x4.1, mModel := x4.2.mdl,
                  debug := x2.2.2 ++ x3.2.2 })))) ∧
      (∀ res, tryRead imp0 r mModel mat0 = some res →
        res.ok = !imp0.error ∧ res.imp = imp) ∧
      (NoDecodedSection imp →
        tryRead imp0 r mModel mat0 =
          some { ok := !imp0.error, imp := imp, reader := r5, mModel := mModel,
                 debug := [] })) := by
  refine ⟨readJoints_absent r ctx, readMaterials_absent r ctx, readInformation_absent r ctx mat0,
    readDrawMatrices_absent r ctx, ?_, ?_⟩
  · intro hdrw r' ctx' h
    unfold readDrawMatrices at h
    split at h
    · exact absurd h (by simp)
    next envelopes r0 hevp =>
      rw [enterSection_of_not_find hdrw] at h
      simp only [Option.some.injEq, Prod.mk.injEq] at h
      exact h.2.symm
  · intro imp0 r1 r2 r3 r4 r5 v fs n mModel hmagic hver hv hsz hcnt hlex
    have hchain := tryRead_chain mModel mat0 hmagic hver hv hsz hcnt hlex
    refine ⟨hchain, ?_, fun habs => tryRead_skip mModel mat0 hmagic hver hv hsz hcnt hlex habs⟩
    intro res hres
    rw [hchain] at hres
    cases h6 : readDrawMatrices imp r5 { mdl := mModel } with
    | none => rw [h6] at hres; exact absurd hres (by simp)
    | some x1 =>
    rw [h6] at hres
    simp only [Option.some_bind] at hres
    cases h7 : readJoints imp x1.1 x1.2 with
    | none => rw [h7] at hres; exact absurd hres (by simp)
    | some x2 =>
    rw [h7] at hres
    simp only [Option.some_bind] at hres
    cases h8 : readMaterials imp x2.1 x2.2.1 with
    | none => rw [h8] at hres; exact absurd hres (by simp)
    | some x3 =>
    rw [h8] at hres
    simp only [Option.some_bind] at hres
    cases h9 : readInformation imp x3.1 x3.2.1 mat0 with
    | none => rw [h9] at hres; exact absurd hres (by simp)
    | some x4 =>
    rw [h9] at hres
    simp only [Option.map_some', Option.some.injEq] at hres
    subst hres
    exact ⟨rfl, rfl⟩

set_option maxRecDepth 65536 in
/-- C28 (amended) on `infJntBmd`, a file with a joint section and a scene graph and
without `MAT3`, `EVP1` and `DRW1`: the readers of the absent sections return what they
were given, and `tryRead` returns true with the lexed table. -/
theorem readers_skip_absent_sections_witness :
    readMaterials infJntImp { buf := infJntBmd } exampleCtx =
      some ({ buf := infJntBmd }, exampleCtx, []) ∧
    readDrawMatrices infJntImp { buf := infJntBmd } exampleCtx =
      some ({ buf := infJntBmd }, exampleCtx) ∧
    ∃ res, tryRead {} { buf := infJntBmd } {} 0 = some res ∧
      res.ok = true ∧ res.imp = infJntImp :=
  have h := readers_skip_absent_sections infJntImp { buf := infJntBmd } exampleCtx 0
  have hs : (tryRead {} { buf := infJntBmd } {} 0).isSome = true := by decide
  have hres := Option.isSome_iff_exists.1 hs
  ⟨h.2.1 (by decide), h.2.2.2.1 (by decide) (by decide),
    hres.elim (fun res hr => ⟨res, hr,
      (h.2.2.2.2.2 {} { buf := infJntBmd, pos := 4 } { buf := infJntBmd, pos := 8 }
        { buf := infJntBmd, pos := 12 } { buf := infJntBmd, pos := 16 }
        { buf := infJntBmd, pos := 324 }
        (fourCC 'b' 'm' 'd' '3') 324 2 {} (by decide) (by decide) (Or.inl rfl) (by decide)
        (by decide) (by decide)).2.1 res hr⟩)⟩

set_option maxRecDepth 65536 in
/-- C29, as stated, fails on `jntRemapped`, a joint section whose header is at 0, so
that `lex` records the offset 8 for it: the remap-table offset in the header is 24, and
the decoded remap table `[0, 2, 1]` is the three words at `0 + 24`, the header position
plus the offset; the words at `(0 + 8) + 24` are 3, 65535 and 0. -/
theorem sub_offsets_not_from_content_start :
    (lex {} { buf := jntRemapped } 1).map (fun x => x.1) = some jntImp ∧
    findSection jntImp (fourCC 'J' 'N' 'T' '1') = some ⟨0 + 8, 248⟩ ∧
    beAt jntRemapped (0 + 16) 4 = some 24 ∧
    (readJoints jntImp { buf := jntRemapped } {}).map (fun x => x.2.1.jointIdLut) =
      some [0, 2, 1] ∧
    (List.range 3).map (fun i => beAt jntRemapped (0 + 24 + 2 * i) 2) =
      [some 0, some 2, some 1] ∧
    (List.range 3).map (fun i => beAt jntRemapped ((0 + 8) + 24 + 2 * i) 2) =
      [some 3, some 65535, some 0] := by
  decide

/-- C29 (amended): in the joint and the material section the three sub-offsets are
resolved relative to the position of the section header, which is the recorded offset
minus 8: in a successful `readJoints` or `readMaterials`, with `hdr` the `u32` value
of `streamPos - 8`, entry `i` of the remap table is the word at
`hdr + remap offset + 2 * i`, the name table is the one read at `hdr + name offset`, and
joint `i` is decoded from the record whose flag word is at
`hdr + data offset + remap[i] * 0x40`. -/
theorem sub_offsets_from_section_header (imp : BMDImporter) (r : BinaryReader)
    (ctx : BMDOutputContext) :
    (∀ (sec : SectionEntry) (r' : BinaryReader) (ctx' : BMDOutputContext) (dbg : List String),
      findSection imp (fourCC 'J' 'N' 'T' '1') = some sec →
      readJoints imp r ctx = some (r', ctx', dbg) →
      ∃ (hdr size : Nat) (oData oRemap oString : Int) (nameTable : List String)
        (rB : BinaryReader),
        hdr = toU32 ((sec.streamPos : Int) - 8) ∧
        beAt r.buf (hdr + 8) 2 = some size ∧
        (beAt r.buf (hdr + 12) 4).map (toSigned 32) = some oData ∧
        (beAt r.buf (hdr + 16) 4).map (toSigned 32) = some oRemap ∧
        (beAt r.buf (hdr + 20) 4).map (toSigned 32) = some oString ∧
        (∀ i, i < size →
          ctx'.jointIdLut[i]? = beAt r.buf (toU32 ((hdr : Int) + oRemap) + 2 * i) 2) ∧
        readNameTable (r.seekSet (toU32 (oString + (hdr : Int)))) = some (nameTable, rB) ∧
        ∀ i, i < size → ∃ (slot w : Nat) (j : Joint),
          ctx'.jointIdLut[i]? = some slot ∧
          beAt r.buf (toU32 ((hdr : Int) + oData + (slot : Int) * 0x40)) 2 = some w ∧
          ctx'.mdl.mJoints[i]? = some j ∧ j.flag = w % 16 ∧ nameTable[i]? = some j.id) ∧
    (∀ (sec : SectionEntry) (r' : BinaryReader) (ctx' : BMDOutputContext) (dbg : List String),
      findSection imp (fourCC 'M' 'A' 'T' '3') = some sec →
      readMaterials imp r ctx = some (r', ctx', dbg) →
      ∃ (hdr size : Nat) (oRemap oString : Int) (nameTable : List String) (rB : BinaryReader),
        hdr = toU32 ((sec.streamPos : Int) - 8) ∧
        beAt r.buf (hdr + 8) 2 = some size ∧
        (beAt r.buf (hdr + 16) 4).map (toSigned 32) = some oRemap ∧
        (beAt r.buf (hdr + 20) 4).map (toSigned 32) = some oString ∧
        (∀ i, i < size →
          ctx'.materialIdLut[i]? = beAt r.buf (toU32 ((hdr : Int) + oRemap) + 2 * i) 2) ∧
        readNameTable (r.seekSet (toU32 (oString + (hdr : Int)))) = some (nameTable, rB) ∧
        ∀ i, i < size → ∃ (m : Material),
          ctx'.mdl.mMaterials[i]? = some m ∧ nameTable[i]? = some m.id) := by
  constructor
  · intro sec r' ctx' dbg hsec h
    obtain ⟨size, oData, oRemap, oString, lut, sorted, nameTable, rA, rB, h1, h2, h3, h4, hremap,
      hnames, hrB, hrecs, hlut, -, -, -, -, -⟩ := readJoints_JNT1 hsec h
    obtain ⟨-, -, hget, -⟩ := readRemapTable_spec size hremap
    obtain ⟨-, -, hjget⟩ := readJointRecords_spec _ oData lut nameTable _ hrecs
    rw [length_resize] at hjget
    refine ⟨_, size, oData, oRemap, oString, nameTable, rB, rfl, h1, h2, h3, h4, ?_, hnames, ?_⟩
    · intro i hi
      rw [hlut, hget i hi]
      rfl
    · intro i hi
      obtain ⟨slot, name, old, j, rj, e1, e2, -, e4, e5⟩ := hjget i hi
      rw [Nat.zero_add] at e1 e2
      rw [hrB] at e4
      obtain ⟨w, maya, scale, rot, translate, radius, box, hw, -, -, -, -, -, -, -, -, -, -, -,
        hj⟩ := readJointRecord_eq_some e4
      simp only [BinaryReader.seekSet_buf, BinaryReader.seekSet_pos] at hw
      refine ⟨slot, w, j, by rw [hlut]; exact e1, hw, e5, ?_, ?_⟩
      · rw [hj]; exact (flag_word_split w).1
      · rw [e2, hj]
  · intro sec r' ctx' dbg hsec h
    obtain ⟨size, oData, oRemap, oString, lut, sorted, nameTable, rA, rB, h1, -, h3, h4, hremap,
      hnames, hrecs, hlut, -, -, -, -, -⟩ := readMaterials_MAT3 hsec h
    obtain ⟨-, -, hget, -⟩ := readRemapTable_spec size hremap
    obtain ⟨-, -, hmget⟩ := readMaterialRecords_spec _ oData lut nameTable _ hrecs
    rw [length_resize] at hmget
    refine ⟨_, size, oRemap, oString, nameTable, rB, rfl, h1, h3, h4, ?_, hnames, ?_⟩
    · intro i hi
      rw [hlut, hget i hi]
      rfl
    · intro i hi
      obtain ⟨slot, name, old, -, e2, -, e4⟩ := hmget i hi
      rw [Nat.zero_add] at e2
      exact ⟨_, e4, e2⟩

set_option maxRecDepth 65536 in
/-- C29 (amended) on `jntRemapped` and on `matBuf`, whose section headers are at 0: the
remap tables are the words at the remap offsets 24 and 132 from there. -/
theorem sub_offsets_from_section_header_witness :
    (∃ (size : Nat) (oRemap : Int),
      beAt jntRemapped (toU32 (((8 : Nat) : Int) - 8) + 8) 2 = some size ∧
      (beAt jntRemapped (toU32 (((8 : Nat) : Int) - 8) + 16) 4).map (toSigned 32) =
        some oRemap ∧
      ∀ i, i < size → jntRemappedCtx.jointIdLut[i]? =
        beAt jntRemapped
          (toU32 (((toU32 (((8 : Nat) : Int) - 8) : Nat) : Int) + oRemap) + 2 * i) 2) ∧
    (∃ (size : Nat) (oRemap : Int),
      beAt matBuf (toU32 (((8 : Nat) : Int) - 8) + 8) 2 = some size ∧
      (beAt matBuf (toU32 (((8 : Nat) : Int) - 8) + 16) 4).map (toSigned 32) = some oRemap ∧
      ∀ i, i < size → ([1, 1] : List Nat)[i]? =
        beAt matBuf
          (toU32 (((toU32 (((8 : Nat) : Int) - 8) : Nat) : Int) + oRemap) + 2 * i) 2) := by
  have hj : readJoints jntImp { buf := jntRemapped } {} =
      some ({ buf := jntRemapped, pos := 184 }, jntRemappedCtx, [jointRemapNotice]) := by
    decide
  have hm : readMaterials matImp { buf := matBuf } {} =
      some ({ buf := matBuf, pos := 484 },
        { mdl := { mMaterials := [{ id := "a" }, { id := "b" }] }, materialIdLut := [1, 1] },
        [materialRemapNotice]) := by decide
  have h := sub_offsets_from_section_header jntImp { buf := jntRemapped } {}
  have h' := sub_offsets_from_section_header matImp { buf := matBuf } {}
  obtain ⟨hdr, size, oData, oRemap, oString, nameTable, rB, rfl, a1, -, a3, -, a5, -, -⟩ :=
    h.1 ⟨8, 248⟩ _ _ _ (by decide) hj
  obtain ⟨hdr2, size2, oRemap2, oString2, nameTable2, rB2, rfl, b1, b3, -, b5, -, -⟩ :=
    h'.2 ⟨8, 152⟩ _ _ _ (by decide) hm
  exact ⟨⟨size, oRemap, a1, a3, a5⟩, ⟨size2, oRemap2, b1, b3, b5⟩⟩

end libcube.jsystem

namespace libcube.jsystem

set_option maxRecDepth 65536 in
/-- C30, as stated, fails on `sizeWordBmd 0` and `sizeWordBmd 1`, two files that differ
in the last byte of the file-size word only. The remap-table offset of their joint
section points back into the header, so the remap table is read from the file-size
word: `tryRead` returns true on both, but the first gives the joint decoded from record
0 and no advisory, the second the joint decoded from record 1 and the advisory. -/
theorem readBMD_size_word_changes_model :
    (sizeWordBmd 0).take 11 = (sizeWordBmd 1).take 11 ∧
    (sizeWordBmd 0).drop 12 = (sizeWordBmd 1).drop 12 ∧
    (tryRead {} { buf := sizeWordBmd 0 } {} 0).map
      (fun x => (x.ok, x.mModel.mJoints, x.debug, x.reader.diagnostics)) =
      some (true, [decodedJoint "a" 2 1], [], []) ∧
    (tryRead {} { buf := sizeWordBmd 1 } {} 0).map
      (fun x => (x.ok, x.mModel.mJoints, x.debug, x.reader.diagnostics)) =
      some (true, [decodedJoint "a" 3 2], [jointRemapNotice], []) := by
  refine ⟨by decide, by decide, by decide, by decide⟩

/-- C30 (amended): take two inputs of the same length that agree everywhere except in
the file-size word (bytes 8 to 11) and the 16 reserved bytes (bytes 16 to 31). As long
as the section scan, which starts at 32, stays at or after 32, it gives the same table,
the same final position and the same diagnostics on both. And whenever `tryRead`
returns on the first, the scan of its sections stays at or after 32, and every section
of its table starts after the 32-byte header, below `2^30`, with sub-offsets that point
forward by less than `2^30`, it returns the same on the second: the same `bool`, the
same table and flag, the same diagnostics and reader position, the same model and the
same advisories. -/
theorem readBMD_size_word_unchecked (imp : BMDImporter) (b1 b2 : List Byte)
    (diags : List Diagnostic) (mModel : J3DModel) (mat0 : Nat)
    (hlen : b1.length = b2.length)
    (hhead : b1.take 8 = b2.take 8)
    (hcount : (b1.drop 12).take 4 = (b2.drop 12).take 4)
    (hrest : b1.drop 32 = b2.drop 32) :
    (∀ n, scanAfterHeader b1 32 n = true →
      lex imp { buf := b2, pos := 32, diagnostics := diags } n =
        (lex imp { buf := b1, pos := 32, diagnostics := diags } n).map
          (fun x => (x.1, { x.2 with buf := b2 }))) ∧
    (∀ res, tryRead imp { buf := b1, pos := 0, diagnostics := diags } mModel mat0 = some res →
      (∀ n ∈ beAt b1 12 4, scanAfterHeader b1 32 n = true) →
      SectionsAfterHeader b1 res.imp →
      tryRead imp { buf := b2, pos := 0, diagnostics := diags } mModel mat0 =
        some { res with reader := { res.reader with buf := b2 } }) := by
  have hA : ∀ n, scanAfterHeader b1 32 n = true →
      lex imp { buf := b2, pos := 32, diagnostics := diags } n =
        (lex imp { buf := b1, pos := 32, diagnostics := diags } n).map
          (fun x => (x.1, { x.2 with buf := b2 })) := by
    intro n hsc
    unfold lex
    exact lexLoop_onBuf n _ (r := { buf := b1, pos := 32, diagnostics := diags }) hrest hsc
  refine ⟨hA, ?_⟩
  intro res h hscan hF
  have e0 : beAt b2 0 4 = beAt b1 0 4 :=
    (beAt_congr 4 (fun q _ h2 => getElem?_of_take_eq hhead (by omega))).symm
  have e4 : beAt b2 4 4 = beAt b1 4 4 :=
    (beAt_congr 4 (fun q _ h2 => getElem?_of_take_eq hhead (by omega))).symm
  have e12 : beAt b2 12 4 = beAt b1 12 4 := by
    refine (beAt_congr 4 (fun q h1 h2 => ?_)).symm
    have := getElem?_of_take_eq (q := q - 12) hcount (by omega)
    simp only [List.getElem?_drop] at this
    rwa [Nat.add_sub_cancel' h1] at this
  obtain ⟨v, hmagic, hver, hcase⟩ := tryRead_inv h
  obtain ⟨hm, -⟩ := BinaryReader.readU_eq_some.1 hmagic
  obtain ⟨hv, -⟩ := BinaryReader.readU_eq_some.1 hver
  have hmagic2 : (BinaryReader.mk b2 0 diags).readU 4 =
      some (fourCC 'J' '3' 'D' '2', (BinaryReader.mk b2 0 diags).seek 4) :=
    BinaryReader.readU_eq_some.2 ⟨e0.trans hm, rfl⟩
  have hver2 : ((BinaryReader.mk b2 0 diags).seek 4).readU 4 =
      some (v, ((BinaryReader.mk b2 0 diags).seek 4).seek 4) :=
    BinaryReader.readU_eq_some.2 ⟨e4.trans hv, rfl⟩
  rcases hcase with ⟨hb1, hb2, hres⟩ | ⟨hgood, fs, n, r5, hsz, hcnt, hlex⟩
  · rw [tryRead_bad_version mModel mat0 hmagic2 hver2 hb1 hb2, hres]
    rfl
  · obtain ⟨hfs, -⟩ := BinaryReader.readU_eq_some.1 hsz
    obtain ⟨hn, -⟩ := BinaryReader.readU_eq_some.1 hcnt
    have hsc : scanAfterHeader b1 32 n = true := hscan n hn
    have hlex1 : lex imp { buf := b1, pos := 32, diagnostics := diags } n =
        some (res.imp, r5) := hlex
    have e5 : r5.buf = b1 :=
      lex_buf (r := { buf := b1, pos := 32, diagnostics := diags }) hsc hlex1
    have hb5 : r5.buf.drop 32 = b2.drop 32 := by rw [e5]; exact hrest
    have hF5 : SectionsAfterHeader r5.buf res.imp := by rw [e5]; exact hF
    have h1 := tryRead_chain mModel mat0 hmagic hver hgood hsz hcnt hlex
    have hle : 8 + 4 ≤ b2.length := by
      have := beAt_some_le 3 hfs
      simp only [BinaryReader.seek_buf, BinaryReader.seek_pos] at this
      omega
    obtain ⟨fs2, hfs2⟩ := beAt_isSome b2 8 4 hle
    have hsz2 : (((BinaryReader.mk b2 0 diags).seek 4).seek 4).readU 4 =
        some (fs2, (((BinaryReader.mk b2 0 diags).seek 4).seek 4).seek 4) :=
      BinaryReader.readU_eq_some.2 ⟨hfs2, rfl⟩
    have hcnt2 : ((((BinaryReader.mk b2 0 diags).seek 4).seek 4).seek 4).readU 4 =
        some (n, ((((BinaryReader.mk b2 0 diags).seek 4).seek 4).seek 4).seek 4) :=
      BinaryReader.readU_eq_some.2 ⟨e12.trans hn, rfl⟩
    have hlex2 : lex imp
        ((((((BinaryReader.mk b2 0 diags).seek 4).seek 4).seek 4).seek 4).seek 16) n =
        some (res.imp, r5.onBuf b2) := by
      have hl := hA n hsc
      rw [hlex1] at hl
      exact hl
    have h2 := tryRead_chain mModel mat0 hmagic2 hver2 hgood hsz2 hcnt2 hlex2
    rw [h2, readers_onBuf _ mat0 _ hb5 hF5, ← h1, h]
    rfl

set_option maxRecDepth 65536 in
/-- C30 (amended) on `infJntBmd` and `infJntBmdOther`, two files with a joint section
and a scene graph that differ in the file-size word and in the reserved bytes: `tryRead`
returns true on the first, and the same on the second. -/
theorem readBMD_size_word_unchecked_witness :
    (tryRead {} { buf := infJntBmd } {} 0).map
      (fun x => (x.ok, x.mModel.mJoints.map (fun j => (j.id, j.parent, j.children)))) =
      some (true, [("a", none, ["b"]), ("b", some "a", [])]) ∧
    ∃ res, tryRead {} { buf := infJntBmd } {} 0 = some res ∧
      tryRead {} { buf := infJntBmdOther } {} 0 =
        some { res with reader := { res.reader with buf := infJntBmdOther } } :=
  have hs : (tryRead {} { buf := infJntBmd } {} 0).isSome = true := by decide
  have himp : (tryRead {} { buf := infJntBmd } {} 0).map (fun x => x.imp) =
      some infJntImp := by decide
  ⟨by decide,
    (Option.isSome_iff_exists.1 hs).elim (fun res hr => ⟨res, hr,
      (readBMD_size_word_unchecked {} infJntBmd infJntBmdOther [] {} 0 (by decide) (by decide)
        (by decide) (by decide)).2 res hr
        (fun n hn => by
          have e : beAt infJntBmd 12 4 = some 2 := by decide
          rw [e] at hn
          cases hn
          decide)
        (by
          rw [hr] at himp
          have e : res.imp = infJntImp := Option.some.inj himp
          rw [e]
          decide)⟩)⟩

end libcube.jsystem

/-! ## Scene-graph interpreter: iterations of the loop -/

namespace libcube.jsystem
namespace SceneGraph

theorem steps_cons (s : State) (c : ByteCodeCmd) (cs : List ByteCodeCmd) :
    steps s (c :: cs) = (step s c).bind (fun s1 => steps s1 cs) := by
  simp only [steps]
  cases step s c <;> rfl

/-- A property that every loop iteration preserves holds after any number of them. -/
theorem steps_invariant (P : State → Prop)
    (hstep : ∀ (s s' : State) (cmd : ByteCodeCmd), step s cmd = some s' → P s → P s')
    (cmds : List ByteCodeCmd) :
    ∀ s s', steps s cmds = some s' → P s → P s' := by
  induction cmds with
  | nil =>
    intro s s' h hP
    simp only [steps, Option.some.injEq] at h
    exact h ▸ hP
  | cons c cs ih =>
    intro s s' h hP
    simp only [steps] at h
    split at h
    · exact absurd h (by simp)
    next s1 h1 => exact ih s1 s' h (hstep s s1 c h1 hP)

/-- The loop, on commands none of which is `Terminate` followed by a `Terminate`, ends
in the state the iterations on these commands give. -/
theorem run_eq_steps (pre : List ByteCodeCmd) (i : Int) (post : List ByteCodeCmd) :
    ∀ s, (∀ c ∈ pre, c.op ≠ ByteCodeOp.Terminate) →
      run s (pre ++ ⟨ByteCodeOp.Terminate, i⟩ :: post) = steps s pre := by
  induction pre with
  | nil =>
    intro s _
    simp [run, steps]
  | cons c cs ih =>
    intro s hT
    have hc : c.op ≠ ByteCodeOp.Terminate := hT c (by simp)
    simp only [List.cons_append, run, if_neg hc, steps]
    cases h : step s c with
    | none => rfl
    | some s1 => exact ih s1 (fun d hd => hT d (by simp [hd]))

/-- In a state that satisfies the stack invariant, `Close` fails exactly when
`hierarchy_stack` is empty. -/
theorem step_Close_none_iff {s : State} (hI : StackInv s) (i : Int) :
    step s ⟨ByteCodeOp.Close, i⟩ = none ↔ s.hierarchy_stack = [] := by
  rw [step_Close_eq]
  constructor
  · intro h
    by_contra hne
    obtain ⟨hs, t, hst⟩ : ∃ hs t, s.hierarchy_stack = hs ++ [t] :=
      ⟨s.hierarchy_stack.dropLast, s.hierarchy_stack.getLast hne,
        (List.dropLast_append_getLast hne).symm⟩
    by_cases htj : t = ByteCodeOp.Joint
    · unfold StackInv at hI
      rw [hst, htj, List.count_append] at hI
      have hpos : 0 < s.joint_stack.length := by
        simp at hI
        omega
      have hjne : s.joint_stack ≠ [] := List.length_pos.1 hpos
      have hx : ∃ js x, s.joint_stack = js ++ [x] :=
        ⟨s.joint_stack.dropLast, s.joint_stack.getLast hjne,
          (List.dropLast_append_getLast hjne).symm⟩
      obtain ⟨js, x, hjs⟩ := hx
      have := execClose_eq_some.2 ⟨hs, t, hst, Or.inl ⟨htj, js, x, hjs, rfl⟩⟩
      rw [h] at this
      exact absurd this (by simp)
    · have := execClose_eq_some.2 ⟨hs, t, hst, Or.inr ⟨htj, rfl⟩⟩
      rw [h] at this
      exact absurd this (by simp)
  · intro h
    simp [execClose, h]

end SceneGraph
end libcube.jsystem

namespace libcube.jsystem
namespace SceneGraph

/-- When some `Shape` reads the starting value of `mat`, there is a `Shape` command with
no `Material` command before it. -/
theorem shapeReadsInitialMat_true (cmds : List ByteCodeCmd) :
    shapeReadsInitialMat cmds = true →
      ∃ (k : Nat) (c : ByteCodeCmd), cmds[k]? = some c ∧ c.op = ByteCodeOp.Shape ∧
        ∀ (j : Nat) (cj : ByteCodeCmd), j < k → cmds[j]? = some cj →
          cj.op ≠ ByteCodeOp.Material := by
  induction cmds with
  | nil => intro h; simp [shapeReadsInitialMat] at h
  | cons c cs ih =>
    intro h
    simp only [shapeReadsInitialMat] at h
    by_cases hT : c.op = ByteCodeOp.Terminate
    · simp [hT] at h
    by_cases hM : c.op = ByteCodeOp.Material
    · simp [hT, hM] at h
    by_cases hS : c.op = ByteCodeOp.Shape
    · exact ⟨0, c, by simp, hS, fun j cj hj => absurd hj (Nat.not_lt_zero j)⟩
    · rw [if_neg hT, if_neg hM, if_neg hS] at h
      obtain ⟨k, d, hk, hd, hno⟩ := ih h
      refine ⟨k + 1, d, by simpa using hk, hd, ?_⟩
      intro j cj hj hcj
      cases j with
      | zero =>
        simp only [List.getElem?_cons_zero, Option.some.injEq] at hcj
        rw [← hcj]
        exact hM
      | succ j =>
        exact hno j cj (by omega) (by simpa using hcj)

/-- Iterations on commands none of which is `Joint` leave `joint` and the remap table as
they were. -/
theorem steps_no_Joint (pre : List ByteCodeCmd) :
    ∀ s s', (∀ c ∈ pre, c.op ≠ ByteCodeOp.Joint) → steps s pre = some s' →
      s'.joint = s.joint ∧ s'.ctx.jointIdLut = s.ctx.jointIdLut := by
  induction pre with
  | nil =>
    intro s s' _ h
    simp only [steps, Option.some.injEq] at h
    rw [← h]
    exact ⟨rfl, rfl⟩
  | cons c cs ih =>
    intro s s' hJ h
    simp only [steps] at h
    split at h
    · exact absurd h (by simp)
    next s1 h1 =>
      obtain ⟨e1, e2⟩ := ih s1 s' (fun d hd => hJ d (by simp [hd])) h
      have hr := (step_regs h1).1
      rw [if_neg (hJ c (by simp))] at hr
      exact ⟨e1.trans hr, e2.trans (step_frame h1).1⟩

end SceneGraph
end libcube.jsystem

/-! ## The import pipeline and the interpreter: further properties -/

namespace libcube.jsystem

/-- C31: for an input whose first sixteen bytes are the magic `J3D2`, the version
`bmd3`, any file-size word and the section count 0, read by an importer whose `error`
flag is clear, `tryRead` returns true: the reader ends after the 16 reserved bytes with
no diagnostic added, the section table is empty, no advisory is printed, and the model
is the one it was given; so a model that starts empty has no joints, no materials and no
draw matrices. -/
theorem tryRead_no_sections (imp : BMDImporter) (buf : List Byte) (diags : List Diagnostic)
    (mModel : J3DModel) (mat0 fs : Nat)
    (herr : imp.error = false)
    (hmagic : beAt buf 0 4 = some (fourCC 'J' '3' 'D' '2'))
    (hver : beAt buf 4 4 = some (fourCC 'b' 'm' 'd' '3'))
    (hsize : beAt buf 8 4 = some fs) (hcount : beAt buf 12 4 = some 0) :
    tryRead imp { buf := buf, pos := 0, diagnostics := diags } mModel mat0 =
      some { ok := true, imp := { imp with mSections := [] },
             reader := { buf := buf, pos := 32, diagnostics := diags },
             mModel := mModel, debug := [] } ∧
    (mModel = {} → ∃ res,
      tryRead imp { buf := buf, pos := 0, diagnostics := diags } mModel mat0 = some res ∧
      res.ok = true ∧ res.mModel.mJoints = [] ∧ res.mModel.mMaterials = [] ∧
      res.mModel.mDrawMatrices = [] ∧ res.debug = [] ∧ res.reader.diagnostics = diags) := by
  have h1 : (BinaryReader.mk buf 0 diags).readU 4 =
      some (fourCC 'J' '3' 'D' '2', (BinaryReader.mk buf 0 diags).seek 4) :=
    BinaryReader.readU_eq_some.2 ⟨hmagic, rfl⟩
  have h2 : ((BinaryReader.mk buf 0 diags).seek 4).readU 4 =
      some (fourCC 'b' 'm' 'd' '3', ((BinaryReader.mk buf 0 diags).seek 4).seek 4) :=
    BinaryReader.readU_eq_some.2 ⟨hver, rfl⟩
  have h3 : (((BinaryReader.mk buf 0 diags).seek 4).seek 4).readU 4 =
      some (fs, (((BinaryReader.mk buf 0 diags).seek 4).seek 4).seek 4) :=
    BinaryReader.readU_eq_some.2 ⟨hsize, rfl⟩
  have h4 : ((((BinaryReader.mk buf 0 diags).seek 4).seek 4).seek 4).readU 4 =
      some (0, ((((BinaryReader.mk buf 0 diags).seek 4).seek 4).seek 4).seek 4) :=
    BinaryReader.readU_eq_some.2 ⟨hcount, rfl⟩
  have hlex : lex imp ((((((BinaryReader.mk buf 0 diags).seek 4).seek 4).seek 4).seek 4).seek 16)
      0 = some ({ imp with mSections := [] }, { buf := buf, pos := 32, diagnostics := diags }) :=
    rfl
  have habs : NoDecodedSection { imp with mSections := [] } :=
    ⟨rfl, rfl, rfl, rfl, rfl⟩
  have h := tryRead_skip mModel mat0 h1 h2 (Or.inl rfl) h3 h4 hlex habs
  have hok : (!imp.error) = true := by simp [herr]
  rw [hok] at h
  refine ⟨h, ?_⟩
  intro hm
  refine ⟨_, h, rfl, ?_, ?_, ?_, rfl, rfl⟩
  · rw [hm]
  · rw [hm]
  · rw [hm]

/-- C31 on `emptyBmd` and on `emptyBmdOther`, which has another file-size word and other
reserved bytes. -/
theorem tryRead_no_sections_witness :
    tryRead {} { buf := emptyBmd } {} 0 =
      some { ok := true, imp := {}, reader := { buf := emptyBmd, pos := 32 }, mModel := {},
             debug := [] } ∧
    tryRead {} { buf := emptyBmdOther } {} 7 =
      some { ok := true, imp := {}, reader := { buf := emptyBmdOther, pos := 32 },
             mModel := {}, debug := [] } :=
  ⟨(tryRead_no_sections {} emptyBmd [] {} 0 32 rfl (by decide) (by decide) (by decide)
      (by decide)).1,
   (tryRead_no_sections {} emptyBmdOther [] {} 7 0xDEADBEEF rfl (by decide) (by decide)
      (by decide) (by decide)).1⟩

end libcube.jsystem

namespace libcube.jsystem
namespace SceneGraph

/-- C32, as stated, fails: in the state `joint = 0`, `mat = 0` over `exampleCtx`, the
commands `Shape 0` and `Shape 5` lead to the same state; the display record appended is
`(m0, "Shapes TODO")` for both, so the records do not differ in their shape component
and neither carries the index. -/
theorem step_Shape_same_record :
    step (init exampleCtx 0) ⟨ByteCodeOp.Shape, 0⟩ =
      step (init exampleCtx 0) ⟨ByteCodeOp.Shape, 5⟩ ∧
    (step (init exampleCtx 0) ⟨ByteCodeOp.Shape, 5⟩).map
        (fun s => s.ctx.mdl.mJoints.map (fun j => j.displays)) =
      some [[⟨"m0", "Shapes TODO"⟩], []] := by
  decide

/-- C32 (amended): the display record appended by `Shape(idx)` does not depend on `idx`:
two `Shape` commands executed in the same state lead to the same state, and when the
step succeeds the record appended to slot `jointIdLut[joint]` is the id of material
`mat` with the constant shape component `"Shapes TODO"`. -/
theorem step_Shape_ignores_idx (s : State) (idx1 idx2 : Int) :
    step s ⟨ByteCodeOp.Shape, idx1⟩ = step s ⟨ByteCodeOp.Shape, idx2⟩ ∧
    ∀ s', step s ⟨ByteCodeOp.Shape, idx1⟩ = some s' →
      ∃ ji m j, s.ctx.jointIdLut[s.joint]? = some ji ∧
        s.ctx.mdl.mMaterials[s.mat]? = some m ∧ s.ctx.mdl.mJoints[ji]? = some j ∧
        s'.ctx.mdl.mJoints =
          s.ctx.mdl.mJoints.set ji (addDisplay j ⟨m.id, "Shapes TODO"⟩) ∧
        s'.ctx.mdl.mJoints[ji]? =
          some { j with displays := j.displays ++ [⟨m.id, "Shapes TODO"⟩] } := by
  refine ⟨by rw [step_Shape_eq, step_Shape_eq], ?_⟩
  intro s' h
  rw [step_Shape_eq, Option.map_eq_some'] at h
  obtain ⟨s1, h1, rfl⟩ := h
  obtain ⟨ji, m, j, e1, e2, e3, rfl⟩ := execShape_eq_some.1 h1
  have hlt : ji < s.ctx.mdl.mJoints.length := (List.getElem?_eq_some_iff.1 e3).1
  refine ⟨ji, m, j, e1, e2, e3, rfl, ?_⟩
  simp [List.getElem?_set, hlt, addDisplay]

/-- C32 (amended) on `exampleCtx` with `mat = 1`: `Shape 0` and `Shape 5` both append
`(m1, "Shapes TODO")` to joint `a`. -/
theorem step_Shape_ignores_idx_witness :
    step (init exampleCtx 1) ⟨ByteCodeOp.Shape, 0⟩ =
      step (init exampleCtx 1) ⟨ByteCodeOp.Shape, 5⟩ ∧
    ∃ s', step (init exampleCtx 1) ⟨ByteCodeOp.Shape, 0⟩ = some s' ∧
      s'.ctx.mdl.mJoints[0]? = some { id := "a", displays := [⟨"m1", "Shapes TODO"⟩] } := by
  have h := step_Shape_ignores_idx (init exampleCtx 1) 0 5
  refine ⟨h.1, ?_⟩
  have hsome : (step (init exampleCtx 1) ⟨ByteCodeOp.Shape, 0⟩).isSome = true := by decide
  obtain ⟨s', hs'⟩ := Option.isSome_iff_exists.1 hsome
  refine ⟨s', hs', ?_⟩
  have hv : (step (init exampleCtx 1) ⟨ByteCodeOp.Shape, 0⟩).map
      (fun s => s.ctx.mdl.mJoints[0]?) =
      some (some { id := "a", displays := [⟨"m1", "Shapes TODO"⟩] }) := by decide
  rw [hs'] at hv
  exact Option.some.inj hv

/-- C33: in every state the loop of `SceneGraph::onRead` reaches from its initial state,
in which both stacks are empty, `joint_stack` has as many entries as `hierarchy_stack`
has entries equal to `Joint`. Hence, in such a state, when the top of
`hierarchy_stack` is `Joint` the `joint_stack` is not empty, and a `Close` fails only
when `hierarchy_stack` is empty: its `joint_stack.pop_back()` never meets an empty
`joint_stack`. -/
theorem steps_stack_invariant (ctx : BMDOutputContext) (mat0 : Nat)
    (cmds : List ByteCodeCmd) (s : State) (h : steps (init ctx mat0) cmds = some s) :
    s.joint_stack.length = s.hierarchy_stack.count ByteCodeOp.Joint ∧
    (∀ hs, s.hierarchy_stack = hs ++ [ByteCodeOp.Joint] → s.joint_stack ≠ []) ∧
    (∀ i, step s ⟨ByteCodeOp.Close, i⟩ = none ↔ s.hierarchy_stack = []) := by
  have hI : StackInv s :=
    steps_invariant StackInv (fun _ _ _ hs hP => step_StackInv hs hP) cmds _ s h
      (by simp [StackInv, init])
  refine ⟨hI, ?_, fun i => step_Close_none_iff hI i⟩
  intro hs hhs
  unfold StackInv at hI
  rw [hhs, List.count_append] at hI
  intro hnil
  rw [hnil] at hI
  simp at hI

/-- C33 on the iterations `Joint 0, Open, Joint 1, Material 0, Open`: the stacks are
`[Joint, Material]` and `[0]`. -/
theorem steps_stack_invariant_witness :
    (steps (init exampleCtx 0)
      [⟨ByteCodeOp.Joint, 0⟩, ⟨ByteCodeOp.Open, 0⟩, ⟨ByteCodeOp.Joint, 1⟩,
       ⟨ByteCodeOp.Material, 0⟩, ⟨ByteCodeOp.Open, 0⟩]).map
      (fun s => (s.hierarchy_stack, s.joint_stack)) =
      some ([ByteCodeOp.Joint, ByteCodeOp.Material], [0]) ∧
    ([0] : List Nat).length =
      ([ByteCodeOp.Joint, ByteCodeOp.Material] : List ByteCodeOp).count ByteCodeOp.Joint := by
  have hsome : (steps (init exampleCtx 0)
      [⟨ByteCodeOp.Joint, 0⟩, ⟨ByteCodeOp.Open, 0⟩, ⟨ByteCodeOp.Joint, 1⟩,
       ⟨ByteCodeOp.Material, 0⟩, ⟨ByteCodeOp.Open, 0⟩]).isSome = true := by decide
  obtain ⟨s, hs⟩ := Option.isSome_iff_exists.1 hsome
  have hv : (steps (init exampleCtx 0)
      [⟨ByteCodeOp.Joint, 0⟩, ⟨ByteCodeOp.Open, 0⟩, ⟨ByteCodeOp.Joint, 1⟩,
       ⟨ByteCodeOp.Material, 0⟩, ⟨ByteCodeOp.Open, 0⟩]).map
      (fun s => (s.hierarchy_stack, s.joint_stack)) =
      some ([ByteCodeOp.Joint, ByteCodeOp.Material], [0]) := by decide
  have h := (steps_stack_invariant exampleCtx 0 _ s hs).1
  refine ⟨hv, ?_⟩
  rw [hs] at hv
  have e := Option.some.inj hv
  simp only [Prod.mk.injEq] at e
  rw [e.1, e.2] at h
  exact h

end SceneGraph
end libcube.jsystem

/-! ## The binary reader: reads inside the buffer succeed -/

namespace libcube.jsystem
namespace BinaryReader

theorem readU_of_le (r : BinaryReader) (n : Nat) (h : r.pos + n ≤ r.buf.length) :
    ∃ v, r.readU n = some (v, r.seek n) := by
  obtain ⟨v, hv⟩ := beAt_isSome r.buf r.pos n h
  exact ⟨v, readU_eq_some.2 ⟨hv, rfl⟩⟩

theorem readUs_of_le (n count : Nat) :
    ∀ (r : BinaryReader), r.pos + n * count ≤ r.buf.length →
      ∃ vs, r.readUs n count = some (vs, r.seek (n * count)) := by
  induction count with
  | zero =>
    intro r _
    exact ⟨[], rfl⟩
  | succ c ih =>
    intro r h
    have hmul : n * (c + 1) = n + n * c := by rw [Nat.mul_succ, Nat.add_comm]
    obtain ⟨v, hv⟩ := readU_of_le r n (by omega)
    obtain ⟨vs, hvs⟩ := ih (r.seek n) (by simp only [seek_pos, seek_buf]; omega)
    refine ⟨v :: vs, ?_⟩
    simp only [readUs, hv, hvs, seek_seek, hmul]

theorem readSs_of_le (n count : Nat) (r : BinaryReader)
    (h : r.pos + n * count ≤ r.buf.length) :
    ∃ vs, r.readSs n count = some (vs, r.seek (n * count)) := by
  obtain ⟨us, hus⟩ := readUs_of_le n count r h
  exact ⟨us.map (toSigned (8 * n)), by simp only [readSs, hus]⟩

end BinaryReader

/-- Decoding a joint record returns when the `0x40` bytes at the reader position are
inside the buffer. -/
theorem readJointRecord_of_le (r : BinaryReader) (joint : Joint) (name : String)
    (h : r.pos + 0x40 ≤ r.buf.length) :
    ∃ j, readJointRecord r joint name = some (j, r.seek 0x40) := by
  obtain ⟨flag, h1⟩ := BinaryReader.readU_of_le r 2 (by omega)
  obtain ⟨maya, h2⟩ := BinaryReader.readU_of_le (r.seek 2) 1
    (by simp only [BinaryReader.seek_pos, BinaryReader.seek_buf]; omega)
  obtain ⟨pad, h3⟩ := BinaryReader.readU_of_le ((r.seek 2).seek 1) 1
    (by simp only [BinaryReader.seek_pos, BinaryReader.seek_buf]; omega)
  obtain ⟨scale, h4⟩ := BinaryReader.readUs_of_le 4 3 (((r.seek 2).seek 1).seek 1)
    (by simp only [BinaryReader.seek_pos, BinaryReader.seek_buf]; omega)
  obtain ⟨rot, h5⟩ := BinaryReader.readSs_of_le 2 3 ((((r.seek 2).seek 1).seek 1).seek (4 * 3))
    (by simp only [BinaryReader.seek_pos, BinaryReader.seek_buf]; omega)
  obtain ⟨pad2, h6⟩ := BinaryReader.readU_of_le
    (((((r.seek 2).seek 1).seek 1).seek (4 * 3)).seek (2 * 3)) 2
    (by simp only [BinaryReader.seek_pos, BinaryReader.seek_buf]; omega)
  obtain ⟨translate, h7⟩ := BinaryReader.readUs_of_le 4 3
    ((((((r.seek 2).seek 1).seek 1).seek (4 * 3)).seek (2 * 3)).seek 2)
    (by simp only [BinaryReader.seek_pos, BinaryReader.seek_buf]; omega)
  obtain ⟨radius, h8⟩ := BinaryReader.readU_of_le
    (((((((r.seek 2).seek 1).seek 1).seek (4 * 3)).seek (2 * 3)).seek 2).seek (4 * 3)) 4
    (by simp only [BinaryReader.seek_pos, BinaryReader.seek_buf]; omega)
  obtain ⟨box, h9⟩ := BinaryReader.readUs_of_le 4 6
    ((((((((r.seek 2).seek 1).seek 1).seek (4 * 3)).seek (2 * 3)).seek 2).seek (4 * 3)).seek 4)
    (by simp only [BinaryReader.seek_pos, BinaryReader.seek_buf]; omega)
  refine ⟨{ joint with
      id := name
      flag := flag &&& 0xf
      bbMtxType := flag >>> 4
      mayaSSC := if maya = 0xff then false else decide (maya ≠ 0)
      scale := scale
      rotate := rot.map (fun v => Int.tdiv v 0x7ff)
      translate := translate
      boundingSphereRadius := radius
      boundingBox := box }, ?_⟩
  simp only [readJointRecord, h1, h2, h3, h4, h5, h6, h7, h8, h9]
  simp [BinaryReader.seek, Nat.add_assoc]

end libcube.jsystem

namespace libcube.jsystem
namespace SceneGraph

/-- What holds in general: for a stream in which every `Shape` command has a `Material`
command somewhere before it, `SceneGraph::onRead` gives the same result for any two
starting values of the uninitialised `mat`. And after iterations none of which is a
`Joint`, the variable `joint` still has its initial value 0, and a `Shape` executed then
appends its display record to the slot `jointIdLut[0]`. -/
theorem onRead_initial_mat_irrelevant (ctx : BMDOutputContext) (m1 m2 : Nat)
    (cmds : List ByteCodeCmd)
    (hmat : ∀ (k : Nat) (c : ByteCodeCmd), cmds[k]? = some c → c.op = ByteCodeOp.Shape →
      ∃ (j : Nat) (cj : ByteCodeCmd), j < k ∧ cmds[j]? = some cj ∧
        cj.op = ByteCodeOp.Material) :
    onRead ctx m1 cmds = onRead ctx m2 cmds ∧
    ∀ (pre : List ByteCodeCmd) (s : State), (∀ c ∈ pre, c.op ≠ ByteCodeOp.Joint) →
      steps (init ctx m1) pre = some s →
      s.joint = 0 ∧
      ∀ (idx : Int) (s' : State), step s ⟨ByteCodeOp.Shape, idx⟩ = some s' →
        ∃ ji m j, ctx.jointIdLut[0]? = some ji ∧ s.ctx.mdl.mMaterials[s.mat]? = some m ∧
          s.ctx.mdl.mJoints[ji]? = some j ∧
          s'.ctx.mdl.mJoints =
            s.ctx.mdl.mJoints.set ji (addDisplay j ⟨m.id, "Shapes TODO"⟩) := by
  constructor
  · apply onRead_mat_irrelevant
    cases hb : shapeReadsInitialMat cmds with
    | false => rfl
    | true =>
      obtain ⟨k, c, hk, hc, hno⟩ := shapeReadsInitialMat_true cmds hb
      obtain ⟨j, cj, hj, hcj, hM⟩ := hmat k c hk hc
      exact absurd hM (hno j cj hj hcj)
  · intro pre s hJ hs
    obtain ⟨e1, e2⟩ := steps_no_Joint pre _ s hJ hs
    have hj0 : s.joint = 0 := e1
    have hlut : s.ctx.jointIdLut = ctx.jointIdLut := e2
    refine ⟨hj0, ?_⟩
    intro idx s' h
    rw [step_Shape_eq, Option.map_eq_some'] at h
    obtain ⟨s1, h1, rfl⟩ := h
    obtain ⟨ji, m, j, a1, a2, a3, rfl⟩ := execShape_eq_some.1 h1
    rw [hj0, hlut] at a1
    exact ⟨ji, m, j, a1, a2, a3, rfl⟩

/-- C37, evaluated where the remap table is `[1, 0]`, on `Material 1, Shape 0,
Terminate`, a stream whose `Shape` has a `Material` before it and no `Joint` before it:
the result is the same for the starting values 0 and 7 of `mat`, but the display record
is on `mJoints[1]` (the slot `jointIdLut[0]`), the joint `b`, and `mJoints[0]`, the
joint `a` that `readJoints` stored for joint index 0, has none. -/
theorem onRead_shape_without_joint_remapped_slot :
    onRead swappedCtx 0 [⟨ByteCodeOp.Material, 1⟩, ⟨ByteCodeOp.Shape, 0⟩,
        ⟨ByteCodeOp.Terminate, 0⟩] =
      onRead swappedCtx 7 [⟨ByteCodeOp.Material, 1⟩, ⟨ByteCodeOp.Shape, 0⟩,
        ⟨ByteCodeOp.Terminate, 0⟩] ∧
    (onRead swappedCtx 7 [⟨ByteCodeOp.Material, 1⟩, ⟨ByteCodeOp.Shape, 0⟩,
        ⟨ByteCodeOp.Terminate, 0⟩]).map
      (fun c => c.mdl.mJoints.map (fun j => (j.id, j.displays))) =
      some [("a", []), ("b", [⟨"m1", "Shapes TODO"⟩])] ∧
    swappedCtx.jointIdLut[0]? = some 1 := by
  decide

end SceneGraph
end libcube.jsystem

namespace libcube.jsystem

/-- C39, as stated, fails on `shortSizeBuf`, the entry `INF1` with declared size 4
whose header is at 0 and ends at 8: the section is recorded with offset 8 and size 4,
and the reader is left at 4, which is 4 bytes back from the end of the header. -/
theorem lex_small_size_moves_back :
    lex {} { buf := shortSizeBuf } 1 =
      some ({ mSections := [(fourCC 'I' 'N' 'F' '1', ⟨8, 4⟩)] },
        { buf := shortSizeBuf, pos := 4 }) ∧
    4 < 0 + 8 := by
  decide

/-- C39 (amended): in `lex` the argument of `JumpOut` is `secSize - 8` computed on `u32`
values. For an entry whose header `(t, s)` is at the reader position `p`, in a buffer
addressable by `u32` positions, and whose declared size `s` is below 8, that argument is
`2^32 - 8 + s`; the position the reader is sent to, the end of the header plus that
argument, is a `u32` as well, which is `p + s`: the iteration continues with the reader
`8 - s` bytes back from the end of the header. For a recognized tag the section is
recorded all the same, with the offset of the header end and the size `s`; for an
unrecognized tag the table is unchanged and the diagnostic is added. -/
theorem lex_small_size_skip (imp : BMDImporter) (r : BinaryReader) (t s n : Nat)
    (hbuf : r.buf.length < 4294967296)
    (ht : beAt r.buf r.pos 4 = some t) (hs : beAt r.buf (r.pos + 4) 4 = some s)
    (hlt : s < 8) :
    toU32 ((s : Int) - 8) = 4294967296 - 8 + s ∧
    toU32 (((r.pos + 8 : Nat) : Int) + ((toU32 ((s : Int) - 8) : Nat) : Int)) = r.pos + s ∧
    r.pos + s + (8 - s) = r.pos + 8 ∧
    (t ∈ recognizedTags →
      lexLoop imp r (n + 1) =
        lexLoop (setSection imp t ⟨r.pos + 8, s⟩) { r with pos := r.pos + s } n ∧
      lex imp r 1 =
        some (setSection { imp with mSections := [] } t ⟨r.pos + 8, s⟩,
          { r with pos := r.pos + s }) ∧
      findSection (setSection { imp with mSections := [] } t ⟨r.pos + 8, s⟩) t =
        some ⟨r.pos + 8, s⟩) ∧
    (t ∉ recognizedTags →
      lexLoop imp r (n + 1) =
        lexLoop imp
          { r with pos := r.pos + s,
                   diagnostics := r.diagnostics ++
                     [⟨"Unexpected section type.", r.pos, r.pos + 4⟩] } n) := by
  have hle := beAt_some_le 3 hs
  have hu : toU32 ((s : Int) - 8) = 4294967296 - 8 + s := by
    unfold toU32
    omega
  have hp : toU32 ((r.pos : Int) + (s : Int)) = r.pos + s := by
    unfold toU32
    omega
  refine ⟨hu, by rw [jumpOut_target, hp], by omega, ?_, ?_⟩
  · intro hrec
    refine ⟨?_, ?_, ?_⟩
    · rw [lexLoop_succ n ht hs, if_pos hrec, hp]
    · unfold lex
      rw [lexLoop_succ 0 ht hs, if_pos hrec, hp]
      rfl
    · rw [findSection_setSection, if_pos rfl]
  · intro hrec
    rw [lexLoop_succ n ht hs, if_neg hrec, hp]

/-- C39 (amended) on `shortSizeBuf`: the argument of `JumpOut` is `2^32 - 4`, the section
is recorded with offset 8 and size 4, and the reader ends at `0 + 4`. -/
theorem lex_small_size_skip_witness :
    toU32 (((4 : Nat) : Int) - 8) = 4294967296 - 8 + 4 ∧
    lex {} { buf := shortSizeBuf } 1 =
      some (setSection {} (fourCC 'I' 'N' 'F' '1') ⟨0 + 8, 4⟩,
        { buf := shortSizeBuf, pos := 0 + 4 }) ∧
    findSection (setSection {} (fourCC 'I' 'N' 'F' '1') ⟨0 + 8, 4⟩) (fourCC 'I' 'N' 'F' '1') =
      some ⟨0 + 8, 4⟩ :=
  have h := lex_small_size_skip {} { buf := shortSizeBuf } (fourCC 'I' 'N' 'F' '1') 4 0
    (by decide) (by decide) (by decide) (by decide)
  ⟨h.1, (h.2.2.2.1 (by decide)).2.1, (h.2.2.2.1 (by decide)).2.2⟩

/-- C40: decoding one joint record returns exactly when the `0x40` bytes at the reader
position are inside the buffer, and then leaves the reader, on the same buffer, further
by the sum of the widths of the fields read in order, which is `0x40`: the `u16` flag
word at offset 0, the `u8` Maya byte at 2, a `u8` pad, three `f32` of scale from
`2 + 1 + 1`, three `s16` of rotation from there plus `3 * 4`, a `u16` pad, three `f32`
of translation from there plus `3 * 2 + 2`, the `f32` radius `3 * 4` further and six
`f32` of bounding box `4` further; each field of the decoded joint is the value of the
bytes at its offset. So the records of two distinct slots, decoded at the `u32`
positions of base plus `0x40` times the slot, do not overlap: one ends at or before the
position where the other starts. -/
theorem readJointRecord_consumes (r : BinaryReader) (joint : Joint) (name : String) :
    ((∃ j r', readJointRecord r joint name = some (j, r')) ↔ r.pos + 0x40 ≤ r.buf.length) ∧
    (∀ j r', readJointRecord r joint name = some (j, r') →
      r' = r.seek (2 + 1 + 1 + 3 * 4 + 3 * 2 + 2 + 3 * 4 + 4 + 6 * 4) ∧
      r'.pos = r.pos + 0x40 ∧ r'.buf = r.buf ∧ j.id = name ∧
      (∃ w, beAt r.buf r.pos 2 = some w ∧ j.flag = w &&& 0xf ∧ j.bbMtxType = w >>> 4) ∧
      (∃ b, beAt r.buf (r.pos + 2) 1 = some b ∧
        j.mayaSSC = (if b = 0xff then false else decide (b ≠ 0))) ∧
      (j.scale.length = 3 ∧
        ∀ k, k < 3 → j.scale[k]? = beAt r.buf (r.pos + (2 + 1 + 1) + 4 * k) 4) ∧
      (j.rotate.length = 3 ∧
        ∀ k, k < 3 → j.rotate[k]? =
          (beAt r.buf (r.pos + (2 + 1 + 1 + 3 * 4) + 2 * k) 2).map
            (fun v => Int.tdiv (toSigned 16 v) 0x7ff)) ∧
      (j.translate.length = 3 ∧
        ∀ k, k < 3 → j.translate[k]? =
          beAt r.buf (r.pos + (2 + 1 + 1 + 3 * 4 + 3 * 2 + 2) + 4 * k) 4) ∧
      beAt r.buf (r.pos + (2 + 1 + 1 + 3 * 4 + 3 * 2 + 2 + 3 * 4)) 4 =
        some j.boundingSphereRadius ∧
      (j.boundingBox.length = 6 ∧
        ∀ k, k < 6 → j.boundingBox[k]? =
          beAt r.buf (r.pos + (2 + 1 + 1 + 3 * 4 + 3 * 2 + 2 + 3 * 4 + 4) + 4 * k) 4)) ∧
    (∀ (base : Int) (a b : Nat) (joint2 : Joint) (name2 : String) (ja jb : Joint)
        (ra rb : BinaryReader),
      a < 65536 → b < 65536 → a ≠ b →
      readJointRecord (r.seekSet (toU32 (base + (a : Int) * 0x40))) joint name =
        some (ja, ra) →
      readJointRecord (r.seekSet (toU32 (base + (b : Int) * 0x40))) joint2 name2 =
        some (jb, rb) →
      ra.pos ≤ toU32 (base + (b : Int) * 0x40) ∨ rb.pos ≤ toU32 (base + (a : Int) * 0x40)) := by
  refine ⟨⟨?_, ?_⟩, ?_, ?_⟩
  · rintro ⟨j, r', h⟩
    obtain ⟨flag, maya, scale, rot, translate, radius, box, -, -, -, -, -, -, -, -, -, hbl, hbg,
      -, -⟩ := readJointRecord_eq_some h
    have h5 := hbg 5 (by omega)
    have hlt : 5 < box.length := by omega
    rw [List.getElem?_eq_getElem hlt] at h5
    have hle := beAt_some_le 3 h5.symm
    omega
  · intro hle
    obtain ⟨j, hj⟩ := readJointRecord_of_le r joint name hle
    exact ⟨j, _, hj⟩
  · intro j r' h
    obtain ⟨flag, maya, scale, rot, translate, radius, box, hflag, hmaya, hsl, hsg, hrl, hrg,
      htl, htg, hrad, hbl, hbg, hr, hj⟩ := readJointRecord_eq_some h
    subst hj
    refine ⟨hr, by rw [hr]; rfl, by rw [hr]; rfl, rfl, ⟨flag, hflag, rfl, rfl⟩,
      ⟨maya, hmaya, rfl⟩, ⟨hsl, hsg⟩, ⟨?_, ?_⟩, ⟨htl, htg⟩, hrad, ⟨hbl, hbg⟩⟩
    · simp only [List.length_map, hrl]
    · intro k hk
      simp only [List.getElem?_map, hrg k hk, Option.map_map]
      rfl
  · intro base a b joint2 name2 ja jb ra rb ha hb hab h1 h2
    obtain ⟨-, -, -, -, -, -, -, -, -, -, -, -, -, -, -, -, -, -, hra, -⟩ :=
      readJointRecord_eq_some h1
    obtain ⟨-, -, -, -, -, -, -, -, -, -, -, -, -, -, -, -, -, -, hrb, -⟩ :=
      readJointRecord_eq_some h2
    have ea : ra.pos = toU32 (base + (a : Int) * 0x40) + 0x40 := by rw [hra]; rfl
    have eb : rb.pos = toU32 (base + (b : Int) * 0x40) + 0x40 := by rw [hrb]; rfl
    rw [ea, eb]
    unfold toU32
    omega

set_option maxRecDepth 65536 in
/-- C40 on the example record, alone in its buffer: decoding returns, the reader goes
from 0 to 64, and the flag word and the first rotation word are the values of the
bytes at 0 and at 16; with the last byte missing, decoding does not return. -/
theorem readJointRecord_consumes_witness :
    (∃ j r', readJointRecord { buf := jointRecord 0x12 0 } {} "a" = some (j, r') ∧
      r'.pos = 0 + 0x40 ∧ j.id = "a" ∧
      (∃ w, beAt (jointRecord 0x12 0) 0 2 = some w ∧ j.flag = w &&& 0xf ∧
        j.bbMtxType = w >>> 4) ∧
      j.rotate[0]? =
        (beAt (jointRecord 0x12 0) (0 + (2 + 1 + 1 + 3 * 4) + 2 * 0) 2).map
          (fun v => Int.tdiv (toSigned 16 v) 0x7ff)) ∧
    ¬ ∃ j r', readJointRecord { buf := (jointRecord 0x12 0).take 63 } {} "a" = some (j, r') :=
  have h := readJointRecord_consumes { buf := jointRecord 0x12 0 } {} "a"
  have h2 := readJointRecord_consumes { buf := (jointRecord 0x12 0).take 63 } {} "a"
  ⟨(h.1.2 (by decide)).elim (fun j hj => hj.elim (fun r' hr =>
      have f := h.2.1 j r' hr
      ⟨j, r', hr, f.2.1, f.2.2.2.1, f.2.2.2.2.1, f.2.2.2.2.2.2.2.1.2 0 (by decide)⟩)),
    fun hex => absurd (h2.1.1 hex) (by decide)⟩

end libcube.jsystem

/-! ## Scene-graph interpreter: accesses in range -/

namespace libcube.jsystem
namespace SceneGraph

/-- A loop iteration keeps the state guarded when the index of a `Joint` command can be
resolved. -/
theorem step_Guarded {ctx0 : BMDOutputContext} {s s' : State} {cmd : ByteCodeCmd}
    (h : step s cmd = some s') (hG : Guarded ctx0 s)
    (hok : cmd.op = ByteCodeOp.Joint →
      0 ≤ cmd.idx ∧ cmd.idx < 32768 ∧ validJoint ctx0 cmd.idx.toNat) : Guarded ctx0 s' := by
  obtain ⟨hinv, hlut, hlen, hmlen, hj, hjs⟩ := hG
  obtain ⟨f1, -, f3, -, -, f6⟩ := step_frame h
  obtain ⟨r1, -, r3⟩ := step_regs h
  refine ⟨step_StackInv h hinv, f1.trans hlut, f6.trans hlen, by rw [f3]; exact hmlen, ?_, ?_⟩
  · intro hl
    rw [r1]
    by_cases hc : cmd.op = ByteCodeOp.Joint
    · obtain ⟨h0, h1, hv⟩ := hok hc
      rw [if_pos hc, toU16_eq_toNat h0 h1]; exact hv
    · rw [if_neg hc]
      by_cases hk : cmd.op = ByteCodeOp.Terminate ∨ cmd.op = ByteCodeOp.Open ∨
          cmd.op = ByteCodeOp.Close
      · rw [if_pos hk] at r3
        exact hj (r3 ▸ hl)
      · rw [if_neg hk] at r3
        exact absurd (r3 ▸ hl) hc
  · intro t ht
    rcases step_stack_cases h with ⟨-, -, -, h2⟩ | ⟨-, -, h2⟩ |
      ⟨-, t', -, ⟨-, x, h2⟩ | ⟨-, h2⟩⟩
    · exact hjs t (h2 ▸ ht)
    · rw [h2] at ht
      by_cases hl : s.lastType = ByteCodeOp.Joint
      · rw [if_pos hl] at ht
        rcases List.mem_append.1 ht with ht | ht
        · exact hjs t ht
        · rw [List.mem_singleton.1 ht]; exact hj hl
      · rw [if_neg hl] at ht; exact hjs t ht
    · exact hjs t (by rw [h2]; exact List.mem_append_left _ ht)
    · exact hjs t (h2 ▸ ht)

/-- In a guarded state a loop iteration whose own accesses are in range has a
result. -/
theorem step_of_AccessOk {ctx0 : BMDOutputContext} {s : State} {cmd : ByteCodeCmd}
    (hG : Guarded ctx0 s) (hok : AccessOk ctx0 s cmd) : ∃ s', step s cmd = some s' := by
  obtain ⟨hinv, hlut, hlen, hmlen, hj, hjs⟩ := hG
  obtain ⟨hclose, hjoint, hshape⟩ := hok
  have hget : ∀ n, validJoint ctx0 n →
      ∃ ji q, s.ctx.jointIdLut[n]? = some ji ∧ s.ctx.mdl.mJoints[ji]? = some q := by
    intro n ⟨ji, h1, h2⟩
    have hlt : ji < s.ctx.mdl.mJoints.length := by rw [hlen]; exact h2
    exact ⟨ji, s.ctx.mdl.mJoints[ji], by rw [hlut]; exact h1, List.getElem?_eq_getElem hlt⟩
  induction cmd using cmd_cases with
  | hT i => exact ⟨s, by simp [step, execSwitch]⟩
  | hO i => exact ⟨_, step_Open_eq s i⟩
  | hC i =>
    have hne := hclose rfl
    cases hst : step s ⟨ByteCodeOp.Close, i⟩ with
    | none => exact absurd ((step_Close_none_iff hinv i).1 hst) hne
    | some s' => exact ⟨s', rfl⟩
  | hJ i =>
    rw [step_Joint_eq]
    by_cases hempty : s.joint_stack = []
    · exact ⟨_, by rw [execJoint_eq_some.2 (Or.inl ⟨hempty, rfl⟩)]; rfl⟩
    · have hback : s.joint_stack.getLast? = some (s.joint_stack.getLast hempty) :=
        List.getLast?_eq_getLast _ hempty
      obtain ⟨pi, p, hpi, hp⟩ := hget _ (hjs _ (List.getLast_mem hempty))
      obtain ⟨h0, h1, hv⟩ := hjoint rfl
      obtain ⟨ci, c, hci, hc⟩ := hget _ hv
      have hidx : toIndex i = some i.toNat := by simp [toIndex, h0]
      have hl := linkJoint_eq_some.2 ⟨pi, i.toNat, ci, p, c, hpi, hidx, hci, hp, hc, rfl⟩
      exact ⟨_, by rw [execJoint_eq_some.2 (Or.inr ⟨_, _, hback, hl, rfl⟩)]; rfl⟩
  | hM i => exact ⟨_, step_Material_eq s i⟩
  | hS i =>
    rw [step_Shape_eq]
    obtain ⟨hvj, hm⟩ := hshape rfl
    obtain ⟨ji, j, hji, hjj⟩ := hget _ hvj
    have hmlt : s.mat < s.ctx.mdl.mMaterials.length := by rw [hmlen]; exact hm
    have hmm : s.ctx.mdl.mMaterials[s.mat]? = some s.ctx.mdl.mMaterials[s.mat] :=
      List.getElem?_eq_getElem hmlt
    exact ⟨_, by rw [execShape_eq_some.2 ⟨ji, _, j, hji, hmm, hjj, rfl⟩]; rfl⟩
  | hX c h0 h1 h2 h3 h4 h5 => exact ⟨_, step_other_eq s c h0 h1 h2 h3 h4 h5⟩

/-- From a guarded state, iterations each of which finds its own accesses in range all
have a result. -/
theorem steps_of_AccessOk (ctx0 : BMDOutputContext) (pre : List ByteCodeCmd) :
    ∀ s, Guarded ctx0 s →
      (∀ (k : Nat) (c : ByteCodeCmd) (sk : State), pre[k]? = some c →
        steps s (pre.take k) = some sk → AccessOk ctx0 sk c) →
      ∃ s', steps s pre = some s' ∧ Guarded ctx0 s' := by
  induction pre with
  | nil => intro s hG _; exact ⟨s, rfl, hG⟩
  | cons c cs ih =>
    intro s hG hok
    have h0 : AccessOk ctx0 s c := hok 0 c s (by simp) (by simp [steps])
    obtain ⟨s1, hs1⟩ := step_of_AccessOk hG h0
    have hG1 := step_Guarded hs1 hG h0.2.1
    obtain ⟨s', hs', hG'⟩ := ih s1 hG1 (by
      intro k d sk hk hsk
      exact hok (k + 1) d sk (by simpa using hk) (by simp only [List.take_succ_cons, steps, hs1]; exact hsk))
    exact ⟨s', by simp only [steps, hs1]; exact hs', hG'⟩

theorem Guarded_init (ctx : BMDOutputContext) (mat0 : Nat) : Guarded ctx (init ctx mat0) :=
  ⟨rfl, rfl, rfl, rfl, fun h => absurd h (by simp [init]), fun t ht => absurd ht (by simp [init])⟩

end SceneGraph
end libcube.jsystem

namespace libcube.jsystem
namespace SceneGraph

/-- C36: let the commands before `Terminate` be such that, in the state each is
executed in, a `Close` finds `hierarchy_stack` non-empty, a `Joint` has an index `idx`
with `0 <= idx`, below the length of `jointIdLut`, and `jointIdLut[idx]` below the
number of joints, and a `Shape` finds `jointIdLut[joint]` below the number of joints and
`mat` below the number of materials. Then every iteration has a result and
`SceneGraph::onRead` returns: no vector or stack access of it is out of range. -/
theorem onRead_in_bounds (ctx : BMDOutputContext) (mat0 : Nat) (pre post : List ByteCodeCmd)
    (i : Int) (hT : ∀ c ∈ pre, c.op ≠ ByteCodeOp.Terminate)
    (hok : ∀ (k : Nat) (c : ByteCodeCmd) (sk : State), pre[k]? = some c →
      steps (init ctx mat0) (pre.take k) = some sk → AccessOk ctx sk c) :
    (∀ k, k ≤ pre.length → ∃ sk, steps (init ctx mat0) (pre.take k) = some sk) ∧
    ∃ ctx', onRead ctx mat0 (pre ++ ⟨ByteCodeOp.Terminate, i⟩ :: post) = some ctx' := by
  constructor
  · intro k hk
    obtain ⟨sk, hsk, -⟩ := steps_of_AccessOk ctx (pre.take k) (init ctx mat0)
      (Guarded_init ctx mat0) (by
        intro m c sm hm hsm
        have hmk : m < k := by
          have := (List.getElem?_eq_some_iff.1 hm).1
          simp at this
          omega
        refine hok m c sm ?_ ?_
        · rw [List.getElem?_take] at hm
          simpa [hmk] using hm
        · rw [List.take_take, Nat.min_eq_left (Nat.le_of_lt hmk)] at hsm
          exact hsm)
    exact ⟨sk, hsk⟩
  · obtain ⟨s', hs', -⟩ := steps_of_AccessOk ctx pre (init ctx mat0) (Guarded_init ctx mat0) hok
    refine ⟨s'.ctx, ?_⟩
    unfold onRead
    rw [run_eq_steps pre i post _ hT, hs']
    rfl

/-- C36 on `linkShapeBody` over `exampleCtx`: every command finds its accesses in range,
and `SceneGraph::onRead` returns the linked joints. -/
theorem onRead_in_bounds_witness :
    (∃ ctx', onRead exampleCtx 0 (linkShapeBody ++ ⟨ByteCodeOp.Terminate, 0⟩ :: []) =
      some ctx') ∧
    (onRead exampleCtx 0 (linkShapeBody ++ ⟨ByteCodeOp.Terminate, 0⟩ :: [])).map
      (fun c => c.mdl.mJoints) = some linkShapeJoints :=
  ⟨(onRead_in_bounds exampleCtx 0 linkShapeBody [] 0 (by decide)
      (by
        have h : ∀ k, k < 7 → ∀ c ∈ linkShapeBody[k]?,
            ∀ sk ∈ steps (init exampleCtx 0) (linkShapeBody.take k),
              AccessOk exampleCtx sk c := by decide
        intro k c sk hk hsk
        have hk7 : k < 7 := by
          have := (List.getElem?_eq_some_iff.1 hk).1
          simpa [linkShapeBody] using this
        exact h k hk7 c hk sk hsk)).2,
   by decide⟩

end SceneGraph
end libcube.jsystem

/-! ## Scene-graph interpreter: what an iteration changes on the joints -/

namespace libcube.jsystem
namespace SceneGraph

theorem SameDecoded_refl (j : Joint) : SameDecoded j j :=
  ⟨rfl, rfl, rfl, rfl, rfl, rfl, rfl, rfl, rfl⟩

theorem SameDecoded_trans {a b c : Joint} (h1 : SameDecoded a b) (h2 : SameDecoded b c) :
    SameDecoded a c := by
  obtain ⟨a1, a2, a3, a4, a5, a6, a7, a8, a9⟩ := h1
  obtain ⟨b1, b2, b3, b4, b5, b6, b7, b8, b9⟩ := h2
  exact ⟨b1.trans a1, b2.trans a2, b3.trans a3, b4.trans a4, b5.trans a5, b6.trans a6,
    b7.trans a7, b8.trans a8, b9.trans a9⟩

/-- Replacing one element of a list changes the sum of a measure by the difference of
the measures of the two elements. -/
theorem sum_map_set {α : Type} (f : α → Nat) (x' : α) :
    ∀ (xs : List α) (i : Nat) (x : α), xs[i]? = some x →
      ((xs.set i x').map f).sum + f x = (xs.map f).sum + f x' := by
  intro xs
  induction xs with
  | nil => intro i x h; simp at h
  | cons y ys ih =>
    intro i x h
    cases i with
    | zero =>
      simp only [List.getElem?_cons_zero, Option.some.injEq] at h
      subst h
      simp only [List.set_cons_zero, List.map_cons, List.sum_cons]
      omega
    | succ i =>
      simp only [List.getElem?_cons_succ] at h
      have := ih i x h
      simp only [List.set_cons_succ, List.map_cons, List.sum_cons]
      omega

/-- The effect of the two link statements on the joints: the decoded fields stay, no
display record is added, one child entry is added. -/
theorem linked_effect {js : List Joint} {pi ci : Nat} {p c : Joint}
    (hp : js[pi]? = some p) (hc : js[ci]? = some c) :
    (∀ (k : Nat) (j : Joint), js[k]? = some j →
      ∃ j', (linked js pi ci p c)[k]? = some j' ∧ SameDecoded j j') ∧
    totalDisplays (linked js pi ci p c) = totalDisplays js ∧
    totalChildren (linked js pi ci p c) = totalChildren js + 1 := by
  have hplt : pi < js.length := (List.getElem?_eq_some_iff.1 hp).1
  have hmid : (js.set pi (addChild p c.id))[ci]? =
      some (if pi = ci then addChild p c.id else c) := by
    rw [List.getElem?_set]
    by_cases hpc : pi = ci
    · rw [if_pos hpc, if_pos hplt, if_pos hpc]
    · rw [if_neg hpc, if_neg hpc]
      exact hc
  refine ⟨?_, ?_, ?_⟩
  · intro k j hk
    rw [linked_getElem? hp hc]
    by_cases h1 : k = ci
    · subst h1
      have hjc : j = c := by rw [hc] at hk; exact (Option.some.inj hk).symm
      subst hjc
      by_cases h2 : pi = k
      · subst h2
        have hpj : p = j := by rw [hp] at hc; exact Option.some.inj hc
        subst hpj
        exact ⟨setParent (addChild p p.id) p.id, by simp,
          ⟨rfl, rfl, rfl, rfl, rfl, rfl, rfl, rfl, rfl⟩⟩
      · exact ⟨setParent j p.id, by simp [h2], ⟨rfl, rfl, rfl, rfl, rfl, rfl, rfl, rfl, rfl⟩⟩
    · by_cases h2 : k = pi
      · subst h2
        have hpj : p = j := by rw [hp] at hk; exact Option.some.inj hk
        subst hpj
        exact ⟨addChild p c.id, by simp [h1], ⟨rfl, rfl, rfl, rfl, rfl, rfl, rfl, rfl, rfl⟩⟩
      · exact ⟨j, by simp [h1, h2, hk], SameDecoded_refl j⟩
  · unfold linked totalDisplays
    have e1 := sum_map_set (fun j : Joint => j.displays.length) (addChild p c.id) js pi p hp
    have e2 := sum_map_set (fun j : Joint => j.displays.length)
      (setParent (if pi = ci then addChild p c.id else c) p.id)
      (js.set pi (addChild p c.id)) ci _ hmid
    have e3 : (setParent (if pi = ci then addChild p c.id else c) p.id).displays.length =
        (if pi = ci then addChild p c.id else c).displays.length := rfl
    have e4 : (addChild p c.id).displays.length = p.displays.length := rfl
    simp only [e3, e4] at e1 e2
    omega
  · unfold linked totalChildren
    have e1 := sum_map_set (fun j : Joint => j.children.length) (addChild p c.id) js pi p hp
    have e2 := sum_map_set (fun j : Joint => j.children.length)
      (setParent (if pi = ci then addChild p c.id else c) p.id)
      (js.set pi (addChild p c.id)) ci _ hmid
    have e3 : (setParent (if pi = ci then addChild p c.id else c) p.id).children.length =
        (if pi = ci then addChild p c.id else c).children.length := rfl
    have e4 : (addChild p c.id).children.length = p.children.length + 1 := by
      simp [addChild]
    simp only [e3, e4] at e1 e2
    omega

/-- The effect of the statement of `Shape` on the joints: the decoded fields stay, one
display record is added, no child entry is added. -/
theorem addDisplay_effect {js : List Joint} {ji : Nat} {j0 : Joint} (d : Display)
    (hj : js[ji]? = some j0) :
    (∀ (k : Nat) (j : Joint), js[k]? = some j →
      ∃ j', (js.set ji (addDisplay j0 d))[k]? = some j' ∧ SameDecoded j j') ∧
    totalDisplays (js.set ji (addDisplay j0 d)) = totalDisplays js + 1 ∧
    totalChildren (js.set ji (addDisplay j0 d)) = totalChildren js := by
  have hlt : ji < js.length := (List.getElem?_eq_some_iff.1 hj).1
  refine ⟨?_, ?_, ?_⟩
  · intro k j hk
    rw [List.getElem?_set]
    by_cases h1 : ji = k
    · subst h1
      have hjj : j0 = j := by rw [hj] at hk; exact Option.some.inj hk
      subst hjj
      exact ⟨addDisplay j0 d, by simp [hlt], ⟨rfl, rfl, rfl, rfl, rfl, rfl, rfl, rfl, rfl⟩⟩
    · exact ⟨j, by simp [h1, hk], SameDecoded_refl j⟩
  · unfold totalDisplays
    have e1 := sum_map_set (fun j : Joint => j.displays.length) (addDisplay j0 d) js ji j0 hj
    have e4 : (addDisplay j0 d).displays.length = j0.displays.length + 1 := by
      simp [addDisplay]
    simp only [e4] at e1
    omega
  · unfold totalChildren
    have e1 := sum_map_set (fun j : Joint => j.children.length) (addDisplay j0 d) js ji j0 hj
    have e4 : (addDisplay j0 d).children.length = j0.children.length := rfl
    simp only [e4] at e1
    omega

/-- What one loop iteration does to the joints: the decoded fields of every joint stay;
a display record is added exactly by a `Shape`, a child entry exactly by a `Joint`
executed with a non-empty `joint_stack`. -/
theorem step_joints_effect {s s' : State} {cmd : ByteCodeCmd} (h : step s cmd = some s') :
    (∀ (k : Nat) (j : Joint), s.ctx.mdl.mJoints[k]? = some j →
      ∃ j', s'.ctx.mdl.mJoints[k]? = some j' ∧ SameDecoded j j') ∧
    totalDisplays s'.ctx.mdl.mJoints =
      totalDisplays s.ctx.mdl.mJoints + (if cmd.op = ByteCodeOp.Shape then 1 else 0) ∧
    totalChildren s'.ctx.mdl.mJoints =
      totalChildren s.ctx.mdl.mJoints +
        (if cmd.op = ByteCodeOp.Joint ∧ s.joint_stack ≠ [] then 1 else 0) := by
  have hsame : ∀ (op : ByteCodeOp), op ≠ ByteCodeOp.Shape →
      (op = ByteCodeOp.Joint → s.joint_stack = []) → s'.ctx = s.ctx →
      (∀ (k : Nat) (j : Joint), s.ctx.mdl.mJoints[k]? = some j →
        ∃ j', s'.ctx.mdl.mJoints[k]? = some j' ∧ SameDecoded j j') ∧
      totalDisplays s'.ctx.mdl.mJoints =
        totalDisplays s.ctx.mdl.mJoints + (if op = ByteCodeOp.Shape then 1 else 0) ∧
      totalChildren s'.ctx.mdl.mJoints =
        totalChildren s.ctx.mdl.mJoints +
          (if op = ByteCodeOp.Joint ∧ s.joint_stack ≠ [] then 1 else 0) := by
    intro op h1 h2 h3
    rw [h3, if_neg h1, if_neg (fun hh => hh.2 (h2 hh.1))]
    exact ⟨fun k j hk => ⟨j, hk, SameDecoded_refl j⟩, rfl, rfl⟩
  induction cmd using cmd_cases with
  | hT i =>
    simp [step, execSwitch] at h
    exact hsame _ (by simp) (fun hh => absurd hh (by simp)) (by rw [← h])
  | hO i =>
    rw [step_Open_eq] at h
    exact hsame _ (by simp) (fun hh => absurd hh (by simp)) (by rw [← Option.some.inj h])
  | hC i =>
    rw [step_Close_eq] at h
    obtain ⟨hs, t, -, ⟨-, js, x, -, rfl⟩ | ⟨-, rfl⟩⟩ := execClose_eq_some.1 h
    · exact hsame _ (by simp) (fun hh => absurd hh (by simp)) rfl
    · exact hsame _ (by simp) (fun hh => absurd hh (by simp)) rfl
  | hJ i =>
    rw [step_Joint_eq, Option.map_eq_some'] at h
    obtain ⟨s1, h1, rfl⟩ := h
    rcases execJoint_eq_some.1 h1 with ⟨hempty, rfl⟩ | ⟨back, ctx', hback, hlink, rfl⟩
    · exact hsame _ (by simp) (fun _ => hempty) rfl
    · obtain ⟨pi, n, ci, p, c, -, -, -, hp, hc, rfl⟩ := linkJoint_eq_some.1 hlink
      have hne : s.joint_stack ≠ [] := by
        intro hempty
        rw [hempty] at hback
        simp at hback
      obtain ⟨e1, e2, e3⟩ := linked_effect hp hc
      refine ⟨e1, ?_, ?_⟩
      · rw [if_neg (by simp)]
        exact e2
      · rw [if_pos ⟨rfl, hne⟩]
        exact e3
  | hM i =>
    rw [step_Material_eq] at h
    exact hsame _ (by simp) (fun hh => absurd hh (by simp)) (by rw [← Option.some.inj h])
  | hS i =>
    rw [step_Shape_eq, Option.map_eq_some'] at h
    obtain ⟨s1, h1, rfl⟩ := h
    obtain ⟨ji, m, j, -, -, hj, rfl⟩ := execShape_eq_some.1 h1
    obtain ⟨e1, e2, e3⟩ := addDisplay_effect ⟨m.id, "Shapes TODO"⟩ hj
    refine ⟨e1, ?_, ?_⟩
    · rw [if_pos rfl]
      exact e2
    · rw [if_neg (fun hh => absurd hh.1 (by simp))]
      exact e3
  | hX c h0 h1 h2 h3 h4 h5 =>
    rw [step_other_eq s c h0 h1 h2 h3 h4 h5] at h
    exact hsame _ h5 (fun hh => absurd hh h3) (by rw [← Option.some.inj h])

/-- What a whole run does to the joints. -/
theorem run_joints_effect (cmds : List ByteCodeCmd) :
    ∀ s s', run s cmds = some s' →
      (∀ (k : Nat) (j : Joint), s.ctx.mdl.mJoints[k]? = some j →
        ∃ j', s'.ctx.mdl.mJoints[k]? = some j' ∧ SameDecoded j j') ∧
      totalDisplays s'.ctx.mdl.mJoints = totalDisplays s.ctx.mdl.mJoints + shapeCount cmds ∧
      totalChildren s'.ctx.mdl.mJoints = totalChildren s.ctx.mdl.mJoints + linkCount s cmds := by
  induction cmds with
  | nil => intro s s' h; simp [run] at h
  | cons c cs ih =>
    intro s s' h
    simp only [run] at h
    by_cases hT : c.op = ByteCodeOp.Terminate
    · rw [if_pos hT] at h
      have hs : s' = s := (Option.some.inj h).symm
      subst hs
      simp only [shapeCount, linkCount, if_pos hT]
      exact ⟨fun k j hk => ⟨j, hk, SameDecoded_refl j⟩, rfl, rfl⟩
    · rw [if_neg hT] at h
      cases h1 : step s c with
      | none => rw [h1] at h; exact absurd h (by simp)
      | some s1 =>
        rw [h1] at h
        obtain ⟨a1, a2, a3⟩ := step_joints_effect h1
        obtain ⟨b1, b2, b3⟩ := ih s1 s' h
        refine ⟨?_, ?_, ?_⟩
        · intro k j hk
          obtain ⟨j1, hj1, e1⟩ := a1 k j hk
          obtain ⟨j2, hj2, e2⟩ := b1 k j1 hj1
          exact ⟨j2, hj2, SameDecoded_trans e1 e2⟩
        · simp only [shapeCount, if_neg hT]
          omega
        · simp only [linkCount, if_neg hT, h1]
          omega

/-- A whole run changes nothing but the joints, and not their number. -/
theorem run_frame (cmds : List ByteCodeCmd) :
    ∀ s s', run s cmds = some s' →
      s'.ctx.jointIdLut = s.ctx.jointIdLut ∧ s'.ctx.materialIdLut = s.ctx.materialIdLut ∧
      s'.ctx.mdl.mMaterials = s.ctx.mdl.mMaterials ∧
      s'.ctx.mdl.mDrawMatrices = s.ctx.mdl.mDrawMatrices ∧
      s'.ctx.mdl.mScalingRule = s.ctx.mdl.mScalingRule ∧
      s'.ctx.mdl.mJoints.length = s.ctx.mdl.mJoints.length := by
  intro s s' h
  exact run_ctx_invariant
    (fun c => c.jointIdLut = s.ctx.jointIdLut ∧ c.materialIdLut = s.ctx.materialIdLut ∧
      c.mdl.mMaterials = s.ctx.mdl.mMaterials ∧
      c.mdl.mDrawMatrices = s.ctx.mdl.mDrawMatrices ∧
      c.mdl.mScalingRule = s.ctx.mdl.mScalingRule ∧
      c.mdl.mJoints.length = s.ctx.mdl.mJoints.length)
    (by
      intro t t' cmd ht hP
      obtain ⟨f1, f2, f3, f4, f5, f6⟩ := step_frame ht
      obtain ⟨p1, p2, p3, p4, p5, p6⟩ := hP
      exact ⟨f1.trans p1, f2.trans p2, f3.trans p3, f4.trans p4, f5.trans p5, f6.trans p6⟩)
    cmds s s' h ⟨rfl, rfl, rfl, rfl, rfl, rfl⟩

end SceneGraph
end libcube.jsystem

namespace libcube.jsystem
namespace SceneGraph

/-- C38: when `SceneGraph::onRead` returns, both remap tables, the materials, the draw
matrices and the scaling rule are what they were, the number of joints is the same, and
every joint has the name, flags, matrix type, Maya byte, transform and bounding volumes
it had: only `parent`, `children` and `displays` can differ. The number of display
records added is the number of `Shape` commands before `Terminate`, and the number of
child entries added is the number of `Joint` commands executed with a non-empty
`joint_stack`. -/
theorem onRead_frame (ctx ctx' : BMDOutputContext) (mat0 : Nat) (cmds : List ByteCodeCmd)
    (h : onRead ctx mat0 cmds = some ctx') :
    ctx'.jointIdLut = ctx.jointIdLut ∧ ctx'.materialIdLut = ctx.materialIdLut ∧
    ctx'.mdl.mMaterials = ctx.mdl.mMaterials ∧
    ctx'.mdl.mDrawMatrices = ctx.mdl.mDrawMatrices ∧
    ctx'.mdl.mScalingRule = ctx.mdl.mScalingRule ∧
    ctx'.mdl.mJoints.length = ctx.mdl.mJoints.length ∧
    (∀ (k : Nat) (j : Joint), ctx.mdl.mJoints[k]? = some j →
      ∃ j', ctx'.mdl.mJoints[k]? = some j' ∧ SameDecoded j j') ∧
    totalDisplays ctx'.mdl.mJoints = totalDisplays ctx.mdl.mJoints + shapeCount cmds ∧
    totalChildren ctx'.mdl.mJoints =
      totalChildren ctx.mdl.mJoints + linkCount (init ctx mat0) cmds := by
  unfold onRead at h
  rw [Option.map_eq_some'] at h
  obtain ⟨s', hs', rfl⟩ := h
  obtain ⟨f1, f2, f3, f4, f5, f6⟩ := run_frame cmds _ _ hs'
  obtain ⟨e1, e2, e3⟩ := run_joints_effect cmds _ _ hs'
  exact ⟨f1, f2, f3, f4, f5, f6, e1, e2, e3⟩

/-- C38 on `linkShapeStream` over `exampleCtx`: two `Shape` commands and one `Joint`
command executed with a non-empty `joint_stack`; two display records and one child
entry are added. -/
theorem onRead_frame_witness :
    onRead exampleCtx 0 linkShapeStream =
      some { exampleCtx with mdl := { exampleCtx.mdl with mJoints := linkShapeJoints } } ∧
    shapeCount linkShapeStream = 2 ∧ linkCount (init exampleCtx 0) linkShapeStream = 1 ∧
    totalDisplays linkShapeJoints = totalDisplays exampleCtx.mdl.mJoints + 2 ∧
    totalChildren linkShapeJoints = totalChildren exampleCtx.mdl.mJoints + 1 :=
  have h : onRead exampleCtx 0 linkShapeStream =
      some { exampleCtx with mdl := { exampleCtx.mdl with mJoints := linkShapeJoints } } := by
    decide
  have e := onRead_frame exampleCtx _ 0 linkShapeStream h
  ⟨h, by decide, by decide, e.2.2.2.2.2.2.2.1, e.2.2.2.2.2.2.2.2⟩

end SceneGraph
end libcube.jsystem

/-! ## Scene-graph interpreter: the links built by `Joint` commands -/

namespace libcube.jsystem
namespace SceneGraph

theorem Introduced_lt {lut : List Nat} {us : List Int} {n b : Nat}
    (h : Introduced lut us n b) : b < us.length := by
  obtain ⟨u, hu, -⟩ := h
  exact (List.getElem?_eq_some_iff.1 hu).1

theorem Introduced_mono {lut : List Nat} {us : List Int} {n b : Nat} (vs : List Int)
    (h : Introduced lut us n b) : Introduced lut (us ++ vs) n b := by
  have hb := Introduced_lt h
  obtain ⟨u, hu, hs⟩ := h
  exact ⟨u, by rw [List.getElem?_append_left hb]; exact hu, hs⟩

theorem Introduced_last {lut : List Nat} (us : List Int) {idx : Int} {n : Nat}
    (h : slotOf lut idx = some n) : Introduced lut (us ++ [idx]) n us.length :=
  ⟨idx, List.getElem?_concat_length us idx, h⟩

/-- Under an injective remap table and without repeated indices a slot is introduced at
one position only. -/
theorem Introduced_unique {lut : List Nat} {us : List Int} {n b b' : Nat}
    (hnd : us.Nodup) (hinj : RemapInjective lut us)
    (h : Introduced lut us n b) (h' : Introduced lut us n b') : b = b' := by
  obtain ⟨u, hu, hs⟩ := h
  obtain ⟨u', hu', hs'⟩ := h'
  have e : u = u' := hinj u (List.getElem?_mem hu) u' (List.getElem?_mem hu') n hs hs'
  subst e
  obtain ⟨hb, e1⟩ := List.getElem?_eq_some_iff.1 hu
  obtain ⟨hb', e2⟩ := List.getElem?_eq_some_iff.1 hu'
  exact (List.Nodup.getElem_inj_iff hnd).1 (e1.trans e2.symm)

/-- The slot of an index that has not been used yet has not been introduced. -/
theorem not_Introduced_new {lut : List Nat} {us : List Int} {idx : Int} {ci : Nat}
    (hnd : (us ++ [idx]).Nodup) (hinj : RemapInjective lut (us ++ [idx]))
    (hci : slotOf lut idx = some ci) : ∀ b, ¬ Introduced lut us ci b := by
  rintro b ⟨u, hu, hs⟩
  have hmem : u ∈ us := List.getElem?_mem hu
  have e : u = idx := hinj u (by simp [hmem]) idx (by simp) ci hs hci
  subst e
  exact (List.nodup_append.1 hnd).2.2 hmem (by simp)

theorem RemapInjective_mono {lut : List Nat} {us vs : List Int}
    (hsub : ∀ u ∈ us, u ∈ vs) (h : RemapInjective lut vs) : RemapInjective lut us :=
  fun a ha b hb slot h1 h2 => h a (hsub a ha) b (hsub b hb) slot h1 h2

/-- The fields of the joints after the two link statements, for distinct parent and child
slots: the child gets the parent link, the parent gets the child entry. -/
theorem linked_fields {js : List Joint} {pi ci : Nat} {p c : Joint}
    (hp : js[pi]? = some p) (hc : js[ci]? = some c) (hne : pi ≠ ci) {k : Nat} {j : Joint}
    (hk : js[k]? = some j) :
    ∃ j', (linked js pi ci p c)[k]? = some j' ∧ j'.id = j.id ∧
      j'.parent = (if k = ci then some p.id else j.parent) ∧
      j'.children = (if k = pi then j.children ++ [c.id] else j.children) := by
  rw [linked_getElem? hp hc]
  by_cases h1 : k = ci
  · subst h1
    have hjc : c = j := by rw [hc] at hk; exact Option.some.inj hk
    subst hjc
    refine ⟨setParent c p.id, by rw [if_pos rfl, if_neg hne], rfl, ?_, ?_⟩
    · rw [if_pos rfl]; rfl
    · rw [if_neg (fun h => hne h.symm)]; rfl
  · by_cases h2 : k = pi
    · subst h2
      have hjp : p = j := by rw [hp] at hk; exact Option.some.inj hk
      subst hjp
      refine ⟨addChild p c.id, by rw [if_neg h1, if_pos rfl], rfl, ?_, ?_⟩
      · rw [if_neg h1]; rfl
      · rw [if_pos rfl]; rfl
    · refine ⟨j, by rw [if_neg h1, if_neg h2]; exact hk, rfl, ?_, ?_⟩
      · rw [if_neg h1]
      · rw [if_neg h2]

/-- The fields of the joints after the statement of `Shape`: ids and links stay. -/
theorem addDisplay_fields {js : List Joint} {ji : Nat} {j0 : Joint} (d : Display)
    (hj : js[ji]? = some j0) {k : Nat} {j : Joint} (hk : js[k]? = some j) :
    ∃ j', (js.set ji (addDisplay j0 d))[k]? = some j' ∧ j'.id = j.id ∧
      j'.parent = j.parent ∧ j'.children = j.children := by
  have hlt : ji < js.length := (List.getElem?_eq_some_iff.1 hj).1
  rw [List.getElem?_set]
  by_cases h1 : ji = k
  · subst h1
    have hjj : j0 = j := by rw [hj] at hk; exact Option.some.inj hk
    subst hjj
    exact ⟨addDisplay j0 d, by rw [if_pos rfl, if_pos hlt], rfl, rfl, rfl⟩
  · exact ⟨j, by rw [if_neg h1]; exact hk, rfl, rfl, rfl⟩

/-- A slot-wise relation from a list to a list of the same length can be read from the
second list. -/
theorem getElem?_inv_of_fwd {js js' : List Joint} {R : Nat → Joint → Joint → Prop}
    (hlen : js'.length = js.length)
    (hfwd : ∀ (k : Nat) (j : Joint), js[k]? = some j → ∃ j', js'[k]? = some j' ∧ R k j j')
    {k : Nat} {j' : Joint} (hk : js'[k]? = some j') : ∃ j, js[k]? = some j ∧ R k j j' := by
  have hlt : k < js.length := by
    rw [← hlen]
    exact (List.getElem?_eq_some_iff.1 hk).1
  obtain ⟨j'', h1, h2⟩ := hfwd k js[k] (List.getElem?_eq_getElem hlt)
  have e : j'' = j' := by rw [h1] at hk; exact Option.some.inj hk
  subst e
  exact ⟨js[k], List.getElem?_eq_getElem hlt, h2⟩

/-- The statement of `Shape` keeps the state of the links. -/
theorem LinksInv_addDisplay {lut : List Nat} {us : List Int} {js : List Joint} {ji : Nat}
    {j0 : Joint} (d : Display) (hj : js[ji]? = some j0) (h : LinksInv lut us js) :
    LinksInv lut us (js.set ji (addDisplay j0 d)) := by
  obtain ⟨hid, h3, h4, h5, h7, h8⟩ := h
  have hf : ∀ (k : Nat) (j : Joint), js[k]? = some j →
      ∃ j', (js.set ji (addDisplay j0 d))[k]? = some j' ∧
        (j'.id = j.id ∧ j'.parent = j.parent ∧ j'.children = j.children) :=
    fun k j hk => addDisplay_fields d hj hk
  have hb : ∀ (k : Nat) (j' : Joint), (js.set ji (addDisplay j0 d))[k]? = some j' →
      ∃ j, js[k]? = some j ∧ (j'.id = j.id ∧ j'.parent = j.parent ∧ j'.children = j.children) :=
    fun k j' hk => getElem?_inv_of_fwd (by simp) hf hk
  refine ⟨?_, ?_, ?_, ?_, ParentHasChild_addDisplay d hj h7, ?_⟩
  · intro m n jm jn hm hn hmn
    obtain ⟨qm, hqm, e1, -, -⟩ := hb m jm hm
    obtain ⟨qn, hqn, e2, -, -⟩ := hb n jn hn
    exact hid m n qm qn hqm hqn (by rw [← e1, ← e2]; exact hmn)
  · intro k j hk ht
    obtain ⟨q, hq, -, e2, e3⟩ := hb k j hk
    exact h3 k q hq (by rw [← e2, ← e3]; exact ht)
  · intro m n jm jn hm hn hmem
    obtain ⟨qm, hqm, e1, -, e3⟩ := hb m jm hm
    obtain ⟨qn, hqn, f1, f2, -⟩ := hb n jn hn
    rw [f2, e1]
    exact h4 m n qm qn hqm hqn (by rw [← f1, ← e3]; exact hmem)
  · intro m jm hm
    obtain ⟨qm, hqm, -, -, e3⟩ := hb m jm hm
    rw [e3]
    exact h5 m qm hqm
  · intro n jn x hn hx
    obtain ⟨qn, hqn, -, f2, -⟩ := hb n jn hn
    obtain ⟨a, b, m, jm, hab, ha, hbb, hm, hmx⟩ := h8 n qn x hqn (by rw [← f2]; exact hx)
    obtain ⟨jm', hm', e1, -, -⟩ := hf m jm hm
    exact ⟨a, b, m, jm', hab, ha, hbb, hm', e1.trans hmx⟩

/-- Using further indices keeps the state of the links. -/
theorem LinksInv_mono {lut : List Nat} {us : List Int} {js : List Joint} (vs : List Int)
    (h : LinksInv lut us js) : LinksInv lut (us ++ vs) js := by
  obtain ⟨hid, h3, h4, h5, h7, h8⟩ := h
  refine ⟨hid, ?_, h4, h5, h7, ?_⟩
  · intro k j hk ht
    obtain ⟨b, hb⟩ := h3 k j hk ht
    exact ⟨b, Introduced_mono vs hb⟩
  · intro n jn x hn hx
    obtain ⟨a, b, m, jm, hab, ha, hbb, hm, hmx⟩ := h8 n jn x hn hx
    exact ⟨a, b, m, jm, hab, Introduced_mono vs ha, Introduced_mono vs hbb, hm, hmx⟩

/-- The two link statements keep the state of the links, when the parent slot has been
introduced and the child slot is the slot of an index not used before. -/
theorem LinksInv_linked {lut : List Nat} {us : List Int} {js : List Joint} {pi ci a : Nat}
    {p c : Joint} {idx : Int} (hp : js[pi]? = some p) (hc : js[ci]? = some c)
    (hpa : Introduced lut us pi a) (hci : slotOf lut idx = some ci)
    (hnew : ∀ b, ¬ Introduced lut us ci b) (h : LinksInv lut us js) :
    LinksInv lut (us ++ [idx]) (linked js pi ci p c) := by
  obtain ⟨hid, h3, h4, h5, h7, h8⟩ := h
  have hne : pi ≠ ci := by
    intro e
    rw [e] at hpa
    exact hnew a hpa
  -- the child has no links yet
  have hcpar : c.parent = none := by
    by_contra hh
    obtain ⟨b, hb⟩ := h3 ci c hc (Or.inl hh)
    exact hnew b hb
  have hcnot : ∀ (m : Nat) (jm : Joint), js[m]? = some jm → c.id ∉ jm.children := by
    intro m jm hm hmem
    have := h4 m ci jm c hm hc hmem
    rw [hcpar] at this
    exact absurd this (by simp)
  have hf : ∀ (k : Nat) (j : Joint), js[k]? = some j →
      ∃ j', (linked js pi ci p c)[k]? = some j' ∧
        (j'.id = j.id ∧ j'.parent = (if k = ci then some p.id else j.parent) ∧
          j'.children = (if k = pi then j.children ++ [c.id] else j.children)) :=
    fun k j hk => linked_fields hp hc hne hk
  have hb : ∀ (k : Nat) (j' : Joint), (linked js pi ci p c)[k]? = some j' →
      ∃ j, js[k]? = some j ∧
        (j'.id = j.id ∧ j'.parent = (if k = ci then some p.id else j.parent) ∧
          j'.children = (if k = pi then j.children ++ [c.id] else j.children)) :=
    fun k j' hk => getElem?_inv_of_fwd (length_linked js pi ci p c) hf hk
  refine ⟨?_, ?_, ?_, ?_, ParentHasChild_linked hp hc h7, ?_⟩
  · intro m n jm jn hm hn hmn
    obtain ⟨qm, hqm, e1, -, -⟩ := hb m jm hm
    obtain ⟨qn, hqn, e2, -, -⟩ := hb n jn hn
    exact hid m n qm qn hqm hqn (by rw [← e1, ← e2]; exact hmn)
  · intro k j hk ht
    obtain ⟨q, hq, -, e2, e3⟩ := hb k j hk
    by_cases h1 : k = ci
    · subst h1
      exact ⟨us.length, Introduced_last us hci⟩
    · by_cases h2 : k = pi
      · subst h2
        exact ⟨a, Introduced_mono [idx] hpa⟩
      · rw [if_neg h1] at e2
        rw [if_neg h2] at e3
        obtain ⟨b, hbb⟩ := h3 k q hq (by rw [← e2, ← e3]; exact ht)
        exact ⟨b, Introduced_mono [idx] hbb⟩
  · intro m n jm jn hm hn hmem
    obtain ⟨qm, hqm, e1, -, e3⟩ := hb m jm hm
    obtain ⟨qn, hqn, f1, f2, -⟩ := hb n jn hn
    rw [f1, e3] at hmem
    rw [f2, e1]
    have hold : qn.id ∈ qm.children → n ≠ ci := by
      intro hmem' e
      subst e
      have : c = qn := by rw [hc] at hqn; exact Option.some.inj hqn
      subst this
      exact hcnot m qm hqm hmem'
    by_cases h2 : m = pi
    · subst h2
      have hpq : p = qm := by rw [hp] at hqm; exact Option.some.inj hqm
      subst hpq
      rw [if_pos rfl] at hmem
      rcases List.mem_append.1 hmem with hmem' | hmem'
      · rw [if_neg (hold hmem')]
        exact h4 m n p qn hqm hqn hmem'
      · have hidc : qn.id = c.id := List.mem_singleton.1 hmem'
        have hn' : n = ci := hid n ci qn c hqn hc hidc
        rw [if_pos hn']
    · rw [if_neg h2] at hmem
      rw [if_neg (hold hmem)]
      exact h4 m n qm qn hqm hqn hmem
  · intro m jm hm
    obtain ⟨qm, hqm, -, -, e3⟩ := hb m jm hm
    rw [e3]
    by_cases h2 : m = pi
    · rw [if_pos h2]
      refine List.Nodup.append (h5 m qm hqm) (List.nodup_singleton _) ?_
      intro x hx hx'
      rw [List.mem_singleton.1 hx'] at hx
      exact hcnot m qm hqm hx
    · rw [if_neg h2]
      exact h5 m qm hqm
  · intro n jn x hn hx
    obtain ⟨qn, hqn, -, f2, -⟩ := hb n jn hn
    rw [f2] at hx
    by_cases h1 : n = ci
    · subst h1
      rw [if_pos rfl] at hx
      obtain ⟨p', hp', e1, -, -⟩ := hf pi p hp
      exact ⟨a, us.length, pi, p', Introduced_lt hpa, Introduced_mono [idx] hpa,
        Introduced_last us hci, hp', e1.trans (Option.some.inj hx)⟩
    · rw [if_neg h1] at hx
      obtain ⟨a', b, m, jm, hab, ha, hbb, hm, hmx⟩ := h8 n qn x hqn hx
      obtain ⟨jm', hm', e1, -, -⟩ := hf m jm hm
      exact ⟨a', b, m, jm', hab, Introduced_mono [idx] ha, Introduced_mono [idx] hbb, hm',
        e1.trans hmx⟩


/-- The indices used after one more command. -/
theorem jointIndices_cons (us : List Int) (c : ByteCodeCmd) (cs : List ByteCodeCmd)
    (hT : c.op ≠ ByteCodeOp.Terminate) :
    us ++ jointIndices (c :: cs) =
      (if c.op = ByteCodeOp.Joint then us ++ [c.idx] else us) ++ jointIndices cs := by
  simp only [jointIndices, if_neg hT]
  by_cases hJ : c.op = ByteCodeOp.Joint
  · simp [hJ]
  · simp [hJ]

/-- A loop iteration keeps the stack entries among the indices used. -/
theorem step_StackFrom {us : List Int} {s s' : State} {cmd : ByteCodeCmd}
    (h : step s cmd = some s') (hS : StackFrom us s) :
    StackFrom (if cmd.op = ByteCodeOp.Joint then us ++ [cmd.idx] else us) s' := by
  obtain ⟨hst, hj⟩ := hS
  obtain ⟨r1, -, r3⟩ := step_regs h
  have hmono : ∀ t, (∃ u ∈ us, toU16 u = t) →
      ∃ u ∈ (if cmd.op = ByteCodeOp.Joint then us ++ [cmd.idx] else us), toU16 u = t := by
    rintro t ⟨u, hu, e⟩
    refine ⟨u, ?_, e⟩
    split_ifs
    · exact List.mem_append_left _ hu
    · exact hu
  constructor
  · intro t ht
    apply hmono
    rcases step_stack_cases h with ⟨-, -, -, h2⟩ | ⟨-, -, h2⟩ |
      ⟨-, t', -, ⟨-, x, h2⟩ | ⟨-, h2⟩⟩
    · exact hst t (h2 ▸ ht)
    · rw [h2] at ht
      by_cases hl : s.lastType = ByteCodeOp.Joint
      · rw [if_pos hl] at ht
        rcases List.mem_append.1 ht with ht | ht
        · exact hst t ht
        · rw [List.mem_singleton.1 ht]; exact hj hl
      · rw [if_neg hl] at ht; exact hst t ht
    · exact hst t (by rw [h2]; exact List.mem_append_left _ ht)
    · exact hst t (h2 ▸ ht)
  · intro hl
    rw [r1]
    by_cases hc : cmd.op = ByteCodeOp.Joint
    · rw [if_pos hc, if_pos hc]
      exact ⟨cmd.idx, by simp, rfl⟩
    · simp only [if_neg hc]
      by_cases hk : cmd.op = ByteCodeOp.Terminate ∨ cmd.op = ByteCodeOp.Open ∨
          cmd.op = ByteCodeOp.Close
      · rw [if_pos hk] at r3
        exact hj (r3 ▸ hl)
      · rw [if_neg hk] at r3
        exact absurd (r3 ▸ hl) hc

/-- A loop iteration keeps the state of the links, when the indices used stay without
repetition and the remap table injective on them. -/
theorem step_LinksInv {lut : List Nat} {us : List Int} {s s' : State} {cmd : ByteCodeCmd}
    (h : step s cmd = some s') (hlut : s.ctx.jointIdLut = lut)
    (hL : LinksInv lut us s.ctx.mdl.mJoints) (hS : StackFrom us s)
    (hnd : (if cmd.op = ByteCodeOp.Joint then us ++ [cmd.idx] else us).Nodup)
    (hinj : RemapInjective lut (if cmd.op = ByteCodeOp.Joint then us ++ [cmd.idx] else us))
    (h16 : cmd.idx < 32768) :
    LinksInv lut (if cmd.op = ByteCodeOp.Joint then us ++ [cmd.idx] else us)
      s'.ctx.mdl.mJoints := by
  have hsame : ∀ (c : ByteCodeCmd), s'.ctx = s.ctx →
      LinksInv lut (if c.op = ByteCodeOp.Joint then us ++ [c.idx] else us)
        s'.ctx.mdl.mJoints := by
    intro c e
    rw [e]
    split_ifs
    · exact LinksInv_mono _ hL
    · exact hL
  induction cmd using cmd_cases with
  | hT i =>
    simp [step, execSwitch] at h
    exact hsame _ (by rw [← h])
  | hO i =>
    rw [step_Open_eq] at h
    exact hsame _ (by rw [← Option.some.inj h])
  | hC i =>
    rw [step_Close_eq] at h
    obtain ⟨hs, t, -, ⟨-, js, x, -, rfl⟩ | ⟨-, rfl⟩⟩ := execClose_eq_some.1 h
    · exact hsame _ rfl
    · exact hsame _ rfl
  | hJ i =>
    rw [step_Joint_eq, Option.map_eq_some'] at h
    obtain ⟨s1, h1, rfl⟩ := h
    rcases execJoint_eq_some.1 h1 with ⟨-, rfl⟩ | ⟨back, ctx', hback, hlink, rfl⟩
    · exact hsame _ rfl
    · obtain ⟨pi, n, ci, p, c, hpi, hn, hci, hp, hc, rfl⟩ := linkJoint_eq_some.1 hlink
      rw [if_pos rfl] at hnd hinj ⊢
      have h16' : i < 32768 := h16
      have hn0 : 0 ≤ i ∧ n = i.toNat := by
        unfold toIndex at hn
        split_ifs at hn with h0
        exact ⟨h0, (Option.some.inj hn).symm⟩
      have hslot : slotOf lut i = some ci := by
        unfold slotOf
        rw [toU16_eq_toNat hn0.1 h16', ← hn0.2, ← hlut]
        exact hci
      have hbmem : back ∈ s.joint_stack := List.mem_of_mem_getLast? hback
      obtain ⟨u, hu, hub⟩ := hS.1 back hbmem
      obtain ⟨a, ha⟩ := List.getElem?_of_mem hu
      have hpa : Introduced lut us pi a := by
        refine ⟨u, ha, ?_⟩
        unfold slotOf
        rw [hub, ← hlut]
        exact hpi
      exact LinksInv_linked hp hc hpa hslot (not_Introduced_new hnd hinj hslot) hL
  | hM i =>
    rw [step_Material_eq] at h
    exact hsame _ (by rw [← Option.some.inj h])
  | hS i =>
    rw [step_Shape_eq, Option.map_eq_some'] at h
    obtain ⟨s1, h1, rfl⟩ := h
    obtain ⟨ji, m, j, -, -, hj, rfl⟩ := execShape_eq_some.1 h1
    rw [if_neg (by simp)]
    exact LinksInv_addDisplay _ hj hL
  | hX c h0 h1 h2 h3 h4 h5 =>
    rw [step_other_eq s c h0 h1 h2 h3 h4 h5] at h
    exact hsame _ (by rw [← Option.some.inj h])

/-- The state of the links after a whole run. -/
theorem run_LinksInv (lut : List Nat) (cmds : List ByteCodeCmd) :
    ∀ (us : List Int) (s s' : State), run s cmds = some s' → s.ctx.jointIdLut = lut →
      LinksInv lut us s.ctx.mdl.mJoints → StackFrom us s →
      (us ++ jointIndices cmds).Nodup → RemapInjective lut (us ++ jointIndices cmds) →
      IdxS16 cmds → LinksInv lut (us ++ jointIndices cmds) s'.ctx.mdl.mJoints := by
  induction cmds with
  | nil => intro us s s' h; simp [run] at h
  | cons c cs ih =>
    intro us s s' h hlut hL hS hnd hinj h16
    simp only [run] at h
    by_cases hT : c.op = ByteCodeOp.Terminate
    · rw [if_pos hT] at h
      have hs : s' = s := (Option.some.inj h).symm
      subst hs
      simp only [jointIndices, if_pos hT, List.append_nil]
      exact hL
    · rw [if_neg hT] at h
      cases h1 : step s c with
      | none => rw [h1] at h; exact absurd h (by simp)
      | some s1 =>
        rw [h1] at h
        rw [jointIndices_cons us c cs hT] at hnd hinj ⊢
        have hnd1 := List.Nodup.of_append_left hnd
        have hinj1 := RemapInjective_mono (fun u hu => List.mem_append_left _ hu) hinj
        exact ih _ s1 s' h ((step_frame h1).1.trans hlut)
          (step_LinksInv h1 hlut hL hS hnd1 hinj1 (h16 c (by simp)).2)
          (step_StackFrom h1 hS) hnd hinj (fun d hd => h16 d (by simp [hd]))

/-- On entry to the loop, joints without links and with distinct ids are in the state
of the links for no index used. -/
theorem LinksInv_init {lut : List Nat} {js : List Joint} (hids : IdsDistinct js)
    (hfresh : ∀ j ∈ js, j.parent = none ∧ j.children = []) : LinksInv lut [] js := by
  refine ⟨hids, ?_, ?_, ?_, ?_, ?_⟩
  · intro k j hk ht
    obtain ⟨e1, e2⟩ := hfresh j (List.getElem?_mem hk)
    rcases ht with ht | ht
    · exact absurd e1 ht
    · exact absurd e2 ht
  · intro m n jm jn hm hn hmem
    rw [(hfresh jm (List.getElem?_mem hm)).2] at hmem
    exact absurd hmem (by simp)
  · intro m jm hm
    rw [(hfresh jm (List.getElem?_mem hm)).2]
    exact List.nodup_nil
  · intro j hj x hx
    rw [(hfresh j hj).1] at hx
    exact absurd hx (by simp)
  · intro n jn x hn hx
    rw [(hfresh jn (List.getElem?_mem hn)).1] at hx
    exact absurd hx (by simp)

/-- The state of the links when `SceneGraph::onRead` returns. -/
theorem onRead_LinksInv {ctx ctx' : BMDOutputContext} {mat0 : Nat} {cmds : List ByteCodeCmd}
    (hinj : RemapInjective ctx.jointIdLut (jointIndices cmds))
    (hids : IdsDistinct ctx.mdl.mJoints)
    (hfresh : ∀ j ∈ ctx.mdl.mJoints, j.parent = none ∧ j.children = [])
    (honce : (jointIndices cmds).Nodup) (hs16 : IdxS16 cmds)
    (h : onRead ctx mat0 cmds = some ctx') :
    LinksInv ctx.jointIdLut (jointIndices cmds) ctx'.mdl.mJoints := by
  unfold onRead at h
  rw [Option.map_eq_some'] at h
  obtain ⟨s', hs', rfl⟩ := h
  have := run_LinksInv ctx.jointIdLut cmds [] (init ctx mat0) s' hs' rfl
    (LinksInv_init hids hfresh)
    ⟨fun t ht => absurd ht (by simp [init]), fun hl => absurd hl (by simp [init])⟩
    (by simpa using honce) (by simpa using hinj) hs16
  simpa using this

end SceneGraph
end libcube.jsystem

/-! ## Scene-graph interpreter: following parent links -/

namespace libcube.jsystem
namespace SceneGraph

theorem slotOfId_some {x : String} (js : List Joint) :
    ∀ {m : Nat}, slotOfId x js = some m → ∃ jm, js[m]? = some jm ∧ jm.id = x := by
  induction js with
  | nil => intro m h; simp [slotOfId] at h
  | cons j js ih =>
    intro m h
    simp only [slotOfId] at h
    by_cases hj : j.id = x
    · rw [if_pos hj] at h
      have hm : m = 0 := (Option.some.inj h).symm
      subst hm
      exact ⟨j, by simp, hj⟩
    · rw [if_neg hj, Option.map_eq_some'] at h
      obtain ⟨k, hk, rfl⟩ := h
      obtain ⟨jm, h1, h2⟩ := ih hk
      exact ⟨jm, by simpa using h1, h2⟩

theorem slotOfId_of_mem {x : String} (js : List Joint) :
    (∃ p ∈ js, p.id = x) → ∃ m, slotOfId x js = some m := by
  induction js with
  | nil => rintro ⟨p, hp, -⟩; simp at hp
  | cons j js ih =>
    rintro ⟨p, hp, hx⟩
    simp only [slotOfId]
    by_cases hj : j.id = x
    · exact ⟨0, by rw [if_pos hj]⟩
    · rw [if_neg hj]
      rcases List.mem_cons.1 hp with e | hmem
      · exact absurd (e ▸ hx) hj
      · obtain ⟨m, hm⟩ := ih ⟨p, hmem, hx⟩
        exact ⟨m + 1, by rw [hm]; rfl⟩

/-- Ids are pairwise distinct when the list of ids has no repetition. -/
theorem IdsDistinct_of_nodup {js : List Joint} (h : (js.map (fun j => j.id)).Nodup) :
    IdsDistinct js := by
  intro m n jm jn hm hn hid
  obtain ⟨hml, e1⟩ := List.getElem?_eq_some_iff.1 hm
  obtain ⟨hnl, e2⟩ := List.getElem?_eq_some_iff.1 hn
  have hml' : m < (js.map (fun j => j.id)).length := by simpa using hml
  have hnl' : n < (js.map (fun j => j.id)).length := by simpa using hnl
  refine (@List.Nodup.getElem_inj_iff _ _ h m hml' n hnl').1 ?_
  simp only [List.getElem_map]
  rw [e1, e2]
  exact hid

/-- The remap table is injective on a list of indices whose slots have no repetition. -/
theorem RemapInjective_of_nodup {lut : List Nat} {us : List Int}
    (h : (us.map (slotOf lut)).Nodup) : RemapInjective lut us :=
  fun _ ha _ hb _ h1 h2 => List.inj_on_of_nodup_map h ha hb (h1.trans h2.symm)

/-- In the state of the links, for indices without repetition and an injective remap
table, the slots carry a rank that every parent link decreases. -/
theorem LinksInv_rank {lut : List Nat} {us : List Int} {js : List Joint}
    (hnd : us.Nodup) (hinj : RemapInjective lut us) (h : LinksInv lut us js) :
    ∃ rk : Nat → Nat, ∀ (n m : Nat) (jn jm : Joint), js[n]? = some jn → js[m]? = some jm →
      jn.parent = some jm.id → rk m < rk n := by
  obtain ⟨hid, -, -, -, -, h8⟩ := h
  have hex : ∀ n, ∃ r, ∀ b, Introduced lut us n b → b = r := by
    intro n
    by_cases hb : ∃ b, Introduced lut us n b
    · obtain ⟨b0, hb0⟩ := hb
      exact ⟨b0, fun b hb => Introduced_unique hnd hinj hb hb0⟩
    · exact ⟨0, fun b hb' => absurd ⟨b, hb'⟩ hb⟩
  choose rk hrk using hex
  refine ⟨rk, ?_⟩
  intro n m jn jm hn hm hpar
  obtain ⟨a, b, m', jm', hab, ha, hb, hm', hx⟩ := h8 n jn jm.id hn hpar
  have e : m' = m := hid m' m jm' jm hm' hm hx
  subst e
  rw [← hrk m' a ha, ← hrk n b hb]
  exact hab

/-- A rank that parent links decrease bounds the number of links that can be
followed. -/
theorem climb_rank {js : List Joint} {rk : Nat → Nat}
    (hrk : ∀ (n m : Nat) (jn jm : Joint), js[n]? = some jn → js[m]? = some jm →
      jn.parent = some jm.id → rk m < rk n) :
    ∀ (n c r : Nat), climb js n c = some r → rk r + n ≤ rk c := by
  intro n
  induction n with
  | zero =>
    intro c r h
    simp only [climb, Option.some.injEq] at h
    subst h
    exact Nat.le_refl _
  | succ n ih =>
    intro c r h
    simp only [climb] at h
    cases hp : parentSlot js c with
    | none => rw [hp] at h; exact absurd h (by simp)
    | some p =>
      rw [hp] at h
      have h1 := ih p r h
      unfold parentSlot at hp
      cases hc : js[c]? with
      | none => rw [hc] at hp; exact absurd hp (by simp)
      | some j =>
        rw [hc] at hp
        cases hx : j.parent with
        | none => simp only [hx] at hp; exact absurd hp (by simp)
        | some x =>
          simp only [hx] at hp
          obtain ⟨jp, hjp, hid⟩ := slotOfId_some js hp
          have := hrk c p j jp hc hjp (by rw [hx, hid])
          omega

/-- With a rank that parent links decrease, and every parent link having a joint with
that id, following parent links from any slot reaches a joint without parent. -/
theorem climb_reaches_root {js : List Joint} {rk : Nat → Nat}
    (hrk : ∀ (n m : Nat) (jn jm : Joint), js[n]? = some jn → js[m]? = some jm →
      jn.parent = some jm.id → rk m < rk n)
    (hpc : ParentHasChild js) :
    ∀ (N c : Nat), rk c < N → c < js.length →
      ∃ (n r : Nat) (jr : Joint), climb js n c = some r ∧ js[r]? = some jr ∧
        jr.parent = none := by
  intro N
  induction N with
  | zero => intro c h; exact absurd h (Nat.not_lt_zero _)
  | succ N ih =>
    intro c hN hc
    have hj : js[c]? = some js[c] := List.getElem?_eq_getElem hc
    cases hx : js[c].parent with
    | none => exact ⟨0, c, js[c], rfl, hj, hx⟩
    | some x =>
      obtain ⟨q, hq, hqx, -⟩ := hpc js[c] (List.getElem?_mem hj) x hx
      obtain ⟨m, hm⟩ := slotOfId_of_mem js ⟨q, hq, hqx⟩
      obtain ⟨jm, hjm, hid⟩ := slotOfId_some js hm
      have hlt := hrk c m js[c] jm hj hjm (by rw [hx, hid])
      have hml : m < js.length := (List.getElem?_eq_some_iff.1 hjm).1
      obtain ⟨n, r, jr, h1, h2, h3⟩ := ih m (by omega) hml
      refine ⟨n + 1, r, jr, ?_, h2, h3⟩
      have hp : parentSlot js c = some m := by
        unfold parentSlot
        rw [hj]
        simp only [hx]
        exact hm
      simp only [climb, hp]
      exact h1

end SceneGraph
end libcube.jsystem

namespace libcube.jsystem
namespace SceneGraph

/-- C34: let the remap table be injective on the indices of the `Joint` commands before
`Terminate`, the joint ids be pairwise distinct, every joint start without parent and
without children, and no index occur in two `Joint` commands before `Terminate` (the
indices being `s16` values). Then, when `SceneGraph::onRead` returns, for all joints `j`
and `p`: `j.parent` is `p.id` exactly when `p.children` contains `j.id`, and then it
contains it exactly once. -/
theorem onRead_parent_iff_child (ctx ctx' : BMDOutputContext) (mat0 : Nat)
    (cmds : List ByteCodeCmd)
    (hinj : RemapInjective ctx.jointIdLut (jointIndices cmds))
    (hids : IdsDistinct ctx.mdl.mJoints)
    (hfresh : ∀ j ∈ ctx.mdl.mJoints, j.parent = none ∧ j.children = [])
    (honce : (jointIndices cmds).Nodup) (hs16 : IdxS16 cmds)
    (h : onRead ctx mat0 cmds = some ctx') :
    ∀ j ∈ ctx'.mdl.mJoints, ∀ p ∈ ctx'.mdl.mJoints,
      (j.parent = some p.id ↔ j.id ∈ p.children) ∧
      (j.id ∈ p.children → List.count j.id p.children = 1) := by
  obtain ⟨hid, -, h4, h5, h7, -⟩ := onRead_LinksInv hinj hids hfresh honce hs16 h
  intro j hj p hp
  obtain ⟨n, hn⟩ := List.getElem?_of_mem hj
  obtain ⟨m, hm⟩ := List.getElem?_of_mem hp
  refine ⟨⟨?_, ?_⟩, ?_⟩
  · intro hpar
    obtain ⟨q, hq, hqid, hmem⟩ := h7 j hj p.id hpar
    obtain ⟨mq, hmq⟩ := List.getElem?_of_mem hq
    have e : mq = m := hid mq m q p hmq hm hqid
    subst e
    have e2 : q = p := by rw [hmq] at hm; exact Option.some.inj hm
    rw [← e2]
    exact hmem
  · intro hmem
    exact h4 m n p j hm hn hmem
  · intro hmem
    exact List.count_eq_one_of_mem (h5 m p hm) hmem

/-- C34 on `linkShapeStream` over `exampleCtx`: joint `b` has parent `a`, and `a` has the
one child `b`. -/
theorem onRead_parent_iff_child_witness :
    onRead exampleCtx 0 linkShapeStream =
      some { exampleCtx with mdl := { exampleCtx.mdl with mJoints := linkShapeJoints } } ∧
    ∀ j ∈ linkShapeJoints, ∀ p ∈ linkShapeJoints,
      (j.parent = some p.id ↔ j.id ∈ p.children) ∧
      (j.id ∈ p.children → List.count j.id p.children = 1) :=
  have h : onRead exampleCtx 0 linkShapeStream =
      some { exampleCtx with mdl := { exampleCtx.mdl with mJoints := linkShapeJoints } } := by
    decide
  ⟨h, onRead_parent_iff_child exampleCtx _ 0 linkShapeStream
    (RemapInjective_of_nodup (by decide)) (IdsDistinct_of_nodup (by decide)) (by decide)
    (by decide) (by unfold IdxS16; decide) h⟩

/-- C35: under the same precondition (the remap table injective on the indices of the
`Joint` commands before `Terminate`, distinct ids, no links at the start, no index in
two `Joint` commands), when `SceneGraph::onRead` returns the parent of every joint sits
in the slot of an index whose `Joint` command comes earlier than the `Joint` command of
the index of the joint. So no joint is reached from itself by following one or more
parent links, and following parent links from any joint reaches a joint without parent
in finitely many steps. -/
theorem onRead_parents_acyclic (ctx ctx' : BMDOutputContext) (mat0 : Nat)
    (cmds : List ByteCodeCmd)
    (hinj : RemapInjective ctx.jointIdLut (jointIndices cmds))
    (hids : IdsDistinct ctx.mdl.mJoints)
    (hfresh : ∀ j ∈ ctx.mdl.mJoints, j.parent = none ∧ j.children = [])
    (honce : (jointIndices cmds).Nodup) (hs16 : IdxS16 cmds)
    (h : onRead ctx mat0 cmds = some ctx') :
    (∀ (n : Nat) (jn : Joint) (x : String), ctx'.mdl.mJoints[n]? = some jn →
      jn.parent = some x →
      ∃ (a b m : Nat) (jm : Joint), a < b ∧
        Introduced ctx.jointIdLut (jointIndices cmds) m a ∧
        Introduced ctx.jointIdLut (jointIndices cmds) n b ∧
        ctx'.mdl.mJoints[m]? = some jm ∧ jm.id = x) ∧
    (∀ (c n : Nat), 0 < n → climb ctx'.mdl.mJoints n c ≠ some c) ∧
    (∀ (c : Nat), c < ctx'.mdl.mJoints.length →
      ∃ (n r : Nat) (jr : Joint), climb ctx'.mdl.mJoints n c = some r ∧
        ctx'.mdl.mJoints[r]? = some jr ∧ jr.parent = none) := by
  have hL := onRead_LinksInv hinj hids hfresh honce hs16 h
  obtain ⟨rk, hrk⟩ := LinksInv_rank honce hinj hL
  obtain ⟨-, -, -, -, h7, h8⟩ := hL
  refine ⟨h8, ?_, ?_⟩
  · intro c n hn hc
    have := climb_rank hrk n c c hc
    omega
  · intro c hc
    exact climb_reaches_root hrk h7 (rk c + 1) c (Nat.lt_succ_self _) hc

/-- C35 on `linkShapeStream` over `exampleCtx`: from slot 1 (joint `b`) one parent link
leads to slot 0 (joint `a`), which has no parent. -/
theorem onRead_parents_acyclic_witness :
    onRead exampleCtx 0 linkShapeStream =
      some { exampleCtx with mdl := { exampleCtx.mdl with mJoints := linkShapeJoints } } ∧
    climb linkShapeJoints 1 1 = some 0 ∧ climb linkShapeJoints 2 1 = none ∧
    (∀ (c n : Nat), 0 < n → climb linkShapeJoints n c ≠ some c) :=
  have h : onRead exampleCtx 0 linkShapeStream =
      some { exampleCtx with mdl := { exampleCtx.mdl with mJoints := linkShapeJoints } } := by
    decide
  ⟨h, by decide, by decide,
    (onRead_parents_acyclic exampleCtx _ 0 linkShapeStream
      (RemapInjective_of_nodup (by decide)) (IdsDistinct_of_nodup (by decide)) (by decide)
      (by decide) (by unfold IdxS16; decide) h).2.1⟩

end SceneGraph
end libcube.jsystem
